import Mathlib

/-!
# libsc: the dynamic array of `src/sc3_array.c`

A shallow embedding of the reference-counted dynamic array (`sc3_array_t`) and
of its multi-way split, followed by the properties proved about them.

Conventions of the embedding.

* A C `int` is an `Int`.  Where a C expression may leave the range of an `int`
  the model reduces it with `int_wrap` (two's complement); the theorems show
  that on the paths they describe no reduction takes place.
* A `size_t` is a `Nat`; products of sizes are reduced modulo `2 ^ 64`.
* A pointer is a `Nat` address, `0` being `NULL`.  Addresses are not reduced:
  an element of a buffer lies inside the address space.
* A function returning `sc3_error_t *` and updating `*a` in place becomes a
  function returning the pair of the error (`none` for `NULL`) and the array
  as the call leaves it; on an error the second component is the array at the
  point where the C function returns.
* The allocator `a->aator` points to is passed explicitly as `al`.
* A C loop without a static trip count becomes a recursion on a bound; running
  out of the bound is the outcome `sc3_error.unfinished`, which is not a C
  result, and the theorems that state success exclude it.
-/

set_option autoImplicit false

/-! ## Constants and machine arithmetic -/

/-- Modelled from the spec: the constant SC3_INT_BITS of sc3_base.h is not part
of the sources; it is the number of bits of an `int`. -/
def SC3_INT_BITS : Nat := 32

/-- Modelled from the spec: the constant SC3_INT_HPOW of sc3_base.h is not part
of the sources; it is the highest power of two an `int` can hold,
`1 << (SC3_INT_BITS - 2)`. -/
def SC3_INT_HPOW : Int := 2 ^ (SC3_INT_BITS - 2)

/-- Two's complement reduction of an integer to the range of an `int`. -/
def int_wrap (x : Int) : Int :=
  (x + 2 ^ (SC3_INT_BITS - 1)) % 2 ^ SC3_INT_BITS - 2 ^ (SC3_INT_BITS - 1)

/-- Conversion of an `int` to `size_t` (64 bits). -/
def sc3_size_t (x : Int) : Nat := (x % 2 ^ 64).toNat

/-- Product of two `size_t` values. -/
def size_mul (x y : Nat) : Nat := (x * y) % 2 ^ 64

/-- Modelled from the spec: `sizeof (int)`, four bytes for a 32 bit `int`. -/
def sizeof_int : Nat := 4

/-- Modelled from the spec: the test SC3_ISPOWOF2 of sc3_base.h is not part of
the sources; it holds of an `int` that is a power of two, that is of
`2 ^ k` for some `k < SC3_INT_BITS - 1`. -/
def SC3_ISPOWOF2 (x : Int) : Prop := ∃ k, k < SC3_INT_BITS - 1 ∧ x = 2 ^ k

instance (x : Int) : Decidable (SC3_ISPOWOF2 x) := by
  unfold SC3_ISPOWOF2; infer_instance

/-- Search of `sc3_log2_ceil`: the first `l`, counting from `l`, with
`a ≤ 2 ^ l`, giving up after `k` candidates. -/
def sc3_log2_ceil_from (a : Int) : Nat → Nat → Int
  | 0, l => l
  | k + 1, l => if a ≤ 2 ^ l then l else sc3_log2_ceil_from a k (l + 1)

/-- Modelled from the spec: the function sc3_log2_ceil of sc3_base.c is not
part of the sources.  `setup` "rounds `ealloc` up to the smallest power of two
≥ max(`ealloc`, `ecount`)": the result is the least `lg` with `a ≤ 2 ^ lg`,
and `bits` when there is none below `bits`. -/
def sc3_log2_ceil (a : Int) (bits : Int) : Int :=
  sc3_log2_ceil_from a bits.toNat 0

/-! ## Errors, reference counter, allocator -/

/-- The kinds of `sc3_error_t` the array functions return.  Modelled from the
spec: the macros SC3A_IS and SC3A_CHECK of sc3_error.h are not part of the
sources; a failed assertion returns the error `bug` to the caller
("precondition violation"), and SC3E hands the error of a callee on. -/
inductive sc3_error where
  /-- A failed assertion: SC3A_IS, SC3A_CHECK. -/
  | bug
  /-- The allocator did not satisfy a request. -/
  | nomem
  /-- The callback `type_fn` returned an error. -/
  | callback
  /-- Not a C result: a loop of the model ran out of its bound. -/
  | unfinished
  deriving DecidableEq, Repr

/-- Modelled from the spec: the reference counter of sc3_refcount.c is not part
of the sources: a count of the references held. -/
structure sc3_refcount where
  rc : Int
  deriving DecidableEq, Repr

/-- Modelled from the spec: a reference counter is valid when it counts at
least one reference. -/
def sc3_refcount_is_valid (r : sc3_refcount) : Prop := 1 ≤ r.rc

instance (r : sc3_refcount) : Decidable (sc3_refcount_is_valid r) := by
  unfold sc3_refcount_is_valid; infer_instance

/-- Modelled from the spec: `sc3_refcount_ref` adds one reference to a valid
counter. -/
def sc3_refcount_ref (r : sc3_refcount) : Option sc3_error × sc3_refcount :=
  if ¬ sc3_refcount_is_valid r then (some .bug, r)
  else (none, { r with rc := r.rc + 1 })

/-- Modelled from the spec: the allocator of sc3_alloc.c is not part of the
sources.  It answers `malloc(size)`, `calloc(size)` and `realloc(ptr, size)`
with an address, or with no memory (`none`), and it has a set-up predicate. -/
structure sc3_allocator where
  /-- Whether `sc3_allocator_is_setup` holds. -/
  setup : Bool
  malloc : Nat → Option Nat
  calloc_one : Nat → Option Nat
  realloc : Nat → Nat → Option Nat

def sc3_allocator_is_setup (al : sc3_allocator) : Prop := al.setup = true

instance (al : sc3_allocator) : Decidable (sc3_allocator_is_setup al) := by
  unfold sc3_allocator_is_setup; infer_instance

/-! ## The array object -/

/-- The fields of `struct sc3_array`; `aator` is passed separately. -/
structure sc3_array where
  rc : sc3_refcount
  setup : Int
  initzero : Int
  resizable : Int
  tighten : Int
  ecount : Int
  ealloc : Int
  esize : Nat
  mem : Nat
  deriving DecidableEq, Repr

def sc3_array_is_valid (al : sc3_allocator) (a : sc3_array) : Prop :=
  sc3_refcount_is_valid a.rc ∧
  sc3_allocator_is_setup al ∧
  (0 ≤ a.ecount ∧ 0 ≤ a.ealloc) ∧
  (if a.setup = 0 then a.mem = 0
   else (a.mem ≠ 0 ∨ size_mul (sc3_size_t a.ecount) a.esize = 0) ∧
        (a.ealloc = 0 ∨ SC3_ISPOWOF2 a.ealloc) ∧
        a.ecount ≤ a.ealloc)

instance (al : sc3_allocator) (a : sc3_array) : Decidable (sc3_array_is_valid al a) := by
  unfold sc3_array_is_valid; infer_instance

def sc3_array_is_new (al : sc3_allocator) (a : sc3_array) : Prop :=
  sc3_array_is_valid al a ∧ a.setup = 0

instance (al : sc3_allocator) (a : sc3_array) : Decidable (sc3_array_is_new al a) := by
  unfold sc3_array_is_new; infer_instance

def sc3_array_is_setup (al : sc3_allocator) (a : sc3_array) : Prop :=
  sc3_array_is_valid al a ∧ a.setup ≠ 0

instance (al : sc3_allocator) (a : sc3_array) : Decidable (sc3_array_is_setup al a) := by
  unfold sc3_array_is_setup; infer_instance

def sc3_array_is_resizable (al : sc3_allocator) (a : sc3_array) : Prop :=
  sc3_array_is_setup al a ∧ a.resizable ≠ 0

instance (al : sc3_allocator) (a : sc3_array) : Decidable (sc3_array_is_resizable al a) := by
  unfold sc3_array_is_resizable; infer_instance

def sc3_array_is_unresizable (al : sc3_allocator) (a : sc3_array) : Prop :=
  sc3_array_is_setup al a ∧ a.resizable = 0

instance (al : sc3_allocator) (a : sc3_array) : Decidable (sc3_array_is_unresizable al a) := by
  unfold sc3_array_is_unresizable; infer_instance

/-- The array `sc3_array_new` builds: `calloc` zeroes the fields, the counter
starts at one reference, then `esize = 1` and `ealloc = 8`. -/
def sc3_array_new_value : sc3_array :=
  { rc := { rc := 1 }, setup := 0, initzero := 0, resizable := 0, tighten := 0,
    ecount := 0, ealloc := 8, esize := 1, mem := 0 }

def sc3_array_set_elem_size (al : sc3_allocator) (a : sc3_array) (esize : Nat) :
    Option sc3_error × sc3_array :=
  if ¬ sc3_array_is_new al a then (some .bug, a)
  else (none, { a with esize := esize })

def sc3_array_set_elem_count (al : sc3_allocator) (a : sc3_array) (ecount : Int) :
    Option sc3_error × sc3_array :=
  if ¬ sc3_array_is_new al a then (some .bug, a)
  else if ¬ (0 ≤ ecount ∧ ecount ≤ SC3_INT_HPOW) then (some .bug, a)
  else (none, { a with ecount := ecount })

def sc3_array_set_elem_alloc (al : sc3_allocator) (a : sc3_array) (ealloc : Int) :
    Option sc3_error × sc3_array :=
  if ¬ sc3_array_is_new al a then (some .bug, a)
  else if ¬ (0 ≤ ealloc ∧ ealloc ≤ SC3_INT_HPOW) then (some .bug, a)
  else (none, { a with ealloc := ealloc })

def sc3_array_set_initzero (al : sc3_allocator) (a : sc3_array) (initzero : Int) :
    Option sc3_error × sc3_array :=
  if ¬ sc3_array_is_new al a then (some .bug, a)
  else (none, { a with initzero := initzero })

def sc3_array_set_resizable (al : sc3_allocator) (a : sc3_array) (resizable : Int) :
    Option sc3_error × sc3_array :=
  if ¬ sc3_array_is_new al a then (some .bug, a)
  else (none, { a with resizable := resizable })

def sc3_array_set_tighten (al : sc3_allocator) (a : sc3_array) (tighten : Int) :
    Option sc3_error × sc3_array :=
  if ¬ sc3_array_is_new al a then (some .bug, a)
  else (none, { a with tighten := tighten })

def sc3_array_setup (al : sc3_allocator) (a : sc3_array) : Option sc3_error × sc3_array :=
  let ib : Int := SC3_INT_BITS
  -- SC3A_IS (sc3_array_is_new, a)
  if ¬ sc3_array_is_new al a then (some .bug, a)
  else
    -- set a->ealloc to a fitting power of 2; `1 << lg` is `2 ^ lg` for `0 ≤ lg < ib - 1`
    let lg := sc3_log2_ceil (max a.ealloc a.ecount) (ib - 1)
    if ¬ (0 ≤ lg ∧ lg < ib - 1) then (some .bug, a)
    else if ¬ (a.ecount ≤ 2 ^ lg.toNat) then (some .bug, a)
    else if ¬ (a.ealloc ≤ 2 ^ lg.toNat) then (some .bug, a)
    else
      let a1 := { a with ealloc := 2 ^ lg.toNat }
      let abytes := size_mul (sc3_size_t a1.ealloc) a1.esize
      -- allocate array storage
      match (if a1.initzero = 0 then al.malloc abytes else al.calloc_one abytes) with
      | none => (some .nomem, a1)
      | some p =>
        -- set array to setup state, then SC3A_IS (sc3_array_is_setup, a)
        let a2 := { a1 with mem := p, setup := 1 }
        if ¬ sc3_array_is_setup al a2 then (some .bug, a2)
        else (none, a2)

def sc3_array_ref (al : sc3_allocator) (a : sc3_array) : Option sc3_error × sc3_array :=
  -- SC3A_IS (sc3_array_is_unresizable, a)
  if ¬ sc3_array_is_unresizable al a then (some .bug, a)
  else
    match sc3_refcount_ref a.rc with
    | (some e, r) => (some e, { a with rc := r })
    | (none, r) => (none, { a with rc := r })

/-- The loop `while (new_ecount > a->ealloc) a->ealloc *= 2;` on the value of
`a->ealloc`, with at most `k` doublings. -/
def resize_grow (new_ecount : Int) : Nat → Int → Option Int
  | 0, ealloc => if new_ecount > ealloc then none else some ealloc
  | k + 1, ealloc =>
    if new_ecount > ealloc then resize_grow new_ecount k (int_wrap (ealloc * 2))
    else some ealloc

/-- The loop `while (newalloc / 2 >= new_ecount) newalloc /= 2;` on the value
of `newalloc`, with at most `k` halvings. -/
def resize_shrink (new_ecount : Int) : Nat → Int → Option Int
  | 0, newalloc => if Int.tdiv newalloc 2 ≥ new_ecount then none else some newalloc
  | k + 1, newalloc =>
    if Int.tdiv newalloc 2 ≥ new_ecount then resize_shrink new_ecount k (Int.tdiv newalloc 2)
    else some newalloc

def sc3_array_resize (al : sc3_allocator) (a : sc3_array) (new_ecount : Int) :
    Option sc3_error × sc3_array :=
  -- SC3A_IS (sc3_array_is_resizable, a)
  if ¬ sc3_array_is_resizable al a then (some .bug, a)
  -- SC3A_CHECK (0 <= new_ecount && new_ecount <= SC3_INT_HPOW)
  else if ¬ (0 ≤ new_ecount ∧ new_ecount ≤ SC3_INT_HPOW) then (some .bug, a)
  else if new_ecount > a.ealloc then
    -- we need to enlarge allocation
    let a1 := if a.ealloc = 0 then { a with ealloc := 1 } else a
    match resize_grow new_ecount SC3_INT_BITS a1.ealloc with
    | none => (some .unfinished, a1)
    | some e =>
      let a2 := { a1 with ealloc := e }
      if ¬ (new_ecount ≤ a2.ealloc) then (some .bug, a2)
      else
        match al.realloc a2.mem (size_mul (sc3_size_t a2.ealloc) a2.esize) with
        | none => (some .nomem, a2)
        | some p => (none, { a2 with mem := p, ecount := new_ecount })
  else if a.tighten ≠ 0 ∧ new_ecount < a.ealloc then
    -- we shall try to reduce memory usage
    match (if new_ecount = 0 then some 0
           else resize_shrink new_ecount SC3_INT_BITS a.ealloc) with
    | none => (some .unfinished, a)
    | some newalloc =>
      -- SC3A_CHECK (newalloc > 0), in the branch new_ecount != 0
      if new_ecount ≠ 0 ∧ ¬ (newalloc > 0) then (some .bug, a)
      else if newalloc < a.ealloc then
        let a1 := { a with ealloc := newalloc }
        if ¬ (new_ecount ≤ a1.ealloc) then (some .bug, a1)
        else
          match al.realloc a1.mem (size_mul (sc3_size_t a1.ealloc) a1.esize) with
          | none => (some .nomem, a1)
          | some p => (none, { a1 with mem := p, ecount := new_ecount })
      else (none, { a with ecount := new_ecount })
  -- record new element count
  else (none, { a with ecount := new_ecount })

/-- The function `sc3_array_index`.  The argument `ptr` is the cell the C
argument points to: `none` for a `NULL` argument, `some v` for a cell holding
`v`; the second component of the result is that cell after the call. -/
def sc3_array_index (al : sc3_allocator) (a : sc3_array) (i : Int) (ptr : Option Nat) :
    Option sc3_error × Option Nat :=
  -- SC3A_IS (sc3_array_is_setup, a)
  if ¬ sc3_array_is_setup al a then (some .bug, ptr)
  -- SC3A_CHECK (0 <= i && i < a->ecount)
  else if ¬ (0 ≤ i ∧ i < a.ecount) then (some .bug, ptr)
  else
    match ptr with
    -- SC3A_CHECK (ptr != NULL)
    | none => (some .bug, ptr)
    | some _ => (none, some (a.mem + i.toNat * a.esize))

/-- The function `sc3_array_push_count`; `ptr` as in `sc3_array_index`.  The
result holds the error, the array and the cell behind `ptr`. -/
def sc3_array_push_count (al : sc3_allocator) (a : sc3_array) (n : Int) (ptr : Option Nat) :
    Option sc3_error × sc3_array × Option Nat :=
  -- SC3A_IS (sc3_array_is_resizable, a)
  if ¬ sc3_array_is_resizable al a then (some .bug, a, ptr)
  -- SC3A_CHECK (0 <= n && a->ecount + n <= SC3_INT_HPOW)
  else if ¬ (0 ≤ n ∧ int_wrap (a.ecount + n) ≤ SC3_INT_HPOW) then (some .bug, a, ptr)
  else
    -- preinitialize output variable: if (ptr != NULL) *ptr = NULL
    let ptr0 : Option Nat := ptr.map (fun _ => 0)
    -- reallocate to fit the new members
    if n > 0 then
      let old_ecount := a.ecount
      match sc3_array_resize al a (int_wrap (old_ecount + n)) with
      | (some e, a1) => (some e, a1, ptr0)
      | (none, a1) =>
        match ptr0 with
        | none => (none, a1, ptr0)
        | some v =>
          match sc3_array_index al a1 old_ecount (some v) with
          | (some e, p) => (some e, a1, p)
          | (none, p) => (none, a1, p)
    else (none, a, ptr0)

def sc3_array_push (al : sc3_allocator) (a : sc3_array) (ptr : Option Nat) :
    Option sc3_error × sc3_array × Option Nat :=
  sc3_array_push_count al a 1 ptr

def sc3_array_pop (al : sc3_allocator) (a : sc3_array) : Option sc3_error × sc3_array :=
  -- SC3A_IS (sc3_array_is_resizable, a)
  if ¬ sc3_array_is_resizable al a then (some .bug, a)
  -- SC3A_CHECK (a->ecount > 0)
  else if ¬ (a.ecount > 0) then (some .bug, a)
  -- shrink array by one
  else sc3_array_resize al a (a.ecount - 1)

def sc3_array_freeze (al : sc3_allocator) (a : sc3_array) : Option sc3_error × sc3_array :=
  -- SC3A_IS (sc3_array_is_setup, a)
  if ¬ sc3_array_is_setup al a then (some .bug, a)
  else if a.resizable ≠ 0 then
    if a.tighten ≠ 0 ∧ a.ecount < a.ealloc then
      -- a->ealloc = a->ecount, then the reallocation
      let a1 := { a with ealloc := a.ecount }
      match al.realloc a1.mem (size_mul (sc3_size_t a1.ealloc) a1.esize) with
      | none => (some .nomem, a1)
      | some p => (none, { a1 with mem := p, resizable := 0 })
    else (none, { a with resizable := 0 })
  else (none, a)

/-- The function `sc3_array_get_elem_size`: the error and the value stored
through `esize`, which is preset to 0 (SC3E_RETVAL). -/
def sc3_array_get_elem_size (al : sc3_allocator) (a : sc3_array) : Option sc3_error × Nat :=
  if ¬ sc3_array_is_setup al a then (some .bug, 0)
  else (none, a.esize)

/-- The function `sc3_array_get_elem_count`: the error and the value stored
through `ecount`, which is preset to 0 (SC3E_RETVAL). -/
def sc3_array_get_elem_count (al : sc3_allocator) (a : sc3_array) : Option sc3_error × Int :=
  if ¬ sc3_array_is_setup al a then (some .bug, 0)
  else (none, a.ecount)

/-! ## The multi-way split

The elements of `offsets` are `int`s; `cells i` is the `int` stored in element
`i` of its buffer.  `sc3_array_index (offsets, zi, &zp)` followed by
`*zp = v` becomes the bounds check of `sc3_array_index` followed by an update
of `cells` at `zi`.  A reallocation keeps the elements it keeps; every element
of `offsets` is written after the resize before it is read.  The array `a` is
seen only through `type_fn`, a function of the index that returns the type or
an error (`none`).  The variables of the loops stay between 0 and the count
of `a` or `num_types`, so their arithmetic is exact. -/

/-- The loop `for (zi = lo; k times; zi++) { index (offsets, zi, &zp); *zp = v; }`. -/
def split_store (al : sc3_allocator) (offsets : sc3_array) (v : Int) :
    Nat → Int → (Int → Int) → Option sc3_error × (Int → Int)
  | 0, _, cells => (none, cells)
  | k + 1, zi, cells =>
    match (sc3_array_index al offsets zi (some 0)).1 with
    | some e => (some e, cells)
    | none => split_store al offsets v k (zi + 1) (Function.update cells zi v)

/-- The loop `for (zi = lo; zi <= hi; zi++) { index (offsets, zi, &zp); *zp = v; }`,
which runs `hi - lo + 1` times when `lo ≤ hi` and not at all otherwise. -/
def split_store_range (al : sc3_allocator) (offsets : sc3_array) (v lo hi : Int)
    (cells : Int → Int) : Option sc3_error × (Int → Int) :=
  split_store al offsets v (hi - lo + 1).toNat lo cells

/-- How the loop `while (low == high)` of `sc3_array_split` ends. -/
inductive split_next where
  /-- An error is returned. -/
  | fail (e : sc3_error)
  /-- The statement `return NULL` at `step == num_types`. -/
  | finished
  /-- The loop condition is false, with these values of `high` and `step`. -/
  | again (high step : Int)
  deriving DecidableEq, Repr

/-- The loop `while (low == high) { ++step; high = offsets[step]; ... }`, with
at most `k` rounds. -/
def split_advance (al : sc3_allocator) (offsets : sc3_array) (num_types : Int)
    (cells : Int → Int) (low : Int) : Nat → Int → Int → split_next
  | 0, high, step => if low = high then .fail .unfinished else .again high step
  | k + 1, high, step =>
    if low = high then
      -- ++step, then high = offsets[step]
      match (sc3_array_index al offsets (step + 1) (some 0)).1 with
      | some e => .fail e
      | none =>
        if step + 1 = num_types then .finished
        else split_advance al offsets num_types cells low k (cells (step + 1)) (step + 1)
    else .again high step

/-- The part of the body of `for (;;)` before the inner `while`: the probe of
`type_fn` at `guess` and the update of `low`, or of `offsets` and `high`.
The result holds the error and the values of `low`, `high` and `cells`. -/
def split_probe (al : sc3_allocator) (offsets : sc3_array) (num_types : Int)
    (type_fn : Int → Option Int) (low high step : Int) (cells : Int → Int) :
    Option sc3_error × Int × Int × (Int → Int) :=
  let guess := low + Int.tdiv (high - low) 2
  match type_fn guess with
  | none => (some .callback, low, high, cells)
  | some type =>
    -- SC3A_CHECK (type < num_types)
    if ¬ (type < num_types) then (some .bug, low, high, cells)
    -- low = guess + 1
    else if type < step then (none, guess + 1, high, cells)
    -- offsets[i] = guess for i = step, ..., type, then high = guess
    else
      match split_store_range al offsets guess step type cells with
      | (some e, cells1) => (some e, low, high, cells1)
      | (none, cells1) => (none, low, guess, cells1)

/-- The loop `for (;;)` of `sc3_array_split`, with at most `fuel` rounds. -/
def split_loop (al : sc3_allocator) (offsets : sc3_array) (num_types : Int)
    (type_fn : Int → Option Int) :
    Nat → Int → Int → Int → (Int → Int) → Option sc3_error × (Int → Int)
  | 0, _, _, _, cells => (some .unfinished, cells)
  | fuel + 1, low, high, step, cells =>
    match split_probe al offsets num_types type_fn low high step cells with
    | (some e, _, _, cells1) => (some e, cells1)
    | (none, low1, high1, cells1) =>
      match split_advance al offsets num_types cells1 low1 fuel high1 step with
      | .fail e => (some e, cells1)
      | .finished => (none, cells1)
      | .again high2 step2 =>
        split_loop al offsets num_types type_fn fuel low1 high2 step2 cells1

/-- The function `sc3_array_split`.  `ala` and `alo` are the allocators of `a`
and of `offsets`, `cells` the elements of `offsets` before the call and `fuel`
the bound on the rounds of the main loop.  The result holds the error, the
array `offsets` and its elements. -/
def sc3_array_split (ala alo : sc3_allocator) (a offsets : sc3_array) (num_types : Int)
    (type_fn : Int → Option Int) (cells : Int → Int) (fuel : Nat) :
    Option sc3_error × sc3_array × (Int → Int) :=
  match sc3_array_get_elem_size alo offsets with
  | (some e, _) => (some e, offsets, cells)
  | (none, elem_size) =>
    -- SC3A_CHECK (elem_size == sizeof (int))
    if ¬ (elem_size = sizeof_int) then (some .bug, offsets, cells)
    else
      match sc3_array_resize alo offsets (int_wrap (num_types + 1)) with
      | (some e, offsets1) => (some e, offsets1, cells)
      | (none, offsets1) =>
        match sc3_array_get_elem_count ala a with
        | (some e, _) => (some e, offsets1, cells)
        | (none, count) =>
          -- offsets[0] = 0, offsets[i] = count for i > 0
          match (sc3_array_index alo offsets1 0 (some 0)).1 with
          | some e => (some e, offsets1, cells)
          | none =>
            match split_store_range alo offsets1 count 1 num_types
                (Function.update cells 0 0) with
            | (some e, cells1) => (some e, offsets1, cells1)
            | (none, cells1) =>
              if count = 0 ∨ num_types ≤ 1 then (none, offsets1, cells1)
              else
                -- low = 0, high = count, step = 1
                match split_loop alo offsets1 num_types type_fn fuel 0 count 1 cells1 with
                | (e, cells2) => (e, offsets1, cells2)

/-! ## Predicates of the statements -/

/-- `e` is the smallest power of two that is at least `n`. -/
def is_least_pow2_ge (n e : Int) : Prop :=
  ∃ m : Nat, e = 2 ^ m ∧ n ≤ 2 ^ m ∧ ∀ i : Nat, n ≤ 2 ^ i → m ≤ i


/-! ## Sequences of calls -/

/-- A call of one of the functions that change the count of an array. -/
inductive sc3_array_call where
  | resize (new_ecount : Int)
  | push_count (n : Int) (ptr : Option Nat)
  | push (ptr : Option Nat)
  | pop
  deriving DecidableEq, Repr

/-- The error a call returns and the array it leaves. -/
def sc3_array_call_run (al : sc3_allocator) (a : sc3_array) :
    sc3_array_call → Option sc3_error × sc3_array
  | .resize n => sc3_array_resize al a n
  | .push_count n ptr => ((sc3_array_push_count al a n ptr).1, (sc3_array_push_count al a n ptr).2.1)
  | .push ptr => ((sc3_array_push al a ptr).1, (sc3_array_push al a ptr).2.1)
  | .pop => sc3_array_pop al a

/-- The array after a sequence of calls that all succeed, each call with the
allocator as it answers during that call; `none` when a call fails. -/
def sc3_array_calls_run : List (sc3_allocator × sc3_array_call) → sc3_array → Option sc3_array
  | [], a => some a
  | (al, c) :: cs, a =>
    match sc3_array_call_run al a c with
    | (none, a1) => sc3_array_calls_run cs a1
    | (some _, _) => none

/-! ## Concrete inputs -/

/-- An allocator that satisfies every request: a fresh buffer at address 4096,
a reallocated one at address 8192. -/
def allocator_granting : sc3_allocator :=
  { setup := true, malloc := fun _ => some 4096, calloc_one := fun _ => some 4096,
    realloc := fun _ _ => some 8192 }

/-- An allocator that allocates but refuses every reallocation. -/
def allocator_refusing : sc3_allocator :=
  { setup := true, malloc := fun _ => some 4096, calloc_one := fun _ => some 4096,
    realloc := fun _ _ => none }

/-- A set-up array of `int`s with the given flags, count and capacity, its
buffer at address 4096. -/
def int_array (resizable tighten ecount ealloc : Int) : sc3_array :=
  { rc := { rc := 1 }, setup := 1, initzero := 0, resizable := resizable, tighten := tighten,
    ecount := ecount, ealloc := ealloc, esize := sizeof_int, mem := 4096 }

/-! ## Predicates of the split -/

/-- The index `k` is the final position of `offsets[i]` for an array of `N`
elements with the types `ty`: the elements before `k` have a type below `i`,
the elements from `k` on have a type of at least `i`. -/
def split_final (ty : Int → Int) (N i k : Int) : Prop :=
  0 ≤ k ∧ k ≤ N ∧ (∀ j, 0 ≤ j → j < k → ty j < i) ∧ (∀ j, k ≤ j → j < N → i ≤ ty j)

/-- What the loops of `sc3_array_split` assume of their surroundings:
`offsets` is set up and holds `T + 1` elements, and `type_fn` returns, on the
`N` indices of `a`, types in `[0, T)` that do not decrease. -/
structure split_context (al : sc3_allocator) (offsets : sc3_array) (T : Int)
    (type_fn : Int → Option Int) (ty : Int → Int) (N : Int) : Prop where
  hset : sc3_array_is_setup al offsets
  hcnt : offsets.ecount = T + 1
  hN : 0 ≤ N
  hty : ∀ j, 0 ≤ j → j < N → type_fn j = some (ty j) ∧ 0 ≤ ty j ∧ ty j < T
  hsorted : ∀ j j2, 0 ≤ j → j ≤ j2 → j2 < N → ty j ≤ ty j2

/-- The invariants (1) to (5) of the comment in `sc3_array_split`, between the
probe and the inner loop, where `low ≤ high`. -/
def split_inv (ty : Int → Int) (N T low high step : Int) (cells : Int → Int) : Prop :=
  1 ≤ step ∧ step < T ∧ 0 ≤ low ∧ low ≤ high ∧ high ≤ N ∧ high = cells step ∧
  (∀ i, 0 ≤ i → i < step → split_final ty N i (cells i)) ∧
  (∀ j, 0 ≤ j → j < low → ty j < step) ∧
  (∀ i, step ≤ i → i ≤ T → low ≤ cells i ∧ cells i ≤ N ∧ ∀ j, cells i ≤ j → j < N → i ≤ ty j)

/-- The quantity that decreases with every round of the main loop. -/
def split_measure (N T low high step : Int) : Int :=
  (T - step) * (N + 1) + (high - low)

/-- The types `[0,0,0,1,1,2,2,2,2]` of the nine elements of the example of the
specification, by index. -/
def example_types (j : Int) : Int :=
  if j < 3 then 0 else if j < 5 then 1 else 2

/-- A `type_fn` for an array of nine elements with the types `example_types`:
it returns an error outside the array. -/
def example_type_fn (j : Int) : Option Int :=
  if 0 ≤ j ∧ j < 9 then some (example_types j) else none

/-! ## Octants: `src/p8est_bits.c`

An octant is its lower corner `x`, `y`, `z` (`p4est_qcoord_t`, an `Int` here)
and its `level` (`int8_t`).  The coordinates of the octants the functions
accept lie between `-P4EST_ROOT_LEN` and `2 * P4EST_ROOT_LEN`, so the
arithmetic on them is exact.  `P4EST_ASSERT` is compiled in debug builds
only: the model leaves the asserted conditions to the hypotheses of the
theorems.  `edge & 0x01` is `edge % 2` and `edge & 0x02` is
`2 * (edge / 2 % 2)`; the bit `q->x & len` of a coordinate, for a power of
two `len`, is `q.x / len % 2` with the rounded-down division of `Int`. -/

/-- Modelled from the spec: the constant P4EST_MAXLEVEL of p8est.h is not part
of the sources; the spec leaves `MAXLEVEL` open, 19 is the value for octants. -/
def P4EST_MAXLEVEL : Nat := 19

/-- Modelled from the spec: `QMAXLEVEL = MAXLEVEL − 1`. -/
def P4EST_QMAXLEVEL : Nat := P4EST_MAXLEVEL - 1

/-- Modelled from the spec: `ROOT_LEN = 1 << MAXLEVEL`. -/
def P4EST_ROOT_LEN : Int := 2 ^ P4EST_MAXLEVEL

/-- Modelled from the spec: `QLEN(L) = 1 << (MAXLEVEL − L)`, the side length
at level `L`, for `0 ≤ L ≤ MAXLEVEL`. -/
def P4EST_QUADRANT_LEN (l : Int) : Int := 2 ^ (P4EST_MAXLEVEL - l.toNat)

/-- Modelled from the spec: `LAST_OFFSET(L) = ROOT_LEN − QLEN(L)`. -/
def P4EST_LAST_OFFSET (l : Int) : Int := P4EST_ROOT_LEN - P4EST_QUADRANT_LEN l

/-- The number of children of an octant, `1 << DIM` with `DIM = 3`. -/
def P4EST_CHILDREN : Nat := 8

/-- The type `p4est_quadrant_t` without the user data. -/
structure p4est_quadrant where
  x : Int
  y : Int
  z : Int
  level : Int
  deriving DecidableEq, Repr

/-- Modelled from the spec: `is_inside_root(q)`: all coordinates in
`[0, ROOT_LEN)`. -/
def p4est_quadrant_is_inside_root (q : p4est_quadrant) : Prop :=
  (0 ≤ q.x ∧ q.x < P4EST_ROOT_LEN) ∧ (0 ≤ q.y ∧ q.y < P4EST_ROOT_LEN) ∧
  (0 ≤ q.z ∧ q.z < P4EST_ROOT_LEN)

instance (q : p4est_quadrant) : Decidable (p4est_quadrant_is_inside_root q) := by
  unfold p4est_quadrant_is_inside_root; infer_instance

/-- Modelled from the spec: the valid octants: `0 ≤ level ≤ QMAXLEVEL`,
`0 ≤ x, y, z ≤ LAST_OFFSET(level)`, and the coordinates are aligned,
`x & (QLEN(level) − 1) == 0`. -/
def p4est_quadrant_is_valid (q : p4est_quadrant) : Prop :=
  (0 ≤ q.level ∧ q.level ≤ P4EST_QMAXLEVEL) ∧
  (0 ≤ q.x ∧ q.x ≤ P4EST_LAST_OFFSET q.level) ∧
  (0 ≤ q.y ∧ q.y ≤ P4EST_LAST_OFFSET q.level) ∧
  (0 ≤ q.z ∧ q.z ≤ P4EST_LAST_OFFSET q.level) ∧
  q.x % P4EST_QUADRANT_LEN q.level = 0 ∧
  q.y % P4EST_QUADRANT_LEN q.level = 0 ∧
  q.z % P4EST_QUADRANT_LEN q.level = 0

instance (q : p4est_quadrant) : Decidable (p4est_quadrant_is_valid q) := by
  unfold p4est_quadrant_is_valid; infer_instance

/-- Modelled from the spec: the extended octants: as the valid ones, with the
coordinates in `[−QLEN(level), ROOT_LEN]`. -/
def p4est_quadrant_is_extended (q : p4est_quadrant) : Prop :=
  (0 ≤ q.level ∧ q.level ≤ P4EST_QMAXLEVEL) ∧
  (-P4EST_QUADRANT_LEN q.level ≤ q.x ∧ q.x ≤ P4EST_ROOT_LEN) ∧
  (-P4EST_QUADRANT_LEN q.level ≤ q.y ∧ q.y ≤ P4EST_ROOT_LEN) ∧
  (-P4EST_QUADRANT_LEN q.level ≤ q.z ∧ q.z ≤ P4EST_ROOT_LEN) ∧
  q.x % P4EST_QUADRANT_LEN q.level = 0 ∧
  q.y % P4EST_QUADRANT_LEN q.level = 0 ∧
  q.z % P4EST_QUADRANT_LEN q.level = 0

instance (q : p4est_quadrant) : Decidable (p4est_quadrant_is_extended q) := by
  unfold p4est_quadrant_is_extended; infer_instance

/-- Modelled from the spec: `child_id(q)`: the in-parent index, from the bits
of `x`, `y`, `z` at `QLEN(level)`. -/
def p4est_quadrant_child_id (q : p4est_quadrant) : Int :=
  q.x / P4EST_QUADRANT_LEN q.level % 2 + 2 * (q.y / P4EST_QUADRANT_LEN q.level % 2) +
    4 * (q.z / P4EST_QUADRANT_LEN q.level % 2)

/-- Modelled from the spec: `parent(q)`: the bits of `x`, `y`, `z` at
`QLEN(level)` are cleared and the level is `q.level − 1`. -/
def p4est_quadrant_parent (q : p4est_quadrant) : p4est_quadrant :=
  { x := q.x - q.x / P4EST_QUADRANT_LEN q.level % 2 * P4EST_QUADRANT_LEN q.level,
    y := q.y - q.y / P4EST_QUADRANT_LEN q.level % 2 * P4EST_QUADRANT_LEN q.level,
    z := q.z - q.z / P4EST_QUADRANT_LEN q.level % 2 * P4EST_QUADRANT_LEN q.level,
    level := q.level - 1 }

/-- Modelled from the spec: `sibling(q, sid)`: the in-parent bits of `q` are
replaced with those of `sid`. -/
def p4est_quadrant_sibling (q : p4est_quadrant) (sid : Int) : p4est_quadrant :=
  { x := q.x - q.x / P4EST_QUADRANT_LEN q.level % 2 * P4EST_QUADRANT_LEN q.level
      + sid % 2 * P4EST_QUADRANT_LEN q.level,
    y := q.y - q.y / P4EST_QUADRANT_LEN q.level % 2 * P4EST_QUADRANT_LEN q.level
      + sid / 2 % 2 * P4EST_QUADRANT_LEN q.level,
    z := q.z - q.z / P4EST_QUADRANT_LEN q.level % 2 * P4EST_QUADRANT_LEN q.level
      + sid / 4 % 2 * P4EST_QUADRANT_LEN q.level,
    level := q.level }

/-- The child of index `i` of the octant `p`: at
`p + ((i & 1), (i >> 1) & 1, (i >> 2) & 1) * QLEN(level + 1)`, at the level
`p.level + 1`. -/
def p4est_quadrant_child (p : p4est_quadrant) (i : Int) : p4est_quadrant :=
  { x := p.x + i % 2 * P4EST_QUADRANT_LEN (p.level + 1),
    y := p.y + i / 2 % 2 * P4EST_QUADRANT_LEN (p.level + 1),
    z := p.z + i / 4 % 2 * P4EST_QUADRANT_LEN (p.level + 1),
    level := p.level + 1 }

def p8est_quadrant_is_outside_edge (q : p4est_quadrant) : Prop :=
  (if q.x < 0 ∨ q.x ≥ P4EST_ROOT_LEN then 1 else 0)
    + (if q.y < 0 ∨ q.y ≥ P4EST_ROOT_LEN then 1 else 0)
    + (if q.z < 0 ∨ q.z ≥ P4EST_ROOT_LEN then 1 else 0) = (2 : Int)

instance (q : p4est_quadrant) : Decidable (p8est_quadrant_is_outside_edge q) := by
  unfold p8est_quadrant_is_outside_edge; infer_instance

def p4est_quadrant_is_family (q0 q1 q2 q3 q4 q5 q6 q7 : p4est_quadrant) : Prop :=
  if q0.level = 0 ∨ q0.level ≠ q1.level ∨ q0.level ≠ q2.level ∨ q0.level ≠ q3.level ∨
      q0.level ≠ q4.level ∨ q0.level ≠ q5.level ∨ q0.level ≠ q6.level ∨
      q0.level ≠ q7.level then False
  else
    (q0.x + P4EST_QUADRANT_LEN q0.level = q1.x ∧ q0.y = q1.y ∧ q0.z = q1.z) ∧
    (q0.x = q2.x ∧ q0.y + P4EST_QUADRANT_LEN q0.level = q2.y ∧ q0.z = q2.z) ∧
    (q1.x = q3.x ∧ q2.y = q3.y ∧ q0.z = q3.z) ∧
    (q0.x = q4.x ∧ q0.y = q4.y ∧ q0.z + P4EST_QUADRANT_LEN q0.level = q4.z) ∧
    (q1.x = q5.x ∧ q1.y = q5.y ∧ q4.z = q5.z) ∧
    (q2.x = q6.x ∧ q2.y = q6.y ∧ q4.z = q6.z) ∧
    (q3.x = q7.x ∧ q3.y = q7.y ∧ q4.z = q7.z)

instance (q0 q1 q2 q3 q4 q5 q6 q7 : p4est_quadrant) :
    Decidable (p4est_quadrant_is_family q0 q1 q2 q3 q4 q5 q6 q7) := by
  unfold p4est_quadrant_is_family; infer_instance

/-- The function `p4est_quadrant_is_familyv`, on the array `q[0..7]`. -/
def p4est_quadrant_is_familyv (q : Nat → p4est_quadrant) : Prop :=
  if (q 0).level = 0 ∨ (q 0).level ≠ (q 1).level ∨ (q 0).level ≠ (q 2).level ∨
      (q 0).level ≠ (q 3).level ∨ (q 0).level ≠ (q 4).level ∨ (q 0).level ≠ (q 5).level ∨
      (q 0).level ≠ (q 6).level ∨ (q 0).level ≠ (q 7).level then False
  else
    ((q 0).x + P4EST_QUADRANT_LEN (q 0).level = (q 1).x ∧ (q 0).y = (q 1).y ∧
      (q 0).z = (q 1).z) ∧
    ((q 0).x = (q 2).x ∧ (q 0).y + P4EST_QUADRANT_LEN (q 0).level = (q 2).y ∧
      (q 0).z = (q 2).z) ∧
    ((q 1).x = (q 3).x ∧ (q 2).y = (q 3).y ∧ (q 0).z = (q 3).z) ∧
    ((q 0).x = (q 4).x ∧ (q 0).y = (q 4).y ∧
      (q 0).z + P4EST_QUADRANT_LEN (q 0).level = (q 4).z) ∧
    ((q 1).x = (q 5).x ∧ (q 1).y = (q 5).y ∧ (q 4).z = (q 5).z) ∧
    ((q 2).x = (q 6).x ∧ (q 2).y = (q 6).y ∧ (q 4).z = (q 6).z) ∧
    ((q 3).x = (q 7).x ∧ (q 3).y = (q 7).y ∧ (q 4).z = (q 7).z)

instance (q : Nat → p4est_quadrant) : Decidable (p4est_quadrant_is_familyv q) := by
  unfold p4est_quadrant_is_familyv; infer_instance

/-- The function `p4est_quadrant_is_familypv`, on the octants `*q[0..7]` the
array of pointers refers to. -/
def p4est_quadrant_is_familypv (q : Nat → p4est_quadrant) : Prop :=
  if (q 0).level = 0 ∨ (q 0).level ≠ (q 1).level ∨ (q 0).level ≠ (q 2).level ∨
      (q 0).level ≠ (q 3).level ∨ (q 0).level ≠ (q 4).level ∨ (q 0).level ≠ (q 5).level ∨
      (q 0).level ≠ (q 6).level ∨ (q 0).level ≠ (q 7).level then False
  else
    ((q 0).x + P4EST_QUADRANT_LEN (q 0).level = (q 1).x ∧ (q 0).y = (q 1).y ∧
      (q 0).z = (q 1).z) ∧
    ((q 0).x = (q 2).x ∧ (q 0).y + P4EST_QUADRANT_LEN (q 0).level = (q 2).y ∧
      (q 0).z = (q 2).z) ∧
    ((q 1).x = (q 3).x ∧ (q 2).y = (q 3).y ∧ (q 0).z = (q 3).z) ∧
    ((q 0).x = (q 4).x ∧ (q 0).y = (q 4).y ∧
      (q 0).z + P4EST_QUADRANT_LEN (q 0).level = (q 4).z) ∧
    ((q 1).x = (q 5).x ∧ (q 1).y = (q 5).y ∧ (q 4).z = (q 5).z) ∧
    ((q 2).x = (q 6).x ∧ (q 2).y = (q 6).y ∧ (q 4).z = (q 6).z) ∧
    ((q 3).x = (q 7).x ∧ (q 3).y = (q 7).y ∧ (q 4).z = (q 7).z)

instance (q : Nat → p4est_quadrant) : Decidable (p4est_quadrant_is_familypv q) := by
  unfold p4est_quadrant_is_familypv; infer_instance

/-- The function `p8est_quadrant_edge_neighbor`; `none` is the abort at
`SC_ABORT_NOT_REACHED`.  `edge / 4` is the division of C. -/
def p8est_quadrant_edge_neighbor (q : p4est_quadrant) (edge : Int) : Option p4est_quadrant :=
  if Int.tdiv edge 4 = 0 then
    some { x := q.x,
           y := q.y + (2 * (edge % 2) - 1) * P4EST_QUADRANT_LEN q.level,
           z := q.z + (2 * (edge / 2 % 2) - 1) * P4EST_QUADRANT_LEN q.level,
           level := q.level }
  else if Int.tdiv edge 4 = 1 then
    some { x := q.x + (2 * (edge % 2) - 1) * P4EST_QUADRANT_LEN q.level,
           y := q.y,
           z := q.z + (2 * (edge / 2 % 2) - 1) * P4EST_QUADRANT_LEN q.level,
           level := q.level }
  else if Int.tdiv edge 4 = 2 then
    some { x := q.x + (2 * (edge % 2) - 1) * P4EST_QUADRANT_LEN q.level,
           y := q.y + (2 * (edge / 2 % 2) - 1) * P4EST_QUADRANT_LEN q.level,
           z := q.z,
           level := q.level }
  else none

/-- The coordinate of an octant along the axis 0, 1 or 2. -/
def p4est_quadrant_coord (q : p4est_quadrant) (axis : Int) : Int :=
  if axis = 0 then q.x else if axis = 1 then q.y else q.z

/-- Whether the coordinate along an axis lies outside `[0, ROOT_LEN)`. -/
def p4est_coord_is_outside (c : Int) : Prop := c < 0 ∨ c ≥ P4EST_ROOT_LEN

instance (c : Int) : Decidable (p4est_coord_is_outside c) := by
  unfold p4est_coord_is_outside; infer_instance

/-- The number of the coordinates of an octant outside `[0, ROOT_LEN)`. -/
def p4est_quadrant_outside_count (q : p4est_quadrant) : Nat :=
  (if p4est_coord_is_outside q.x then 1 else 0) + (if p4est_coord_is_outside q.y then 1 else 0)
    + (if p4est_coord_is_outside q.z then 1 else 0)

/-- The root octant: the origin at the level 0. -/
def root_octant : p4est_quadrant := { x := 0, y := 0, z := 0, level := 0 }

/-- Eight octants at the level 2 in the relative positions of a family, the
first of them at `(QLEN(2), 0, 0)`, which has the child index 1. -/
def shifted_octants (i : Nat) : p4est_quadrant :=
  { x := P4EST_QUADRANT_LEN 2 + ((i % 2 : Nat) : Int) * P4EST_QUADRANT_LEN 2,
    y := ((i / 2 % 2 : Nat) : Int) * P4EST_QUADRANT_LEN 2,
    z := ((i / 4 % 2 : Nat) : Int) * P4EST_QUADRANT_LEN 2,
    level := 2 }

/-! ## The coarsening sweep: `p4est_coarsen_old` of `src/test/test_coarsen2.c`

The array `tree->quadrants` is the function `quadrants` from the index to the
octant together with `elem_count`.  The variables of the type `size_t` are
natural numbers and every operation on them is reduced modulo `2 ^ 64`.
`p4est_quadrant_array_index` with an index that is not below `elem_count` is
the outcome `index_out_of_range`.  `P4EST_ASSERT` is not an abort.  The user
data (`p4est_quadrant_free_data`, `p4est_quadrant_init_data`), the log
messages and `quadrants_offset` are left out.  The callback `coarsen_fn` is
a function of the number of calls before this one in the sweep of the tree
and of the list of the eight candidates `c`; it does not write to the
octants. -/

/-- Outcomes of the model of the sweep that are no result of the C code. -/
inductive coarsen_error where
  /-- An array index that is not below `elem_count`. -/
  | index_out_of_range
  /-- The loop bound of the model is exhausted. -/
  | unfinished
deriving DecidableEq, Repr

/-- Reduction of an integer to the range of `size_t`. -/
def size_t_wrap (n : Int) : Nat := (n % 2 ^ 64).toNat

/-- The tree and the variables of the sweep over it. `invoked` lists the
calls of `coarsen_fn` with their results, the first call first. -/
structure coarsen_state where
  quadrants : Nat → p4est_quadrant
  elem_count : Nat
  quadrants_per_level : Int → Int
  maxlevel : Int
  local_num_quadrants : Int
  incount : Nat
  removed : Nat
  first : Nat
  last : Nat
  rest : Nat
  before : Nat
  invoked : List (List p4est_quadrant × Bool)

/-- The array index of the candidate `c[zz]`: `first + zz` for `zz < before`,
else `rest + zz - before`. -/
def coarsen_candidate_index (s : coarsen_state) (zz : Nat) : Nat :=
  if zz < s.before then size_t_wrap ((s.first : Int) + zz)
  else size_t_wrap ((s.rest : Int) + zz - s.before)

/-- The candidate `c[zz]`. -/
def coarsen_candidate (s : coarsen_state) (zz : Nat) : p4est_quadrant :=
  s.quadrants (coarsen_candidate_index s zz)

/-- The array `c` of the eight candidates that `coarsen_fn` is called with. -/
def coarsen_children (s : coarsen_state) : List p4est_quadrant :=
  (List.range P4EST_CHILDREN).map (coarsen_candidate s)

/-- The loop `for (zz = 0; zz < P4EST_CHILDREN; ++zz)` that gathers the
candidates, from `zz` on with `n` rounds left: the result is `couldbegood`. -/
def coarsen_gather (s : coarsen_state) : Nat → Nat → Except coarsen_error Bool
  | 0, _ => .ok true
  | n + 1, zz =>
    if coarsen_candidate_index s zz < s.elem_count then
      if zz < s.before ∧ (zz : Int) ≠ p4est_quadrant_child_id (coarsen_candidate s zz) then
        .ok false
      else coarsen_gather s n (zz + 1)
    else .error .index_out_of_range

/-- The assignment `*cfirst = *clast` with `cfirst` at the index `first` and
`clast` at the index `rest`. -/
def coarsen_move (s : coarsen_state) : Except coarsen_error coarsen_state :=
  if s.first < s.elem_count ∧ s.rest < s.elem_count then
    .ok { s with quadrants := Function.update s.quadrants s.first (s.quadrants s.rest) }
  else .error .index_out_of_range

/-- The branch `coarsen now` of the sweep. -/
def coarsen_family (coarsen_recursive : Bool) (s : coarsen_state) :
    Except coarsen_error coarsen_state :=
  let c0 := coarsen_candidate s 0
  let cfirst := p4est_quadrant_parent c0
  let per1 := Function.update s.quadrants_per_level c0.level
    (s.quadrants_per_level c0.level - 8)
  let per2 := Function.update per1 cfirst.level (per1 cfirst.level + 1)
  let s1 : coarsen_state := { s with
    quadrants := Function.update s.quadrants (coarsen_candidate_index s 0) cfirst
    quadrants_per_level := per2
    local_num_quadrants := s.local_num_quadrants - 7
    removed := size_t_wrap ((s.removed : Int) + 7)
    rest := size_t_wrap ((s.rest : Int) + 8 - s.before) }
  if coarsen_recursive then
    let cidz := size_t_wrap (p4est_quadrant_child_id cfirst)
    .ok { s1 with last := s1.first, first := if cidz > s1.first then 0 else s1.first - cidz }
  else if s1.rest < s1.incount then
    (coarsen_move { s1 with first := size_t_wrap ((s1.first : Int) + 1) }).map
      (fun s2 => { s2 with last := s2.first, rest := size_t_wrap ((s2.rest : Int) + 1) })
  else .ok s1

/-- The branch `do nothing, just move the counters and the hole`. -/
def coarsen_advance (s : coarsen_state) : Except coarsen_error coarsen_state :=
  let s1 : coarsen_state := { s with first := size_t_wrap ((s.first : Int) + 1) }
  if s1.first > s1.last then
    (if s1.first ≠ s1.rest then coarsen_move s1 else .ok s1).map
      (fun s2 => { s2 with last := s2.first, rest := size_t_wrap ((s2.rest : Int) + 1) })
  else .ok s1

/-- One round of the loop `while (rest + P4EST_CHILDREN - 1 - before < incount)`. -/
def coarsen_step (coarsen_recursive : Bool)
    (coarsen_fn : Nat → List p4est_quadrant → Bool) (s : coarsen_state) :
    Except coarsen_error coarsen_state :=
  match coarsen_gather s P4EST_CHILDREN 0 with
  | .error e => .error e
  | .ok couldbegood =>
    let family : Bool :=
      couldbegood && decide (p4est_quadrant_is_familypv (coarsen_candidate s))
    let answer : Bool := family && coarsen_fn s.invoked.length (coarsen_children s)
    let s1 : coarsen_state :=
      if family then { s with invoked := s.invoked ++ [(coarsen_children s, answer)] }
      else s
    (if answer then coarsen_family coarsen_recursive s1 else coarsen_advance s1).map
      (fun s2 => { s2 with before := size_t_wrap ((s2.last : Int) - s2.first + 1) })

/-- The condition of the loop of the sweep. -/
def coarsen_continues (s : coarsen_state) : Prop :=
  size_t_wrap ((s.rest : Int) + 8 - 1 - s.before) < s.incount

instance (s : coarsen_state) : Decidable (coarsen_continues s) := by
  unfold coarsen_continues; infer_instance

/-- The loop of the sweep, with at most `fuel` rounds. -/
def coarsen_loop (coarsen_recursive : Bool)
    (coarsen_fn : Nat → List p4est_quadrant → Bool) :
    Nat → coarsen_state → Except coarsen_error coarsen_state
  | fuel, s =>
    if coarsen_continues s then
      match fuel with
      | 0 => .error .unfinished
      | n + 1 =>
        match coarsen_step coarsen_recursive coarsen_fn s with
        | .error e => .error e
        | .ok s1 => coarsen_loop coarsen_recursive coarsen_fn n s1
    else .ok s

/-- The loop `while (rest < incount)` that drains the rest of the array into
the hole, with at most `fuel` rounds. -/
def coarsen_drain : Nat → coarsen_state → Except coarsen_error coarsen_state
  | fuel, s =>
    if s.rest < s.incount then
      match fuel with
      | 0 => .error .unfinished
      | n + 1 =>
        match coarsen_move { s with first := size_t_wrap ((s.first : Int) + 1) } with
        | .error e => .error e
        | .ok s1 => coarsen_drain n { s1 with rest := size_t_wrap ((s1.rest : Int) + 1) }
    else .ok s

/-- The loop that computes the maximum level: the last `i <= P4EST_QMAXLEVEL`
with `quadrants_per_level[i] > 0`, or 0. -/
def coarsen_maxlevel (per_level : Int → Int) : Int :=
  (List.range (P4EST_QMAXLEVEL + 1)).foldl
    (fun m i => if per_level (i : Int) > 0 then (i : Int) else m) 0

/-- The part `adjust final array size` and `compute maximum level`. -/
def coarsen_finish (fuel : Nat) (s : coarsen_state) : Except coarsen_error coarsen_state :=
  let s1 : coarsen_state := { s with first := s.last }
  (if size_t_wrap ((s1.first : Int) + 1) < s1.rest then
    (coarsen_drain fuel s1).map
      (fun s2 => { s2 with elem_count := size_t_wrap ((s2.first : Int) + 1) })
  else .ok s1).map
    (fun s3 => { s3 with maxlevel := coarsen_maxlevel s3.quadrants_per_level })

/-- The variables of the sweep at the start of the loop over one tree. -/
def coarsen_init (quadrants : Nat → p4est_quadrant) (elem_count : Nat)
    (quadrants_per_level : Int → Int) (local_num_quadrants : Int) : coarsen_state :=
  { quadrants := quadrants, elem_count := elem_count
    quadrants_per_level := quadrants_per_level, maxlevel := 0
    local_num_quadrants := local_num_quadrants
    incount := elem_count, removed := 0
    first := 0, last := 0, rest := 1, before := 1, invoked := [] }

/-- The body of the loop over the trees in `p4est_coarsen_old`, for one tree:
the sweep over its array, with at most `fuel` rounds in each loop. -/
def coarsen_tree (coarsen_recursive : Bool)
    (coarsen_fn : Nat → List p4est_quadrant → Bool) (fuel : Nat)
    (quadrants : Nat → p4est_quadrant) (elem_count : Nat)
    (quadrants_per_level : Int → Int) (local_num_quadrants : Int) :
    Except coarsen_error coarsen_state :=
  match coarsen_loop coarsen_recursive coarsen_fn fuel
      (coarsen_init quadrants elem_count quadrants_per_level local_num_quadrants) with
  | .error e => .error e
  | .ok s => coarsen_finish fuel s

/-- The fields of `p4est_tree_t` that the sweep uses. -/
structure p4est_tree_t where
  quadrants : Nat → p4est_quadrant
  elem_count : Nat
  quadrants_per_level : Int → Int
  maxlevel : Int

/-- The fields of `p4est_t` that the sweep uses, on one process: all trees
are local. -/
structure p4est_t where
  trees : List p4est_tree_t
  local_num_quadrants : Int
  global_num_quadrants : Int

/-- The loop over the trees in `p4est_coarsen_old`, from the tree `jt` on;
`coarsen_fn` has the number of the tree as its first argument. -/
def coarsen_trees (coarsen_recursive : Bool)
    (coarsen_fn : Nat → Nat → List p4est_quadrant → Bool) (fuel : Nat) :
    Nat → List p4est_tree_t → Int → Except coarsen_error (List p4est_tree_t × Int)
  | _, [], n => .ok ([], n)
  | jt, t :: ts, n =>
    match coarsen_tree coarsen_recursive (coarsen_fn jt) fuel t.quadrants t.elem_count
        t.quadrants_per_level n with
    | .error e => .error e
    | .ok s =>
      match coarsen_trees coarsen_recursive coarsen_fn fuel (jt + 1) ts
          s.local_num_quadrants with
      | .error e => .error e
      | .ok (ts1, n1) =>
        .ok ({ quadrants := s.quadrants, elem_count := s.elem_count
               quadrants_per_level := s.quadrants_per_level
               maxlevel := s.maxlevel } :: ts1, n1)

/-- The function `p4est_coarsen_old` on one process. Modelled from the spec:
`p4est_comm_count_quadrants` is not in `src`; on one process it makes the
global number of octants the local one. -/
def p4est_coarsen_old (coarsen_recursive : Bool)
    (coarsen_fn : Nat → Nat → List p4est_quadrant → Bool) (fuel : Nat) (p : p4est_t) :
    Except coarsen_error p4est_t :=
  match coarsen_trees coarsen_recursive coarsen_fn fuel 0 p.trees p.local_num_quadrants with
  | .error e => .error e
  | .ok (ts, n) => .ok { trees := ts, local_num_quadrants := n, global_num_quadrants := n }

/-- Modelled from the spec: the bits of `x`, `y`, `z` interleaved, `n` bits
of each, `x` lowest. -/
def morton_interleave : Nat → Int → Int → Int → Int
  | 0, _, _, _ => 0
  | n + 1, x, y, z =>
    x % 2 + 2 * (y % 2) + 4 * (z % 2) + 8 * morton_interleave n (x / 2) (y / 2) (z / 2)

/-- Modelled from the spec: the position of the lower corner of an octant on
the z-curve (Morton order) of the cells of the finest level. -/
def p4est_quadrant_morton (q : p4est_quadrant) : Int :=
  morton_interleave P4EST_MAXLEVEL q.x q.y q.z

/-- The number of cells of the finest level inside an octant. -/
def p4est_quadrant_cells (q : p4est_quadrant) : Int :=
  8 ^ (P4EST_MAXLEVEL - q.level.toNat)

/-- Modelled from the spec: `a` is before `b` in Morton order; of two
octants at the same corner the coarser one is first (`p4est_quadrant_compare`
is not in `src`). -/
def p4est_quadrant_before (a b : p4est_quadrant) : Prop :=
  p4est_quadrant_morton a < p4est_quadrant_morton b ∨
  (p4est_quadrant_morton a = p4est_quadrant_morton b ∧ a.level < b.level)

instance (a b : p4est_quadrant) : Decidable (p4est_quadrant_before a b) := by
  unfold p4est_quadrant_before; infer_instance

/-- Modelled from the spec: the array of `n` octants is strictly sorted in
Morton order (`p4est_tree_is_sorted` is not in `src`). -/
def p4est_tree_is_sorted (quadrants : Nat → p4est_quadrant) (n : Nat) : Prop :=
  ∀ i, i < n - 1 → p4est_quadrant_before (quadrants i) (quadrants (i + 1))

instance (quadrants : Nat → p4est_quadrant) (n : Nat) :
    Decidable (p4est_tree_is_sorted quadrants n) := by
  unfold p4est_tree_is_sorted; infer_instance

/-- Modelled from the spec: the array of `n` octants is a linear octree that
covers the root (`p4est_tree_is_complete` is not in `src`): the octants are
valid, the first one starts the z-curve, each next one starts where the one
before it ends, and the last one ends the z-curve. -/
def p4est_tree_is_complete (quadrants : Nat → p4est_quadrant) (n : Nat) : Prop :=
  0 < n ∧ (∀ i, i < n → p4est_quadrant_is_valid (quadrants i)) ∧
  p4est_quadrant_morton (quadrants 0) = 0 ∧
  (∀ i, i < n - 1 → p4est_quadrant_morton (quadrants (i + 1)) =
    p4est_quadrant_morton (quadrants i) + p4est_quadrant_cells (quadrants i)) ∧
  p4est_quadrant_morton (quadrants (n - 1)) + p4est_quadrant_cells (quadrants (n - 1)) =
    8 ^ P4EST_MAXLEVEL

instance (quadrants : Nat → p4est_quadrant) (n : Nat) :
    Decidable (p4est_tree_is_complete quadrants n) := by
  unfold p4est_tree_is_complete; infer_instance

/-- Modelled from the spec: the uniform refinement of the root at the level
`L` in Morton order: the octant of index `i` is the child of index `i % 8` of
the octant of index `i / 8` of the level `L - 1`. -/
def uniform_octant : Nat → Nat → p4est_quadrant
  | 0, _ => root_octant
  | L + 1, i => p4est_quadrant_child (uniform_octant L (i / 8)) ((i % 8 : Nat) : Int)

/-- The tree with the uniform refinement of the level `L`. -/
def uniform_tree (L : Nat) : p4est_tree_t :=
  { quadrants := uniform_octant L, elem_count := 8 ^ L
    quadrants_per_level := fun l => if l = (L : Int) then 8 ^ L else 0
    maxlevel := L }

/-- The octants of the tree during the sweep, without the hole: those at the
indices up to `last`, then those from `rest` on. -/
def coarsen_view (s : coarsen_state) (i : Nat) : p4est_quadrant :=
  if i ≤ s.last then s.quadrants i else s.quadrants (s.rest + (i - (s.last + 1)))

/-- The number of octants of the tree during the sweep. -/
def coarsen_view_count (s : coarsen_state) : Nat := s.last + 1 + (s.incount - s.rest)

/-- The relation between the variables of the sweep at the head of the loop. -/
def coarsen_inv (coarsen_recursive : Bool) (s : coarsen_state) : Prop :=
  s.first ≤ s.last ∧ s.last < s.rest ∧ s.rest ≤ s.incount ∧
  s.before = s.last - s.first + 1 ∧ s.before ≤ 8 ∧
  s.elem_count = s.incount ∧ s.incount + 8 < 2 ^ 64 ∧
  (coarsen_recursive = false → s.first = s.last)

/-- The array `v` with the eight octants from the index `f` on replaced by
the one octant `p`. -/
def coarsen_replaced (v : Nat → p4est_quadrant) (f : Nat) (p : p4est_quadrant) (i : Nat) :
    p4est_quadrant :=
  if i < f then v i else if i = f then p else v (i + 7)

/-- The eight octants of the array `v` from the index `f` on. -/
def coarsen_window (v : Nat → p4est_quadrant) (f : Nat) : List p4est_quadrant :=
  (List.range P4EST_CHILDREN).map (fun zz => v (f + zz))

/-- The eight octants of the array `v` from the index `f` on pass
`p4est_quadrant_is_familypv` and the first of them has the child index 0. -/
def coarsen_is_family_at (v : Nat → p4est_quadrant) (f : Nat) : Prop :=
  p4est_quadrant_child_id (v f) = 0 ∧ p4est_quadrant_is_familypv (fun zz => v (f + zz))

instance (v : Nat → p4est_quadrant) (f : Nat) : Decidable (coarsen_is_family_at v f) := by
  unfold coarsen_is_family_at; infer_instance

/-- The position of an octant on the z-curve of the octants of its level. -/
def p4est_quadrant_position (q : p4est_quadrant) : Int :=
  morton_interleave q.level.toNat (q.x / P4EST_QUADRANT_LEN q.level)
    (q.y / P4EST_QUADRANT_LEN q.level) (q.z / P4EST_QUADRANT_LEN q.level)

/-! ## Edges of octants: `src/src/p8est_bits.c`

An `int` that is used as a truth value is an integer; `!inside` is
`c_not inside`. -/

/-- The C operator `!` on an `int`. -/
def c_not (i : Int) : Int := if i = 0 then 1 else 0

/-- The value of a comparison in C: 1 if it holds, else 0. -/
def c_bool (b : Prop) [Decidable b] : Int := if b then 1 else 0

/-- Modelled from the spec: `p4est_quadrant_is_node (q, inside)`, a corner
point: the level is `MAXLEVEL` and the coordinates are in
`[0, ROOT_LEN - inside]` (`p4est_bits.c` is not in `src`). -/
def p4est_quadrant_is_node (q : p4est_quadrant) (inside : Int) : Prop :=
  q.level = P4EST_MAXLEVEL ∧
  (0 ≤ q.x ∧ q.x ≤ P4EST_ROOT_LEN - (if inside = 0 then 0 else 1)) ∧
  (0 ≤ q.y ∧ q.y ≤ P4EST_ROOT_LEN - (if inside = 0 then 0 else 1)) ∧
  (0 ≤ q.z ∧ q.z ≤ P4EST_ROOT_LEN - (if inside = 0 then 0 else 1))

instance (q : p4est_quadrant) (inside : Int) : Decidable (p4est_quadrant_is_node q inside) := by
  unfold p4est_quadrant_is_node; infer_instance

/-- The variable `lower` of `p8est_quadrant_touches_edge`. -/
def touches_edge_lower (q : p4est_quadrant) (inside : Int) : Int :=
  if q.level = P4EST_MAXLEVEL then 0
  else if c_not inside ≠ 0 then -P4EST_QUADRANT_LEN q.level
  else 0

/-- The variable `upper` of `p8est_quadrant_touches_edge` (before the block
for `P4EST_DEBUG`). -/
def touches_edge_upper (q : p4est_quadrant) (inside : Int) : Int :=
  if q.level = P4EST_MAXLEVEL then P4EST_ROOT_LEN - inside
  else if c_not inside ≠ 0 then P4EST_ROOT_LEN
  else P4EST_LAST_OFFSET q.level

/-- The array `quad_contact` of `p8est_quadrant_touches_edge`. -/
def touches_edge_contact (q : p4est_quadrant) (inside : Int) (k : Int) : Int :=
  if k = 0 then c_bool (q.x = touches_edge_lower q inside)
  else if k = 1 then c_bool (q.x = touches_edge_upper q inside)
  else if k = 2 then c_bool (q.y = touches_edge_lower q inside)
  else if k = 3 then c_bool (q.y = touches_edge_upper q inside)
  else if k = 4 then c_bool (q.z = touches_edge_lower q inside)
  else c_bool (q.z = touches_edge_upper q inside)

/-- The value of `incount` at the end of `p8est_quadrant_touches_edge`. -/
def touches_edge_incount (q : p4est_quadrant) (edge : Int) (inside : Int) : Int :=
  let axis := Int.tdiv edge 4
  (if axis ≠ 0 then touches_edge_contact q inside (Int.tmod edge 2) else 0) +
  (if axis ≠ 1 then
    touches_edge_contact q inside
      (2 + (if axis = 0 then Int.tmod edge 2 else Int.tmod (Int.tdiv edge 2) 2))
   else 0) +
  (if axis ≠ 2 then touches_edge_contact q inside (4 + Int.tmod (Int.tdiv edge 2) 2) else 0)

/-- The result of `p8est_quadrant_touches_edge (q, edge, inside)`. -/
def p8est_quadrant_touches_edge (q : p4est_quadrant) (edge : Int) (inside : Int) : Prop :=
  touches_edge_incount q edge inside = 2

instance (q : p4est_quadrant) (edge inside : Int) :
    Decidable (p8est_quadrant_touches_edge q edge inside) := by
  unfold p8est_quadrant_touches_edge; infer_instance

/-- The conditions under `P4EST_ASSERT` in `p8est_quadrant_touches_edge`:
the range of the edge, the kind of the octant, and the range of the
coordinate along the axis of the edge. -/
def p8est_quadrant_touches_edge_asserts (q : p4est_quadrant) (edge : Int) (inside : Int) :
    Prop :=
  (0 ≤ edge ∧ edge < 12) ∧
  (if q.level = P4EST_MAXLEVEL then p4est_quadrant_is_node q inside
   else if c_not inside ≠ 0 then p4est_quadrant_is_extended q
   else p4est_quadrant_is_valid q) ∧
  (Int.tdiv edge 4 ≠ 0 ∨ (q.x ≥ 0 ∧ q.x < P4EST_ROOT_LEN +
    c_bool (q.level = P4EST_MAXLEVEL ∧ c_not inside ≠ 0))) ∧
  (Int.tdiv edge 4 ≠ 1 ∨ (q.y ≥ 0 ∧ q.y < P4EST_ROOT_LEN +
    c_bool (q.level = P4EST_MAXLEVEL ∧ c_not inside ≠ 0))) ∧
  (Int.tdiv edge 4 ≠ 2 ∨ (q.z ≥ 0 ∧ q.z < P4EST_ROOT_LEN +
    c_bool (q.level = P4EST_MAXLEVEL ∧ c_not inside ≠ 0)))

instance (q : p4est_quadrant) (edge inside : Int) :
    Decidable (p8est_quadrant_touches_edge_asserts q edge inside) := by
  unfold p8est_quadrant_touches_edge_asserts; infer_instance

/-- The function `p8est_quadrant_is_outside_edge_extra (q, edge)`: `edge` is
`none` for a null pointer and else holds the value at `*edge`; the result
is the return value with the value at `*edge` after the call, and `none`
for `SC_ABORT_NOT_REACHED`. -/
def p8est_quadrant_is_outside_edge_extra (q : p4est_quadrant) (edge : Option Int) :
    Option (Int × Option Int) :=
  let qc0 := c_bool (q.x < 0)
  let qc1 := c_bool (q.x ≥ P4EST_ROOT_LEN)
  let qc2 := c_bool (q.y < 0)
  let qc3 := c_bool (q.y ≥ P4EST_ROOT_LEN)
  let qc4 := c_bool (q.z < 0)
  let qc5 := c_bool (q.z ≥ P4EST_ROOT_LEN)
  let fa0 := c_bool (qc0 ≠ 0 ∨ qc1 ≠ 0)
  let fa1 := c_bool (qc2 ≠ 0 ∨ qc3 ≠ 0)
  let fa2 := c_bool (qc4 ≠ 0 ∨ qc5 ≠ 0)
  if fa0 + fa1 + fa2 ≠ 2 then some (0, edge)
  else
    match edge with
    | none => some (1, none)
    | some _ =>
      if fa0 = 0 then some (1, some (0 + 2 * qc5 + qc3))
      else if fa1 = 0 then some (1, some (4 + 2 * qc5 + qc1))
      else if fa2 = 0 then some (1, some (8 + 2 * qc3 + qc1))
      else none

/-- The fields of `p8est_edge_transform_t`; `naxis0`, `naxis1`, `naxis2` are
the entries of the array `naxis`. -/
structure p8est_edge_transform_t where
  ntree : Int
  nedge : Int
  naxis0 : Int
  naxis1 : Int
  naxis2 : Int
  nflip : Int
  corners : Int
deriving DecidableEq, Repr

/-- The assignment `*target_xyz[axis] = v` on the octant `r`; `none` for an
index outside the array `target_xyz`. -/
def target_xyz_store (r : p4est_quadrant) (axis : Int) (v : Int) : Option p4est_quadrant :=
  if axis = 0 then some { r with x := v }
  else if axis = 1 then some { r with y := v }
  else if axis = 2 then some { r with z := v }
  else none

/-- The function `p8est_quadrant_transform_edge (q, r, ei, et, inside)` with
`iedge` for `ei->iedge`; `r` is the octant at `*r` before the call and the
result is the octant at `*r` after it, or `none` for `SC_ABORT_NOT_REACHED`
and for an index outside `target_xyz`. -/
def p8est_quadrant_transform_edge (q r : p4est_quadrant) (iedge : Int)
    (et : p8est_edge_transform_t) (inside : Int) : Option p4est_quadrant :=
  let iaxis := Int.tdiv iedge 4
  let mh : Int := if q.level = P4EST_MAXLEVEL then 0 else -P4EST_QUADRANT_LEN q.level
  let Rmh : Int := if q.level = P4EST_MAXLEVEL then P4EST_ROOT_LEN else P4EST_ROOT_LEN + mh
  let lshift : Int :=
    if q.level = P4EST_MAXLEVEL then 0 else (if inside ≠ 0 then 0 else mh)
  let rshift : Int :=
    if q.level = P4EST_MAXLEVEL then P4EST_ROOT_LEN
    else (if inside ≠ 0 then Rmh else P4EST_ROOT_LEN)
  -- transform coordinate axis parallel to edge
  match (if iaxis = 0 then some q.x else if iaxis = 1 then some q.y
         else if iaxis = 2 then some q.z else none) with
  | none => none
  | some my_xyz =>
    match target_xyz_store r et.naxis0 (if c_not et.nflip ≠ 0 then my_xyz else Rmh - my_xyz) with
    | none => none
    | some r1 =>
      -- create the other two coordinates
      match (if et.corners = 0 then some (lshift, lshift)
             else if et.corners = 1 then some (rshift, lshift)
             else if et.corners = 2 then some (lshift, rshift)
             else if et.corners = 3 then some (rshift, rshift) else none) with
      | none => none
      | some (v1, v2) =>
        match target_xyz_store r1 et.naxis1 v1 with
        | none => none
        | some r2 =>
          match target_xyz_store r2 et.naxis2 v2 with
          | none => none
          | some r3 => some { r3 with level := q.level }

/-- The loop over the edge transforms in `p8est_quadrant_edge_neighbor_extra`:
each round pushes one octant and one tree number. `fresh` is the content of
a slot of `quads` after `sc_array_push`. -/
def edge_neighbor_extra_loop (temp fresh : p4est_quadrant) (iedge : Int) :
    List p8est_edge_transform_t → List p4est_quadrant → List Int →
      Option (List p4est_quadrant × List Int)
  | [], quads, treeids => some (quads, treeids)
  | et :: ets, quads, treeids =>
    match p8est_quadrant_transform_edge temp fresh iedge et 1 with
    | none => none
    | some qp => edge_neighbor_extra_loop temp fresh iedge ets (quads ++ [qp])
        (treeids ++ [et.ntree])

/-- The function `p8est_quadrant_edge_neighbor_extra` on the empty arrays
`quads` and `treeids`: the result is their content on return. The functions
`p4est_quadrant_face_neighbor`, `p8est_quadrant_face_neighbor_extra` (which
returns the tree number and the octant it stores at `*r`) and
`p8est_find_edge_transform` (which returns `ei.iedge` and the edge
transforms) and the table `p8est_edge_faces` are not in `src` and are
arguments; `sc_array_push` appends a slot with the content `fresh` and
`sc_array_pop` removes the last slot. -/
def p8est_quadrant_edge_neighbor_extra
    (face_neighbor : p4est_quadrant → Int → p4est_quadrant)
    (face_neighbor_extra : p4est_quadrant → Int → Int → p4est_quadrant → Int × p4est_quadrant)
    (find_edge_transform : Int → Int → Int × List p8est_edge_transform_t)
    (edge_faces : Int → Int → Int) (fresh : p4est_quadrant)
    (q : p4est_quadrant) (t : Int) (edge : Int) : Option (List p4est_quadrant × List Int) :=
  match p8est_quadrant_edge_neighbor q edge with
  | none => none
  | some temp =>
    if p4est_quadrant_is_inside_root temp then some ([temp], [t])
    else if ¬ p8est_quadrant_is_outside_edge temp then
      let temp1 := face_neighbor q (edge_faces edge 0)
      if p4est_quadrant_is_inside_root temp1 then
        let res := face_neighbor_extra temp1 t (edge_faces edge 1) fresh
        if res.1 = -1 then some ([], []) else some ([res.2], [res.1])
      else
        let temp2 := face_neighbor q (edge_faces edge 1)
        let res := face_neighbor_extra temp2 t (edge_faces edge 0) fresh
        if res.1 = -1 then some ([], []) else some ([res.2], [res.1])
    else
      let ei := find_edge_transform t edge
      edge_neighbor_extra_loop temp fresh ei.1 ei.2 [] []

/-- The value of `num_quadrants` after the loop over the levels in
`p4est_coarsen_old`: the sum of `quadrants_per_level[i]` for
`0 <= i <= P4EST_QMAXLEVEL`. -/
def coarsen_num_quadrants (per_level : Int → Int) : Int :=
  ((List.range (P4EST_QMAXLEVEL + 1)).map (fun i : Nat => per_level (i : Int))).sum

/-- The number of the calls of `coarsen_fn` in the list that returned true:
the number of the families that were coarsened. -/
def coarsen_accepted (invoked : List (List p4est_quadrant × Bool)) : Nat :=
  (invoked.filter (fun c => c.2)).length

/-- The relation between the counters of the sweep, the list of the calls of
`coarsen_fn` and the octants of the tree at the head of the loop, for a tree
of `n` octants and `loc` local octants at the start. -/
def coarsen_books (n : Nat) (loc : Int) (s : coarsen_state) : Prop :=
  s.removed = 7 * coarsen_accepted s.invoked ∧
  coarsen_view_count s + s.removed = n ∧
  coarsen_num_quadrants s.quadrants_per_level = coarsen_view_count s ∧
  s.local_num_quadrants = loc - s.removed ∧
  ∀ i, i < coarsen_view_count s →
    0 ≤ (coarsen_view s i).level ∧ (coarsen_view s i).level ≤ P4EST_QMAXLEVEL

/-! ### The reduction `sc_reduce_max` -/

/-- Modelled from the spec: the header that declares `MPI_Datatype` and its
constants is not part of the sources at hand. The twelve constants that
`sc_reduce_max` names are taken as pairwise distinct; `other n` stands for
every other value of the type. -/
inductive MPI_Datatype where
  | MPI_CHAR
  | MPI_BYTE
  | MPI_SHORT
  | MPI_UNSIGNED_SHORT
  | MPI_INT
  | MPI_UNSIGNED
  | MPI_LONG
  | MPI_UNSIGNED_LONG
  | MPI_LONG_LONG_INT
  | MPI_FLOAT
  | MPI_DOUBLE
  | MPI_LONG_DOUBLE
  | other (n : Nat)
deriving DecidableEq, Repr

/-- The representation of the arithmetic types of C that `sc_reduce_max`
uses, which the source leaves to the compiler: the width in bits of each
integer type, whether `char` is signed, and for each floating type the
comparison `>` on the contents of two elements. -/
structure c_platform where
  char_signed : Bool
  char_bits : Nat
  short_bits : Nat
  int_bits : Nat
  long_bits : Nat
  long_long_bits : Nat
  float_gt : Nat → Nat → Bool
  double_gt : Nat → Nat → Bool
  long_double_gt : Nat → Nat → Bool

/-- The value of an integer object of `bits` bits with the contents `c`, in
two's complement when the type is signed. -/
def c_value (bits : Nat) (signed : Bool) (c : Nat) : Int :=
  if signed = true ∧ 2 ^ (bits - 1) ≤ c % 2 ^ bits then ((c % 2 ^ bits : Nat) : Int) - 2 ^ bits
  else ((c % 2 ^ bits : Nat) : Int)

/-- The comparison `a > b` of two integer objects of `bits` bits. -/
def c_gt (bits : Nat) (signed : Bool) (a b : Nat) : Bool :=
  decide (c_value bits signed a > c_value bits signed b)

/-- The loop `for (i = 0; i < sendcount; ++i) if (s[i] > r[i]) r[i] = s[i];`
from the index `i` on, with `k` rounds left; `gt` is the comparison of the
element type. -/
def reduce_max_loop (gt : Nat → Nat → Bool) (s : Nat → Nat) :
    Nat → Nat → (Nat → Nat) → (Nat → Nat)
  | 0, _, r => r
  | k + 1, i, r =>
    reduce_max_loop gt s k (i + 1) (if gt (s i) (r i) = true then Function.update r i (s i) else r)

/-- The function `sc_reduce_max`. A buffer is the sequence of the contents of
its elements, read with the element type of the case; the two buffers are
separate objects, as at the call in `sc_reduce_recursive`, where `sendbuf` is a
fresh allocation. The result is the pair of `sendbuf` and `recvbuf` after the
call; `none` is `SC_ABORT`. -/
def sc_reduce_max (pf : c_platform) (sendbuf recvbuf : Nat → Nat) (sendcount : Int)
    (sendtype : MPI_Datatype) : Option ((Nat → Nat) × (Nat → Nat)) :=
  match sendtype with
  | .MPI_CHAR | .MPI_BYTE =>
    some (sendbuf, reduce_max_loop (c_gt pf.char_bits pf.char_signed) sendbuf
      sendcount.toNat 0 recvbuf)
  | .MPI_SHORT =>
    some (sendbuf, reduce_max_loop (c_gt pf.short_bits true) sendbuf sendcount.toNat 0 recvbuf)
  | .MPI_UNSIGNED_SHORT =>
    some (sendbuf, reduce_max_loop (c_gt pf.short_bits false) sendbuf sendcount.toNat 0 recvbuf)
  | .MPI_INT =>
    some (sendbuf, reduce_max_loop (c_gt pf.int_bits true) sendbuf sendcount.toNat 0 recvbuf)
  | .MPI_UNSIGNED =>
    some (sendbuf, reduce_max_loop (c_gt pf.int_bits false) sendbuf sendcount.toNat 0 recvbuf)
  | .MPI_LONG =>
    some (sendbuf, reduce_max_loop (c_gt pf.long_bits true) sendbuf sendcount.toNat 0 recvbuf)
  | .MPI_UNSIGNED_LONG =>
    some (sendbuf, reduce_max_loop (c_gt pf.long_bits false) sendbuf sendcount.toNat 0 recvbuf)
  | .MPI_LONG_LONG_INT =>
    some (sendbuf, reduce_max_loop (c_gt pf.long_long_bits true) sendbuf
      sendcount.toNat 0 recvbuf)
  | .MPI_FLOAT =>
    some (sendbuf, reduce_max_loop pf.float_gt sendbuf sendcount.toNat 0 recvbuf)
  | .MPI_DOUBLE =>
    some (sendbuf, reduce_max_loop pf.double_gt sendbuf sendcount.toNat 0 recvbuf)
  | .MPI_LONG_DOUBLE =>
    some (sendbuf, reduce_max_loop pf.long_double_gt sendbuf sendcount.toNat 0 recvbuf)
  | .other _ => none

/-- The integer type of the elements for the integer datatypes of
`sc_reduce_max`: its width in bits and whether it is signed. -/
def reduce_int_type (pf : c_platform) : MPI_Datatype → Option (Nat × Bool)
  | .MPI_CHAR | .MPI_BYTE => some (pf.char_bits, pf.char_signed)
  | .MPI_SHORT => some (pf.short_bits, true)
  | .MPI_UNSIGNED_SHORT => some (pf.short_bits, false)
  | .MPI_INT => some (pf.int_bits, true)
  | .MPI_UNSIGNED => some (pf.int_bits, false)
  | .MPI_LONG => some (pf.long_bits, true)
  | .MPI_UNSIGNED_LONG => some (pf.long_bits, false)
  | .MPI_LONG_LONG_INT => some (pf.long_long_bits, true)
  | _ => none

/-- The datatypes that `sc_reduce_max` names. -/
def reduce_supported : List MPI_Datatype :=
  [.MPI_CHAR, .MPI_BYTE, .MPI_SHORT, .MPI_UNSIGNED_SHORT, .MPI_INT, .MPI_UNSIGNED, .MPI_LONG,
   .MPI_UNSIGNED_LONG, .MPI_LONG_LONG_INT, .MPI_FLOAT, .MPI_DOUBLE, .MPI_LONG_DOUBLE]

/-- Modelled from the spec: a platform with the widths that the spec names
(`char` as int8, `short` as int16, `int` as int32, `long` and `long long` as
int64); the floating types are compared as the natural numbers of their
contents here. -/
def lp64 : c_platform :=
  { char_signed := true, char_bits := 8, short_bits := 16, int_bits := 32, long_bits := 64
    long_long_bits := 64
    float_gt := fun a b => decide (a > b)
    double_gt := fun a b => decide (a > b)
    long_double_gt := fun a b => decide (a > b) }

/-! ### The calls of `coarsen_fn` and the states of the loop -/

/-- The eight candidates `c` of a call of `coarsen_fn` pass
`p4est_quadrant_is_familypv`, the first of them has the child index 0, and
they are the children of the parent of the first, in the order of the child
index. -/
def coarsen_invocation_family (c : List p4est_quadrant) : Prop :=
  c.length = P4EST_CHILDREN ∧
  p4est_quadrant_is_familypv (fun zz => c.getD zz root_octant) ∧
  p4est_quadrant_child_id (c.getD 0 root_octant) = 0 ∧
  ∀ zz : Nat, zz < P4EST_CHILDREN →
    c.getD zz root_octant =
      p4est_quadrant_child (p4est_quadrant_parent (c.getD 0 root_octant)) (zz : Int)

instance (c : List p4est_quadrant) : Decidable (coarsen_invocation_family c) := by
  unfold coarsen_invocation_family; infer_instance

/-- The states at the head of the loop of the sweep that starts in `s0`: the
state `s0`, and the state after a round of the loop from such a state in which
the condition of the loop holds. -/
inductive coarsen_reached (coarsen_recursive : Bool)
    (coarsen_fn : Nat → List p4est_quadrant → Bool) (s0 : coarsen_state) :
    coarsen_state → Prop where
  | start : coarsen_reached coarsen_recursive coarsen_fn s0 s0
  | round (s s1 : coarsen_state) :
    coarsen_reached coarsen_recursive coarsen_fn s0 s → coarsen_continues s →
    coarsen_step coarsen_recursive coarsen_fn s = .ok s1 →
    coarsen_reached coarsen_recursive coarsen_fn s0 s1

/-! ### Capacity and count of an array -/

/-- The capacity of the array is 0 when its count is 0, and otherwise the
smallest power of two that is at least its count. -/
def sc3_array_capacity_tracks (a : sc3_array) : Prop :=
  (a.ecount = 0 → a.ealloc = 0) ∧ (a.ecount ≠ 0 → is_least_pow2_ge a.ecount a.ealloc)

/-- A freshly created array with `resizable` and `tighten` set, after
`sc3_array_setup` with the allocator `allocator_granting`. -/
def fresh_tighten_array : sc3_array :=
  (sc3_array_setup allocator_granting
    (sc3_array_set_tighten allocator_granting
      (sc3_array_set_resizable allocator_granting sc3_array_new_value 1).2 1).2).2

/-! ### Calls that configure a new array -/

/-- A call of one of the functions that set a parameter of a new array. -/
inductive sc3_array_setting where
  | elem_size (esize : Nat)
  | elem_count (ecount : Int)
  | elem_alloc (ealloc : Int)
  | initzero (initzero : Int)
  | resizable (resizable : Int)
  | tighten (tighten : Int)
  deriving DecidableEq, Repr

/-- The error a configuring call returns and the array it leaves. -/
def sc3_array_setting_run (al : sc3_allocator) (a : sc3_array) :
    sc3_array_setting → Option sc3_error × sc3_array
  | .elem_size esize => sc3_array_set_elem_size al a esize
  | .elem_count ecount => sc3_array_set_elem_count al a ecount
  | .elem_alloc ealloc => sc3_array_set_elem_alloc al a ealloc
  | .initzero initzero => sc3_array_set_initzero al a initzero
  | .resizable resizable => sc3_array_set_resizable al a resizable
  | .tighten tighten => sc3_array_set_tighten al a tighten

/-- The array after a sequence of configuring calls that all succeed; `none`
when a call fails. -/
def sc3_array_settings_run (al : sc3_allocator) :
    List sc3_array_setting → sc3_array → Option sc3_array
  | [], a => some a
  | c :: cs, a =>
    match sc3_array_setting_run al a c with
    | (none, a1) => sc3_array_settings_run al cs a1
    | (some _, _) => none

/-! ### The split without the order of the types -/

/-- The part of the invariants of the loop of `sc3_array_split` that holds
whether or not the types are sorted, between the probe and the inner loop:
the ranges of `step`, `low` and `high`, `high = offsets[step]`,
`offsets[0] = 0`, `offsets[T] = N`, the offsets below `step` are at most `low`,
those from `step` on are at least `low`, and the offsets do not decrease. -/
def split_ord (N T low high step : Int) (cells : Int → Int) : Prop :=
  1 ≤ step ∧ step < T ∧ 0 ≤ low ∧ low ≤ high ∧ high ≤ N ∧ high = cells step ∧
  cells 0 = 0 ∧ cells T = N ∧
  (∀ i, 0 ≤ i → i < step → cells i ≤ low) ∧
  (∀ i, step ≤ i → i ≤ T → low ≤ cells i) ∧
  (∀ i j, 0 ≤ i → i ≤ j → j ≤ T → cells i ≤ cells j)

/-- The values of `low`, `high`, `step` and of the elements of `offsets` at
the head of the loop `for (;;)` of `sc3_array_split`, which is entered with
`low = 0`, `high = count`, `step = 1` and the elements `cells0`: a round is a
probe without an error followed by an inner loop that ends with its condition
false. -/
inductive split_reached (al : sc3_allocator) (offsets : sc3_array) (num_types : Int)
    (type_fn : Int → Option Int) (count : Int) (cells0 : Int → Int) :
    Int → Int → Int → (Int → Int) → Prop where
  | start : split_reached al offsets num_types type_fn count cells0 0 count 1 cells0
  | round (low high step : Int) (cells : Int → Int) (low1 high1 : Int) (cells1 : Int → Int)
      (k : Nat) (high2 step2 : Int) :
    split_reached al offsets num_types type_fn count cells0 low high step cells →
    split_probe al offsets num_types type_fn low high step cells = (none, low1, high1, cells1) →
    split_advance al offsets num_types cells1 low1 k high1 step = .again high2 step2 →
    split_reached al offsets num_types type_fn count cells0 low1 high2 step2 cells1

/-! ### `p8est_quadrant_shift_edge`

The bit operations on the `int`s `edge` and `cid`, which are not negative, are
written with division and remainder: `v & 0x01` is `v % 2`, `v & 0x02` is
`2 * (v / 2 % 2)` and `v & 0x04` is `4 * (v / 4 % 2)`.  The bits that
`outface |= ...` sets are distinct, so `outface` is their sum.  The
coordinates stay between `-2 * ROOT_LEN` and `2 * ROOT_LEN`, so the arithmetic
of `p4est_qcoord_t` is exact. -/

/-- Outcomes of the model of `p8est_quadrant_shift_edge` that are no result of
the C code. -/
inductive shift_edge_error where
  /-- The statement `SC_ABORT_NOT_REACHED ()`. -/
  | not_reached
  /-- The loop bound of the model is exhausted. -/
  | unfinished
deriving DecidableEq, Repr

/-- The table `contact` of `p8est_quadrant_shift_edge`. -/
def shift_edge_contact (edge : Int) : Int :=
  [0x14, 0x18, 0x24, 0x28, 0x11, 0x12, 0x21, 0x22, 0x05, 0x06, 0x09, 0x0a].getD edge.toNat 0

/-- The statement `switch (edge / 4)` of `p8est_quadrant_shift_edge`: the
values of `sid`, `step[0]`, `step[1]` and `step[2]`, or `none` for
`SC_ABORT_NOT_REACHED`. -/
def shift_edge_switch (edge cid : Int) : Option (Int × Int × Int × Int) :=
  if Int.tdiv edge 4 = 0 then
    some (2 * edge + cid % 2, 0, 2 * (edge % 2) - 1, 2 * (edge / 2 % 2) - 1)
  else if Int.tdiv edge 4 = 1 then
    some (2 * (2 * (edge / 2 % 2)) + edge % 2 + 2 * (cid / 2 % 2),
      2 * (edge % 2) - 1, 0, 2 * (edge / 2 % 2) - 1)
  else if Int.tdiv edge 4 = 2 then
    some (edge - 8 + 4 * (cid / 4 % 2), 2 * (edge % 2) - 1, 2 * (edge / 2 % 2) - 1, 0)
  else none

/-- The value of `outface` for the octant `r`, the steps and `th`. -/
def shift_edge_outface (r : p4est_quadrant) (s0 s1 s2 th : Int) : Int :=
  (if s0 ≠ 0 then (if r.x ≤ 0 then 0x01 else 0) + (if r.x ≥ th then 0x02 else 0) else 0) +
  (if s1 ≠ 0 then (if r.y ≤ 0 then 0x04 else 0) + (if r.y ≥ th then 0x08 else 0) else 0) +
  (if s2 ≠ 0 then (if r.z ≤ 0 then 0x10 else 0) + (if r.z ≥ th then 0x20 else 0) else 0)

/-- The loop `for (;;)` of `p8est_quadrant_shift_edge` from the octant `quad`,
with at most `fuel` rounds: the result holds `r`, the three steps and `th` at
the `break`. -/
def shift_edge_loop (edge : Int) :
    Nat → p4est_quadrant → Except shift_edge_error (p4est_quadrant × Int × Int × Int × Int)
  | 0, _ => .error .unfinished
  | fuel + 1, quad =>
    let th := P4EST_LAST_OFFSET quad.level
    let cid := p4est_quadrant_child_id quad
    match shift_edge_switch edge cid with
    | none => .error .not_reached
    | some (sid, s0, s1, s2) =>
      let r := p4est_quadrant_sibling quad sid
      if shift_edge_outface r s0 s1 s2 th = shift_edge_contact edge then .ok (r, s0, s1, s2, th)
      else
        let p := p4est_quadrant_parent quad
        shift_edge_loop edge fuel
          { x := p.x + s0 * P4EST_QUADRANT_LEN p.level,
            y := p.y + s1 * P4EST_QUADRANT_LEN p.level,
            z := p.z + s2 * P4EST_QUADRANT_LEN p.level,
            level := p.level }

/-- The statements after the loop for one coordinate `c` of `r` with the step
`s`: `if (step != 0) { if (c < 0) c = 0; if (c >= P4EST_ROOT_LEN) c = th; }`. -/
def shift_edge_clamp (s c th : Int) : Int :=
  if s ≠ 0 then
    if (if c < 0 then 0 else c) ≥ P4EST_ROOT_LEN then th else (if c < 0 then 0 else c)
  else c

/-- The function `p8est_quadrant_shift_edge (q, r, edge)`, with at most `fuel`
rounds of its loop: the result is `r`. -/
def p8est_quadrant_shift_edge (q : p4est_quadrant) (edge : Int) (fuel : Nat) :
    Except shift_edge_error p4est_quadrant :=
  match shift_edge_loop edge fuel q with
  | .error e => .error e
  | .ok (r, s0, s1, s2, th) =>
    .ok { x := shift_edge_clamp s0 r.x th, y := shift_edge_clamp s1 r.y th,
          z := shift_edge_clamp s2 r.z th, level := r.level }

/-- The condition on one coordinate `c` of `r` with the step `s` under which
the loop of `p8est_quadrant_shift_edge` is left. -/
def shift_axis_ok (s c th : Int) : Prop :=
  s = 0 ∨ (s = -1 ∧ c ≤ 0 ∧ ¬ c ≥ th) ∨ (s = 1 ∧ ¬ c ≤ 0 ∧ c ≥ th)

/-- The range of one coordinate `c` of `quad` with the step `s` at the level
`n` in the loop of `p8est_quadrant_shift_edge`: a multiple `k` of the length
at the level, with `k` inside the root when the step is 0, not above it when
the step is -1 and not below it when the step is 1. -/
def shift_axis_inv (s c : Int) (n : Nat) : Prop :=
  ∃ k : Int, c = k * 2 ^ (P4EST_MAXLEVEL - n) ∧ -2 ≤ k ∧ k ≤ 2 ^ n + 1 ∧
    (s = 0 → 0 ≤ k ∧ k < 2 ^ n) ∧ (s = -1 → k < 2 ^ n) ∧ (s = 1 → 0 ≤ k)

/-- The value of `step[axis]` that the switch of `p8est_quadrant_shift_edge`
sets for the edge: 0 along the axis of the edge, and -1 or 1 by the bits of
the edge across it. -/
def shift_edge_step (edge axis : Int) : Int :=
  if Int.tdiv edge 4 = axis then 0
  else if axis = 0 ∨ (axis = 1 ∧ Int.tdiv edge 4 = 0) then 2 * (edge % 2) - 1
  else 2 * (edge / 2 % 2) - 1

/-- The coordinate of the sibling `r` of `quad` in the loop of
`p8est_quadrant_shift_edge`, for the coordinate `c` of `quad` with the step `s`
at the level `n`: the bit of the level is kept when the step is 0, cleared
when the step is -1 and set when the step is 1. -/
def shift_axis_sibling (s c : Int) (n : Nat) : Int :=
  c - c / 2 ^ (P4EST_MAXLEVEL - n) % 2 * 2 ^ (P4EST_MAXLEVEL - n) +
    (if s = 0 then c / 2 ^ (P4EST_MAXLEVEL - n) % 2 else (s + 1) / 2) *
      2 ^ (P4EST_MAXLEVEL - n)

/-- The coordinate `f` of the result of `p8est_quadrant_shift_edge` with the
step `s` at the level `n`: a multiple of the length at the level in
`[0, th]`, 0 when the step is -1 and `th` when the step is 1. -/
def shift_axis_end (s f th : Int) (n : Nat) : Prop :=
  f % 2 ^ (P4EST_MAXLEVEL - n) = 0 ∧ 0 ≤ f ∧ f ≤ th ∧ (s = -1 → f = 0) ∧ (s = 1 → f = th)
/-! ## Arithmetic lemmas -/

theorem int_wrap_of_range (x : Int) (h0 : -2 ^ 31 ≤ x) (h1 : x < 2 ^ 31) : int_wrap x = x := by
  unfold int_wrap SC3_INT_BITS
  norm_num at h0 h1 ⊢
  omega

theorem SC3_INT_HPOW_eq : SC3_INT_HPOW = 2 ^ 30 := by
  unfold SC3_INT_HPOW SC3_INT_BITS; norm_num

theorem SC3_ISPOWOF2_bounds {x : Int} (h : SC3_ISPOWOF2 x) : 1 ≤ x ∧ x ≤ 2 ^ 30 := by
  obtain ⟨k, hk, rfl⟩ := h
  unfold SC3_INT_BITS at hk
  constructor
  · exact one_le_pow₀ (by norm_num)
  · exact pow_le_pow_right₀ (by norm_num) (by omega)

theorem resize_grow_spec (n : Int) (hn : n ≤ 2 ^ 30) :
    ∀ (k j : Nat), 30 ≤ j + k → j ≤ 30 → (∀ i : Nat, i < j → (2 : Int) ^ i < n) →
      ∃ m : Nat, m ≤ 30 ∧ resize_grow n k (2 ^ j) = some (2 ^ m) ∧ n ≤ 2 ^ m ∧
        (∀ i : Nat, i < m → (2 : Int) ^ i < n) := by
  intro k
  induction k with
  | zero =>
    intro j hjk hj hlt
    have : j = 30 := by omega
    subst this
    exact ⟨30, le_refl _, by simp [resize_grow]; omega, hn, hlt⟩
  | succ k ih =>
    intro j hjk hj hlt
    by_cases hgt : n > 2 ^ j
    · have hj30 : j < 30 := by
        by_contra hc
        have : j = 30 := by omega
        subst this
        omega
      have hw : int_wrap (2 ^ j * 2) = 2 ^ (j + 1) := by
        have h1 : (2 : Int) ^ (j + 1) ≤ 2 ^ 30 := pow_le_pow_right₀ (by norm_num) (by omega)
        have h2 : (0 : Int) < 2 ^ (j + 1) := by positivity
        rw [← pow_succ]
        apply int_wrap_of_range <;> omega
      obtain ⟨m, hm, hr, hnm, hl⟩ := ih (j + 1) (by omega) (by omega) (by
        intro i hi
        rcases Nat.lt_succ_iff_lt_or_eq.mp hi with h | h
        · exact hlt i h
        · subst h; exact hgt)
      refine ⟨m, hm, ?_, hnm, hl⟩
      simp only [resize_grow, hgt, if_true, hw]
      exact hr
    · refine ⟨j, hj, ?_, by omega, hlt⟩
      simp only [resize_grow, hgt, if_false]

theorem resize_shrink_spec (n : Int) (hn : 1 ≤ n) :
    ∀ (k j : Nat), j ≤ k → n ≤ 2 ^ j →
      ∃ m : Nat, m ≤ j ∧ resize_shrink n k (2 ^ j) = some (2 ^ m) ∧ n ≤ 2 ^ m ∧
        (∀ i : Nat, i < m → (2 : Int) ^ i < n) := by
  intro k
  induction k with
  | zero =>
    intro j hjk hnj
    have : j = 0 := by omega
    subst this
    refine ⟨0, le_refl _, ?_, hnj, by intro i hi; omega⟩
    have h12 : Int.tdiv 1 2 = 0 := by decide
    simp [resize_shrink, h12]; omega
  | succ k ih =>
    intro j hjk hnj
    cases j with
    | zero =>
      refine ⟨0, le_refl _, ?_, hnj, by intro i hi; omega⟩
      have h12 : Int.tdiv 1 2 = 0 := by decide
      simp [resize_shrink, h12]; omega
    | succ j =>
      have hdiv : Int.tdiv (2 ^ (j + 1)) 2 = 2 ^ j := by
        rw [Int.tdiv_eq_ediv (by positivity) (by norm_num), pow_succ]
        simp
      by_cases hge : (2 : Int) ^ j ≥ n
      · obtain ⟨m, hm, hr, hnm, hl⟩ := ih j (by omega) hge
        refine ⟨m, by omega, ?_, hnm, hl⟩
        simp only [resize_shrink, hdiv, hge, if_true]
        exact hr
      · refine ⟨j + 1, le_refl _, ?_, hnj, ?_⟩
        · simp only [resize_shrink, hdiv, hge, if_false]
        · intro i hi
          have : (2 : Int) ^ i ≤ 2 ^ j := pow_le_pow_right₀ (by norm_num) (by omega)
          omega

theorem is_least_pow2_ge_of_lt {n : Int} {m : Nat} (hnm : n ≤ 2 ^ m)
    (hl : ∀ i : Nat, i < m → (2 : Int) ^ i < n) : is_least_pow2_ge n (2 ^ m) := by
  refine ⟨m, rfl, hnm, ?_⟩
  intro i hi
  by_contra hc
  have := hl i (by omega)
  omega

theorem SC3_ISPOWOF2_pow {m : Nat} (hm : m ≤ 30) : SC3_ISPOWOF2 (2 ^ m) :=
  ⟨m, by unfold SC3_INT_BITS; omega, rfl⟩

/-! ## Lemmas on the array functions -/

theorem sc3_array_is_setup_iff (al : sc3_allocator) (a : sc3_array) :
    sc3_array_is_setup al a ↔
      (1 ≤ a.rc.rc ∧ al.setup = true ∧ 0 ≤ a.ecount ∧ 0 ≤ a.ealloc ∧ a.setup ≠ 0 ∧
        (a.mem ≠ 0 ∨ size_mul (sc3_size_t a.ecount) a.esize = 0) ∧
        (a.ealloc = 0 ∨ SC3_ISPOWOF2 a.ealloc) ∧ a.ecount ≤ a.ealloc) := by
  unfold sc3_array_is_setup sc3_array_is_valid sc3_refcount_is_valid sc3_allocator_is_setup
  by_cases hs : a.setup = 0
  · simp [hs]
  · simp only [hs, if_false]
    tauto

/-- The value of `sc3_array_resize` on a resizable array and a count in range:
either the capacity changes to `e`, the smallest fitting power of two (or 0
for the count 0 with `tighten`), and the buffer is reallocated, or the
capacity and the buffer are kept. -/
theorem sc3_array_resize_eq (al : sc3_allocator) (a : sc3_array) (n : Int)
    (hres : sc3_array_is_resizable al a) (h0 : 0 ≤ n) (h1 : n ≤ SC3_INT_HPOW) :
    (∃ e : Int,
      (((n > a.ealloc ∨ (a.tighten ≠ 0 ∧ n < a.ealloc ∧ n ≠ 0)) ∧
          is_least_pow2_ge n e ∧ SC3_ISPOWOF2 e) ∨
        (a.tighten ≠ 0 ∧ n < a.ealloc ∧ n = 0 ∧ e = 0)) ∧
      sc3_array_resize al a n =
        match al.realloc a.mem (size_mul (sc3_size_t e) a.esize) with
        | none => (some .nomem, { a with ealloc := e })
        | some p => (none, { a with ealloc := e, mem := p, ecount := n })) ∨
    ((n ≤ a.ealloc ∧ (a.tighten = 0 ∨ n = a.ealloc ∨
        (n ≠ 0 ∧ is_least_pow2_ge n a.ealloc))) ∧
      sc3_array_resize al a n = (none, { a with ecount := n })) := by
  have hrange : 0 ≤ n ∧ n ≤ SC3_INT_HPOW := ⟨h0, h1⟩
  have hset := (sc3_array_is_setup_iff al a).mp hres.1
  obtain ⟨_, _, hec, hea, _, _, hpow, hle⟩ := hset
  have hn30 : n ≤ 2 ^ 30 := by rw [← SC3_INT_HPOW_eq]; exact hrange.2
  by_cases hgt : n > a.ealloc
  · -- the capacity grows
    have hgrow : ∃ m : Nat, m ≤ 30 ∧
        resize_grow n SC3_INT_BITS (if a.ealloc = 0 then 1 else a.ealloc)
          = some (2 ^ m) ∧ n ≤ 2 ^ m ∧ (∀ i : Nat, i < m → (2 : Int) ^ i < n) := by
      rcases hpow with h0 | ⟨j, hj, hj2⟩
      · simp only [h0, if_true]
        have := resize_grow_spec n hn30 SC3_INT_BITS 0 (by unfold SC3_INT_BITS; omega)
          (by omega) (by intro i hi; omega)
        simpa using this
      · have hne : a.ealloc ≠ 0 := by
          have : (0 : Int) < 2 ^ j := by positivity
          omega
        simp only [hne, if_false]
        unfold SC3_INT_BITS at hj
        rw [hj2]
        refine resize_grow_spec n hn30 SC3_INT_BITS j (by unfold SC3_INT_BITS; omega)
          (by omega) ?_
        intro i hi
        have : (2 : Int) ^ i ≤ 2 ^ j := pow_le_pow_right₀ (by norm_num) (by omega)
        omega
    obtain ⟨m, hm, hg, hnm, hl⟩ := hgrow
    have hleast := is_least_pow2_ge_of_lt hnm hl
    have hp2 := SC3_ISPOWOF2_pow hm
    refine Or.inl ⟨2 ^ m, Or.inl ⟨Or.inl hgt, hleast, hp2⟩, ?_⟩
    by_cases h0 : a.ealloc = 0
    · simp only [h0, if_true] at hg
      have hgt0 : n > 0 := by omega
      simp only [sc3_array_resize, hres, hrange, hgt0, h0, hg, hnm, not_true_eq_false,
        if_false, if_true, and_self]
    · simp only [h0, if_false] at hg
      simp only [sc3_array_resize, hres, hrange, hgt, h0, hg, hnm, not_true_eq_false,
        if_false, if_true, and_self]
  · by_cases ht : a.tighten ≠ 0 ∧ n < a.ealloc
    · by_cases hn0 : n = 0
      · subst hn0
        refine Or.inl ⟨0, Or.inr ⟨ht.1, ht.2, rfl, rfl⟩, ?_⟩
        simp only [sc3_array_resize, hres, hrange, hgt, ht, not_true_eq_false,
          if_false, if_true, and_self, ne_eq, not_false_eq_true, false_and, le_refl]
      · -- the halving loop
        have hn1 : 1 ≤ n := by omega
        have hne : a.ealloc ≠ 0 := by omega
        obtain ⟨j, hj, hj2⟩ := hpow.resolve_left hne
        unfold SC3_INT_BITS at hj
        obtain ⟨m, hm, hs, hnm, hl⟩ := resize_shrink_spec n hn1 SC3_INT_BITS j
          (by unfold SC3_INT_BITS; omega) (by rw [← hj2]; omega)
        have hleast := is_least_pow2_ge_of_lt hnm hl
        have hp2 : SC3_ISPOWOF2 (2 ^ m) := SC3_ISPOWOF2_pow (by omega)
        have hpos : (0 : Int) < 2 ^ m := by positivity
        rw [← hj2] at hs
        by_cases hlt : (2 : Int) ^ m < a.ealloc
        · refine Or.inl ⟨2 ^ m, Or.inl ⟨Or.inr ⟨ht.1, ht.2, hn0⟩, hleast, hp2⟩, ?_⟩
          simp only [sc3_array_resize, hres, hrange, hgt, ht, hn0, hs, hlt, hnm,
            not_true_eq_false, if_false, if_true, and_self, ne_eq, not_false_eq_true, hpos,
            gt_iff_lt, and_false, true_and]
        · have hmj : a.ealloc = 2 ^ m := by
            have : (2 : Int) ^ m ≤ 2 ^ j := pow_le_pow_right₀ (by norm_num) hm
            omega
          refine Or.inr ⟨⟨by omega, Or.inr (Or.inr ⟨hn0, by rw [hmj]; exact hleast⟩)⟩, ?_⟩
          simp only [sc3_array_resize, hres, hrange, hgt, ht, hn0, hs, hlt,
            not_true_eq_false, if_false, if_true, and_self, ne_eq, not_false_eq_true, hpos,
            gt_iff_lt, and_false, true_and]
    · refine Or.inr ⟨⟨by omega, ?_⟩, ?_⟩
      · by_cases h : a.tighten = 0
        · exact Or.inl h
        · right; left
          have : ¬ n < a.ealloc := fun hh => ht ⟨h, hh⟩
          omega
      · simp only [sc3_array_resize, hres, hrange, hgt, ht, not_true_eq_false, if_false,
          if_true, and_self]

/-- A successful `sc3_array_resize` was called on a resizable array with a
count in range. -/
theorem sc3_array_resize_pre (al : sc3_allocator) (a : sc3_array) (n : Int)
    (hok : (sc3_array_resize al a n).1 = none) :
    sc3_array_is_resizable al a ∧ 0 ≤ n ∧ n ≤ SC3_INT_HPOW := by
  have hres : sc3_array_is_resizable al a := by
    by_contra h; simp [sc3_array_resize, h] at hok
  have hrange : 0 ≤ n ∧ n ≤ SC3_INT_HPOW := by
    by_contra h; simp only [sc3_array_resize, hres, not_true_eq_false, if_false, h, if_true] at hok
    simp at hok
  exact ⟨hres, hrange.1, hrange.2⟩

/-- What a successful `sc3_array_resize` leaves: the fields other than
`ecount`, `ealloc` and `mem` are kept, `ecount` is the requested count, and
the capacity is the smallest fitting power of two when it grows, or when
`tighten` is set and the count is below the capacity, and is kept otherwise. -/
theorem sc3_array_resize_ok (al : sc3_allocator) (a : sc3_array) (n : Int)
    (hok : (sc3_array_resize al a n).1 = none) :
    sc3_array_is_resizable al a ∧ 0 ≤ n ∧ n ≤ SC3_INT_HPOW ∧
    (sc3_array_resize al a n).2.rc = a.rc ∧
    (sc3_array_resize al a n).2.setup = a.setup ∧
    (sc3_array_resize al a n).2.initzero = a.initzero ∧
    (sc3_array_resize al a n).2.resizable = a.resizable ∧
    (sc3_array_resize al a n).2.tighten = a.tighten ∧
    (sc3_array_resize al a n).2.esize = a.esize ∧
    (sc3_array_resize al a n).2.ecount = n ∧
    (((n > a.ealloc ∨ (a.tighten ≠ 0 ∧ n < a.ealloc ∧ n ≠ 0)) ∧
        is_least_pow2_ge n (sc3_array_resize al a n).2.ealloc ∧
        SC3_ISPOWOF2 (sc3_array_resize al a n).2.ealloc) ∨
      (a.tighten ≠ 0 ∧ n < a.ealloc ∧ n = 0 ∧ (sc3_array_resize al a n).2.ealloc = 0) ∨
      ((a.tighten = 0 ∨ n = a.ealloc) ∧ n ≤ a.ealloc ∧
        (sc3_array_resize al a n).2.ealloc = a.ealloc ∧
        (sc3_array_resize al a n).2.mem = a.mem)) ∧
    ((sc3_array_resize al a n).2.mem = a.mem ∨
      al.realloc a.mem (size_mul (sc3_size_t (sc3_array_resize al a n).2.ealloc) a.esize)
        = some (sc3_array_resize al a n).2.mem) := by
  obtain ⟨hres, h0, h1⟩ := sc3_array_resize_pre al a n hok
  obtain ⟨_, _, _, _, _, _, hpow, _⟩ := (sc3_array_is_setup_iff al a).mp hres.1
  refine ⟨hres, h0, h1, ?_⟩
  rcases sc3_array_resize_eq al a n hres h0 h1 with ⟨e, hcase, key⟩ | ⟨⟨hle, hcase⟩, key⟩
  · rw [key] at hok ⊢
    cases hp : al.realloc a.mem (size_mul (sc3_size_t e) a.esize) with
    | none => rw [hp] at hok; simp at hok
    | some p =>
      refine ⟨rfl, rfl, rfl, rfl, rfl, rfl, rfl, ?_, Or.inr hp⟩
      rcases hcase with h | h
      · exact Or.inl h
      · exact Or.inr (Or.inl h)
  · rw [key]
    refine ⟨rfl, rfl, rfl, rfl, rfl, rfl, rfl, ?_, Or.inl rfl⟩
    rcases hcase with h | h | ⟨hn0, hl⟩
    · exact Or.inr (Or.inr ⟨Or.inl h, hle, rfl, rfl⟩)
    · exact Or.inr (Or.inr ⟨Or.inr h, hle, rfl, rfl⟩)
    · by_cases hne : n = a.ealloc
      · exact Or.inr (Or.inr ⟨Or.inr hne, hle, rfl, rfl⟩)
      · by_cases ht : a.tighten = 0
        · exact Or.inr (Or.inr ⟨Or.inl ht, hle, rfl, rfl⟩)
        · refine Or.inl ⟨Or.inr ⟨ht, by omega, hn0⟩, hl, ?_⟩
          have hne0 : a.ealloc ≠ 0 := by omega
          exact hpow.resolve_left hne0

/-! ## Resize -/

/-- C2: a successful `sc3_array_resize (a, n)`, which takes a resizable (hence
valid: `ealloc` 0 or a power of two) array and `0 ≤ n ≤ SC3_INT_HPOW`, sets
`ecount = n` and leaves `n ≤ ealloc`; if `n` exceeds the old capacity the new
capacity is the smallest power of two that is at least `n`; if `tighten` is
set and `n` is below half the old capacity the new capacity is that smallest
power of two, or 0 when `n = 0`; `esize` and the flags are unchanged. -/
theorem sc3_array_resize_correct (al : sc3_allocator) (a : sc3_array) (n : Int)
    (hok : (sc3_array_resize al a n).1 = none) :
    (sc3_array_is_resizable al a ∧ 0 ≤ n ∧ n ≤ SC3_INT_HPOW) ∧
    (sc3_array_resize al a n).2.ecount = n ∧
    n ≤ (sc3_array_resize al a n).2.ealloc ∧
    (n > a.ealloc → is_least_pow2_ge n (sc3_array_resize al a n).2.ealloc) ∧
    (a.tighten ≠ 0 → n < a.ealloc / 2 →
      (n = 0 → (sc3_array_resize al a n).2.ealloc = 0) ∧
      (n ≠ 0 → is_least_pow2_ge n (sc3_array_resize al a n).2.ealloc)) ∧
    (sc3_array_resize al a n).2.esize = a.esize ∧
    (sc3_array_resize al a n).2.initzero = a.initzero ∧
    (sc3_array_resize al a n).2.resizable = a.resizable ∧
    (sc3_array_resize al a n).2.tighten = a.tighten := by
  obtain ⟨hres, h0, h1, _, _, hi, hr, ht, hs, hc, hcap, _⟩ := sc3_array_resize_ok al a n hok
  refine ⟨⟨hres, h0, h1⟩, hc, ?_, ?_, ?_, hs, hi, hr, ht⟩
  · rcases hcap with ⟨_, ⟨m, hm, hnm, _⟩, _⟩ | ⟨_, _, hn, he⟩ | ⟨_, hle, he, _⟩
    · rw [hm]; exact hnm
    · rw [he, hn]
    · rw [he]; exact hle
  · intro hgt
    rcases hcap with ⟨_, hl, _⟩ | ⟨_, hlt, _, _⟩ | ⟨_, hle, _, _⟩
    · exact hl
    · omega
    · omega
  · intro htn hhalf
    rcases hcap with ⟨_, hl, _⟩ | ⟨_, _, hn, he⟩ | ⟨hor, hle, _, _⟩
    · refine ⟨fun hn => ?_, fun _ => hl⟩
      obtain ⟨m, hm, hnm, hmin⟩ := hl
      have := hmin 0 (by rw [hn]; norm_num)
      have hm0 : m = 0 := by omega
      subst hm0
      rcases ‹(n > a.ealloc ∨ _)› with h | h
      · omega
      · exact absurd hn h.2.2
    · exact ⟨fun _ => he, fun h => absurd hn h⟩
    · rcases hor with h | h
      · exact absurd h htn
      · omega

/-- Witness of C2: growing an array of capacity 1 to 5 elements. -/
theorem sc3_array_resize_correct_witness :
    (sc3_array_resize allocator_granting (int_array 1 0 0 1) 5).1 = none ∧
    (sc3_array_resize allocator_granting (int_array 1 0 0 1) 5).2.ecount = 5 ∧
    (sc3_array_resize allocator_granting (int_array 1 0 0 1) 5).2.ealloc = 8 :=
  ⟨by decide,
   (sc3_array_resize_correct allocator_granting (int_array 1 0 0 1) 5 (by decide)).2.1,
   by decide⟩

/-! ## Push and pop -/

/-- A successful `sc3_array_push_count` with `n = 0` changes nothing and with
`n > 0` is a successful resize to `ecount + n`. -/
theorem sc3_array_push_count_ok (al : sc3_allocator) (a : sc3_array) (n : Int)
    (ptr : Option Nat) (hok : (sc3_array_push_count al a n ptr).1 = none) :
    sc3_array_is_resizable al a ∧ 0 ≤ n ∧ int_wrap (a.ecount + n) ≤ SC3_INT_HPOW ∧
    ((n = 0 ∧ (sc3_array_push_count al a n ptr).2.1 = a) ∨
     (n > 0 ∧ (sc3_array_resize al a (int_wrap (a.ecount + n))).1 = none ∧
       (sc3_array_push_count al a n ptr).2.1 = (sc3_array_resize al a (int_wrap (a.ecount + n))).2)) := by
  have hres : sc3_array_is_resizable al a := by
    by_contra h; simp [sc3_array_push_count, h] at hok
  have hrange : 0 ≤ n ∧ int_wrap (a.ecount + n) ≤ SC3_INT_HPOW := by
    by_contra h
    simp only [sc3_array_push_count, hres, not_true_eq_false, if_false, h, if_true] at hok
    simp at hok
  refine ⟨hres, hrange.1, hrange.2, ?_⟩
  by_cases hn : n > 0
  · right
    simp only [sc3_array_push_count, hres, hrange, hn, not_true_eq_false, if_false, if_true,
      and_self] at hok ⊢
    rcases hr : sc3_array_resize al a (int_wrap (a.ecount + n)) with ⟨e, a1⟩
    rw [hr] at hok
    cases e with
    | some e => simp at hok
    | none =>
      refine ⟨trivial, rfl, ?_⟩
      cases hp : Option.map (fun _ => (0 : Nat)) ptr with
      | none => simp only [hp]
      | some v =>
        simp only [hp]
        rcases hi : sc3_array_index al a1 a.ecount (some v) with ⟨e2, p2⟩
        cases e2 <;> rfl
  · left
    have hn0 : n = 0 := by omega
    simp only [sc3_array_push_count, hres, hrange, hn, not_true_eq_false, if_false, and_self]
    exact ⟨hn0, trivial⟩

/-- A successful `sc3_array_pop` is a successful resize to `ecount - 1` of an
array that is not empty. -/
theorem sc3_array_pop_ok (al : sc3_allocator) (a : sc3_array)
    (hok : (sc3_array_pop al a).1 = none) :
    sc3_array_is_resizable al a ∧ a.ecount > 0 ∧
    sc3_array_pop al a = sc3_array_resize al a (a.ecount - 1) := by
  have hres : sc3_array_is_resizable al a := by
    by_contra h; simp [sc3_array_pop, h] at hok
  have hpos : a.ecount > 0 := by
    by_contra h
    simp only [sc3_array_pop, hres, not_true_eq_false, if_false, h, if_true] at hok
    simp at hok
  refine ⟨hres, hpos, ?_⟩
  simp only [sc3_array_pop, hres, hpos, not_true_eq_false, if_false]

/-- The two numeric conditions `sc3_array_is_valid` checks of a set-up array
hold after a successful resize. -/
theorem sc3_array_resize_capacity (al : sc3_allocator) (a : sc3_array) (n : Int)
    (hok : (sc3_array_resize al a n).1 = none) :
    (sc3_array_resize al a n).2.ecount ≤ (sc3_array_resize al a n).2.ealloc ∧
    ((sc3_array_resize al a n).2.ealloc = 0 ∨ SC3_ISPOWOF2 (sc3_array_resize al a n).2.ealloc) := by
  obtain ⟨hres, h0, h1, _, _, hi, hr, ht, hs, hc, hcap, _⟩ := sc3_array_resize_ok al a n hok
  obtain ⟨_, _, _, _, _, _, hpow, _⟩ := (sc3_array_is_setup_iff al a).mp hres.1
  rw [hc]
  rcases hcap with ⟨_, ⟨m, hm, hnm, _⟩, hp⟩ | ⟨_, _, hn, he⟩ | ⟨_, hle, he, _⟩
  · exact ⟨by rw [hm]; exact hnm, Or.inr hp⟩
  · exact ⟨by rw [he, hn], Or.inl he⟩
  · exact ⟨by rw [he]; exact hle, by rw [he]; exact hpow⟩

theorem sc3_array_call_run_capacity (al : sc3_allocator) (a : sc3_array) (c : sc3_array_call)
    (hok : (sc3_array_call_run al a c).1 = none) :
    (sc3_array_call_run al a c).2.ecount ≤ (sc3_array_call_run al a c).2.ealloc ∧
    ((sc3_array_call_run al a c).2.ealloc = 0 ∨
      SC3_ISPOWOF2 (sc3_array_call_run al a c).2.ealloc) := by
  have hpush : ∀ (n : Int) (ptr : Option Nat), (sc3_array_push_count al a n ptr).1 = none →
      (sc3_array_push_count al a n ptr).2.1.ecount ≤ (sc3_array_push_count al a n ptr).2.1.ealloc ∧
      ((sc3_array_push_count al a n ptr).2.1.ealloc = 0 ∨
        SC3_ISPOWOF2 (sc3_array_push_count al a n ptr).2.1.ealloc) := by
    intro n ptr h
    obtain ⟨hres, _, _, hcase⟩ := sc3_array_push_count_ok al a n ptr h
    rcases hcase with ⟨_, he⟩ | ⟨_, hr, he⟩
    · rw [he]
      obtain ⟨_, _, _, _, _, _, hpow, hle⟩ := (sc3_array_is_setup_iff al a).mp hres.1
      exact ⟨hle, hpow⟩
    · rw [he]; exact sc3_array_resize_capacity al a _ hr
  cases c with
  | resize n => exact sc3_array_resize_capacity al a n hok
  | push_count n ptr => exact hpush n ptr hok
  | push ptr => exact hpush 1 ptr hok
  | pop =>
    obtain ⟨_, _, he⟩ := sc3_array_pop_ok al a hok
    simp only [sc3_array_call_run] at hok ⊢
    rw [he] at hok ⊢
    exact sc3_array_resize_capacity al a _ hok

/-- A successful `sc3_array_setup` starts from a new array, keeps every field
but `ealloc`, `mem` and `setup`, and leaves a set-up array whose capacity is
`2 ^ lg` for the `lg` that `sc3_log2_ceil` returns. -/
theorem sc3_array_setup_ok (al : sc3_allocator) (a : sc3_array)
    (hok : (sc3_array_setup al a).1 = none) :
    sc3_array_is_new al a ∧
    sc3_array_is_setup al (sc3_array_setup al a).2 ∧
    (sc3_array_setup al a).2.rc = a.rc ∧
    (sc3_array_setup al a).2.initzero = a.initzero ∧
    (sc3_array_setup al a).2.resizable = a.resizable ∧
    (sc3_array_setup al a).2.tighten = a.tighten ∧
    (sc3_array_setup al a).2.ecount = a.ecount ∧
    (sc3_array_setup al a).2.esize = a.esize ∧
    0 ≤ sc3_log2_ceil (max a.ealloc a.ecount) (SC3_INT_BITS - 1) ∧
    sc3_log2_ceil (max a.ealloc a.ecount) (SC3_INT_BITS - 1) < SC3_INT_BITS - 1 ∧
    (sc3_array_setup al a).2.ealloc
      = 2 ^ (sc3_log2_ceil (max a.ealloc a.ecount) (SC3_INT_BITS - 1)).toNat := by
  have hnew : sc3_array_is_new al a := by
    by_contra h; simp [sc3_array_setup, h] at hok
  have hlg : 0 ≤ sc3_log2_ceil (max a.ealloc a.ecount) (SC3_INT_BITS - 1) ∧
      sc3_log2_ceil (max a.ealloc a.ecount) (SC3_INT_BITS - 1) < SC3_INT_BITS - 1 := by
    by_contra h
    simp only [sc3_array_setup, hnew, not_true_eq_false, if_false, h, if_true] at hok
    simp at hok
  have hc : a.ecount ≤ 2 ^ (sc3_log2_ceil (max a.ealloc a.ecount) (SC3_INT_BITS - 1)).toNat := by
    by_contra h
    simp only [sc3_array_setup, hnew, hlg, and_self, not_true_eq_false, if_false, h, if_true] at hok
    simp at hok
  have ha : a.ealloc ≤ 2 ^ (sc3_log2_ceil (max a.ealloc a.ecount) (SC3_INT_BITS - 1)).toNat := by
    by_contra h
    simp only [sc3_array_setup, hnew, hlg, hc, and_self, not_true_eq_false, if_false, h,
      if_true] at hok
    simp at hok
  have key : ∃ p, sc3_array_setup al a =
        (none, { a with ealloc := 2 ^ (sc3_log2_ceil (max a.ealloc a.ecount)
          (SC3_INT_BITS - 1)).toNat, mem := p, setup := 1 }) ∧
      sc3_array_is_setup al { a with ealloc := 2 ^ (sc3_log2_ceil (max a.ealloc a.ecount)
          (SC3_INT_BITS - 1)).toNat, mem := p, setup := 1 } := by
    simp only [sc3_array_setup, hnew, hlg, hc, ha, and_self, not_true_eq_false, if_false] at hok ⊢
    split at hok
    · simp at hok
    · rename_i p hp
      split at hok
      · simp at hok
      · rename_i hs
        exact ⟨p, by rw [if_neg hs], not_not.mp hs⟩
  obtain ⟨p, hk, hs⟩ := key
  rw [hk]
  exact ⟨hnew, hs, rfl, rfl, rfl, rfl, rfl, rfl, hlg.1, hlg.2, rfl⟩

theorem sc3_array_calls_run_capacity :
    ∀ (calls : List (sc3_allocator × sc3_array_call)) (a0 a : sc3_array),
      (a0.ecount ≤ a0.ealloc ∧ (a0.ealloc = 0 ∨ SC3_ISPOWOF2 a0.ealloc)) →
      sc3_array_calls_run calls a0 = some a →
      a.ecount ≤ a.ealloc ∧ (a.ealloc = 0 ∨ SC3_ISPOWOF2 a.ealloc) := by
  intro calls
  induction calls with
  | nil =>
    intro a0 a h0 hrun
    simp only [sc3_array_calls_run, Option.some.injEq] at hrun
    rw [← hrun]; exact h0
  | cons c cs ih =>
    intro a0 a h0 hrun
    obtain ⟨al, c⟩ := c
    simp only [sc3_array_calls_run] at hrun
    rcases hr : sc3_array_call_run al a0 c with ⟨e, a1⟩
    rw [hr] at hrun
    cases e with
    | some e => simp at hrun
    | none =>
      have hcap := sc3_array_call_run_capacity al a0 c (by rw [hr])
      rw [hr] at hcap
      exact ih a1 a hcap hrun

/-- C3: for an array that a successful `sc3_array_setup` produced (resizable
or not, with or without `tighten`), after any finite sequence of successful
calls of `sc3_array_resize`, `sc3_array_push_count`, `sc3_array_push` and
`sc3_array_pop`, `ecount ≤ ealloc` and `ealloc` is 0 or a power of two. -/
theorem sc3_array_calls_invariant (al0 : sc3_allocator) (a0 : sc3_array)
    (hsetup : (sc3_array_setup al0 a0).1 = none)
    (calls : List (sc3_allocator × sc3_array_call)) (a : sc3_array)
    (hrun : sc3_array_calls_run calls (sc3_array_setup al0 a0).2 = some a) :
    a.ecount ≤ a.ealloc ∧ (a.ealloc = 0 ∨ SC3_ISPOWOF2 a.ealloc) := by
  obtain ⟨_, hs, _⟩ := sc3_array_setup_ok al0 a0 hsetup
  obtain ⟨_, _, _, _, _, _, hpow, hle⟩ := (sc3_array_is_setup_iff al0 _).mp hs
  exact sc3_array_calls_run_capacity calls _ a ⟨hle, hpow⟩ hrun

/-- Witness of C3: a resizable array with `tighten`, set up with capacity 8,
then three pushes, a resize to 9, a pop and a resize to 2 leave count 2 and
capacity 2. -/
theorem sc3_array_calls_invariant_witness :
    (sc3_array_setup allocator_granting
      (sc3_array_set_tighten allocator_granting
        (sc3_array_set_resizable allocator_granting sc3_array_new_value 1).2 1).2).1 = none ∧
    sc3_array_calls_run
      [(allocator_granting, .push (some 0)), (allocator_granting, .push_count 2 none),
       (allocator_granting, .resize 9), (allocator_granting, .pop),
       (allocator_granting, .resize 2)]
      (sc3_array_setup allocator_granting
        (sc3_array_set_tighten allocator_granting
          (sc3_array_set_resizable allocator_granting sc3_array_new_value 1).2 1).2).2
      = some { rc := { rc := 1 }, setup := 1, initzero := 0, resizable := 1, tighten := 1,
               ecount := 2, ealloc := 2, esize := 1, mem := 8192 } ∧
    (2 : Int) ≤ 2 ∧ ((2 : Int) = 0 ∨ SC3_ISPOWOF2 2) :=
  ⟨by decide, by decide,
   sc3_array_calls_invariant allocator_granting
    (sc3_array_set_tighten allocator_granting
      (sc3_array_set_resizable allocator_granting sc3_array_new_value 1).2 1).2 (by decide)
    [(allocator_granting, .push (some 0)), (allocator_granting, .push_count 2 none),
     (allocator_granting, .resize 9), (allocator_granting, .pop),
     (allocator_granting, .resize 2)]
    { rc := { rc := 1 }, setup := 1, initzero := 0, resizable := 1, tighten := 1,
      ecount := 2, ealloc := 2, esize := 1, mem := 8192 } (by decide)⟩

/-! ## Setup -/

theorem sc3_log2_ceil_from_spec (x : Int) :
    ∀ (k l : Nat), (∀ i : Nat, i < l → (2 : Int) ^ i < x) →
      ∃ m : Nat, sc3_log2_ceil_from x k l = m ∧ m ≤ l + k ∧
        (∀ i : Nat, i < m → (2 : Int) ^ i < x) ∧ (m < l + k → x ≤ 2 ^ m) := by
  intro k
  induction k with
  | zero =>
    intro l hl
    exact ⟨l, by simp [sc3_log2_ceil_from], by omega, hl, by omega⟩
  | succ k ih =>
    intro l hl
    by_cases h : x ≤ 2 ^ l
    · exact ⟨l, by simp [sc3_log2_ceil_from, h], by omega, hl, fun _ => h⟩
    · obtain ⟨m, hm, hle, hlt, hfound⟩ := ih (l + 1) (by
        intro i hi
        rcases Nat.lt_succ_iff_lt_or_eq.mp hi with h1 | h1
        · exact hl i h1
        · subst h1; omega)
      refine ⟨m, ?_, by omega, hlt, fun hh => hfound (by omega)⟩
      simp only [sc3_log2_ceil_from, h, if_false]
      exact hm

/-- C5: a successful `sc3_array_setup`, which takes an array in the new state,
sets `ealloc` to the smallest power of two that is at least
`max (ealloc, ecount)`, leaves `ecount` and `esize` unchanged, and leaves the
array in the set-up state. -/
theorem sc3_array_setup_correct (al : sc3_allocator) (a : sc3_array)
    (hok : (sc3_array_setup al a).1 = none) :
    sc3_array_is_new al a ∧
    is_least_pow2_ge (max a.ealloc a.ecount) (sc3_array_setup al a).2.ealloc ∧
    (sc3_array_setup al a).2.ecount = a.ecount ∧
    (sc3_array_setup al a).2.esize = a.esize ∧
    sc3_array_is_setup al (sc3_array_setup al a).2 := by
  obtain ⟨hnew, hs, _, _, _, _, hc, he, hlg0, hlg1, hea⟩ := sc3_array_setup_ok al a hok
  refine ⟨hnew, ?_, hc, he, hs⟩
  obtain ⟨m, hm, _, hlt, hfound⟩ :=
    sc3_log2_ceil_from_spec (max a.ealloc a.ecount) ((SC3_INT_BITS : Int) - 1).toNat 0
      (by intro i hi; omega)
  have hm2 : sc3_log2_ceil (max a.ealloc a.ecount) (SC3_INT_BITS - 1) = m := hm
  rw [hea, hm2, Int.toNat_natCast]
  rw [hm2] at hlg1
  apply is_least_pow2_ge_of_lt _ hlt
  apply hfound
  unfold SC3_INT_BITS at hlg1 ⊢
  omega

/-- Witness of C5: `esize = 4`, `ealloc = 5`, `ecount = 0` gives `ealloc = 8`. -/
theorem sc3_array_setup_correct_witness :
    (sc3_array_setup allocator_granting
      (sc3_array_set_elem_alloc allocator_granting
        (sc3_array_set_elem_size allocator_granting sc3_array_new_value 4).2 5).2).1 = none ∧
    (sc3_array_setup allocator_granting
      (sc3_array_set_elem_alloc allocator_granting
        (sc3_array_set_elem_size allocator_granting sc3_array_new_value 4).2 5).2).2.ealloc = 8 ∧
    is_least_pow2_ge (max 5 0) 8 :=
  ⟨by decide, by decide,
   (sc3_array_setup_correct allocator_granting
      (sc3_array_set_elem_alloc allocator_granting
        (sc3_array_set_elem_size allocator_granting sc3_array_new_value 4).2 5).2 (by decide)).2.1⟩

/-- A resize succeeds when the allocator grants every reallocation; it also
succeeds, without a reallocation, when `tighten` is clear and the count fits
the capacity. -/
theorem sc3_array_resize_succeeds (al : sc3_allocator) (a : sc3_array) (n : Int)
    (hres : sc3_array_is_resizable al a) (h0 : 0 ≤ n) (h1 : n ≤ SC3_INT_HPOW)
    (hal : (a.tighten = 0 ∧ n ≤ a.ealloc) ∨ ∀ p s, (al.realloc p s).isSome = true) :
    (sc3_array_resize al a n).1 = none := by
  rcases sc3_array_resize_eq al a n hres h0 h1 with ⟨e, hcase, key⟩ | ⟨_, key⟩
  · rw [key]
    rcases hal with ⟨ht, hle⟩ | hal
    · exfalso
      rcases hcase with ⟨h | h, _⟩ | h
      · omega
      · exact h.1 ht
      · exact h.1 ht
    · have := hal a.mem (size_mul (sc3_size_t e) a.esize)
      cases hp : al.realloc a.mem (size_mul (sc3_size_t e) a.esize) with
      | none => rw [hp] at this; simp at this
      | some p => rfl
  · rw [key]

/-- After a successful resize the array is set up, provided its buffer is not
`NULL`. -/
theorem sc3_array_resize_setup (al : sc3_allocator) (a : sc3_array) (n : Int)
    (hok : (sc3_array_resize al a n).1 = none)
    (hmem : (sc3_array_resize al a n).2.mem ≠ 0) :
    sc3_array_is_setup al (sc3_array_resize al a n).2 := by
  obtain ⟨hres, h0, _, hrc, hs, _, _, _, _, hc, _, _⟩ := sc3_array_resize_ok al a n hok
  obtain ⟨hle, hpow⟩ := sc3_array_resize_capacity al a n hok
  obtain ⟨h1, h2, _, _, h5, _, _, _⟩ := (sc3_array_is_setup_iff al a).mp hres.1
  rw [sc3_array_is_setup_iff]
  refine ⟨by rw [hrc]; exact h1, h2, by rw [hc]; exact h0, ?_, by rw [hs]; exact h5,
    Or.inl hmem, hpow, hle⟩
  rw [hc] at hle
  omega

/-- The buffer after a successful resize is the old buffer or the answer of
the allocator. -/
theorem sc3_array_resize_mem (al : sc3_allocator) (a : sc3_array) (n : Int)
    (hok : (sc3_array_resize al a n).1 = none) (hmem : a.mem ≠ 0)
    (hal : ∀ p s q, al.realloc p s = some q → q ≠ 0) :
    (sc3_array_resize al a n).2.mem ≠ 0 := by
  obtain ⟨_, _, _, _, _, _, _, _, _, _, _, hm⟩ := sc3_array_resize_ok al a n hok
  rcases hm with h | h
  · rw [h]; exact hmem
  · exact hal _ _ _ h

/-! ## Freeze -/

/-- The value of `sc3_array_freeze` on a set-up array. -/
theorem sc3_array_freeze_eq (al : sc3_allocator) (a : sc3_array)
    (hs : sc3_array_is_setup al a) :
    sc3_array_freeze al a =
      if a.resizable ≠ 0 then
        if a.tighten ≠ 0 ∧ a.ecount < a.ealloc then
          match al.realloc a.mem (size_mul (sc3_size_t a.ecount) a.esize) with
          | none => (some .nomem, { a with ealloc := a.ecount })
          | some p => (none, { a with ealloc := a.ecount, mem := p, resizable := 0 })
        else (none, { a with resizable := 0 })
      else (none, a) := by
  simp only [sc3_array_freeze, hs, not_true_eq_false, if_false]

/-- C6 (amended): a successful `sc3_array_freeze`, which takes a set-up array,
leaves the array not resizable and `ecount` and `esize` unchanged; if the
array was resizable and `tighten` is set then `ealloc = ecount` afterwards; if
`tighten` is not set, or the array was not resizable before the call, `ealloc`
is unchanged. -/
theorem sc3_array_freeze_correct (al : sc3_allocator) (a : sc3_array)
    (hok : (sc3_array_freeze al a).1 = none) :
    sc3_array_is_setup al a ∧
    (sc3_array_freeze al a).2.resizable = 0 ∧
    (sc3_array_freeze al a).2.ecount = a.ecount ∧
    (sc3_array_freeze al a).2.esize = a.esize ∧
    (a.resizable ≠ 0 → a.tighten ≠ 0 →
      (sc3_array_freeze al a).2.ealloc = (sc3_array_freeze al a).2.ecount) ∧
    (a.tighten = 0 ∨ a.resizable = 0 → (sc3_array_freeze al a).2.ealloc = a.ealloc) := by
  have hs : sc3_array_is_setup al a := by
    by_contra h; simp [sc3_array_freeze, h] at hok
  obtain ⟨_, _, _, _, _, _, _, hle⟩ := (sc3_array_is_setup_iff al a).mp hs
  refine ⟨hs, ?_⟩
  rw [sc3_array_freeze_eq al a hs] at hok ⊢
  by_cases hr : a.resizable ≠ 0
  · by_cases ht : a.tighten ≠ 0 ∧ a.ecount < a.ealloc
    · rw [if_pos hr, if_pos ht] at hok ⊢
      cases hp : al.realloc a.mem (size_mul (sc3_size_t a.ecount) a.esize) with
      | none => rw [hp] at hok; simp at hok
      | some p =>
        refine ⟨rfl, rfl, rfl, fun _ _ => rfl, ?_⟩
        rintro (h | h)
        · exact absurd h ht.1
        · exact absurd h hr
    · rw [if_pos hr, if_neg ht]
      refine ⟨rfl, rfl, rfl, ?_, fun _ => rfl⟩
      intro _ htn
      have : ¬ a.ecount < a.ealloc := fun h => ht ⟨htn, h⟩
      show a.ealloc = a.ecount
      omega
  · rw [if_neg hr]
    rw [not_not] at hr
    exact ⟨hr, rfl, rfl, fun h => absurd hr h, fun _ => rfl⟩

/-- Witness of C6 (amended): freezing a resizable array with `tighten`, count
3 and capacity 4. -/
theorem sc3_array_freeze_correct_witness :
    (sc3_array_freeze allocator_granting (int_array 1 1 3 4)).1 = none ∧
    (sc3_array_freeze allocator_granting (int_array 1 1 3 4)).2.resizable = 0 ∧
    (sc3_array_freeze allocator_granting (int_array 1 1 3 4)).2.ealloc = 3 :=
  ⟨by decide,
   (sc3_array_freeze_correct allocator_granting (int_array 1 1 3 4) (by decide)).2.1,
   by decide⟩

/-- C6 as stated fails: a set-up array that is not resizable, with `tighten`
set, count 3 and capacity 4 is frozen successfully and keeps the capacity 4,
which is not its count. -/
theorem sc3_array_freeze_counterexample :
    sc3_array_is_setup allocator_granting (int_array 0 1 3 4) ∧
    (sc3_array_freeze allocator_granting (int_array 0 1 3 4)).1 = none ∧
    (int_array 0 1 3 4).tighten ≠ 0 ∧
    (sc3_array_freeze allocator_granting (int_array 0 1 3 4)).2.ecount = 3 ∧
    (sc3_array_freeze allocator_granting (int_array 0 1 3 4)).2.ealloc = 4 := by
  decide

/-- C4: `sc3_array_freeze` breaks the invariant that `sc3_array_is_valid`
checks.  A resizable array with `tighten` is set up and receives three
elements, which leaves count 3 and capacity 4; the freeze succeeds and leaves
the capacity 3, which is neither 0 nor a power of two, so the array is not
valid any more. -/
theorem sc3_array_freeze_breaks_valid :
    sc3_array_calls_run
      [(allocator_granting, .push (some 0)), (allocator_granting, .push (some 0)),
       (allocator_granting, .push (some 0))]
      (sc3_array_setup allocator_granting
        (sc3_array_set_tighten allocator_granting
          (sc3_array_set_resizable allocator_granting sc3_array_new_value 1).2 1).2).2
      = some { rc := { rc := 1 }, setup := 1, initzero := 0, resizable := 1, tighten := 1,
               ecount := 3, ealloc := 4, esize := 1, mem := 8192 } ∧
    sc3_array_is_valid allocator_granting
      { rc := { rc := 1 }, setup := 1, initzero := 0, resizable := 1, tighten := 1,
        ecount := 3, ealloc := 4, esize := 1, mem := 8192 } ∧
    sc3_array_freeze allocator_granting
      { rc := { rc := 1 }, setup := 1, initzero := 0, resizable := 1, tighten := 1,
        ecount := 3, ealloc := 4, esize := 1, mem := 8192 }
      = (none, { rc := { rc := 1 }, setup := 1, initzero := 0, resizable := 0, tighten := 1,
                 ecount := 3, ealloc := 3, esize := 1, mem := 8192 }) ∧
    ¬ sc3_array_is_valid allocator_granting
      { rc := { rc := 1 }, setup := 1, initzero := 0, resizable := 0, tighten := 1,
        ecount := 3, ealloc := 3, esize := 1, mem := 8192 } := by
  decide

/-- C7: after the freeze of a set-up resizable array with `tighten`, count 3
and capacity 4, `sc3_array_index` at the indices 0, 1 and 2 and
`sc3_array_ref` all return an error, because the frozen array has capacity 3
and fails `sc3_array_is_setup`. -/
theorem sc3_array_freeze_then_index_fails :
    sc3_array_is_setup allocator_granting (int_array 1 1 3 4) ∧
    (sc3_array_freeze allocator_granting (int_array 1 1 3 4)).1 = none ∧
    (sc3_array_freeze allocator_granting (int_array 1 1 3 4)).2.ecount = 3 ∧
    (∀ i ∈ [0, 1, 2],
      (sc3_array_index allocator_granting
        (sc3_array_freeze allocator_granting (int_array 1 1 3 4)).2 i (some 0)).1
        = some sc3_error.bug) ∧
    (sc3_array_ref allocator_granting
      (sc3_array_freeze allocator_granting (int_array 1 1 3 4)).2).1 = some sc3_error.bug := by
  decide

/-! ## Unresizable arrays -/

/-- C8: on an array whose `resizable` flag is clear (set up or not),
`sc3_array_resize`, `sc3_array_push_count`, `sc3_array_push` and
`sc3_array_pop` return an error for every argument and leave the array, and
the cell behind the output pointer, as they were. -/
theorem sc3_array_unresizable_rejects (al : sc3_allocator) (a : sc3_array)
    (hr : a.resizable = 0) (n : Int) (ptr : Option Nat) :
    sc3_array_resize al a n = (some .bug, a) ∧
    sc3_array_push_count al a n ptr = (some .bug, a, ptr) ∧
    sc3_array_push al a ptr = (some .bug, a, ptr) ∧
    sc3_array_pop al a = (some .bug, a) := by
  have h : ¬ sc3_array_is_resizable al a := fun h => h.2 hr
  simp [sc3_array_resize, sc3_array_push_count, sc3_array_push, sc3_array_pop, h]

/-- Witness of C8: a frozen array of count 4 and capacity 4. -/
theorem sc3_array_unresizable_rejects_witness :
    (sc3_array_freeze allocator_granting (int_array 1 0 4 4)).2.resizable = 0 ∧
    sc3_array_resize allocator_granting
        (sc3_array_freeze allocator_granting (int_array 1 0 4 4)).2 2
      = (some .bug, (sc3_array_freeze allocator_granting (int_array 1 0 4 4)).2) ∧
    sc3_array_push_count allocator_granting
        (sc3_array_freeze allocator_granting (int_array 1 0 4 4)).2 2 (some 7)
      = (some .bug, (sc3_array_freeze allocator_granting (int_array 1 0 4 4)).2, some 7) ∧
    sc3_array_push allocator_granting
        (sc3_array_freeze allocator_granting (int_array 1 0 4 4)).2 (some 7)
      = (some .bug, (sc3_array_freeze allocator_granting (int_array 1 0 4 4)).2, some 7) ∧
    sc3_array_pop allocator_granting (sc3_array_freeze allocator_granting (int_array 1 0 4 4)).2
      = (some .bug, (sc3_array_freeze allocator_granting (int_array 1 0 4 4)).2) :=
  ⟨by decide,
   sc3_array_unresizable_rejects allocator_granting
     (sc3_array_freeze allocator_granting (int_array 1 0 4 4)).2 (by decide) 2 (some 7)⟩

/-! ## Push and pop: the contracts -/

/-- C9 (amended): on a resizable array with count `c` whose buffer is not
`NULL`, with an allocator that answers every reallocation with a buffer that
is not `NULL`, for every `n ≥ 0` with `c + n ≤ SC3_INT_HPOW` the call
`sc3_array_push_count (a, n, ptr)` succeeds with the new count `c + n`; when
`n > 0` and `ptr` is not `NULL` the pointer returned is the address of the
element of index `c` in the buffer after the call, `mem + c * esize`; when
`n = 0` the pointer returned is `NULL` and `ecount` and `ealloc` are
unchanged. -/
theorem sc3_array_push_count_correct (al : sc3_allocator) (a : sc3_array) (n : Int)
    (ptr : Option Nat)
    (hres : sc3_array_is_resizable al a) (hn : 0 ≤ n) (hsum : a.ecount + n ≤ SC3_INT_HPOW)
    (hmem : a.mem ≠ 0) (hal : ∀ p s, ∃ q, al.realloc p s = some q ∧ q ≠ 0) :
    (sc3_array_push_count al a n ptr).1 = none ∧
    (sc3_array_push_count al a n ptr).2.1.ecount = a.ecount + n ∧
    (n > 0 → ∀ v, ptr = some v →
      (sc3_array_push_count al a n ptr).2.2
        = some ((sc3_array_push_count al a n ptr).2.1.mem + a.ecount.toNat * a.esize)) ∧
    (n = 0 →
      (∀ v, ptr = some v → (sc3_array_push_count al a n ptr).2.2 = some 0) ∧
      (sc3_array_push_count al a n ptr).2.1.ecount = a.ecount ∧
      (sc3_array_push_count al a n ptr).2.1.ealloc = a.ealloc) := by
  obtain ⟨_, _, hec, _, _, _, _, _⟩ := (sc3_array_is_setup_iff al a).mp hres.1
  have h30 : a.ecount + n ≤ 2 ^ 30 := by rw [← SC3_INT_HPOW_eq]; exact hsum
  have hw : int_wrap (a.ecount + n) = a.ecount + n :=
    int_wrap_of_range _ (by omega) (by omega)
  by_cases hpos : n > 0
  · have hok : (sc3_array_resize al a (a.ecount + n)).1 = none :=
      sc3_array_resize_succeeds al a _ hres (by omega) hsum
        (Or.inr (fun p s => by obtain ⟨q, hq, _⟩ := hal p s; rw [hq]; rfl))
    have hm : (sc3_array_resize al a (a.ecount + n)).2.mem ≠ 0 :=
      sc3_array_resize_mem al a _ hok hmem (fun p s q hq => by
        obtain ⟨q2, hq2, hne⟩ := hal p s
        rw [hq2] at hq
        cases hq
        exact hne)
    have hset := sc3_array_resize_setup al a _ hok hm
    have hcnt : (sc3_array_resize al a (a.ecount + n)).2.ecount = a.ecount + n :=
      (sc3_array_resize_ok al a _ hok).2.2.2.2.2.2.2.2.2.1
    have hes : (sc3_array_resize al a (a.ecount + n)).2.esize = a.esize :=
      (sc3_array_resize_ok al a _ hok).2.2.2.2.2.2.2.2.1
    simp only [sc3_array_push_count, hres, hn, hw, hsum, hpos, not_true_eq_false, if_false,
      if_true, and_self]
    rcases hr : sc3_array_resize al a (a.ecount + n) with ⟨e, a1⟩
    rw [hr] at hok hset hcnt hes
    simp only at hok hset hcnt hes
    subst hok
    have hidx : ∀ v, sc3_array_index al a1 a.ecount (some v)
        = (none, some (a1.mem + a.ecount.toNat * a.esize)) := by
      intro v
      have hrg : 0 ≤ a.ecount ∧ a.ecount < a1.ecount := ⟨hec, by omega⟩
      simp only [sc3_array_index, hset, hrg, and_self, not_true_eq_false, if_false, hes]
    cases ptr with
    | none =>
      refine ⟨rfl, hcnt, ?_, fun h => absurd h (by omega)⟩
      intro _ v hv
      cases hv
    | some w =>
      simp only [Option.map_some', hidx]
      refine ⟨trivial, hcnt, fun _ v _ => trivial, fun h => absurd h (by omega)⟩
  · have hn0 : n = 0 := by omega
    subst hn0
    have key : sc3_array_push_count al a 0 ptr = (none, a, ptr.map (fun _ => 0)) := by
      simp only [sc3_array_push_count, hres, hw, hsum, hpos, not_true_eq_false, if_false,
        and_self, le_refl]
    rw [key]
    refine ⟨rfl, by simp, fun h => absurd h (by omega), fun _ => ⟨?_, rfl, rfl⟩⟩
    intro v hv
    subst hv
    rfl

/-- Witness of C9 (amended): two elements pushed on an array of count 3 and
capacity 4; the array moves to the address 8192 and the new elements start
at 8192 + 3 * 4. -/
theorem sc3_array_push_count_correct_witness :
    sc3_array_is_resizable allocator_granting (int_array 1 0 3 4) ∧
    (sc3_array_push_count allocator_granting (int_array 1 0 3 4) 2 (some 0)).1 = none ∧
    (sc3_array_push_count allocator_granting (int_array 1 0 3 4) 2 (some 0)).2.1.ecount = 3 + 2 ∧
    (sc3_array_push_count allocator_granting (int_array 1 0 3 4) 2 (some 0)).2.2
      = some (8192 + 3 * 4) :=
  ⟨by decide,
   (sc3_array_push_count_correct allocator_granting (int_array 1 0 3 4) 2 (some 0)
     (by decide) (by decide) (by decide) (by decide)
     (fun _ _ => ⟨8192, rfl, by decide⟩)).1,
   (sc3_array_push_count_correct allocator_granting (int_array 1 0 3 4) 2 (some 0)
     (by decide) (by decide) (by decide) (by decide)
     (fun _ _ => ⟨8192, rfl, by decide⟩)).2.1,
   by decide⟩

/-- C9 as stated fails: a resizable array of count 1 and capacity 1 and
`n = 1`, so that `c + n ≤ SC3_INT_HPOW`, with an allocator that refuses the
reallocation: `sc3_array_push_count` returns the error of the allocator. -/
theorem sc3_array_push_count_counterexample :
    sc3_array_is_resizable allocator_refusing (int_array 1 0 1 1) ∧
    (0 : Int) ≤ 1 ∧ (int_array 1 0 1 1).ecount + 1 ≤ SC3_INT_HPOW ∧
    (sc3_array_push_count allocator_refusing (int_array 1 0 1 1) 1 (some 0)).1
      = some sc3_error.nomem := by
  decide

/-- C10 (amended): on a resizable array, if `sc3_array_pop` succeeds then
`ecount > 0`, the new count is the old count minus 1 and `esize` is
unchanged; if `ecount > 0` then it succeeds when `tighten` is clear, and also
when the allocator grants every reallocation; on an empty array it returns an
error and leaves the array unchanged. -/
theorem sc3_array_pop_correct (al : sc3_allocator) (a : sc3_array)
    (hres : sc3_array_is_resizable al a) :
    ((sc3_array_pop al a).1 = none →
      a.ecount > 0 ∧ (sc3_array_pop al a).2.ecount = a.ecount - 1 ∧
      (sc3_array_pop al a).2.esize = a.esize) ∧
    (a.ecount > 0 → (a.tighten = 0 ∨ ∀ p s, (al.realloc p s).isSome = true) →
      (sc3_array_pop al a).1 = none) ∧
    (a.ecount = 0 → sc3_array_pop al a = (some .bug, a)) := by
  obtain ⟨_, _, hec, _, _, _, hpow, hle⟩ := (sc3_array_is_setup_iff al a).mp hres.1
  refine ⟨?_, ?_, ?_⟩
  · intro hok
    obtain ⟨_, hpos, he⟩ := sc3_array_pop_ok al a hok
    rw [he] at hok ⊢
    obtain ⟨_, _, _, _, _, _, _, _, hs, hc, _, _⟩ := sc3_array_resize_ok al a _ hok
    exact ⟨hpos, hc, hs⟩
  · intro hpos hal
    have he : sc3_array_pop al a = sc3_array_resize al a (a.ecount - 1) := by
      simp only [sc3_array_pop, hres, hpos, not_true_eq_false, if_false]
    rw [he]
    have hb : a.ealloc ≤ 2 ^ 30 := by
      rcases hpow with h | h
      · omega
      · exact (SC3_ISPOWOF2_bounds h).2
    apply sc3_array_resize_succeeds al a _ hres (by omega) (by rw [SC3_INT_HPOW_eq]; omega)
    rcases hal with h | h
    · exact Or.inl ⟨h, by omega⟩
    · exact Or.inr h
  · intro h0
    have : ¬ a.ecount > 0 := by omega
    simp only [sc3_array_pop, hres, this, not_true_eq_false, not_false_eq_true, if_false,
      if_true]

/-- Witness of C10 (amended): a resizable array of count 3 and capacity 4. -/
theorem sc3_array_pop_correct_witness :
    sc3_array_is_resizable allocator_refusing (int_array 1 0 3 4) ∧
    (sc3_array_pop allocator_refusing (int_array 1 0 3 4)).1 = none ∧
    (sc3_array_pop allocator_refusing (int_array 1 0 3 4)).2.ecount = 3 - 1 :=
  ⟨by decide,
   (sc3_array_pop_correct allocator_refusing (int_array 1 0 3 4) (by decide)).2.1
     (by decide) (Or.inl rfl),
   ((sc3_array_pop_correct allocator_refusing (int_array 1 0 3 4) (by decide)).1
     (by decide)).2.1⟩

/-- C10 as stated fails: a resizable array with `tighten`, count 1 and
capacity 1, with an allocator that refuses the reallocation: the count is
positive and `sc3_array_pop` returns the error of the allocator. -/
theorem sc3_array_pop_counterexample :
    sc3_array_is_resizable allocator_refusing (int_array 1 1 1 1) ∧
    (int_array 1 1 1 1).ecount > 0 ∧
    (sc3_array_pop allocator_refusing (int_array 1 1 1 1)).1 = some sc3_error.nomem := by
  decide

/-! ## The split -/

theorem sc3_array_index_ok (al : sc3_allocator) (a : sc3_array) (i : Int) (v : Nat)
    (hs : sc3_array_is_setup al a) (h0 : 0 ≤ i) (h1 : i < a.ecount) :
    sc3_array_index al a i (some v) = (none, some (a.mem + i.toNat * a.esize)) := by
  have hrg : 0 ≤ i ∧ i < a.ecount := ⟨h0, h1⟩
  simp only [sc3_array_index, hs, hrg, and_self, not_true_eq_false, if_false]

theorem split_store_spec (al : sc3_allocator) (offsets : sc3_array) (v : Int)
    (hs : sc3_array_is_setup al offsets) :
    ∀ (k : Nat) (zi : Int) (cells : Int → Int), 0 ≤ zi → zi + k ≤ offsets.ecount →
      ∃ cells1, split_store al offsets v k zi cells = (none, cells1) ∧
        ∀ i, cells1 i = if zi ≤ i ∧ i < zi + k then v else cells i := by
  intro k
  induction k with
  | zero =>
    intro zi cells _ _
    refine ⟨cells, rfl, fun i => ?_⟩
    have : ¬ (zi ≤ i ∧ i < zi + ((0 : Nat) : Int)) := by push_cast; omega
    rw [if_neg this]
  | succ k ih =>
    intro zi cells h0 h1
    push_cast at h1
    have hidx := sc3_array_index_ok al offsets zi 0 hs h0 (by omega)
    obtain ⟨cells1, he, hc⟩ := ih (zi + 1) (Function.update cells zi v) (by omega) (by omega)
    refine ⟨cells1, ?_, fun i => ?_⟩
    · simp only [split_store, hidx]
      exact he
    · rw [hc i]
      push_cast
      by_cases hi : i = zi
      · subst hi
        have h2 : ¬ (i + 1 ≤ i ∧ i < i + 1 + (k : Int)) := by omega
        have h3 : i ≤ i ∧ i < i + ((k : Int) + 1) := by omega
        rw [if_neg h2, if_pos h3, Function.update_same]
      · rw [Function.update_noteq hi]
        by_cases h4 : zi + 1 ≤ i ∧ i < zi + 1 + (k : Int)
        · have h5 : zi ≤ i ∧ i < zi + ((k : Int) + 1) := by omega
          rw [if_pos h4, if_pos h5]
        · have h5 : ¬ (zi ≤ i ∧ i < zi + ((k : Int) + 1)) := by omega
          rw [if_neg h4, if_neg h5]

theorem split_store_range_spec (al : sc3_allocator) (offsets : sc3_array) (v lo hi : Int)
    (cells : Int → Int) (hs : sc3_array_is_setup al offsets) (h0 : 0 ≤ lo)
    (h1 : hi < offsets.ecount) (h2 : lo ≤ hi + 1) :
    ∃ cells1, split_store_range al offsets v lo hi cells = (none, cells1) ∧
      ∀ i, cells1 i = if lo ≤ i ∧ i ≤ hi then v else cells i := by
  obtain ⟨cells1, he, hc⟩ := split_store_spec al offsets v hs (hi - lo + 1).toNat lo cells h0
    (by omega)
  refine ⟨cells1, he, fun i => ?_⟩
  rw [hc i]
  by_cases h : lo ≤ i ∧ i ≤ hi
  · have h2 : lo ≤ i ∧ i < lo + ((hi - lo + 1).toNat : Int) := by omega
    rw [if_pos h, if_pos h2]
  · have h2 : ¬ (lo ≤ i ∧ i < lo + ((hi - lo + 1).toNat : Int)) := by omega
    rw [if_neg h, if_neg h2]

/-- One probe of the main loop keeps the invariants and brings `low` and
`high` closer. -/
theorem split_probe_spec {al : sc3_allocator} {offsets : sc3_array} {T : Int}
    {type_fn : Int → Option Int} {ty : Int → Int} {N : Int}
    (ctx : split_context al offsets T type_fn ty N) (low high step : Int) (cells : Int → Int)
    (hinv : split_inv ty N T low high step cells) (hlt : low < high) :
    ∃ low1 high1 cells1,
      split_probe al offsets T type_fn low high step cells = (none, low1, high1, cells1) ∧
      split_inv ty N T low1 high1 step cells1 ∧ high1 - low1 < high - low := by
  obtain ⟨hs1, hsT, hl0, _, hhN, hhc, hfin, hlow, hup⟩ := hinv
  have htd : Int.tdiv (high - low) 2 = (high - low) / 2 :=
    Int.tdiv_eq_ediv (by omega) (by norm_num)
  have hg0 : low ≤ low + (high - low) / 2 := by omega
  have hg1 : low + (high - low) / 2 < high := by omega
  generalize hgd : low + (high - low) / 2 = g at hg0 hg1
  obtain ⟨hfn, ht0, htT⟩ := ctx.hty g (by omega) (by omega)
  have key : split_probe al offsets T type_fn low high step cells =
      if ty g < step then (none, g + 1, high, cells)
      else
        match split_store_range al offsets g step (ty g) cells with
        | (some e, cells1) => (some e, low, high, cells1)
        | (none, cells1) => (none, low, g, cells1) := by
    simp only [split_probe, htd, hgd, hfn, htT, not_true_eq_false, if_false]
  rw [key]
  by_cases hts : ty g < step
  · rw [if_pos hts]
    refine ⟨g + 1, high, cells, rfl, ⟨hs1, hsT, by omega, by omega, hhN, hhc, hfin, ?_, ?_⟩,
      by omega⟩
    · intro j hj0 hj1
      have := ctx.hsorted j g hj0 (by omega) (by omega)
      omega
    · intro i hi0 hi1
      obtain ⟨h1, h2, h3⟩ := hup i hi0 hi1
      refine ⟨?_, h2, h3⟩
      by_contra hc
      have := h3 g (by omega) (by omega)
      omega
  · rw [if_neg hts]
    obtain ⟨cells1, he, hc⟩ := split_store_range_spec al offsets g step (ty g) cells ctx.hset
      (by omega) (by rw [ctx.hcnt]; omega) (by omega)
    rw [he]
    refine ⟨low, g, cells1, rfl, ⟨hs1, hsT, hl0, hg0, by omega, ?_, ?_, hlow, ?_⟩, by omega⟩
    · rw [hc step, if_pos ⟨le_refl _, by omega⟩]
    · intro i hi0 hi1
      rw [hc i, if_neg (by omega)]
      exact hfin i hi0 hi1
    · intro i hi0 hi1
      rw [hc i]
      by_cases hit : step ≤ i ∧ i ≤ ty g
      · rw [if_pos hit]
        refine ⟨hg0, by omega, ?_⟩
        intro j hj0 hj1
        have := ctx.hsorted g j (by omega) hj0 hj1
        omega
      · rw [if_neg hit]
        exact hup i hi0 hi1

/-- The inner loop either ends the split with every offset final, or leaves
the invariants with `low < high` and does not raise the measure. -/
theorem split_advance_spec {al : sc3_allocator} {offsets : sc3_array} {T : Int}
    {type_fn : Int → Option Int} {ty : Int → Int} {N : Int}
    (ctx : split_context al offsets T type_fn ty N) (low : Int) (cells : Int → Int) :
    ∀ (k : Nat) (high step : Int), split_inv ty N T low high step cells → T - step ≤ k →
      (split_advance al offsets T cells low k high step = .finished ∧
        ∀ i, 0 ≤ i → i ≤ T → split_final ty N i (cells i)) ∨
      (∃ high2 step2, split_advance al offsets T cells low k high step = .again high2 step2 ∧
        split_inv ty N T low high2 step2 cells ∧ low < high2 ∧
        split_measure N T low high2 step2 ≤ split_measure N T low high step) := by
  intro k
  induction k with
  | zero =>
    intro high step hinv hk
    obtain ⟨_, hsT, _⟩ := hinv
    push_cast at hk
    omega
  | succ k ih =>
    intro high step hinv hk
    obtain ⟨hs1, hsT, hl0, hlh, hhN, hhc, hfin, hlow, hup⟩ := hinv
    push_cast at hk
    by_cases heq : low = high
    · have hidx := sc3_array_index_ok al offsets (step + 1) 0 ctx.hset (by omega)
        (by rw [ctx.hcnt]; omega)
      have hstep : split_final ty N step (cells step) := by
        obtain ⟨_, h2, h3⟩ := hup step (le_refl _) (by omega)
        refine ⟨by omega, h2, ?_, h3⟩
        intro j hj0 hj1
        exact hlow j hj0 (by omega)
      by_cases hT : step + 1 = T
      · left
        refine ⟨by simp only [split_advance, heq, if_true, hidx]; rw [if_pos hT], ?_⟩
        intro i hi0 hi1
        by_cases h1 : i < step
        · exact hfin i hi0 h1
        · by_cases h2 : i = step
          · rw [h2]; exact hstep
          · have hiT : i = T := by omega
            obtain ⟨h3, h4, h5⟩ := hup i (by omega) hi1
            refine ⟨by omega, h4, ?_, h5⟩
            intro j hj0 hj1
            have := (ctx.hty j hj0 (by omega)).2.2
            omega
      · have hinv2 : split_inv ty N T low (cells (step + 1)) (step + 1) cells := by
          obtain ⟨h3, h4, _⟩ := hup (step + 1) (by omega) (by omega)
          refine ⟨by omega, by omega, hl0, h3, h4, rfl, ?_, ?_, ?_⟩
          · intro i hi0 hi1
            by_cases h1 : i < step
            · exact hfin i hi0 h1
            · have h2 : i = step := by omega
              rw [h2]; exact hstep
          · intro j hj0 hj1
            have := hlow j hj0 hj1
            omega
          · intro i hi0 hi1
            exact hup i (by omega) hi1
        have hm : split_measure N T low (cells (step + 1)) (step + 1)
            ≤ split_measure N T low high step := by
          obtain ⟨_, h4, _⟩ := hup (step + 1) (by omega) (by omega)
          unfold split_measure
          have hN := ctx.hN
          nlinarith
        rcases ih (cells (step + 1)) (step + 1) hinv2 (by omega) with ⟨he, hpost⟩ | ⟨h2, s2, he, hi2, hl2, hm2⟩
        · left
          refine ⟨?_, hpost⟩
          simp only [split_advance, heq, if_true, hidx]
          rw [if_neg hT, ← heq]; exact he
        · right
          refine ⟨h2, s2, ?_, hi2, hl2, le_trans hm2 hm⟩
          simp only [split_advance, heq, if_true, hidx]
          rw [if_neg hT, ← heq]; exact he
    · right
      refine ⟨high, step, by simp only [split_advance, heq, if_false],
        ⟨hs1, hsT, hl0, hlh, hhN, hhc, hfin, hlow, hup⟩, by omega, le_refl _⟩

/-- The main loop ends, without an error, with every offset at its final
position, once the bound exceeds the measure. -/
theorem split_loop_spec {al : sc3_allocator} {offsets : sc3_array} {T : Int}
    {type_fn : Int → Option Int} {ty : Int → Int} {N : Int}
    (ctx : split_context al offsets T type_fn ty N) :
    ∀ (fuel : Nat) (low high step : Int) (cells : Int → Int),
      split_inv ty N T low high step cells → low < high →
      split_measure N T low high step < fuel →
      ∃ cells2, split_loop al offsets T type_fn fuel low high step cells = (none, cells2) ∧
        ∀ i, 0 ≤ i → i ≤ T → split_final ty N i (cells2 i) := by
  intro fuel
  induction fuel with
  | zero =>
    intro low high step cells hinv hlt hm
    obtain ⟨_, hsT, _⟩ := hinv
    have hN := ctx.hN
    unfold split_measure at hm
    push_cast at hm
    nlinarith
  | succ fuel ih =>
    intro low high step cells hinv hlt hm
    have hN := ctx.hN
    have hsT : step < T := hinv.2.1
    obtain ⟨low1, high1, cells1, hp, hinv1, hd⟩ :=
      split_probe_spec ctx low high step cells hinv hlt
    have hlh1 : low1 ≤ high1 := hinv1.2.2.2.1
    have hm1 : split_measure N T low1 high1 step < fuel := by
      unfold split_measure at hm ⊢
      push_cast at hm
      omega
    have hk : T - step ≤ fuel := by
      unfold split_measure at hm1
      nlinarith
    simp only [split_loop, hp]
    rcases split_advance_spec ctx low1 cells1 fuel high1 step hinv1 hk with
      ⟨he, hpost⟩ | ⟨high2, step2, he, hinv2, hlt2, hm2⟩
    · rw [he]
      exact ⟨cells1, rfl, hpost⟩
    · rw [he]
      exact ih low1 high2 step2 cells1 hinv2 hlt2 (lt_of_le_of_lt hm2 hm1)

theorem split_final_unique (ty : Int → Int) (N i k k2 : Int)
    (h1 : split_final ty N i k) (h2 : split_final ty N i k2) : k = k2 := by
  obtain ⟨a0, a1, a2, a3⟩ := h1
  obtain ⟨b0, b1, b2, b3⟩ := h2
  by_contra hne
  rcases lt_or_gt_of_ne hne with h | h
  · have := b2 k a0 h
    have := a3 k (le_refl _) (by omega)
    omega
  · have := a2 k2 b0 h
    have := b3 k2 (le_refl _) (by omega)
    omega

/-- C1 (amended): for a set-up array `a` of `N = a.ecount` elements, `T ≥ 1`
with `T + 1 ≤ SC3_INT_HPOW`, a `type_fn` that returns on every index of `a` a
type `ty j` in `[0, T)` that does not decrease with the index, `offsets` a
resizable array of `int`-sized elements whose buffer is not `NULL`, and an
allocator that answers every reallocation with a buffer that is not `NULL`,
`sc3_array_split` returns without an error once the bound of the main loop is
at least `(N + 1) * T`; it leaves `offsets` with `T + 1` elements, and for
every `i` in `[0, T]` the element `offsets[i]` is the unique `k` in `[0, N]`
with `ty j < i` for all `j < k` and `ty j ≥ i` for all `j ≥ k`. -/
theorem sc3_array_split_correct (ala alo : sc3_allocator) (a offsets : sc3_array) (T : Int)
    (type_fn : Int → Option Int) (ty : Int → Int) (cells : Int → Int) (fuel : Nat)
    (ha : sc3_array_is_setup ala a)
    (ho : sc3_array_is_resizable alo offsets) (hes : offsets.esize = sizeof_int)
    (hmem : offsets.mem ≠ 0) (hal : ∀ p s, ∃ q, alo.realloc p s = some q ∧ q ≠ 0)
    (hT1 : 1 ≤ T) (hT2 : T + 1 ≤ SC3_INT_HPOW)
    (hty : ∀ j, 0 ≤ j → j < a.ecount → type_fn j = some (ty j) ∧ 0 ≤ ty j ∧ ty j < T)
    (hsorted : ∀ j j2, 0 ≤ j → j ≤ j2 → j2 < a.ecount → ty j ≤ ty j2)
    (hfuel : (a.ecount + 1) * T ≤ fuel) :
    (sc3_array_split ala alo a offsets T type_fn cells fuel).1 = none ∧
    (sc3_array_split ala alo a offsets T type_fn cells fuel).2.1.ecount = T + 1 ∧
    ∀ i, 0 ≤ i → i ≤ T →
      split_final ty a.ecount i ((sc3_array_split ala alo a offsets T type_fn cells fuel).2.2 i) ∧
      ∀ k, split_final ty a.ecount i k →
        k = (sc3_array_split ala alo a offsets T type_fn cells fuel).2.2 i := by
  obtain ⟨_, _, hN, _, _, _, _, _⟩ := (sc3_array_is_setup_iff ala a).mp ha
  have h30 : T + 1 ≤ 2 ^ 30 := by rw [← SC3_INT_HPOW_eq]; exact hT2
  have hw : int_wrap (T + 1) = T + 1 := int_wrap_of_range _ (by omega) (by omega)
  have h1 : sc3_array_get_elem_size alo offsets = (none, offsets.esize) := by
    simp only [sc3_array_get_elem_size, ho.1, not_true_eq_false, if_false]
  have hok : (sc3_array_resize alo offsets (T + 1)).1 = none :=
    sc3_array_resize_succeeds alo offsets _ ho (by omega) hT2
      (Or.inr (fun p s => by obtain ⟨q, hq, _⟩ := hal p s; rw [hq]; rfl))
  have hm : (sc3_array_resize alo offsets (T + 1)).2.mem ≠ 0 :=
    sc3_array_resize_mem alo offsets _ hok hmem (fun p s q hq => by
      obtain ⟨q2, hq2, hne⟩ := hal p s
      rw [hq2] at hq
      cases hq
      exact hne)
  have hset := sc3_array_resize_setup alo offsets _ hok hm
  have hcnt : (sc3_array_resize alo offsets (T + 1)).2.ecount = T + 1 :=
    (sc3_array_resize_ok alo offsets _ hok).2.2.2.2.2.2.2.2.2.1
  rcases hr : sc3_array_resize alo offsets (T + 1) with ⟨e, offsets1⟩
  rw [hr] at hok hset hcnt
  simp only at hok hset hcnt
  subst hok
  have h3 : sc3_array_get_elem_count ala a = (none, a.ecount) := by
    simp only [sc3_array_get_elem_count, ha, not_true_eq_false, if_false]
  have h4 := sc3_array_index_ok alo offsets1 0 0 hset (le_refl _) (by omega)
  obtain ⟨cells1, h5, hc1⟩ := split_store_range_spec alo offsets1 a.ecount 1 T
    (Function.update cells 0 0) hset (by omega) (by omega) (by omega)
  have hc0 : cells1 0 = 0 := by
    rw [hc1 0, if_neg (by omega), Function.update_same]
  have hci : ∀ i, 1 ≤ i → i ≤ T → cells1 i = a.ecount := by
    intro i hi0 hi1
    rw [hc1 i, if_pos ⟨hi0, hi1⟩]
  have ctx : split_context alo offsets1 T type_fn ty a.ecount :=
    ⟨hset, hcnt, hN, hty, hsorted⟩
  have hf0 : split_final ty a.ecount 0 0 :=
    ⟨le_refl _, hN, fun j h0 h1 => absurd h1 (by omega),
      fun j h0 h1 => (hty j h0 h1).2.1⟩
  have key : ∃ cells2, sc3_array_split ala alo a offsets T type_fn cells fuel
      = (none, offsets1, cells2) ∧ ∀ i, 0 ≤ i → i ≤ T → split_final ty a.ecount i (cells2 i) := by
    by_cases hc : a.ecount = 0 ∨ T ≤ 1
    · refine ⟨cells1, ?_, ?_⟩
      · simp only [sc3_array_split, h1, hes, hw, hr, h3, h4, h5, hc, not_true_eq_false,
          if_false, if_true]
      · intro i hi0 hi1
        by_cases hi : i = 0
        · rw [hi, hc0]; exact hf0
        · rw [hci i (by omega) hi1]
          refine ⟨hN, le_refl _, ?_, fun j h0 h1 => absurd h1 (by omega)⟩
          intro j h0 h1
          rcases hc with hc | hc
          · omega
          · have := (hty j h0 h1).2.2
            omega
    · have hN1 : 0 < a.ecount := by
        by_contra h
        exact hc (Or.inl (by omega))
      have hT3 : 1 < T := by
        by_contra h
        exact hc (Or.inr (by omega))
      have hinv : split_inv ty a.ecount T 0 a.ecount 1 cells1 := by
        refine ⟨le_refl _, hT3, le_refl _, hN, le_refl _, (hci 1 (le_refl _) hT1).symm, ?_, ?_, ?_⟩
        · intro i hi0 hi1
          have : i = 0 := by omega
          rw [this, hc0]; exact hf0
        · intro j h0 h1
          omega
        · intro i hi0 hi1
          rw [hci i hi0 hi1]
          exact ⟨hN, le_refl _, fun j h0 h1 => absurd h1 (by omega)⟩
      have hmeas : split_measure a.ecount T 0 a.ecount 1 < fuel := by
        unfold split_measure
        nlinarith
      obtain ⟨cells2, he, hpost⟩ := split_loop_spec ctx fuel 0 a.ecount 1 cells1 hinv hN1 hmeas
      refine ⟨cells2, ?_, hpost⟩
      simp only [sc3_array_split, h1, hes, hw, hr, h3, h4, h5, hc, not_true_eq_false,
        if_false, he]
  obtain ⟨cells2, he, hpost⟩ := key
  rw [he]
  refine ⟨rfl, hcnt, fun i hi0 hi1 => ⟨hpost i hi0 hi1, fun k hk => ?_⟩⟩
  exact split_final_unique ty a.ecount i k (cells2 i) hk (hpost i hi0 hi1)

/-- Witness of C1 (amended): the types `[0,0,0,1,1,2,2,2,2]` with `T = 4` give
the offsets `[0, 3, 5, 9, 9]`. -/
theorem sc3_array_split_correct_witness :
    (sc3_array_split allocator_granting allocator_granting (int_array 0 0 9 16)
      (int_array 1 0 0 1) 4 example_type_fn (fun _ => 0) 40).1 = none ∧
    (sc3_array_split allocator_granting allocator_granting (int_array 0 0 9 16)
      (int_array 1 0 0 1) 4 example_type_fn (fun _ => 0) 40).2.1.ecount = 4 + 1 ∧
    List.map (sc3_array_split allocator_granting allocator_granting (int_array 0 0 9 16)
      (int_array 1 0 0 1) 4 example_type_fn (fun _ => 0) 40).2.2 [0, 1, 2, 3, 4]
      = [0, 3, 5, 9, 9] :=
  ⟨(sc3_array_split_correct allocator_granting allocator_granting (int_array 0 0 9 16)
      (int_array 1 0 0 1) 4 example_type_fn example_types (fun _ => 0) 40
      (by decide) (by decide) rfl (by decide) (fun _ _ => ⟨8192, rfl, by decide⟩)
      (by decide) (by decide)
      (by
        intro j h0 h1
        have h9 : j < 9 := h1
        have hr : 0 ≤ j ∧ j < 9 := ⟨h0, h9⟩
        refine ⟨by simp only [example_type_fn, hr, and_self, if_true], ?_, ?_⟩ <;>
          (unfold example_types; split_ifs <;> omega))
      (by
        intro j j2 h0 h1 h2
        unfold example_types
        split_ifs <;> omega)
      (by decide)).1,
   (sc3_array_split_correct allocator_granting allocator_granting (int_array 0 0 9 16)
      (int_array 1 0 0 1) 4 example_type_fn example_types (fun _ => 0) 40
      (by decide) (by decide) rfl (by decide) (fun _ _ => ⟨8192, rfl, by decide⟩)
      (by decide) (by decide)
      (by
        intro j h0 h1
        have h9 : j < 9 := h1
        have hr : 0 ≤ j ∧ j < 9 := ⟨h0, h9⟩
        refine ⟨by simp only [example_type_fn, hr, and_self, if_true], ?_, ?_⟩ <;>
          (unfold example_types; split_ifs <;> omega))
      (by
        intro j j2 h0 h1 h2
        unfold example_types
        split_ifs <;> omega)
      (by decide)).2.1,
   by decide⟩

/-- C1 as stated fails: with `T = SC3_INT_HPOW`, an array `a` of two elements
of type 0 and `offsets` a resizable array of `int`-sized elements, the resize
of `offsets` to `T + 1` elements is refused and `sc3_array_split` returns an
error. -/
theorem sc3_array_split_counterexample :
    sc3_array_is_setup allocator_granting (int_array 0 0 2 2) ∧
    sc3_array_is_resizable allocator_granting (int_array 1 0 0 1) ∧
    (int_array 1 0 0 1).esize = sizeof_int ∧
    1 ≤ SC3_INT_HPOW ∧
    (sc3_array_split allocator_granting allocator_granting (int_array 0 0 2 2)
      (int_array 1 0 0 1) SC3_INT_HPOW (fun _ => some 0) (fun _ => 0) 100).1
      = some sc3_error.bug := by
  decide

/-! ## Index and reference -/

/-- C11: on a set-up array with an output pointer that is not `NULL`,
`sc3_array_index (a, i, ptr)` succeeds if and only if `0 ≤ i < ecount`; on
success the cell behind `ptr` holds the address `mem + i * esize`, on an error
it keeps its value.  The function has no statement that assigns to a field of
the array, which the model therefore does not return: the array is unchanged
in every case. -/
theorem sc3_array_index_correct (al : sc3_allocator) (a : sc3_array) (i : Int) (v : Nat)
    (hs : sc3_array_is_setup al a) :
    ((sc3_array_index al a i (some v)).1 = none ↔ (0 ≤ i ∧ i < a.ecount)) ∧
    ((sc3_array_index al a i (some v)).1 = none →
      (sc3_array_index al a i (some v)).2 = some (a.mem + i.toNat * a.esize)) ∧
    ((sc3_array_index al a i (some v)).1 ≠ none →
      (sc3_array_index al a i (some v)).2 = some v) := by
  by_cases hr : 0 ≤ i ∧ i < a.ecount
  · have he := sc3_array_index_ok al a i v hs hr.1 hr.2
    rw [he]
    exact ⟨⟨fun _ => hr, fun _ => rfl⟩, fun _ => rfl, fun h => absurd rfl h⟩
  · have he : sc3_array_index al a i (some v) = (some .bug, some v) := by
      simp only [sc3_array_index, hs, hr, not_true_eq_false, not_false_eq_true, if_false,
        if_true]
    rw [he]
    refine ⟨⟨fun h => ?_, fun h => absurd h hr⟩, fun h => ?_, fun _ => rfl⟩
    · cases h
    · cases h

/-- Witness of C11: the element of index 2 of an array of three `int`s at the
address 4096. -/
theorem sc3_array_index_correct_witness :
    sc3_array_is_setup allocator_granting (int_array 0 0 3 4) ∧
    (sc3_array_index allocator_granting (int_array 0 0 3 4) 2 (some 0)).1 = none ∧
    (sc3_array_index allocator_granting (int_array 0 0 3 4) 2 (some 0)).2
      = some (4096 + 2 * 4) ∧
    (sc3_array_index allocator_granting (int_array 0 0 3 4) 3 (some 0)).1 ≠ none :=
  ⟨by decide,
   ((sc3_array_index_correct allocator_granting (int_array 0 0 3 4) 2 0 (by decide)).1).2
     (by decide),
   (sc3_array_index_correct allocator_granting (int_array 0 0 3 4) 2 0 (by decide)).2.1
     (by decide),
   by decide⟩

/-- C12: on a set-up array whose `resizable` flag is set, `sc3_array_ref`
returns an error and leaves the array, its reference count included,
unchanged; on a set-up (hence valid) array whose `resizable` flag is clear it
succeeds and raises the reference count by exactly one, changing nothing
else. -/
theorem sc3_array_ref_correct (al : sc3_allocator) (a : sc3_array)
    (hs : sc3_array_is_setup al a) :
    (a.resizable ≠ 0 → sc3_array_ref al a = (some .bug, a)) ∧
    (a.resizable = 0 →
      sc3_array_ref al a = (none, { a with rc := { rc := a.rc.rc + 1 } })) := by
  constructor
  · intro hr
    have h : ¬ sc3_array_is_unresizable al a := fun h => hr h.2
    simp only [sc3_array_ref, h, not_false_eq_true, if_true]
  · intro hr
    have h : sc3_array_is_unresizable al a := ⟨hs, hr⟩
    have hv : sc3_refcount_is_valid a.rc := hs.1.1
    simp only [sc3_array_ref, h, not_true_eq_false, if_false, sc3_refcount_ref, hv]

/-- Witness of C12: a resizable array is refused, the same array after
`sc3_array_freeze` is referenced twice. -/
theorem sc3_array_ref_correct_witness :
    sc3_array_is_setup allocator_granting (int_array 1 0 3 4) ∧
    sc3_array_ref allocator_granting (int_array 1 0 3 4)
      = (some .bug, int_array 1 0 3 4) ∧
    sc3_array_is_setup allocator_granting (int_array 0 0 3 4) ∧
    sc3_array_ref allocator_granting (int_array 0 0 3 4)
      = (none, { int_array 0 0 3 4 with rc := { rc := 1 + 1 } }) :=
  ⟨by decide,
   (sc3_array_ref_correct allocator_granting (int_array 1 0 3 4) (by decide)).1 (by decide),
   by decide,
   (sc3_array_ref_correct allocator_granting (int_array 0 0 3 4) (by decide)).2 rfl⟩

/-! ## The split: order of the offsets -/

/-- The inner loop, for every bound: it ends the split with every offset
final, or leaves the invariants with `low < high`, or runs out of its bound. -/
theorem split_advance_cases {al : sc3_allocator} {offsets : sc3_array} {T : Int}
    {type_fn : Int → Option Int} {ty : Int → Int} {N : Int}
    (ctx : split_context al offsets T type_fn ty N) (low : Int) (cells : Int → Int) :
    ∀ (k : Nat) (high step : Int), split_inv ty N T low high step cells →
      (split_advance al offsets T cells low k high step = .finished ∧
        ∀ i, 0 ≤ i → i ≤ T → split_final ty N i (cells i)) ∨
      (∃ high2 step2, split_advance al offsets T cells low k high step = .again high2 step2 ∧
        split_inv ty N T low high2 step2 cells ∧ low < high2) ∨
      split_advance al offsets T cells low k high step = .fail .unfinished := by
  intro k high step hinv
  by_cases hk : T - step ≤ k
  · rcases split_advance_spec ctx low cells k high step hinv hk with h | ⟨h2, s2, he, hi, hl, _⟩
    · exact Or.inl h
    · exact Or.inr (Or.inl ⟨h2, s2, he, hi, hl⟩)
  · induction k generalizing high step with
    | zero =>
      by_cases heq : low = high
      · right; right
        simp only [split_advance, heq, if_true]
      · right; left
        exact ⟨high, step, by simp only [split_advance, heq, if_false], hinv,
          by have := hinv.2.2.2.1; omega⟩
    | succ k ih =>
      obtain ⟨hs1, hsT, hl0, hlh, hhN, hhc, hfin, hlow, hup⟩ := hinv
      push_cast at hk
      by_cases heq : low = high
      · have hidx := sc3_array_index_ok al offsets (step + 1) 0 ctx.hset (by omega)
          (by rw [ctx.hcnt]; omega)
        have hT : ¬ step + 1 = T := by omega
        have hstep : split_final ty N step (cells step) := by
          obtain ⟨_, h2, h3⟩ := hup step (le_refl _) (by omega)
          refine ⟨by omega, h2, ?_, h3⟩
          intro j hj0 hj1
          exact hlow j hj0 (by omega)
        have hinv2 : split_inv ty N T low (cells (step + 1)) (step + 1) cells := by
          obtain ⟨h3, h4, _⟩ := hup (step + 1) (by omega) (by omega)
          refine ⟨by omega, by omega, hl0, h3, h4, rfl, ?_, ?_, ?_⟩
          · intro i hi0 hi1
            by_cases h1 : i < step
            · exact hfin i hi0 h1
            · have h2 : i = step := by omega
              rw [h2]; exact hstep
          · intro j hj0 hj1
            have := hlow j hj0 hj1
            omega
          · intro i hi0 hi1
            exact hup i (by omega) hi1
        have hrec : split_advance al offsets T cells low (k + 1) high step
            = split_advance al offsets T cells low k (cells (step + 1)) (step + 1) := by
          simp only [split_advance, heq, if_true, hidx]
          rw [if_neg hT, ← heq]
        rw [hrec]
        exact ih (cells (step + 1)) (step + 1) hinv2 (by omega)
      · right; left
        exact ⟨high, step, by simp only [split_advance, heq, if_false],
          ⟨hs1, hsT, hl0, hlh, hhN, hhc, hfin, hlow, hup⟩, by omega⟩

/-- The main loop, for every bound: when it returns without an error every
offset is at its final position. -/
theorem split_loop_partial {al : sc3_allocator} {offsets : sc3_array} {T : Int}
    {type_fn : Int → Option Int} {ty : Int → Int} {N : Int}
    (ctx : split_context al offsets T type_fn ty N) :
    ∀ (fuel : Nat) (low high step : Int) (cells : Int → Int),
      split_inv ty N T low high step cells → low < high →
      (split_loop al offsets T type_fn fuel low high step cells).1 = none →
      ∀ i, 0 ≤ i → i ≤ T →
        split_final ty N i ((split_loop al offsets T type_fn fuel low high step cells).2 i) := by
  intro fuel
  induction fuel with
  | zero =>
    intro low high step cells _ _ hok
    simp [split_loop] at hok
  | succ fuel ih =>
    intro low high step cells hinv hlt hok
    obtain ⟨low1, high1, cells1, hp, hinv1, _⟩ :=
      split_probe_spec ctx low high step cells hinv hlt
    simp only [split_loop, hp] at hok ⊢
    rcases split_advance_cases ctx low1 cells1 fuel high1 step hinv1 with
      ⟨he, hpost⟩ | ⟨high2, step2, he, hinv2, hlt2⟩ | he
    · rw [he]
      exact hpost
    · rw [he] at hok ⊢
      exact ih low1 high2 step2 cells1 hinv2 hlt2 hok
    · rw [he] at hok
      simp at hok

/-- Offsets at their final positions do not decrease, start at 0 and end at
the number of elements. -/
theorem split_final_order (ty : Int → Int) (N T : Int) (c : Int → Int) (hT : 0 ≤ T)
    (hty : ∀ j, 0 ≤ j → j < N → 0 ≤ ty j ∧ ty j < T)
    (hpost : ∀ i, 0 ≤ i → i ≤ T → split_final ty N i (c i)) :
    (∀ i, 0 ≤ i → i < T → c i ≤ c (i + 1)) ∧ c 0 = 0 ∧ c T = N := by
  refine ⟨?_, ?_, ?_⟩
  · intro i hi0 hi1
    obtain ⟨a0, a1, a2, a3⟩ := hpost i hi0 (by omega)
    obtain ⟨b0, b1, b2, b3⟩ := hpost (i + 1) (by omega) (by omega)
    by_contra hc
    have h1 := a2 (c (i + 1)) b0 (by omega)
    have h2 := b3 (c (i + 1)) (le_refl _) (by omega)
    omega
  · obtain ⟨a0, a1, a2, _⟩ := hpost 0 (le_refl _) hT
    by_contra hc
    have h1 := a2 0 (le_refl _) (by omega)
    have h2 := (hty 0 (le_refl _) (by omega)).1
    omega
  · obtain ⟨a0, a1, _, a3⟩ := hpost T hT (le_refl _)
    by_contra hc
    have h1 := a3 (c T) (le_refl _) (by omega)
    have h2 := (hty (c T) a0 (by omega)).2
    omega

/-- A successful `sc3_array_index` was called on a set-up array with an index
in range. -/
theorem sc3_array_index_pre (al : sc3_allocator) (a : sc3_array) (i : Int) (ptr : Option Nat)
    (hok : (sc3_array_index al a i ptr).1 = none) :
    sc3_array_is_setup al a ∧ 0 ≤ i ∧ i < a.ecount := by
  have hs : sc3_array_is_setup al a := by
    by_contra h; simp [sc3_array_index, h] at hok
  have hr : 0 ≤ i ∧ i < a.ecount := by
    by_contra h
    simp only [sc3_array_index, hs, not_true_eq_false, if_false, h, not_false_eq_true,
      if_true] at hok
    simp at hok
  exact ⟨hs, hr.1, hr.2⟩

/-- When `sc3_array_split` returns without an error, for a number of types
that is an `int` and a `type_fn` that returns types in `[0, T)` that do not
decrease, `offsets` holds `T + 1` elements and every offset is at its final
position. -/
theorem sc3_array_split_post (ala alo : sc3_allocator) (a offsets : sc3_array) (T : Int)
    (type_fn : Int → Option Int) (ty : Int → Int) (cells : Int → Int) (fuel : Nat)
    (hT1 : 1 ≤ T) (hTint : T < 2 ^ (SC3_INT_BITS - 1))
    (hty : ∀ j, 0 ≤ j → j < a.ecount → type_fn j = some (ty j) ∧ 0 ≤ ty j ∧ ty j < T)
    (hsorted : ∀ j j2, 0 ≤ j → j ≤ j2 → j2 < a.ecount → ty j ≤ ty j2)
    (hok : (sc3_array_split ala alo a offsets T type_fn cells fuel).1 = none) :
    (sc3_array_split ala alo a offsets T type_fn cells fuel).2.1.ecount = T + 1 ∧
    ∀ i, 0 ≤ i → i ≤ T →
      split_final ty a.ecount i
        ((sc3_array_split ala alo a offsets T type_fn cells fuel).2.2 i) := by
  have hs : sc3_array_is_setup alo offsets := by
    by_contra h
    simp [sc3_array_split, sc3_array_get_elem_size, h] at hok
  have h1 : sc3_array_get_elem_size alo offsets = (none, offsets.esize) := by
    simp only [sc3_array_get_elem_size, hs, not_true_eq_false, if_false]
  have hes : offsets.esize = sizeof_int := by
    by_contra h
    simp [sc3_array_split, h1, h] at hok
  rcases hr : sc3_array_resize alo offsets (int_wrap (T + 1)) with ⟨e, offsets1⟩
  have hres : (sc3_array_resize alo offsets (int_wrap (T + 1))).1 = none := by
    rw [hr]
    cases e with
    | none => rfl
    | some e => simp [sc3_array_split, h1, hes, hr] at hok
  rw [hr] at hres
  simp only at hres
  subst hres
  have hpre := sc3_array_resize_pre alo offsets _ (by rw [hr])
  have hw : int_wrap (T + 1) = T + 1 := by
    have h0 := hpre.2.1
    unfold SC3_INT_BITS at hTint
    norm_num at hTint
    by_cases hlt : T + 1 < 2 ^ 31
    · exact int_wrap_of_range _ (by omega) hlt
    · have hT : T = 2 ^ 31 - 1 := by omega
      rw [hT] at h0
      unfold int_wrap SC3_INT_BITS at h0
      norm_num at h0
  rw [hw] at hr
  have hcnt : offsets1.ecount = T + 1 := by
    have := (sc3_array_resize_ok alo offsets (T + 1) (by rw [hr])).2.2.2.2.2.2.2.2.2.1
    rw [hr] at this
    exact this
  have ha : sc3_array_is_setup ala a := by
    by_contra h
    simp [sc3_array_split, h1, hes, hw, hr, sc3_array_get_elem_count, h] at hok
  have h3 : sc3_array_get_elem_count ala a = (none, a.ecount) := by
    simp only [sc3_array_get_elem_count, ha, not_true_eq_false, if_false]
  obtain ⟨_, _, hN, _, _, _, _, _⟩ := (sc3_array_is_setup_iff ala a).mp ha
  have h4 : (sc3_array_index alo offsets1 0 (some 0)).1 = none := by
    cases hx : (sc3_array_index alo offsets1 0 (some 0)).1 with
    | none => rfl
    | some e => simp [sc3_array_split, h1, hes, hw, hr, h3, hx] at hok
  have hset := (sc3_array_index_pre alo offsets1 0 (some 0) h4).1
  obtain ⟨cells1, h5, hc1⟩ := split_store_range_spec alo offsets1 a.ecount 1 T
    (Function.update cells 0 0) hset (by omega) (by omega) (by omega)
  have hc0 : cells1 0 = 0 := by
    rw [hc1 0, if_neg (by omega), Function.update_same]
  have hci : ∀ i, 1 ≤ i → i ≤ T → cells1 i = a.ecount := by
    intro i hi0 hi1
    rw [hc1 i, if_pos ⟨hi0, hi1⟩]
  have ctx : split_context alo offsets1 T type_fn ty a.ecount :=
    ⟨hset, hcnt, hN, hty, hsorted⟩
  have hf0 : split_final ty a.ecount 0 0 :=
    ⟨le_refl _, hN, fun j h0 h1 => absurd h1 (by omega),
      fun j h0 h1 => (hty j h0 h1).2.1⟩
  by_cases hc : a.ecount = 0 ∨ T ≤ 1
  · have key : sc3_array_split ala alo a offsets T type_fn cells fuel
        = (none, offsets1, cells1) := by
      simp only [sc3_array_split, h1, hes, hw, hr, h3, h4, h5, hc, not_true_eq_false,
        if_false, if_true]
    rw [key]
    refine ⟨hcnt, ?_⟩
    intro i hi0 hi1
    by_cases hi : i = 0
    · rw [hi]; show split_final ty a.ecount 0 (cells1 0); rw [hc0]; exact hf0
    · show split_final ty a.ecount i (cells1 i)
      rw [hci i (by omega) hi1]
      refine ⟨hN, le_refl _, ?_, fun j h0 h1 => absurd h1 (by omega)⟩
      intro j h0 h1
      rcases hc with hc | hc
      · omega
      · have := (hty j h0 h1).2.2
        omega
  · have hN1 : 0 < a.ecount := by
      by_contra h
      exact hc (Or.inl (by omega))
    have hT3 : 1 < T := by
      by_contra h
      exact hc (Or.inr (by omega))
    have hinv : split_inv ty a.ecount T 0 a.ecount 1 cells1 := by
      refine ⟨le_refl _, hT3, le_refl _, hN, le_refl _, (hci 1 (le_refl _) hT1).symm, ?_, ?_, ?_⟩
      · intro i hi0 hi1
        have : i = 0 := by omega
        rw [this, hc0]; exact hf0
      · intro j h0 h1
        omega
      · intro i hi0 hi1
        rw [hci i hi0 hi1]
        exact ⟨hN, le_refl _, fun j h0 h1 => absurd h1 (by omega)⟩
    have key : sc3_array_split ala alo a offsets T type_fn cells fuel
        = ((split_loop alo offsets1 T type_fn fuel 0 a.ecount 1 cells1).1, offsets1,
           (split_loop alo offsets1 T type_fn fuel 0 a.ecount 1 cells1).2) := by
      simp only [sc3_array_split, h1, hes, hw, hr, h3, h4, h5, hc, not_true_eq_false,
        if_false]
    rw [key] at hok ⊢
    exact ⟨hcnt, split_loop_partial ctx fuel 0 a.ecount 1 cells1 hinv hN1 hok⟩

/-- Under the conditions of the environment, `sc3_array_split` returns without
an error once the bound of the main loop is at least `(N + 1) * T`. -/
theorem sc3_array_split_returns (ala alo : sc3_allocator) (a offsets : sc3_array) (T : Int)
    (type_fn : Int → Option Int) (ty : Int → Int) (cells : Int → Int) (fuel : Nat)
    (ha : sc3_array_is_setup ala a)
    (ho : sc3_array_is_resizable alo offsets) (hes : offsets.esize = sizeof_int)
    (hmem : offsets.mem ≠ 0) (hal : ∀ p s, ∃ q, alo.realloc p s = some q ∧ q ≠ 0)
    (hT1 : 1 ≤ T) (hT2 : T + 1 ≤ SC3_INT_HPOW)
    (hty : ∀ j, 0 ≤ j → j < a.ecount → type_fn j = some (ty j) ∧ 0 ≤ ty j ∧ ty j < T)
    (hsorted : ∀ j j2, 0 ≤ j → j ≤ j2 → j2 < a.ecount → ty j ≤ ty j2)
    (hfuel : (a.ecount + 1) * T ≤ fuel) :
    (sc3_array_split ala alo a offsets T type_fn cells fuel).1 = none := by
  obtain ⟨_, _, hN, _, _, _, _, _⟩ := (sc3_array_is_setup_iff ala a).mp ha
  have h30 : T + 1 ≤ 2 ^ 30 := by rw [← SC3_INT_HPOW_eq]; exact hT2
  have hw : int_wrap (T + 1) = T + 1 := int_wrap_of_range _ (by omega) (by omega)
  have h1 : sc3_array_get_elem_size alo offsets = (none, offsets.esize) := by
    simp only [sc3_array_get_elem_size, ho.1, not_true_eq_false, if_false]
  have hok : (sc3_array_resize alo offsets (T + 1)).1 = none :=
    sc3_array_resize_succeeds alo offsets _ ho (by omega) hT2
      (Or.inr (fun p s => by obtain ⟨q, hq, _⟩ := hal p s; rw [hq]; rfl))
  have hm : (sc3_array_resize alo offsets (T + 1)).2.mem ≠ 0 :=
    sc3_array_resize_mem alo offsets _ hok hmem (fun p s q hq => by
      obtain ⟨q2, hq2, hne⟩ := hal p s
      rw [hq2] at hq
      cases hq
      exact hne)
  have hset := sc3_array_resize_setup alo offsets _ hok hm
  have hcnt : (sc3_array_resize alo offsets (T + 1)).2.ecount = T + 1 :=
    (sc3_array_resize_ok alo offsets _ hok).2.2.2.2.2.2.2.2.2.1
  rcases hr : sc3_array_resize alo offsets (T + 1) with ⟨e, offsets1⟩
  rw [hr] at hok hset hcnt
  simp only at hok hset hcnt
  subst hok
  have h3 : sc3_array_get_elem_count ala a = (none, a.ecount) := by
    simp only [sc3_array_get_elem_count, ha, not_true_eq_false, if_false]
  have h4 := sc3_array_index_ok alo offsets1 0 0 hset (le_refl _) (by omega)
  obtain ⟨cells1, h5, hc1⟩ := split_store_range_spec alo offsets1 a.ecount 1 T
    (Function.update cells 0 0) hset (by omega) (by omega) (by omega)
  have hc0 : cells1 0 = 0 := by
    rw [hc1 0, if_neg (by omega), Function.update_same]
  have hci : ∀ i, 1 ≤ i → i ≤ T → cells1 i = a.ecount := by
    intro i hi0 hi1
    rw [hc1 i, if_pos ⟨hi0, hi1⟩]
  have ctx : split_context alo offsets1 T type_fn ty a.ecount :=
    ⟨hset, hcnt, hN, hty, hsorted⟩
  have hf0 : split_final ty a.ecount 0 0 :=
    ⟨le_refl _, hN, fun j h0 h1 => absurd h1 (by omega),
      fun j h0 h1 => (hty j h0 h1).2.1⟩
  by_cases hc : a.ecount = 0 ∨ T ≤ 1
  · simp only [sc3_array_split, h1, hes, hw, hr, h3, h4, h5, hc, not_true_eq_false,
      if_false, if_true]
  · have hN1 : 0 < a.ecount := by
      by_contra h
      exact hc (Or.inl (by omega))
    have hT3 : 1 < T := by
      by_contra h
      exact hc (Or.inr (by omega))
    have hinv : split_inv ty a.ecount T 0 a.ecount 1 cells1 := by
      refine ⟨le_refl _, hT3, le_refl _, hN, le_refl _, (hci 1 (le_refl _) hT1).symm, ?_, ?_, ?_⟩
      · intro i hi0 hi1
        have : i = 0 := by omega
        rw [this, hc0]; exact hf0
      · intro j h0 h1
        omega
      · intro i hi0 hi1
        rw [hci i hi0 hi1]
        exact ⟨hN, le_refl _, fun j h0 h1 => absurd h1 (by omega)⟩
    have hmeas : split_measure a.ecount T 0 a.ecount 1 < fuel := by
      unfold split_measure
      nlinarith
    obtain ⟨cells2, he, _⟩ := split_loop_spec ctx fuel 0 a.ecount 1 cells1 hinv hN1 hmeas
    simp only [sc3_array_split, h1, hes, hw, hr, h3, h4, h5, hc, not_true_eq_false,
      if_false, he]

/-- C13: for an array `a` whose `N` elements have types in `[0, T)` that do
not decrease, and `T ≥ 1` types (`T` an `int`), the offsets that a successful
`sc3_array_split` leaves do not decrease (`offsets[i] ≤ offsets[i+1]` for all
`0 ≤ i < T`), with `offsets[0] = 0` and `offsets[T] = N`, whatever the bound
of the loop; and the call does return without an error when `a` is set up,
`offsets` is a resizable array of `int`-sized elements with a buffer,
`T + 1 ≤ SC3_INT_HPOW`, the allocator grants the reallocation and the bound is
at least `(N + 1) * T`. -/
theorem sc3_array_split_order (ala alo : sc3_allocator) (a offsets : sc3_array) (T : Int)
    (type_fn : Int → Option Int) (ty : Int → Int) (cells : Int → Int) (fuel : Nat)
    (hT1 : 1 ≤ T) (hTint : T < 2 ^ (SC3_INT_BITS - 1))
    (hty : ∀ j, 0 ≤ j → j < a.ecount → type_fn j = some (ty j) ∧ 0 ≤ ty j ∧ ty j < T)
    (hsorted : ∀ j j2, 0 ≤ j → j ≤ j2 → j2 < a.ecount → ty j ≤ ty j2) :
    ((sc3_array_split ala alo a offsets T type_fn cells fuel).1 = none →
      (∀ i, 0 ≤ i → i < T →
        (sc3_array_split ala alo a offsets T type_fn cells fuel).2.2 i
          ≤ (sc3_array_split ala alo a offsets T type_fn cells fuel).2.2 (i + 1)) ∧
      (sc3_array_split ala alo a offsets T type_fn cells fuel).2.2 0 = 0 ∧
      (sc3_array_split ala alo a offsets T type_fn cells fuel).2.2 T = a.ecount) ∧
    (sc3_array_is_setup ala a → sc3_array_is_resizable alo offsets →
      offsets.esize = sizeof_int → offsets.mem ≠ 0 →
      (∀ p s, ∃ q, alo.realloc p s = some q ∧ q ≠ 0) →
      T + 1 ≤ SC3_INT_HPOW → (a.ecount + 1) * T ≤ fuel →
      (sc3_array_split ala alo a offsets T type_fn cells fuel).1 = none) := by
  constructor
  · intro hok
    obtain ⟨_, hpost⟩ := sc3_array_split_post ala alo a offsets T type_fn ty cells fuel
      hT1 hTint hty hsorted hok
    exact split_final_order ty a.ecount T _ (by omega)
      (fun j h0 h1 => (hty j h0 h1).2) hpost
  · intro ha ho hes hmem hal hT2 hfuel
    exact sc3_array_split_returns ala alo a offsets T type_fn ty cells fuel ha ho hes hmem hal
      hT1 hT2 hty hsorted hfuel

/-- Witness of C13: the types `[0,0,0,1,1,2,2,2,2]` with `T = 4`: the call
returns without an error and the offsets are `0 ≤ 3 ≤ 5 ≤ 9 ≤ 9`. -/
theorem sc3_array_split_order_witness :
    (sc3_array_split allocator_granting allocator_granting (int_array 0 0 9 16)
      (int_array 1 0 0 1) 4 example_type_fn (fun _ => 7) 40).1 = none ∧
    (sc3_array_split allocator_granting allocator_granting (int_array 0 0 9 16)
      (int_array 1 0 0 1) 4 example_type_fn (fun _ => 7) 40).2.2 0 = 0 ∧
    (sc3_array_split allocator_granting allocator_granting (int_array 0 0 9 16)
      (int_array 1 0 0 1) 4 example_type_fn (fun _ => 7) 40).2.2 4
      = (int_array 0 0 9 16).ecount :=
  ⟨by decide,
   ((sc3_array_split_order allocator_granting allocator_granting (int_array 0 0 9 16)
      (int_array 1 0 0 1) 4 example_type_fn example_types (fun _ => 7) 40
      (by decide) (by decide)
      (by
        intro j h0 h1
        have h9 : j < 9 := h1
        have hr : 0 ≤ j ∧ j < 9 := ⟨h0, h9⟩
        refine ⟨by simp only [example_type_fn, hr, and_self, if_true], ?_, ?_⟩ <;>
          (unfold example_types; split_ifs <;> omega))
      (by
        intro j j2 h0 h1 h2
        unfold example_types
        split_ifs <;> omega)).1 (by decide)).2⟩

/-! ## Octants -/

theorem P4EST_QUADRANT_LEN_pos (l : Int) : 0 < P4EST_QUADRANT_LEN l := by
  unfold P4EST_QUADRANT_LEN
  positivity

theorem P4EST_QUADRANT_LEN_le (l : Int) : P4EST_QUADRANT_LEN l ≤ P4EST_ROOT_LEN := by
  unfold P4EST_QUADRANT_LEN P4EST_ROOT_LEN
  exact pow_le_pow_right₀ (by norm_num) (by omega)

/-- The side length doubles from a level to the level above it. -/
theorem P4EST_QUADRANT_LEN_succ (l : Int) (h0 : 0 ≤ l) (h1 : l < P4EST_MAXLEVEL) :
    P4EST_QUADRANT_LEN l = 2 * P4EST_QUADRANT_LEN (l + 1) := by
  unfold P4EST_QUADRANT_LEN
  have h : P4EST_MAXLEVEL - l.toNat = (P4EST_MAXLEVEL - (l + 1).toNat) + 1 := by omega
  rw [h, pow_succ]
  ring

theorem emod_add_mul_self_eq_zero (x h s : Int) (hx : x % h = 0) : (x + s * h) % h = 0 := by
  rw [Int.add_mul_emod_self]
  exact hx

/-- A valid octant moved by at most one side length along every axis is an
extended octant. -/
theorem p4est_quadrant_is_extended_shift (q : p4est_quadrant) (s1 s2 s3 : Int)
    (hq : p4est_quadrant_is_valid q)
    (h1 : -1 ≤ s1 ∧ s1 ≤ 1) (h2 : -1 ≤ s2 ∧ s2 ≤ 1) (h3 : -1 ≤ s3 ∧ s3 ≤ 1) :
    p4est_quadrant_is_extended
      { x := q.x + s1 * P4EST_QUADRANT_LEN q.level,
        y := q.y + s2 * P4EST_QUADRANT_LEN q.level,
        z := q.z + s3 * P4EST_QUADRANT_LEN q.level,
        level := q.level } := by
  obtain ⟨hl, hx, hy, hz, ax, ay, az⟩ := hq
  unfold P4EST_LAST_OFFSET at hx hy hz
  have hpos := P4EST_QUADRANT_LEN_pos q.level
  have b1 : -P4EST_QUADRANT_LEN q.level ≤ s1 * P4EST_QUADRANT_LEN q.level ∧
      s1 * P4EST_QUADRANT_LEN q.level ≤ P4EST_QUADRANT_LEN q.level := by
    constructor <;> nlinarith
  have b2 : -P4EST_QUADRANT_LEN q.level ≤ s2 * P4EST_QUADRANT_LEN q.level ∧
      s2 * P4EST_QUADRANT_LEN q.level ≤ P4EST_QUADRANT_LEN q.level := by
    constructor <;> nlinarith
  have b3 : -P4EST_QUADRANT_LEN q.level ≤ s3 * P4EST_QUADRANT_LEN q.level ∧
      s3 * P4EST_QUADRANT_LEN q.level ≤ P4EST_QUADRANT_LEN q.level := by
    constructor <;> nlinarith
  refine ⟨hl, ⟨?_, ?_⟩, ⟨?_, ?_⟩, ⟨?_, ?_⟩, ?_, ?_, ?_⟩
  · show -P4EST_QUADRANT_LEN q.level ≤ q.x + s1 * P4EST_QUADRANT_LEN q.level
    omega
  · show q.x + s1 * P4EST_QUADRANT_LEN q.level ≤ P4EST_ROOT_LEN
    omega
  · show -P4EST_QUADRANT_LEN q.level ≤ q.y + s2 * P4EST_QUADRANT_LEN q.level
    omega
  · show q.y + s2 * P4EST_QUADRANT_LEN q.level ≤ P4EST_ROOT_LEN
    omega
  · show -P4EST_QUADRANT_LEN q.level ≤ q.z + s3 * P4EST_QUADRANT_LEN q.level
    omega
  · show q.z + s3 * P4EST_QUADRANT_LEN q.level ≤ P4EST_ROOT_LEN
    omega
  · exact emod_add_mul_self_eq_zero _ _ _ ax
  · exact emod_add_mul_self_eq_zero _ _ _ ay
  · exact emod_add_mul_self_eq_zero _ _ _ az

/-- The value of `p8est_quadrant_edge_neighbor` for an edge in `[0, 12)`: the
octant moved by `-1` or `+1` side lengths along the two axes other than
`edge / 4`. -/
theorem p8est_quadrant_edge_neighbor_eq (q : p4est_quadrant) (e : Int)
    (he0 : 0 ≤ e) (he1 : e < 12) :
    p8est_quadrant_edge_neighbor q e = some
      { x := q.x + (if e / 4 = 0 then 0 else 2 * (e % 2) - 1) * P4EST_QUADRANT_LEN q.level,
        y := q.y + (if e / 4 = 1 then 0 else if e / 4 = 0 then 2 * (e % 2) - 1
                    else 2 * (e / 2 % 2) - 1) * P4EST_QUADRANT_LEN q.level,
        z := q.z + (if e / 4 = 2 then 0 else 2 * (e / 2 % 2) - 1) * P4EST_QUADRANT_LEN q.level,
        level := q.level } := by
  have htd : Int.tdiv e 4 = e / 4 := Int.tdiv_eq_ediv he0 (by norm_num)
  unfold p8est_quadrant_edge_neighbor
  rw [htd]
  have h : e / 4 = 0 ∨ e / 4 = 1 ∨ e / 4 = 2 := by omega
  rcases h with h | h | h <;> simp [h]

/-- C19: for a valid octant `q` and an edge `e` in `[0, 12)`, with
`axis = e / 4`, `a = e & 1`, `b = (e >> 1) & 1` and `h = QLEN(q.level)`,
`p8est_quadrant_edge_neighbor` yields an octant `r` of the level of `q`, whose
coordinate along `axis` is that of `q` and whose two other coordinates, in
increasing axis order, are those of `q` plus `(2a - 1) * h` and
`(2b - 1) * h`; `r` is an extended octant. -/
theorem p8est_quadrant_edge_neighbor_correct (q : p4est_quadrant) (e : Int)
    (hq : p4est_quadrant_is_valid q) (he0 : 0 ≤ e) (he1 : e < 12) :
    ∃ r, p8est_quadrant_edge_neighbor q e = some r ∧ r.level = q.level ∧
      p4est_quadrant_coord r (e / 4) = p4est_quadrant_coord q (e / 4) ∧
      p4est_quadrant_coord r (if e / 4 = 0 then 1 else 0)
        = p4est_quadrant_coord q (if e / 4 = 0 then 1 else 0)
          + (2 * (e % 2) - 1) * P4EST_QUADRANT_LEN q.level ∧
      p4est_quadrant_coord r (if e / 4 = 2 then 1 else 2)
        = p4est_quadrant_coord q (if e / 4 = 2 then 1 else 2)
          + (2 * (e / 2 % 2) - 1) * P4EST_QUADRANT_LEN q.level ∧
      p4est_quadrant_is_extended r := by
  refine ⟨_, p8est_quadrant_edge_neighbor_eq q e he0 he1, rfl, ?_, ?_, ?_, ?_⟩
  · have h : e / 4 = 0 ∨ e / 4 = 1 ∨ e / 4 = 2 := by omega
    rcases h with h | h | h <;> simp [h, p4est_quadrant_coord]
  · have h : e / 4 = 0 ∨ e / 4 = 1 ∨ e / 4 = 2 := by omega
    rcases h with h | h | h <;> simp [h, p4est_quadrant_coord]
  · have h : e / 4 = 0 ∨ e / 4 = 1 ∨ e / 4 = 2 := by omega
    rcases h with h | h | h <;> simp [h, p4est_quadrant_coord]
  · apply p4est_quadrant_is_extended_shift q _ _ _ hq
    · split_ifs <;> omega
    · split_ifs <;> omega
    · split_ifs <;> omega

/-- Witness of C19: `q = (0, 0, 0)` at the level `MAXLEVEL - 1` and the edge 0
give `(0, -h, -h)`, which is outside an edge. -/
theorem p8est_quadrant_edge_neighbor_correct_witness :
    p4est_quadrant_is_valid { x := 0, y := 0, z := 0, level := P4EST_MAXLEVEL - 1 } ∧
    p8est_quadrant_edge_neighbor { x := 0, y := 0, z := 0, level := P4EST_MAXLEVEL - 1 } 0
      = some { x := 0, y := -P4EST_QUADRANT_LEN (P4EST_MAXLEVEL - 1),
               z := -P4EST_QUADRANT_LEN (P4EST_MAXLEVEL - 1), level := P4EST_MAXLEVEL - 1 } ∧
    p8est_quadrant_is_outside_edge
      { x := 0, y := -P4EST_QUADRANT_LEN (P4EST_MAXLEVEL - 1),
        z := -P4EST_QUADRANT_LEN (P4EST_MAXLEVEL - 1), level := P4EST_MAXLEVEL - 1 } ∧
    (∃ r, p8est_quadrant_edge_neighbor { x := 0, y := 0, z := 0, level := P4EST_MAXLEVEL - 1 } 0
        = some r ∧ p4est_quadrant_is_extended r) :=
  ⟨by decide, by decide, by decide,
   (p8est_quadrant_edge_neighbor_correct { x := 0, y := 0, z := 0, level := P4EST_MAXLEVEL - 1 } 0
      (by decide) (by decide) (by decide)).imp (fun _ h => ⟨h.1, h.2.2.2.2.2⟩)⟩

theorem p4est_quadrant_outside_count_zero (r : p4est_quadrant) :
    p4est_quadrant_is_inside_root r ↔ p4est_quadrant_outside_count r = 0 := by
  unfold p4est_quadrant_is_inside_root p4est_quadrant_outside_count p4est_coord_is_outside
  constructor
  · rintro ⟨⟨a, b⟩, ⟨c, d⟩, e, f⟩
    rw [if_neg (by omega), if_neg (by omega), if_neg (by omega)]
  · intro h
    split_ifs at h <;> omega

theorem p4est_quadrant_outside_count_two (r : p4est_quadrant) :
    p8est_quadrant_is_outside_edge r ↔ p4est_quadrant_outside_count r = 2 := by
  unfold p8est_quadrant_is_outside_edge p4est_quadrant_outside_count p4est_coord_is_outside
  split_ifs <;> constructor <;> intro h <;> omega

/-- C20: for a valid octant `q` and an edge `e` in `[0, 12)`, the octant
`r = edge_neighbor (q, e)` has at most two coordinates outside
`[0, ROOT_LEN)`, never three; it is inside the root exactly when none is
outside, `p8est_quadrant_is_outside_edge` holds exactly when two are outside,
and exactly one of the three cases holds: inside the root, outside an edge,
exactly one coordinate outside. -/
theorem p8est_quadrant_edge_neighbor_cases (q : p4est_quadrant) (e : Int)
    (hq : p4est_quadrant_is_valid q) (he0 : 0 ≤ e) (he1 : e < 12) :
    ∃ r, p8est_quadrant_edge_neighbor q e = some r ∧
      p4est_quadrant_outside_count r ≠ 3 ∧
      (p4est_quadrant_is_inside_root r ↔ p4est_quadrant_outside_count r = 0) ∧
      (p8est_quadrant_is_outside_edge r ↔ p4est_quadrant_outside_count r = 2) ∧
      ((p4est_quadrant_is_inside_root r ∧ ¬ p8est_quadrant_is_outside_edge r ∧
          p4est_quadrant_outside_count r ≠ 1) ∨
        (¬ p4est_quadrant_is_inside_root r ∧ p8est_quadrant_is_outside_edge r ∧
          p4est_quadrant_outside_count r ≠ 1) ∨
        (¬ p4est_quadrant_is_inside_root r ∧ ¬ p8est_quadrant_is_outside_edge r ∧
          p4est_quadrant_outside_count r = 1)) := by
  refine ⟨_, p8est_quadrant_edge_neighbor_eq q e he0 he1, ?_⟩
  obtain ⟨hl, hx, hy, hz, _, _, _⟩ := hq
  unfold P4EST_LAST_OFFSET at hx hy hz
  have hpos := P4EST_QUADRANT_LEN_pos q.level
  have hle : p4est_quadrant_outside_count
      { x := q.x + (if e / 4 = 0 then 0 else 2 * (e % 2) - 1) * P4EST_QUADRANT_LEN q.level,
        y := q.y + (if e / 4 = 1 then 0 else if e / 4 = 0 then 2 * (e % 2) - 1
                    else 2 * (e / 2 % 2) - 1) * P4EST_QUADRANT_LEN q.level,
        z := q.z + (if e / 4 = 2 then 0 else 2 * (e / 2 % 2) - 1) * P4EST_QUADRANT_LEN q.level,
        level := q.level } ≤ 2 := by
    have h : e / 4 = 0 ∨ e / 4 = 1 ∨ e / 4 = 2 := by omega
    unfold p4est_quadrant_outside_count p4est_coord_is_outside
    rcases h with h | h | h
    · have hin : ¬ (q.x + (if e / 4 = 0 then 0 else 2 * (e % 2) - 1) * P4EST_QUADRANT_LEN q.level < 0
          ∨ q.x + (if e / 4 = 0 then 0 else 2 * (e % 2) - 1) * P4EST_QUADRANT_LEN q.level
            ≥ P4EST_ROOT_LEN) := by
        rw [if_pos h]; omega
      simp only [hin, if_false]
      split_ifs <;> omega
    · have hin : ¬ (q.y + (if e / 4 = 1 then 0 else if e / 4 = 0 then 2 * (e % 2) - 1
                    else 2 * (e / 2 % 2) - 1) * P4EST_QUADRANT_LEN q.level < 0
          ∨ q.y + (if e / 4 = 1 then 0 else if e / 4 = 0 then 2 * (e % 2) - 1
                    else 2 * (e / 2 % 2) - 1) * P4EST_QUADRANT_LEN q.level
            ≥ P4EST_ROOT_LEN) := by
        rw [if_pos h]; omega
      simp only [hin, if_false]
      split_ifs <;> omega
    · have hin : ¬ (q.z + (if e / 4 = 2 then 0 else 2 * (e / 2 % 2) - 1) * P4EST_QUADRANT_LEN q.level < 0
          ∨ q.z + (if e / 4 = 2 then 0 else 2 * (e / 2 % 2) - 1) * P4EST_QUADRANT_LEN q.level
            ≥ P4EST_ROOT_LEN) := by
        rw [if_pos h]; omega
      simp only [hin, if_false]
      split_ifs <;> omega
  have h0 := p4est_quadrant_outside_count_zero
      { x := q.x + (if e / 4 = 0 then 0 else 2 * (e % 2) - 1) * P4EST_QUADRANT_LEN q.level,
        y := q.y + (if e / 4 = 1 then 0 else if e / 4 = 0 then 2 * (e % 2) - 1
                    else 2 * (e / 2 % 2) - 1) * P4EST_QUADRANT_LEN q.level,
        z := q.z + (if e / 4 = 2 then 0 else 2 * (e / 2 % 2) - 1) * P4EST_QUADRANT_LEN q.level,
        level := q.level }
  have h2 := p4est_quadrant_outside_count_two
      { x := q.x + (if e / 4 = 0 then 0 else 2 * (e % 2) - 1) * P4EST_QUADRANT_LEN q.level,
        y := q.y + (if e / 4 = 1 then 0 else if e / 4 = 0 then 2 * (e % 2) - 1
                    else 2 * (e / 2 % 2) - 1) * P4EST_QUADRANT_LEN q.level,
        z := q.z + (if e / 4 = 2 then 0 else 2 * (e / 2 % 2) - 1) * P4EST_QUADRANT_LEN q.level,
        level := q.level }
  refine ⟨by omega, h0, h2, ?_⟩
  rw [h0, h2]
  omega

/-- Witness of C20: the octant at the origin at the level 1 and the edge 3,
whose neighbour lies inside the root. -/
theorem p8est_quadrant_edge_neighbor_cases_witness :
    p4est_quadrant_is_valid { x := 0, y := 0, z := 0, level := 1 } ∧
    ∃ r, p8est_quadrant_edge_neighbor { x := 0, y := 0, z := 0, level := 1 } 3 = some r ∧
      p4est_quadrant_outside_count r ≠ 3 :=
  ⟨by decide,
   (p8est_quadrant_edge_neighbor_cases { x := 0, y := 0, z := 0, level := 1 } 3
      (by decide) (by decide) (by decide)).imp (fun _ h => ⟨h.1, h.2.1⟩)⟩

/-! ## Families -/

theorem emod_two_cases (t : Int) : t % 2 = 0 ∨ t % 2 = 1 := by omega

/-- What `p4est_quadrant_is_family` tests: a common level other than 0 and the
coordinates of `q0` plus `((i & 1), (i >> 1) & 1, (i >> 2) & 1) * QLEN(level)`
for the octant of index `i`. -/
theorem p4est_quadrant_is_family_iff (qs : Nat → p4est_quadrant) :
    p4est_quadrant_is_family (qs 0) (qs 1) (qs 2) (qs 3) (qs 4) (qs 5) (qs 6) (qs 7) ↔
      ((qs 0).level ≠ 0 ∧ ∀ i : Nat, i < 8 →
        (qs i).level = (qs 0).level ∧
        (qs i).x = (qs 0).x + ((i % 2 : Nat) : Int) * P4EST_QUADRANT_LEN (qs 0).level ∧
        (qs i).y = (qs 0).y + ((i / 2 % 2 : Nat) : Int) * P4EST_QUADRANT_LEN (qs 0).level ∧
        (qs i).z = (qs 0).z + ((i / 4 % 2 : Nat) : Int) * P4EST_QUADRANT_LEN (qs 0).level) := by
  unfold p4est_quadrant_is_family
  constructor
  · intro h
    split_ifs at h with hl
    push_neg at hl
    obtain ⟨hl0, hl1, hl2, hl3, hl4, hl5, hl6, hl7⟩ := hl
    obtain ⟨⟨a1, a2, a3⟩, ⟨b1, b2, b3⟩, ⟨c1, c2, c3⟩, ⟨d1, d2, d3⟩, ⟨e1, e2, e3⟩,
      ⟨f1, f2, f3⟩, g1, g2, g3⟩ := h
    refine ⟨hl0, ?_⟩
    intro i hi
    interval_cases i <;> norm_num <;> refine ⟨?_, ?_, ?_, ?_⟩ <;> omega
  · rintro ⟨hl0, h⟩
    have h1 := h 1 (by norm_num)
    have h2 := h 2 (by norm_num)
    have h3 := h 3 (by norm_num)
    have h4 := h 4 (by norm_num)
    have h5 := h 5 (by norm_num)
    have h6 := h 6 (by norm_num)
    have h7 := h 7 (by norm_num)
    norm_num at h1 h2 h3 h4 h5 h6 h7
    have hc : ¬ ((qs 0).level = 0 ∨ (qs 0).level ≠ (qs 1).level ∨
        (qs 0).level ≠ (qs 2).level ∨ (qs 0).level ≠ (qs 3).level ∨
        (qs 0).level ≠ (qs 4).level ∨ (qs 0).level ≠ (qs 5).level ∨
        (qs 0).level ≠ (qs 6).level ∨ (qs 0).level ≠ (qs 7).level) := by
      push_neg
      refine ⟨hl0, ?_, ?_, ?_, ?_, ?_, ?_, ?_⟩ <;> omega
    rw [if_neg hc]
    refine ⟨⟨?_, ?_, ?_⟩, ⟨?_, ?_, ?_⟩, ⟨?_, ?_, ?_⟩, ⟨?_, ?_, ?_⟩, ⟨?_, ?_, ?_⟩,
      ⟨?_, ?_, ?_⟩, ?_, ?_, ?_⟩ <;> omega

theorem p4est_quadrant_is_familyv_iff (q : Nat → p4est_quadrant) :
    p4est_quadrant_is_familyv q ↔
      p4est_quadrant_is_family (q 0) (q 1) (q 2) (q 3) (q 4) (q 5) (q 6) (q 7) :=
  Iff.rfl

theorem p4est_quadrant_is_familypv_iff (q : Nat → p4est_quadrant) :
    p4est_quadrant_is_familypv q ↔
      p4est_quadrant_is_family (q 0) (q 1) (q 2) (q 3) (q 4) (q 5) (q 6) (q 7) :=
  Iff.rfl

/-- The bit at `h` of `x + a * h` when the bit of `x` is clear. -/
theorem bit_add_mul (x h a : Int) (hpos : 0 < h) (hx : x / h % 2 = 0) (ha : a = 0 ∨ a = 1) :
    (x + a * h) / h % 2 = a := by
  rw [Int.add_mul_ediv_right x a (ne_of_gt hpos)]
  omega

/-- An octant of child index 0 has its three bits clear. -/
theorem p4est_quadrant_child_id_zero (q : p4est_quadrant) (h : p4est_quadrant_child_id q = 0) :
    q.x / P4EST_QUADRANT_LEN q.level % 2 = 0 ∧ q.y / P4EST_QUADRANT_LEN q.level % 2 = 0 ∧
    q.z / P4EST_QUADRANT_LEN q.level % 2 = 0 := by
  unfold p4est_quadrant_child_id at h
  omega

/-- The parent of an octant of child index 0 has its coordinates. -/
theorem p4est_quadrant_parent_of_zero (q : p4est_quadrant) (h : p4est_quadrant_child_id q = 0) :
    p4est_quadrant_parent q = { x := q.x, y := q.y, z := q.z, level := q.level - 1 } := by
  obtain ⟨hx, hy, hz⟩ := p4est_quadrant_child_id_zero q h
  unfold p4est_quadrant_parent
  rw [hx, hy, hz]
  simp

/-- An octant at `q0 + (a, b, c) * QLEN(level)`, for an octant `q0` of child
index 0, has the child index `a + 2 b + 4 c` and the parent of `q0`. -/
theorem p4est_family_member (q0 q : p4est_quadrant) (a b c : Int)
    (ha : a = 0 ∨ a = 1) (hb : b = 0 ∨ b = 1) (hc : c = 0 ∨ c = 1)
    (h0 : p4est_quadrant_child_id q0 = 0) (hl : q.level = q0.level)
    (hx : q.x = q0.x + a * P4EST_QUADRANT_LEN q0.level)
    (hy : q.y = q0.y + b * P4EST_QUADRANT_LEN q0.level)
    (hz : q.z = q0.z + c * P4EST_QUADRANT_LEN q0.level) :
    p4est_quadrant_child_id q = a + 2 * b + 4 * c ∧
    p4est_quadrant_parent q = p4est_quadrant_parent q0 := by
  obtain ⟨bx, by0, bz⟩ := p4est_quadrant_child_id_zero q0 h0
  have hpos := P4EST_QUADRANT_LEN_pos q0.level
  have ex := bit_add_mul q0.x _ a hpos bx ha
  have ey := bit_add_mul q0.y _ b hpos by0 hb
  have ez := bit_add_mul q0.z _ c hpos bz hc
  constructor
  · unfold p4est_quadrant_child_id
    rw [hl, hx, hy, hz, ex, ey, ez]
  · rw [p4est_quadrant_parent_of_zero q0 h0]
    unfold p4est_quadrant_parent
    rw [hl, hx, hy, hz, ex, ey, ez]
    simp

/-- An octant with the child index `a + 2 b + 4 c` and the parent of an octant
`q0` of child index 0, at the level of `q0`, lies at
`q0 + (a, b, c) * QLEN(level)`. -/
theorem p4est_family_member_conv (q0 q : p4est_quadrant) (a b c : Int)
    (ha : a = 0 ∨ a = 1) (hb : b = 0 ∨ b = 1) (hc : c = 0 ∨ c = 1)
    (h0 : p4est_quadrant_child_id q0 = 0) (hl : q.level = q0.level)
    (hcid : p4est_quadrant_child_id q = a + 2 * b + 4 * c)
    (hpar : p4est_quadrant_parent q = p4est_quadrant_parent q0) :
    q.x = q0.x + a * P4EST_QUADRANT_LEN q0.level ∧
    q.y = q0.y + b * P4EST_QUADRANT_LEN q0.level ∧
    q.z = q0.z + c * P4EST_QUADRANT_LEN q0.level := by
  rw [p4est_quadrant_parent_of_zero q0 h0] at hpar
  unfold p4est_quadrant_parent at hpar
  unfold p4est_quadrant_child_id at hcid
  rw [hl] at hpar hcid
  simp only [p4est_quadrant.mk.injEq] at hpar
  obtain ⟨px, py, pz, _⟩ := hpar
  have e1 : q.x / P4EST_QUADRANT_LEN q0.level % 2 = a := by omega
  have e2 : q.y / P4EST_QUADRANT_LEN q0.level % 2 = b := by omega
  have e3 : q.z / P4EST_QUADRANT_LEN q0.level % 2 = c := by omega
  rw [e1] at px
  rw [e2] at py
  rw [e3] at pz
  refine ⟨by omega, by omega, by omega⟩

/-- C17 (amended): for eight extended octants `qs 0`, ..., `qs 7`,
`p4est_quadrant_is_family` returns true and `qs 0` has the child index 0 if
and only if all eight share one level above 0 and are the eight children of a
common parent in the order of their child index (`child_id (qs i) = i` and
`parent (qs i) = parent (qs 0)` for all `i`).  The function alone tests the
common level and the relative positions
`qs i = qs 0 + ((i & 1), (i >> 1) & 1, (i >> 2) & 1) * QLEN(level)`. -/
theorem p4est_quadrant_is_family_correct (qs : Nat → p4est_quadrant)
    (hext : ∀ i, i < 8 → p4est_quadrant_is_extended (qs i)) :
    ((p4est_quadrant_is_family (qs 0) (qs 1) (qs 2) (qs 3) (qs 4) (qs 5) (qs 6) (qs 7) ∧
        p4est_quadrant_child_id (qs 0) = 0) ↔
      (0 < (qs 0).level ∧ ∀ i : Nat, i < 8 →
        (qs i).level = (qs 0).level ∧ p4est_quadrant_child_id (qs i) = i ∧
        p4est_quadrant_parent (qs i) = p4est_quadrant_parent (qs 0))) ∧
    (p4est_quadrant_is_family (qs 0) (qs 1) (qs 2) (qs 3) (qs 4) (qs 5) (qs 6) (qs 7) ↔
      (0 < (qs 0).level ∧ ∀ i : Nat, i < 8 →
        (qs i).level = (qs 0).level ∧
        (qs i).x = (qs 0).x + ((i % 2 : Nat) : Int) * P4EST_QUADRANT_LEN (qs 0).level ∧
        (qs i).y = (qs 0).y + ((i / 2 % 2 : Nat) : Int) * P4EST_QUADRANT_LEN (qs 0).level ∧
        (qs i).z = (qs 0).z + ((i / 4 % 2 : Nat) : Int) * P4EST_QUADRANT_LEN (qs 0).level)) := by
  have hl0 : 0 ≤ (qs 0).level := (hext 0 (by norm_num)).1.1
  have hbits : ∀ i : Nat, i < 8 →
      (((i % 2 : Nat) : Int) = 0 ∨ ((i % 2 : Nat) : Int) = 1) ∧
      (((i / 2 % 2 : Nat) : Int) = 0 ∨ ((i / 2 % 2 : Nat) : Int) = 1) ∧
      (((i / 4 % 2 : Nat) : Int) = 0 ∨ ((i / 4 % 2 : Nat) : Int) = 1) ∧
      ((i % 2 : Nat) : Int) + 2 * ((i / 2 % 2 : Nat) : Int) + 4 * ((i / 4 % 2 : Nat) : Int)
        = (i : Int) := by
    intro i hi
    omega
  constructor
  · constructor
    · rintro ⟨hf, h0⟩
      obtain ⟨hne, hp⟩ := (p4est_quadrant_is_family_iff qs).mp hf
      refine ⟨by omega, ?_⟩
      intro i hi
      obtain ⟨hl, hx, hy, hz⟩ := hp i hi
      obtain ⟨ba, bb, bc, bs⟩ := hbits i hi
      obtain ⟨h1, h2⟩ := p4est_family_member (qs 0) (qs i) _ _ _ ba bb bc h0 hl hx hy hz
      exact ⟨hl, by rw [h1, bs], h2⟩
    · rintro ⟨hpos, h⟩
      have h0 : p4est_quadrant_child_id (qs 0) = 0 := by
        have := (h 0 (by norm_num)).2.1
        simpa using this
      refine ⟨?_, h0⟩
      rw [p4est_quadrant_is_family_iff]
      refine ⟨by omega, ?_⟩
      intro i hi
      obtain ⟨hl, hcid, hpar⟩ := h i hi
      obtain ⟨ba, bb, bc, bs⟩ := hbits i hi
      obtain ⟨hx, hy, hz⟩ := p4est_family_member_conv (qs 0) (qs i) _ _ _ ba bb bc h0 hl
        (by rw [hcid, bs]) hpar
      exact ⟨hl, hx, hy, hz⟩
  · rw [p4est_quadrant_is_family_iff]
    constructor
    · rintro ⟨hne, hp⟩
      exact ⟨by omega, hp⟩
    · rintro ⟨hpos, hp⟩
      exact ⟨by omega, hp⟩

/-- Witness of C17 (amended): the eight children of the root octant. -/
theorem p4est_quadrant_is_family_correct_witness :
    (∀ i, i < 8 → p4est_quadrant_is_extended (p4est_quadrant_child root_octant (i : Nat))) ∧
    p4est_quadrant_is_family (p4est_quadrant_child root_octant (0 : Nat))
      (p4est_quadrant_child root_octant (1 : Nat)) (p4est_quadrant_child root_octant (2 : Nat))
      (p4est_quadrant_child root_octant (3 : Nat)) (p4est_quadrant_child root_octant (4 : Nat))
      (p4est_quadrant_child root_octant (5 : Nat)) (p4est_quadrant_child root_octant (6 : Nat))
      (p4est_quadrant_child root_octant (7 : Nat)) ∧
    p4est_quadrant_child_id (p4est_quadrant_child root_octant (0 : Nat)) = 0 ∧
    (0 < (p4est_quadrant_child root_octant (0 : Nat)).level ∧ ∀ i : Nat, i < 8 →
      (p4est_quadrant_child root_octant (i : Nat)).level
        = (p4est_quadrant_child root_octant (0 : Nat)).level ∧
      p4est_quadrant_child_id (p4est_quadrant_child root_octant (i : Nat)) = i ∧
      p4est_quadrant_parent (p4est_quadrant_child root_octant (i : Nat))
        = p4est_quadrant_parent (p4est_quadrant_child root_octant (0 : Nat))) :=
  ⟨by decide, by decide, by decide,
   (p4est_quadrant_is_family_correct (fun i => p4est_quadrant_child root_octant (i : Nat))
      (by decide)).1.mp ⟨by decide, by decide⟩⟩

/-- C17 as stated fails: the eight octants `shifted_octants` are valid, hence
extended, and pass `p4est_quadrant_is_family`, yet the first has the child
index 1 and the second has another parent than the first. -/
theorem p4est_quadrant_is_family_counterexample :
    (∀ i, i < 8 → p4est_quadrant_is_extended (shifted_octants i)) ∧
    p4est_quadrant_is_family (shifted_octants 0) (shifted_octants 1) (shifted_octants 2)
      (shifted_octants 3) (shifted_octants 4) (shifted_octants 5) (shifted_octants 6)
      (shifted_octants 7) ∧
    p4est_quadrant_child_id (shifted_octants 0) = 1 ∧
    p4est_quadrant_parent (shifted_octants 1) ≠ p4est_quadrant_parent (shifted_octants 0) := by
  decide

/-- C18: for a valid octant `p`, if `p.level < QMAXLEVEL` the eight children
of `p` in the order of their index pass `p4est_quadrant_is_family` (and
`p4est_quadrant_is_familyv`); and if `p.level > 0` the eight octants
`sibling (p, 0)`, ..., `sibling (p, 7)` pass `p4est_quadrant_is_family` and
`parent (p)` has the level `p.level - 1`. -/
theorem p4est_quadrant_children_family (p : p4est_quadrant) (hp : p4est_quadrant_is_valid p) :
    (p.level < P4EST_QMAXLEVEL →
      p4est_quadrant_is_family (p4est_quadrant_child p 0) (p4est_quadrant_child p 1)
        (p4est_quadrant_child p 2) (p4est_quadrant_child p 3) (p4est_quadrant_child p 4)
        (p4est_quadrant_child p 5) (p4est_quadrant_child p 6) (p4est_quadrant_child p 7) ∧
      p4est_quadrant_is_familyv (fun i => p4est_quadrant_child p i)) ∧
    (0 < p.level →
      p4est_quadrant_is_family (p4est_quadrant_sibling p 0) (p4est_quadrant_sibling p 1)
        (p4est_quadrant_sibling p 2) (p4est_quadrant_sibling p 3) (p4est_quadrant_sibling p 4)
        (p4est_quadrant_sibling p 5) (p4est_quadrant_sibling p 6) (p4est_quadrant_sibling p 7) ∧
      (p4est_quadrant_parent p).level = p.level - 1) := by
  have hl0 : 0 ≤ p.level := hp.1.1
  constructor
  · intro _
    have hf : p4est_quadrant_is_family (p4est_quadrant_child p 0) (p4est_quadrant_child p 1)
        (p4est_quadrant_child p 2) (p4est_quadrant_child p 3) (p4est_quadrant_child p 4)
        (p4est_quadrant_child p 5) (p4est_quadrant_child p 6) (p4est_quadrant_child p 7) := by
      have hne : ¬ (p.level + 1 = 0) := by omega
      unfold p4est_quadrant_is_family p4est_quadrant_child
      norm_num [hne]
    refine ⟨hf, ?_⟩
    rw [p4est_quadrant_is_familyv_iff]
    simpa using hf
  · intro hpos
    refine ⟨?_, rfl⟩
    have hne : ¬ (p.level = 0) := by omega
    unfold p4est_quadrant_is_family p4est_quadrant_sibling
    norm_num [hne]

/-- Witness of C18: the valid octant at `(0, 0, QLEN(1))` at the level 1. -/
theorem p4est_quadrant_children_family_witness :
    p4est_quadrant_is_valid { x := 0, y := 0, z := P4EST_QUADRANT_LEN 1, level := 1 } ∧
    p4est_quadrant_is_family
      (p4est_quadrant_child { x := 0, y := 0, z := P4EST_QUADRANT_LEN 1, level := 1 } 0)
      (p4est_quadrant_child { x := 0, y := 0, z := P4EST_QUADRANT_LEN 1, level := 1 } 1)
      (p4est_quadrant_child { x := 0, y := 0, z := P4EST_QUADRANT_LEN 1, level := 1 } 2)
      (p4est_quadrant_child { x := 0, y := 0, z := P4EST_QUADRANT_LEN 1, level := 1 } 3)
      (p4est_quadrant_child { x := 0, y := 0, z := P4EST_QUADRANT_LEN 1, level := 1 } 4)
      (p4est_quadrant_child { x := 0, y := 0, z := P4EST_QUADRANT_LEN 1, level := 1 } 5)
      (p4est_quadrant_child { x := 0, y := 0, z := P4EST_QUADRANT_LEN 1, level := 1 } 6)
      (p4est_quadrant_child { x := 0, y := 0, z := P4EST_QUADRANT_LEN 1, level := 1 } 7) ∧
    (p4est_quadrant_parent { x := 0, y := 0, z := P4EST_QUADRANT_LEN 1, level := 1 }).level
      = 1 - 1 :=
  ⟨by decide,
   ((p4est_quadrant_children_family { x := 0, y := 0, z := P4EST_QUADRANT_LEN 1, level := 1 }
      (by decide)).1 (by decide)).1,
   ((p4est_quadrant_children_family { x := 0, y := 0, z := P4EST_QUADRANT_LEN 1, level := 1 }
      (by decide)).2 (by decide)).2⟩

/-! ### The coarsening sweep -/

theorem size_t_wrap_eq (e : Int) (n : Nat) (h : e = (n : Int)) (hn : n < 2 ^ 64) :
    size_t_wrap e = n := by
  subst h
  unfold size_t_wrap
  have h1 : ((n : Int)) % 2 ^ 64 = n := Int.emod_eq_of_lt (by omega) (by exact_mod_cast hn)
  rw [h1]; simp

theorem coarsen_continues_iff (r : Bool) (s : coarsen_state) (h : coarsen_inv r s) :
    coarsen_continues s ↔ s.first + 7 < coarsen_view_count s := by
  obtain ⟨h1, h2, h3, h4, h5, h6, h7, _⟩ := h
  unfold coarsen_continues coarsen_view_count
  rw [size_t_wrap_eq _ (s.rest + 7 - s.before) (by omega) (by omega)]
  omega

theorem coarsen_candidate_index_eq (r : Bool) (s : coarsen_state) (h : coarsen_inv r s)
    (zz : Nat) (hzz : zz < 8) :
    coarsen_candidate_index s zz =
      if zz < s.before then s.first + zz else s.rest + zz - s.before := by
  obtain ⟨h1, h2, h3, h4, h5, h6, h7, _⟩ := h
  unfold coarsen_candidate_index
  by_cases hb : zz < s.before
  · rw [if_pos hb, if_pos hb]
    exact size_t_wrap_eq _ _ (by push_cast; ring) (by omega)
  · rw [if_neg hb, if_neg hb]
    exact size_t_wrap_eq _ _ (by omega) (by omega)

theorem coarsen_candidate_index_lt (r : Bool) (s : coarsen_state) (h : coarsen_inv r s)
    (hc : coarsen_continues s) (zz : Nat) (hzz : zz < 8) :
    coarsen_candidate_index s zz < s.elem_count := by
  rw [coarsen_candidate_index_eq r s h zz hzz]
  have hc1 := (coarsen_continues_iff r s h).1 hc
  obtain ⟨h1, h2, h3, h4, h5, h6, h7, _⟩ := h
  unfold coarsen_view_count at hc1
  split <;> omega

theorem coarsen_candidate_eq (r : Bool) (s : coarsen_state) (h : coarsen_inv r s)
    (zz : Nat) (hzz : zz < 8) :
    coarsen_candidate s zz = coarsen_view s (s.first + zz) := by
  unfold coarsen_candidate coarsen_view
  rw [coarsen_candidate_index_eq r s h zz hzz]
  obtain ⟨h1, h2, h3, h4, h5, h6, h7, _⟩ := h
  by_cases hb : zz < s.before
  · rw [if_pos hb, if_pos (by omega)]
  · rw [if_neg hb, if_neg (by omega)]
    congr 1; omega

theorem coarsen_gather_spec (s : coarsen_state)
    (hidx : ∀ zz, zz < 8 → coarsen_candidate_index s zz < s.elem_count) :
    ∀ n zz0 : Nat, zz0 + n ≤ 8 →
      ∃ b, coarsen_gather s n zz0 = .ok b ∧
        (b = true ↔ ∀ zz, zz0 ≤ zz → zz < zz0 + n → zz < s.before →
          (zz : Int) = p4est_quadrant_child_id (coarsen_candidate s zz)) := by
  intro n
  induction n with
  | zero =>
    intro zz0 _
    exact ⟨true, rfl, by simp; intro zz h1 h2; omega⟩
  | succ n ih =>
    intro zz0 hle
    have hi := hidx zz0 (by omega)
    by_cases hbad : zz0 < s.before ∧
        (zz0 : Int) ≠ p4est_quadrant_child_id (coarsen_candidate s zz0)
    · refine ⟨false, ?_, ?_⟩
      · simp only [coarsen_gather]
        rw [if_pos hi, if_pos hbad]
      · constructor
        · intro hf; cases hf
        · intro hall
          exact absurd (hall zz0 (le_refl _) (by omega) hbad.1) hbad.2
    · obtain ⟨b, hb, hiff⟩ := ih (zz0 + 1) (by omega)
      refine ⟨b, ?_, ?_⟩
      · simp only [coarsen_gather]
        rw [if_pos hi, if_neg hbad]
        exact hb
      · rw [hiff]
        constructor
        · intro hall zz h1 h2 h3
          by_cases heq : zz = zz0
          · subst heq
            by_contra hne
            exact hbad ⟨h3, hne⟩
          · exact hall zz (by omega) (by omega) h3
        · intro hall zz h1 h2 h3
          exact hall zz (by omega) (by omega) h3

theorem coarsen_step_cases (r : Bool) (fn : Nat → List p4est_quadrant → Bool)
    (s : coarsen_state) (h : coarsen_inv r s) (hc : coarsen_continues s) :
    (((∀ zz, zz < s.before →
          (zz : Int) = p4est_quadrant_child_id (coarsen_candidate s zz)) ∧
        p4est_quadrant_is_familypv (coarsen_candidate s) ∧
        fn s.invoked.length (coarsen_children s) = true) →
      coarsen_step r fn s =
        (coarsen_family r { s with invoked :=
            s.invoked ++ [(coarsen_children s, true)] }).map
          (fun s2 => { s2 with before := size_t_wrap ((s2.last : Int) - s2.first + 1) })) ∧
    (¬ ((∀ zz, zz < s.before →
          (zz : Int) = p4est_quadrant_child_id (coarsen_candidate s zz)) ∧
        p4est_quadrant_is_familypv (coarsen_candidate s) ∧
        fn s.invoked.length (coarsen_children s) = true) →
      ∃ l, coarsen_step r fn s =
        (coarsen_advance { s with invoked := l }).map
          (fun s2 => { s2 with before := size_t_wrap ((s2.last : Int) - s2.first + 1) })) := by
  obtain ⟨b, hb, hiff⟩ := coarsen_gather_spec s
    (fun zz hzz => coarsen_candidate_index_lt r s h hc zz hzz) 8 0 (by omega)
  have hpre : b = true ↔ ∀ zz, zz < s.before →
      (zz : Int) = p4est_quadrant_child_id (coarsen_candidate s zz) := by
    rw [hiff]
    constructor
    · intro hall zz hzz
      exact hall zz (Nat.zero_le _) (by have := h.2.2.2.2.1; omega) hzz
    · intro hall zz _ _ hzz
      exact hall zz hzz
  constructor
  · rintro ⟨h1, h2, h3⟩
    have hbt : b = true := hpre.2 h1
    subst hbt
    simp only [coarsen_step, P4EST_CHILDREN, hb, h2, h3, decide_True, Bool.and_self, if_true]
  · intro hn
    by_cases hfam : b = true ∧ p4est_quadrant_is_familypv (coarsen_candidate s)
    · obtain ⟨hbt, h2⟩ := hfam
      have h3 : fn s.invoked.length (coarsen_children s) = false := by
        by_contra h3
        exact hn ⟨hpre.1 hbt, h2, by simpa using h3⟩
      subst hbt
      refine ⟨s.invoked ++ [(coarsen_children s, false)], ?_⟩
      simp only [coarsen_step, P4EST_CHILDREN, hb, h2, h3, decide_True, Bool.and_self,
        Bool.and_false, if_true, Bool.false_eq_true, if_false]
    · refine ⟨s.invoked, ?_⟩
      have hf : (b && decide (p4est_quadrant_is_familypv (coarsen_candidate s))) = false := by
        by_contra hx
        simp only [Bool.not_eq_false, Bool.and_eq_true, decide_eq_true_eq] at hx
        exact hfam hx
      simp only [coarsen_step, P4EST_CHILDREN, hb, hf, Bool.false_and, Bool.false_eq_true,
        if_false]

theorem coarsen_advance_spec (r : Bool) (s : coarsen_state) (h : coarsen_inv r s)
    (hc : s.first + 7 < coarsen_view_count s) :
    ∃ s1, (coarsen_advance s).map
        (fun s2 => { s2 with before := size_t_wrap ((s2.last : Int) - s2.first + 1) }) = .ok s1 ∧
      coarsen_inv r s1 ∧ coarsen_view s1 = coarsen_view s ∧
      coarsen_view_count s1 = coarsen_view_count s ∧ s1.first = s.first + 1 ∧
      s1.incount = s.incount := by
  obtain ⟨h1, h2, h3, h4, h5, h6, h7, h8⟩ := h
  unfold coarsen_view_count at hc
  have hw : size_t_wrap ((s.first : Int) + 1) = s.first + 1 :=
    size_t_wrap_eq _ _ (by push_cast; ring) (by omega)
  have hwr : size_t_wrap ((s.rest : Int) + 1) = s.rest + 1 :=
    size_t_wrap_eq _ _ (by push_cast; ring) (by omega)
  by_cases hlt : s.first + 1 > s.last
  · have hfl : s.first = s.last := by omega
    have hb1 : size_t_wrap (((s.first + 1 : Nat) : Int) - ((s.first + 1 : Nat) : Int) + 1) = 1 :=
      size_t_wrap_eq _ 1 (by push_cast; ring) (by norm_num)
    by_cases hne : s.first + 1 ≠ s.rest
    · refine ⟨{ s with
          first := s.first + 1
          quadrants := Function.update s.quadrants (s.first + 1) (s.quadrants s.rest)
          last := s.first + 1, rest := s.rest + 1, before := 1 }, ?_, ?_, ?_, ?_, rfl, rfl⟩
      · simp only [coarsen_advance, coarsen_move, hw]
        rw [if_pos hlt, if_pos hne, if_pos ⟨by omega, by omega⟩]
        simp only [Except.map, hwr, hb1]
      · exact ⟨le_refl _, by show s.first + 1 < s.rest + 1; omega,
          by show s.rest + 1 ≤ s.incount; omega, by show 1 = s.first + 1 - (s.first + 1) + 1; omega,
          by show 1 ≤ 8; omega, h6, h7, fun _ => rfl⟩
      · funext i
        simp only [coarsen_view]
        by_cases hi : i ≤ s.last
        · rw [if_pos (by omega), if_pos hi, Function.update_noteq (by omega)]
        · by_cases hi2 : i = s.first + 1
          · subst hi2
            rw [if_pos (le_refl _), if_neg hi, Function.update_same]
            congr 1; omega
          · rw [if_neg (by omega), if_neg hi, Function.update_noteq (by omega)]
            congr 1; omega
      · show s.first + 1 + 1 + (s.incount - (s.rest + 1)) = s.last + 1 + (s.incount - s.rest)
        omega
    · have hne1 : s.first + 1 = s.rest := by omega
      refine ⟨{ s with
          first := s.first + 1, last := s.first + 1, rest := s.rest + 1, before := 1 },
        ?_, ?_, ?_, ?_, rfl, rfl⟩
      · simp only [coarsen_advance, hw]
        rw [if_pos hlt, if_neg hne]
        simp only [Except.map, hwr, hb1]
      · exact ⟨le_refl _, by show s.first + 1 < s.rest + 1; omega,
          by show s.rest + 1 ≤ s.incount; omega, by show 1 = s.first + 1 - (s.first + 1) + 1; omega,
          by show 1 ≤ 8; omega, h6, h7, fun _ => rfl⟩
      · funext i
        simp only [coarsen_view]
        by_cases hi : i ≤ s.last
        · rw [if_pos (by omega), if_pos hi]
        · by_cases hi2 : i = s.first + 1
          · subst hi2
            rw [if_pos (le_refl _), if_neg hi]
            congr 1; omega
          · rw [if_neg (by omega), if_neg hi]
            congr 1; omega
      · show s.first + 1 + 1 + (s.incount - (s.rest + 1)) = s.last + 1 + (s.incount - s.rest)
        omega
  · have hb1 : size_t_wrap ((s.last : Int) - ((s.first + 1 : Nat) : Int) + 1) =
        s.last - (s.first + 1) + 1 :=
      size_t_wrap_eq _ _ (by omega) (by omega)
    have hrec : r = true := by
      cases r
      · exact absurd (h8 rfl) (by omega)
      · rfl
    refine ⟨{ s with first := s.first + 1, before := s.last - (s.first + 1) + 1 },
      ?_, ?_, rfl, rfl, rfl, rfl⟩
    · simp only [coarsen_advance, hw]
      rw [if_neg hlt]
      simp only [Except.map, hb1]
    · exact ⟨by show s.first + 1 ≤ s.last; omega, h2, h3, rfl,
        by show s.last - (s.first + 1) + 1 ≤ 8; omega, h6, h7,
        fun hf => by rw [hrec] at hf; cases hf⟩

theorem p4est_quadrant_child_id_range (q : p4est_quadrant) :
    0 ≤ p4est_quadrant_child_id q ∧ p4est_quadrant_child_id q ≤ 7 := by
  unfold p4est_quadrant_child_id
  omega

theorem coarsen_candidate_zero (r : Bool) (s : coarsen_state) (h : coarsen_inv r s) :
    coarsen_candidate_index s 0 = s.first ∧ coarsen_candidate s 0 = s.quadrants s.first := by
  have hi : coarsen_candidate_index s 0 = s.first := by
    rw [coarsen_candidate_index_eq r s h 0 (by omega)]
    have := h.2.2.2.1
    rw [if_pos (by omega)]; rfl
  exact ⟨hi, by unfold coarsen_candidate; rw [hi]⟩

theorem coarsen_family_rec (s : coarsen_state) (h : coarsen_inv true s) :
    ∃ s1, (coarsen_family true s).map
        (fun s2 => { s2 with before := size_t_wrap ((s2.last : Int) - s2.first + 1) }) = .ok s1 ∧
      s1.quadrants = Function.update s.quadrants s.first
        (p4est_quadrant_parent (s.quadrants s.first)) ∧
      s1.last = s.first ∧ s1.rest = s.rest + 8 - s.before ∧
      s1.first = s.first -
        (p4est_quadrant_child_id (p4est_quadrant_parent (s.quadrants s.first))).toNat ∧
      s1.before = s1.last - s1.first + 1 ∧ s1.incount = s.incount ∧
      s1.elem_count = s.elem_count := by
  obtain ⟨hci, hcand⟩ := coarsen_candidate_zero true s h
  obtain ⟨h1, h2, h3, h4, h5, h6, h7, h8⟩ := h
  obtain ⟨hr0, hr7⟩ := p4est_quadrant_child_id_range
    (p4est_quadrant_parent (s.quadrants s.first))
  have hwr : size_t_wrap ((s.rest : Int) + 8 - s.before) = s.rest + 8 - s.before :=
    size_t_wrap_eq _ _ (by omega) (by omega)
  have hcz : size_t_wrap (p4est_quadrant_child_id (p4est_quadrant_parent (s.quadrants s.first)))
      = (p4est_quadrant_child_id (p4est_quadrant_parent (s.quadrants s.first))).toNat :=
    size_t_wrap_eq _ _ (by omega) (by omega)
  have hsub : ∀ c : Nat, (if c > s.first then 0 else s.first - c) = s.first - c := by
    intro c; split <;> omega
  have hbw : size_t_wrap ((s.first : Int) - ((s.first -
        (p4est_quadrant_child_id (p4est_quadrant_parent (s.quadrants s.first))).toNat : Nat) : Int)
        + 1) = s.first - (s.first -
        (p4est_quadrant_child_id (p4est_quadrant_parent (s.quadrants s.first))).toNat) + 1 :=
    size_t_wrap_eq _ _ (by omega) (by omega)
  simp only [coarsen_family, Except.map, hci, hcand, hwr, hcz, hsub, hbw, ↓reduceIte]
  exact ⟨_, rfl, rfl, rfl, rfl, rfl, rfl, rfl, rfl⟩

theorem coarsen_family_rec_view (s : coarsen_state) (h : coarsen_inv true s)
    (hc : s.first + 7 < coarsen_view_count s) :
    ∃ s1, (coarsen_family true s).map
        (fun s2 => { s2 with before := size_t_wrap ((s2.last : Int) - s2.first + 1) }) = .ok s1 ∧
      coarsen_inv true s1 ∧
      coarsen_view s1 = coarsen_replaced (coarsen_view s) s.first
        (p4est_quadrant_parent (coarsen_view s s.first)) ∧
      coarsen_view_count s1 = coarsen_view_count s - 7 ∧ s1.incount = s.incount ∧
      s1.first = s.first -
        (p4est_quadrant_child_id (p4est_quadrant_parent (coarsen_view s s.first))).toNat := by
  obtain ⟨s1, heq, hq, hl, hr, hf, hb, hn, he⟩ := coarsen_family_rec s h
  obtain ⟨h1, h2, h3, h4, h5, h6, h7, h8⟩ := h
  unfold coarsen_view_count at hc
  obtain ⟨hr0, hr7⟩ := p4est_quadrant_child_id_range
    (p4est_quadrant_parent (s.quadrants s.first))
  have hv : coarsen_view s s.first = s.quadrants s.first := by
    unfold coarsen_view; rw [if_pos h1]
  refine ⟨s1, heq, ?_, ?_, ?_, hn, ?_⟩
  · exact ⟨by omega, by omega, by omega, hb, by omega, by omega, by omega,
      fun hx => by cases hx⟩
  · funext i
    simp only [coarsen_view, coarsen_replaced, hq, hl, hr]
    by_cases hi : i < s.first
    · rw [if_pos (by omega), if_pos hi, if_pos (by omega), Function.update_noteq (by omega)]
    · by_cases hi2 : i = s.first
      · subst hi2
        rw [if_pos (le_refl _), if_neg hi, if_pos rfl, if_pos h1, Function.update_same]
      · rw [if_neg (by omega), if_neg hi, if_neg hi2, if_neg (by omega),
          Function.update_noteq (by omega)]
        congr 1; omega
  · unfold coarsen_view_count
    rw [hl, hr, hn]; omega
  · rw [hf, hv]

theorem coarsen_family_nonrec (s : coarsen_state) (h : coarsen_inv false s) :
    ∃ s1, (coarsen_family false s).map
        (fun s2 => { s2 with before := size_t_wrap ((s2.last : Int) - s2.first + 1) }) = .ok s1 ∧
      s1.incount = s.incount ∧ s1.elem_count = s.elem_count ∧ s1.before = 1 ∧
      ((s.rest + 7 < s.incount ∧
          s1.quadrants = Function.update (Function.update s.quadrants s.first
            (p4est_quadrant_parent (s.quadrants s.first))) (s.first + 1)
            (s.quadrants (s.rest + 7)) ∧
          s1.first = s.first + 1 ∧ s1.last = s.first + 1 ∧ s1.rest = s.rest + 8) ∨
       (¬ s.rest + 7 < s.incount ∧
          s1.quadrants = Function.update s.quadrants s.first
            (p4est_quadrant_parent (s.quadrants s.first)) ∧
          s1.first = s.first ∧ s1.last = s.last ∧ s1.rest = s.rest + 7)) := by
  obtain ⟨hci, hcand⟩ := coarsen_candidate_zero false s h
  obtain ⟨h1, h2, h3, h4, h5, h6, h7, h8⟩ := h
  have hfl : s.first = s.last := h8 rfl
  have hwr : size_t_wrap ((s.rest : Int) + 8 - s.before) = s.rest + 7 :=
    size_t_wrap_eq _ _ (by omega) (by omega)
  have hw : size_t_wrap ((s.first : Int) + 1) = s.first + 1 :=
    size_t_wrap_eq _ _ (by push_cast; ring) (by omega)
  have hwr1 : size_t_wrap (((s.rest + 7 : Nat) : Int) + 1) = s.rest + 8 :=
    size_t_wrap_eq _ _ (by push_cast; ring) (by omega)
  have hb1 : size_t_wrap (((s.first + 1 : Nat) : Int) - ((s.first + 1 : Nat) : Int) + 1) = 1 :=
    size_t_wrap_eq _ 1 (by push_cast; ring) (by norm_num)
  have hb2 : size_t_wrap ((s.last : Int) - (s.first : Int) + 1) = 1 :=
    size_t_wrap_eq _ 1 (by rw [hfl]; push_cast; ring) (by norm_num)
  by_cases hlt : s.rest + 7 < s.incount
  · simp only [coarsen_family, coarsen_move, hci, hcand, hwr, hw, Bool.false_eq_true,
      ↓reduceIte]
    rw [if_pos hlt, if_pos ⟨by omega, by omega⟩]
    simp only [Except.map, hwr1, hb1]
    refine ⟨_, rfl, rfl, rfl, rfl, Or.inl ⟨hlt, ?_, rfl, rfl, rfl⟩⟩
    show Function.update _ _ _ = _
    rw [hci, hwr, Function.update_noteq (by omega : s.rest + 7 ≠ s.first)]
  · simp only [coarsen_family, hci, hcand, hwr, Bool.false_eq_true, ↓reduceIte]
    rw [if_neg hlt]
    simp only [Except.map, hb2]
    exact ⟨_, rfl, rfl, rfl, rfl, Or.inr ⟨hlt, rfl, rfl, rfl, rfl⟩⟩

theorem coarsen_family_nonrec_view (s : coarsen_state) (h : coarsen_inv false s)
    (hc : s.first + 7 < coarsen_view_count s) :
    ∃ s1, (coarsen_family false s).map
        (fun s2 => { s2 with before := size_t_wrap ((s2.last : Int) - s2.first + 1) }) = .ok s1 ∧
      coarsen_inv false s1 ∧
      coarsen_view s1 = coarsen_replaced (coarsen_view s) s.first
        (p4est_quadrant_parent (coarsen_view s s.first)) ∧
      coarsen_view_count s1 = coarsen_view_count s - 7 ∧ s1.incount = s.incount ∧
      s1.first = (if s.first + 8 < coarsen_view_count s then s.first + 1 else s.first) := by
  obtain ⟨s1, heq, hn, he, hb, hcase⟩ := coarsen_family_nonrec s h
  obtain ⟨h1, h2, h3, h4, h5, h6, h7, h8⟩ := h
  have hfl : s.first = s.last := h8 rfl
  unfold coarsen_view_count at hc
  have hv : coarsen_view s s.first = s.quadrants s.first := by
    unfold coarsen_view; rw [if_pos h1]
  rcases hcase with ⟨hlt, hq, hf, hl, hr⟩ | ⟨hlt, hq, hf, hl, hr⟩
  · refine ⟨s1, heq, ?_, ?_, ?_, hn, ?_⟩
    · exact ⟨by omega, by omega, by omega, by omega, by omega, by omega, by omega,
        fun _ => by omega⟩
    · funext i
      simp only [coarsen_view, coarsen_replaced, hq, hl, hr]
      by_cases hi : i < s.first
      · rw [if_pos (by omega), if_pos hi, if_pos (by omega), Function.update_noteq (by omega),
          Function.update_noteq (by omega)]
      · by_cases hi2 : i = s.first
        · subst hi2
          rw [if_pos (by omega), if_neg hi, if_pos rfl, if_pos h1,
            Function.update_noteq (by omega), Function.update_same]
        · by_cases hi3 : i = s.first + 1
          · subst hi3
            rw [if_pos (le_refl _), if_neg hi, if_neg hi2, if_neg (by omega),
              Function.update_same]
            congr 1; omega
          · rw [if_neg (by omega), if_neg hi, if_neg hi2, if_neg (by omega),
              Function.update_noteq (by omega), Function.update_noteq (by omega)]
            congr 1; omega
    · unfold coarsen_view_count
      rw [hl, hr, hn]; omega
    · unfold coarsen_view_count
      rw [if_pos (by omega), hf]
  · refine ⟨s1, heq, ?_, ?_, ?_, hn, ?_⟩
    · exact ⟨by omega, by omega, by omega, by omega, by omega, by omega, by omega,
        fun _ => by omega⟩
    · funext i
      simp only [coarsen_view, coarsen_replaced, hq, hl, hr]
      by_cases hi : i < s.first
      · rw [if_pos (by omega), if_pos hi, if_pos (by omega), Function.update_noteq (by omega)]
      · by_cases hi2 : i = s.first
        · subst hi2
          rw [if_pos (by omega), if_neg hi, if_pos rfl, if_pos h1, Function.update_same]
        · rw [if_neg (by omega), if_neg hi, if_neg hi2, if_neg (by omega),
            Function.update_noteq (by omega)]
          congr 1; omega
    · unfold coarsen_view_count
      rw [hl, hr, hn]; omega
    · unfold coarsen_view_count
      rw [if_neg (by omega), hf]

theorem p4est_family_child_ids (q : Nat → p4est_quadrant)
    (hf : p4est_quadrant_is_familypv q) (h0 : p4est_quadrant_child_id (q 0) = 0) :
    ∀ i : Nat, i < 8 → p4est_quadrant_child_id (q i) = i ∧ (q i).level = (q 0).level ∧
      p4est_quadrant_parent (q i) = p4est_quadrant_parent (q 0) := by
  rw [p4est_quadrant_is_familypv_iff, p4est_quadrant_is_family_iff] at hf
  obtain ⟨_, hall⟩ := hf
  intro i hi
  obtain ⟨hl, hx, hy, hz⟩ := hall i hi
  obtain ⟨hc, hp⟩ := p4est_family_member (q 0) (q i) ((i % 2 : Nat) : Int)
    ((i / 2 % 2 : Nat) : Int) ((i / 4 % 2 : Nat) : Int) (by omega) (by omega) (by omega)
    h0 hl hx hy hz
  refine ⟨?_, hl, hp⟩
  rw [hc]; omega

theorem coarsen_children_eq (r : Bool) (s : coarsen_state) (h : coarsen_inv r s) :
    coarsen_children s = coarsen_window (coarsen_view s) s.first := by
  unfold coarsen_children coarsen_window
  apply List.map_congr_left
  intro zz hzz
  rw [List.mem_range] at hzz
  exact coarsen_candidate_eq r s h zz hzz

theorem coarsen_familypv_candidate (r : Bool) (s : coarsen_state) (h : coarsen_inv r s) :
    p4est_quadrant_is_familypv (coarsen_candidate s) ↔
      p4est_quadrant_is_familypv (fun zz => coarsen_view s (s.first + zz)) := by
  rw [p4est_quadrant_is_familypv_iff, p4est_quadrant_is_familypv_iff]
  rw [coarsen_candidate_eq r s h 0 (by omega), coarsen_candidate_eq r s h 1 (by omega),
    coarsen_candidate_eq r s h 2 (by omega), coarsen_candidate_eq r s h 3 (by omega),
    coarsen_candidate_eq r s h 4 (by omega), coarsen_candidate_eq r s h 5 (by omega),
    coarsen_candidate_eq r s h 6 (by omega), coarsen_candidate_eq r s h 7 (by omega)]

theorem coarsen_test_iff (r : Bool) (s : coarsen_state) (h : coarsen_inv r s) :
    ((∀ zz, zz < s.before →
        (zz : Int) = p4est_quadrant_child_id (coarsen_candidate s zz)) ∧
      p4est_quadrant_is_familypv (coarsen_candidate s)) ↔
    coarsen_is_family_at (coarsen_view s) s.first := by
  unfold coarsen_is_family_at
  rw [coarsen_familypv_candidate r s h]
  have hb := h.2.2.2.1
  have hb8 := h.2.2.2.2.1
  constructor
  · rintro ⟨hpre, hfam⟩
    have h0 := hpre 0 (by omega)
    rw [coarsen_candidate_eq r s h 0 (by omega)] at h0
    exact ⟨by simpa using h0.symm, hfam⟩
  · rintro ⟨h0, hfam⟩
    refine ⟨?_, hfam⟩
    intro zz hzz
    rw [coarsen_candidate_eq r s h zz (by omega)]
    exact ((p4est_family_child_ids _ hfam (by simpa using h0) zz (by omega)).1).symm

theorem coarsen_step_spec (r : Bool) (fn : Nat → List p4est_quadrant → Bool)
    (s : coarsen_state) (h : coarsen_inv r s) (hc : coarsen_continues s) :
    ∃ s1, coarsen_step r fn s = .ok s1 ∧ coarsen_inv r s1 ∧ s1.incount = s.incount ∧
      ((coarsen_is_family_at (coarsen_view s) s.first ∧
          fn s.invoked.length (coarsen_window (coarsen_view s) s.first) = true) →
        coarsen_view s1 = coarsen_replaced (coarsen_view s) s.first
          (p4est_quadrant_parent (coarsen_view s s.first)) ∧
        coarsen_view_count s1 = coarsen_view_count s - 7 ∧
        (r = true → s1.first = s.first -
          (p4est_quadrant_child_id (p4est_quadrant_parent (coarsen_view s s.first))).toNat) ∧
        (r = false → s1.first =
          (if s.first + 8 < coarsen_view_count s then s.first + 1 else s.first))) ∧
      (¬ (coarsen_is_family_at (coarsen_view s) s.first ∧
          fn s.invoked.length (coarsen_window (coarsen_view s) s.first) = true) →
        coarsen_view s1 = coarsen_view s ∧
        coarsen_view_count s1 = coarsen_view_count s ∧ s1.first = s.first + 1) := by
  obtain ⟨hyes, hno⟩ := coarsen_step_cases r fn s h hc
  have hc1 := (coarsen_continues_iff r s h).1 hc
  have htest := coarsen_test_iff r s h
  have hch := coarsen_children_eq r s h
  by_cases hgood : coarsen_is_family_at (coarsen_view s) s.first ∧
      fn s.invoked.length (coarsen_window (coarsen_view s) s.first) = true
  · have hstep := hyes ⟨(htest.2 hgood.1).1, (htest.2 hgood.1).2, by rw [hch]; exact hgood.2⟩
    rw [hstep]
    cases r
    · obtain ⟨s1, heq, hinv, hview, hcnt, hn, hf⟩ :=
        coarsen_family_nonrec_view { s with invoked := s.invoked ++ [(coarsen_children s, true)] }
          h hc1
      exact ⟨s1, heq, hinv, hn, fun _ => ⟨hview, hcnt, (fun hx => by cases hx), fun _ => hf⟩,
        fun hx => absurd hgood hx⟩
    · obtain ⟨s1, heq, hinv, hview, hcnt, hn, hf⟩ :=
        coarsen_family_rec_view { s with invoked := s.invoked ++ [(coarsen_children s, true)] }
          h hc1
      exact ⟨s1, heq, hinv, hn, fun _ => ⟨hview, hcnt, fun _ => hf, fun hx => by cases hx⟩,
        fun hx => absurd hgood hx⟩
  · obtain ⟨l, hstep⟩ := hno (fun hx => hgood ⟨htest.1 ⟨hx.1, hx.2.1⟩, by rw [← hch]; exact hx.2.2⟩)
    rw [hstep]
    obtain ⟨s1, heq, hinv, hview, hcnt, hf, hn⟩ :=
      coarsen_advance_spec r { s with invoked := l } h hc1
    exact ⟨s1, heq, hinv, hn, fun hx => absurd hx hgood, fun _ => ⟨hview, hcnt, hf⟩⟩

theorem P4EST_ROOT_LEN_eq (l : Int) (h0 : 0 ≤ l) (h1 : l ≤ P4EST_MAXLEVEL) :
    P4EST_ROOT_LEN = 2 ^ l.toNat * P4EST_QUADRANT_LEN l := by
  unfold P4EST_ROOT_LEN P4EST_QUADRANT_LEN
  rw [← pow_add]
  congr 1
  have : l.toNat ≤ P4EST_MAXLEVEL := by omega
  omega

theorem p4est_quadrant_cells_parent (q : p4est_quadrant) (h0 : 0 < q.level)
    (h1 : q.level ≤ P4EST_MAXLEVEL) :
    p4est_quadrant_cells (p4est_quadrant_parent q) = 8 * p4est_quadrant_cells q := by
  unfold p4est_quadrant_cells p4est_quadrant_parent
  simp only
  have h2 : P4EST_MAXLEVEL - (q.level - 1).toNat = (P4EST_MAXLEVEL - q.level.toNat) + 1 := by
    omega
  rw [h2, pow_succ]; ring

theorem p4est_quadrant_cells_pos (q : p4est_quadrant) : 0 < p4est_quadrant_cells q := by
  unfold p4est_quadrant_cells; positivity

theorem p4est_quadrant_parent_valid (q : p4est_quadrant) (hv : p4est_quadrant_is_valid q)
    (hl : 0 < q.level) (hc : p4est_quadrant_child_id q = 0) :
    p4est_quadrant_is_valid (p4est_quadrant_parent q) ∧
    p4est_quadrant_morton (p4est_quadrant_parent q) = p4est_quadrant_morton q := by
  rw [p4est_quadrant_parent_of_zero q hc]
  refine ⟨?_, rfl⟩
  obtain ⟨hx0, hy0, hz0⟩ := p4est_quadrant_child_id_zero q hc
  obtain ⟨⟨_, hl2⟩, ⟨hx1, hx2⟩, ⟨hy1, hy2⟩, ⟨hz1, hz2⟩, hx3, hy3, hz3⟩ := hv
  have hq : (P4EST_QMAXLEVEL : Int) = 18 := by decide
  have hm : (P4EST_MAXLEVEL : Int) = 19 := by decide
  have hsucc := P4EST_QUADRANT_LEN_succ (q.level - 1) (by omega) (by omega)
  rw [show q.level - 1 + 1 = q.level by ring] at hsucc
  have hroot := P4EST_ROOT_LEN_eq (q.level - 1) (by omega) (by omega)
  have hpos := P4EST_QUADRANT_LEN_pos q.level
  unfold P4EST_LAST_OFFSET at hx2 hy2 hz2
  have key : ∀ x : Int, 0 ≤ x → x ≤ P4EST_ROOT_LEN - P4EST_QUADRANT_LEN q.level →
      x % P4EST_QUADRANT_LEN q.level = 0 → x / P4EST_QUADRANT_LEN q.level % 2 = 0 →
      x ≤ P4EST_ROOT_LEN - P4EST_QUADRANT_LEN (q.level - 1) ∧
      x % P4EST_QUADRANT_LEN (q.level - 1) = 0 := by
    intro x hx hle hal hbit
    have e1 : x = P4EST_QUADRANT_LEN q.level * (x / P4EST_QUADRANT_LEN q.level) := by
      have := Int.emod_add_ediv x (P4EST_QUADRANT_LEN q.level)
      omega
    have e2 : x / P4EST_QUADRANT_LEN q.level =
        2 * (x / P4EST_QUADRANT_LEN q.level / 2) := by omega
    have e3 : x = P4EST_QUADRANT_LEN (q.level - 1) *
        (x / P4EST_QUADRANT_LEN q.level / 2) := by
      rw [hsucc]
      calc x = P4EST_QUADRANT_LEN q.level * (x / P4EST_QUADRANT_LEN q.level) := e1
        _ = P4EST_QUADRANT_LEN q.level * (2 * (x / P4EST_QUADRANT_LEN q.level / 2)) := by
          rw [← e2]
        _ = _ := by ring
    have hal2 : x % P4EST_QUADRANT_LEN (q.level - 1) = 0 := by
      rw [e3]; exact Int.mul_emod_right _ _
    refine ⟨?_, hal2⟩
    have hpos2 : 0 < P4EST_QUADRANT_LEN (q.level - 1) := P4EST_QUADRANT_LEN_pos _
    have hlt : x < 2 ^ (q.level - 1).toNat * P4EST_QUADRANT_LEN (q.level - 1) := by
      rw [← hroot]; omega
    have hk : x / P4EST_QUADRANT_LEN q.level / 2 < 2 ^ (q.level - 1).toNat := by
      by_contra hge
      push_neg at hge
      have := mul_le_mul_of_nonneg_left hge (le_of_lt hpos2)
      rw [← e3] at this
      linarith [mul_comm (P4EST_QUADRANT_LEN (q.level - 1)) (2 ^ (q.level - 1).toNat : Int)]
    have hk1 : x / P4EST_QUADRANT_LEN q.level / 2 + 1 ≤ 2 ^ (q.level - 1).toNat := by omega
    have := mul_le_mul_of_nonneg_left hk1 (le_of_lt hpos2)
    rw [hroot]
    nlinarith
  obtain ⟨kx1, kx2⟩ := key q.x hx1 hx2 hx3 hx0
  obtain ⟨ky1, ky2⟩ := key q.y hy1 hy2 hy3 hy0
  obtain ⟨kz1, kz2⟩ := key q.z hz1 hz2 hz3 hz0
  exact ⟨⟨by show 0 ≤ q.level - 1; omega, by show q.level - 1 ≤ _; omega⟩,
    ⟨hx1, kx1⟩, ⟨hy1, ky1⟩, ⟨hz1, kz1⟩, kx2, ky2, kz2⟩

theorem p4est_familypv_levels (q : Nat → p4est_quadrant)
    (hf : p4est_quadrant_is_familypv q) :
    (q 0).level ≠ 0 ∧ ∀ i : Nat, i < 8 → (q i).level = (q 0).level :=
  have h := (p4est_quadrant_is_family_iff q).1 ((p4est_quadrant_is_familypv_iff q).1 hf)
  ⟨h.1, fun i hi => (h.2 i hi).1⟩

theorem p4est_tree_window_morton (v : Nat → p4est_quadrant) (n f : Nat)
    (hcomp : p4est_tree_is_complete v n) (hf : f + 7 < n)
    (hfam : p4est_quadrant_is_familypv (fun zz => v (f + zz))) :
    ∀ j : Nat, j ≤ 7 → p4est_quadrant_morton (v (f + j)) =
      p4est_quadrant_morton (v f) + j * p4est_quadrant_cells (v f) := by
  obtain ⟨_, _, _, hchain, _⟩ := hcomp
  obtain ⟨_, hall⟩ := p4est_familypv_levels _ hfam
  intro j
  induction j with
  | zero => intro _; simp
  | succ j ih =>
    intro hj
    have h1 := hchain (f + j) (by omega)
    have hl : (v (f + j)).level = (v (f + 0)).level := hall j (by omega)
    have hcells : p4est_quadrant_cells (v (f + j)) = p4est_quadrant_cells (v f) := by
      unfold p4est_quadrant_cells; rw [hl]; rfl
    rw [show f + (j + 1) = f + j + 1 by ring, h1, ih (by omega), hcells]
    push_cast; ring

theorem p4est_tree_is_complete_replaced (v : Nat → p4est_quadrant) (n f : Nat)
    (hcomp : p4est_tree_is_complete v n) (hf : f + 7 < n)
    (hfam : coarsen_is_family_at v f) :
    p4est_tree_is_complete (coarsen_replaced v f (p4est_quadrant_parent (v f))) (n - 7) := by
  obtain ⟨h0, hfamv⟩ := hfam
  have hwin := p4est_tree_window_morton v n f hcomp hf hfamv
  have hlev : (v f).level ≠ 0 := (p4est_familypv_levels _ hfamv).1
  have hl7 : (v (f + 7)).level = (v f).level := (p4est_familypv_levels _ hfamv).2 7 (by omega)
  obtain ⟨hn, hval, hstart, hchain, hend⟩ := hcomp
  have hvf := hval f (by omega)
  have hlpos : 0 < (v f).level := by
    have := hvf.1.1; omega
  have hlmax : (v f).level ≤ P4EST_MAXLEVEL := by
    have := hvf.1.2
    have hq : (P4EST_QMAXLEVEL : Int) = 18 := by decide
    have hm : (P4EST_MAXLEVEL : Int) = 19 := by decide
    omega
  obtain ⟨hpv, hpm⟩ := p4est_quadrant_parent_valid (v f) hvf hlpos h0
  have hpc := p4est_quadrant_cells_parent (v f) hlpos hlmax
  have hc7 : p4est_quadrant_cells (v (f + 7)) = p4est_quadrant_cells (v f) := by
    unfold p4est_quadrant_cells; rw [hl7]
  refine ⟨by omega, ?_, ?_, ?_, ?_⟩
  · intro i hi
    unfold coarsen_replaced
    by_cases h1 : i < f
    · rw [if_pos h1]; exact hval i (by omega)
    · by_cases h2 : i = f
      · rw [if_neg h1, if_pos h2]; exact hpv
      · rw [if_neg h1, if_neg h2]; exact hval (i + 7) (by omega)
  · unfold coarsen_replaced
    by_cases h1 : 0 < f
    · rw [if_pos h1]; exact hstart
    · have hf0 : f = 0 := by omega
      subst hf0
      rw [if_neg h1, if_pos rfl, hpm]; exact hstart
  · intro i hi
    unfold coarsen_replaced
    by_cases h1 : i + 1 < f
    · rw [if_pos h1, if_pos (by omega)]; exact hchain i (by omega)
    · by_cases h2 : i + 1 = f
      · rw [if_neg h1, if_pos h2, if_pos (by omega), hpm, ← h2]
        exact hchain i (by omega)
      · by_cases h3 : i = f
        · subst h3
          rw [if_neg h1, if_neg h2, if_neg (by omega), if_pos rfl, hpm, hpc]
          have h8 := hchain (i + 7) (by omega)
          rw [show i + 1 + 7 = i + 7 + 1 by ring, h8, hwin 7 (by omega), hc7]
          push_cast; ring
        · rw [if_neg h1, if_neg h2, if_neg (by omega), if_neg h3]
          rw [show i + 1 + 7 = i + 7 + 1 by ring]
          exact hchain (i + 7) (by omega)
  · unfold coarsen_replaced
    by_cases h1 : n - 7 - 1 = f
    · rw [if_neg (by omega), if_pos h1, hpm, hpc]
      have hn1 : n - 1 = f + 7 := by omega
      rw [hn1, hwin 7 (by omega), hc7] at hend
      rw [← hend]; push_cast; ring
    · rw [if_neg (by omega), if_neg h1]
      rw [show n - 7 - 1 + 7 = n - 1 by omega]
      exact hend

theorem coarsen_first_lt (r : Bool) (s : coarsen_state) (h : coarsen_inv r s) :
    s.first < coarsen_view_count s := by
  obtain ⟨h1, h2, h3, _⟩ := h
  unfold coarsen_view_count; omega

theorem coarsen_step_measure (r : Bool) (fn : Nat → List p4est_quadrant → Bool)
    (s s1 : coarsen_state) (h : coarsen_inv r s) (hc : coarsen_continues s)
    (hs : coarsen_step r fn s = .ok s1) :
    8 * coarsen_view_count s1 + s.first + 1 ≤ 8 * coarsen_view_count s + s1.first := by
  obtain ⟨s2, heq, _, _, hyes, hno⟩ := coarsen_step_spec r fn s h hc
  rw [hs] at heq
  cases heq
  have hc1 := (coarsen_continues_iff r s h).1 hc
  by_cases hgood : coarsen_is_family_at (coarsen_view s) s.first ∧
      fn s.invoked.length (coarsen_window (coarsen_view s) s.first) = true
  · obtain ⟨_, hcnt, hrec, hnon⟩ := hyes hgood
    cases r
    · have hf := hnon rfl
      split at hf <;> omega
    · have hf := hrec rfl
      have := p4est_quadrant_child_id_range
        (p4est_quadrant_parent (coarsen_view s s.first))
      omega
  · obtain ⟨_, hcnt, hf⟩ := hno hgood
    omega

theorem coarsen_loop_spec (r : Bool) (fn : Nat → List p4est_quadrant → Bool)
    (I : coarsen_state → Prop)
    (hI : ∀ s s1, coarsen_inv r s → I s → coarsen_continues s →
      coarsen_step r fn s = .ok s1 → I s1) :
    ∀ (fuel : Nat) (s : coarsen_state), coarsen_inv r s → I s →
      8 * coarsen_view_count s ≤ fuel + s.first →
      ∃ s1, coarsen_loop r fn fuel s = .ok s1 ∧ coarsen_inv r s1 ∧ I s1 ∧
        ¬ coarsen_continues s1 ∧ s1.incount = s.incount := by
  intro fuel
  induction fuel with
  | zero =>
    intro s h hi hm
    have hlt := coarsen_first_lt r s h
    have hnc : ¬ coarsen_continues s := by
      rw [coarsen_continues_iff r s h]; omega
    refine ⟨s, ?_, h, hi, hnc, rfl⟩
    unfold coarsen_loop
    rw [if_neg hnc]
  | succ n ih =>
    intro s h hi hm
    by_cases hc : coarsen_continues s
    · obtain ⟨s2, heq, hinv2, hn2, _, _⟩ := coarsen_step_spec r fn s h hc
      have hmeas := coarsen_step_measure r fn s s2 h hc heq
      obtain ⟨s3, hl, hinv3, hi3, hnc3, hn3⟩ :=
        ih s2 hinv2 (hI s s2 h hi hc heq) (by omega)
      refine ⟨s3, ?_, hinv3, hi3, hnc3, by rw [hn3, hn2]⟩
      unfold coarsen_loop
      rw [if_pos hc]
      simp only [heq]
      exact hl
    · refine ⟨s, ?_, h, hi, hc, rfl⟩
      unfold coarsen_loop
      rw [if_neg hc]

theorem p4est_tree_is_complete_congr (v w : Nat → p4est_quadrant) (n : Nat)
    (h : ∀ i, i < n → v i = w i) (hc : p4est_tree_is_complete v n) :
    p4est_tree_is_complete w n := by
  obtain ⟨hn, hval, hstart, hchain, hend⟩ := hc
  refine ⟨hn, ?_, ?_, ?_, ?_⟩
  · intro i hi; rw [← h i hi]; exact hval i hi
  · rw [← h 0 hn]; exact hstart
  · intro i hi
    rw [← h i (by omega), ← h (i + 1) (by omega)]; exact hchain i hi
  · rw [← h (n - 1) (by omega)]; exact hend

theorem p4est_tree_complete_sorted (v : Nat → p4est_quadrant) (n : Nat)
    (hc : p4est_tree_is_complete v n) : p4est_tree_is_sorted v n := by
  intro i hi
  left
  rw [hc.2.2.2.1 i hi]
  have := p4est_quadrant_cells_pos (v i)
  omega

theorem coarsen_drain_spec :
    ∀ (fuel : Nat) (s : coarsen_state), s.first < s.rest → s.rest ≤ s.incount →
      s.elem_count = s.incount → s.incount + 8 < 2 ^ 64 → s.incount ≤ fuel + s.rest →
      ∃ s2, coarsen_drain fuel s = .ok s2 ∧ s2.first = s.first + (s.incount - s.rest) ∧
        (∀ i, i ≤ s.first + (s.incount - s.rest) →
          s2.quadrants i = coarsen_view { s with last := s.first } i) ∧
        s2.incount = s.incount ∧ s2.removed = s.removed ∧
        s2.quadrants_per_level = s.quadrants_per_level ∧
        s2.local_num_quadrants = s.local_num_quadrants := by
  intro fuel
  induction fuel with
  | zero =>
    intro s h1 h2 h3 h4 h5
    have hr : ¬ s.rest < s.incount := by omega
    refine ⟨s, ?_, by omega, ?_, rfl, rfl, rfl, rfl⟩
    · unfold coarsen_drain; rw [if_neg hr]
    · intro i hi
      simp only [coarsen_view]
      rw [if_pos (by omega)]
  | succ n ih =>
    intro s h1 h2 h3 h4 h5
    by_cases hr : s.rest < s.incount
    · have hw : size_t_wrap ((s.first : Int) + 1) = s.first + 1 :=
        size_t_wrap_eq _ _ (by push_cast; ring) (by omega)
      have hwr : size_t_wrap ((s.rest : Int) + 1) = s.rest + 1 :=
        size_t_wrap_eq _ _ (by push_cast; ring) (by omega)
      obtain ⟨s2, hd, hf, hq, hn, hrem, hper, hloc⟩ := ih
        { s with
          first := s.first + 1
          quadrants := Function.update s.quadrants (s.first + 1) (s.quadrants s.rest)
          rest := s.rest + 1 }
        (by show s.first + 1 < s.rest + 1; omega) (by show s.rest + 1 ≤ s.incount; omega)
        h3 h4 (by show s.incount ≤ n + (s.rest + 1); omega)
      refine ⟨s2, ?_, ?_, ?_, hn, hrem, hper, hloc⟩
      · unfold coarsen_drain
        rw [if_pos hr]
        simp only [coarsen_move, hw]
        rw [if_pos ⟨by omega, by omega⟩]
        simp only [hwr]
        exact hd
      · rw [hf]; show s.first + 1 + (s.incount - (s.rest + 1)) = _; omega
      · intro i hi
        rw [hq i (by show i ≤ s.first + 1 + (s.incount - (s.rest + 1)); omega)]
        simp only [coarsen_view]
        by_cases hi1 : i ≤ s.first
        · rw [if_pos (by omega), if_pos hi1, Function.update_noteq (by omega)]
        · by_cases hi2 : i = s.first + 1
          · subst hi2
            rw [if_pos (le_refl _), if_neg hi1, Function.update_same]
            congr 1; omega
          · rw [if_neg (by omega), if_neg hi1, Function.update_noteq (by omega)]
            congr 1; omega
    · refine ⟨s, ?_, by omega, ?_, rfl, rfl, rfl, rfl⟩
      · unfold coarsen_drain; rw [if_neg hr]
      · intro i hi
        simp only [coarsen_view]
        rw [if_pos (by omega)]

theorem coarsen_finish_spec (r : Bool) (fuel : Nat) (s : coarsen_state)
    (h : coarsen_inv r s) (hfuel : s.incount ≤ fuel) :
    ∃ s3, coarsen_finish fuel s = .ok s3 ∧ s3.elem_count = coarsen_view_count s ∧
      (∀ i, i < coarsen_view_count s → s3.quadrants i = coarsen_view s i) ∧
      s3.incount = s.incount ∧ s3.removed = s.removed ∧
      s3.quadrants_per_level = s.quadrants_per_level ∧
      s3.local_num_quadrants = s.local_num_quadrants := by
  obtain ⟨h1, h2, h3, h4, h5, h6, h7, h8⟩ := h
  have hw : size_t_wrap ((s.last : Int) + 1) = s.last + 1 :=
    size_t_wrap_eq _ _ (by push_cast; ring) (by omega)
  by_cases hhole : s.last + 1 < s.rest
  · obtain ⟨s2, hd, hf, hq, hn, hrem, hper, hloc⟩ := coarsen_drain_spec fuel
      { s with first := s.last } h2 h3 h6 h7 (by show s.incount ≤ fuel + s.rest; omega)
    have hw2 : size_t_wrap ((s2.first : Int) + 1) = s2.first + 1 :=
      size_t_wrap_eq _ _ (by push_cast; ring)
        (by rw [hf]; show s.last + (s.incount - s.rest) + 1 < _; omega)
    refine ⟨{ s2 with elem_count := s2.first + 1
                      maxlevel := coarsen_maxlevel s2.quadrants_per_level },
      ?_, ?_, ?_, hn, hrem, hper, hloc⟩
    · simp only [coarsen_finish, hw]
      rw [if_pos hhole]
      simp only [hd, Except.map, hw2]
    · show s2.first + 1 = _
      rw [hf]; unfold coarsen_view_count
      show s.last + (s.incount - s.rest) + 1 = _
      omega
    · intro i hi
      unfold coarsen_view_count at hi
      exact hq i (by show i ≤ s.last + (s.incount - s.rest); omega)
  · refine ⟨{ s with first := s.last
                     maxlevel := coarsen_maxlevel s.quadrants_per_level },
      ?_, ?_, ?_, rfl, rfl, rfl, rfl⟩
    · simp only [coarsen_finish, hw]
      rw [if_neg hhole]
      simp only [Except.map]
    · show s.elem_count = _
      unfold coarsen_view_count; omega
    · intro i hi
      show s.quadrants i = _
      unfold coarsen_view
      split
      · rfl
      · congr 1; omega

theorem coarsen_init_inv (r : Bool) (quadrants : Nat → p4est_quadrant) (n : Nat)
    (per : Int → Int) (loc : Int) (hn0 : 0 < n) (hn : n + 8 < 2 ^ 64) :
    coarsen_inv r (coarsen_init quadrants n per loc) ∧
    coarsen_view_count (coarsen_init quadrants n per loc) = n ∧
    (∀ i, coarsen_view (coarsen_init quadrants n per loc) i = quadrants i) ∧
    (coarsen_init quadrants n per loc).first = 0 ∧
    (coarsen_init quadrants n per loc).incount = n := by
  refine ⟨⟨le_refl _, by show 0 < 1; omega, by show 1 ≤ n; omega, rfl, by show 1 ≤ 8; omega,
    rfl, hn, fun _ => rfl⟩, ?_, ?_, rfl, rfl⟩
  · show 0 + 1 + (n - 1) = n; omega
  · intro i
    show (if i ≤ 0 then quadrants i else quadrants (1 + (i - (0 + 1)))) = quadrants i
    split
    · rfl
    · congr 1; omega

theorem coarsen_step_complete (r : Bool) (fn : Nat → List p4est_quadrant → Bool)
    (s s1 : coarsen_state) (h : coarsen_inv r s)
    (hi : p4est_tree_is_complete (coarsen_view s) (coarsen_view_count s))
    (hc : coarsen_continues s) (hs : coarsen_step r fn s = .ok s1) :
    p4est_tree_is_complete (coarsen_view s1) (coarsen_view_count s1) := by
  obtain ⟨s2, heq, _, _, hyes, hno⟩ := coarsen_step_spec r fn s h hc
  rw [hs] at heq
  cases heq
  have hc1 := (coarsen_continues_iff r s h).1 hc
  by_cases hgood : coarsen_is_family_at (coarsen_view s) s.first ∧
      fn s.invoked.length (coarsen_window (coarsen_view s) s.first) = true
  · obtain ⟨hview, hcnt, _, _⟩ := hyes hgood
    rw [hview, hcnt]
    exact p4est_tree_is_complete_replaced _ _ _ hi hc1 hgood.1
  · obtain ⟨hview, hcnt, _⟩ := hno hgood
    rw [hview, hcnt]; exact hi

/-- C15: the sweep over one tree keeps the array strictly sorted in Morton
order and complete: for every array of `n` octants (with `n + 8 < 2 ^ 64`)
that is strictly sorted and complete, every `coarsen_fn` and both values of
`coarsen_recursive`, the sweep with a loop bound of at least `8 * n` returns,
and the array it leaves is again strictly sorted and complete. -/
theorem coarsen_tree_sorted_complete (coarsen_recursive : Bool)
    (coarsen_fn : Nat → List p4est_quadrant → Bool) (fuel : Nat)
    (quadrants : Nat → p4est_quadrant) (n : Nat) (per : Int → Int) (loc : Int)
    (_hs : p4est_tree_is_sorted quadrants n) (hc : p4est_tree_is_complete quadrants n)
    (hn : n + 8 < 2 ^ 64) (hfuel : 8 * n ≤ fuel) :
    ∃ s, coarsen_tree coarsen_recursive coarsen_fn fuel quadrants n per loc = .ok s ∧
      p4est_tree_is_sorted s.quadrants s.elem_count ∧
      p4est_tree_is_complete s.quadrants s.elem_count := by
  obtain ⟨hinv0, hcnt0, hview0, hf0, hn0⟩ :=
    coarsen_init_inv coarsen_recursive quadrants n per loc hc.1 hn
  have hI0 : p4est_tree_is_complete (coarsen_view (coarsen_init quadrants n per loc))
      (coarsen_view_count (coarsen_init quadrants n per loc)) := by
    rw [hcnt0]
    exact p4est_tree_is_complete_congr _ _ _ (fun i _ => (hview0 i).symm) hc
  obtain ⟨s1, hloop, hinv1, hI1, _, hn1⟩ := coarsen_loop_spec coarsen_recursive coarsen_fn
    (fun s => p4est_tree_is_complete (coarsen_view s) (coarsen_view_count s))
    (fun s s1 h hi hc hs => coarsen_step_complete coarsen_recursive coarsen_fn s s1 h hi hc hs)
    fuel _ hinv0 hI0 (by rw [hcnt0, hf0]; omega)
  obtain ⟨s3, hfin, hcnt3, hq3, _⟩ := coarsen_finish_spec coarsen_recursive fuel s1 hinv1
    (by rw [hn1, hn0]; omega)
  have hcomp3 : p4est_tree_is_complete s3.quadrants s3.elem_count := by
    rw [hcnt3]
    exact p4est_tree_is_complete_congr _ _ _ (fun i hi => (hq3 i hi).symm) hI1
  refine ⟨s3, ?_, p4est_tree_complete_sorted _ _ hcomp3, hcomp3⟩
  simp only [coarsen_tree, hloop]
  exact hfin

theorem coarsen_is_family_at_congr (v w : Nat → p4est_quadrant) (i : Nat)
    (h : ∀ zz, zz < 8 → v (i + zz) = w (i + zz)) :
    coarsen_is_family_at v i ↔ coarsen_is_family_at w i := by
  unfold coarsen_is_family_at
  rw [p4est_quadrant_is_familypv_iff, p4est_quadrant_is_familypv_iff]
  rw [h 0 (by omega), h 1 (by omega), h 2 (by omega), h 3 (by omega), h 4 (by omega),
    h 5 (by omega), h 6 (by omega), h 7 (by omega)]
  have := h 0 (by omega)
  simp only [Nat.add_zero] at this
  rw [this]

theorem coarsen_window_congr (v w : Nat → p4est_quadrant) (i : Nat)
    (h : ∀ zz, zz < 8 → v (i + zz) = w (i + zz)) :
    coarsen_window v i = coarsen_window w i := by
  unfold coarsen_window
  apply List.map_congr_left
  intro zz hzz
  rw [List.mem_range] at hzz
  exact h zz hzz

theorem coarsen_step_no_family (f : List p4est_quadrant → Bool) (s s1 : coarsen_state)
    (h : coarsen_inv true s)
    (hi : ∀ i, i < s.first → i + 7 < coarsen_view_count s →
      ¬ (coarsen_is_family_at (coarsen_view s) i ∧ f (coarsen_window (coarsen_view s) i) = true))
    (hc : coarsen_continues s) (hs : coarsen_step true (fun _ c => f c) s = .ok s1) :
    ∀ i, i < s1.first → i + 7 < coarsen_view_count s1 →
      ¬ (coarsen_is_family_at (coarsen_view s1) i ∧
        f (coarsen_window (coarsen_view s1) i) = true) := by
  obtain ⟨s2, heq, _, _, hyes, hno⟩ := coarsen_step_spec true (fun _ c => f c) s h hc
  rw [hs] at heq
  cases heq
  have hc1 := (coarsen_continues_iff true s h).1 hc
  by_cases hgood : coarsen_is_family_at (coarsen_view s) s.first ∧
      f (coarsen_window (coarsen_view s) s.first) = true
  · obtain ⟨hview, hcnt, hrec, _⟩ := hyes hgood
    have hf := hrec rfl
    obtain ⟨hk0, hk7⟩ := p4est_quadrant_child_id_range
      (p4est_quadrant_parent (coarsen_view s s.first))
    intro i hi1 hi2
    rw [hview]
    by_cases hfar : i + 7 < s.first
    · have hcongr : ∀ zz, zz < 8 →
          coarsen_replaced (coarsen_view s) s.first
            (p4est_quadrant_parent (coarsen_view s s.first)) (i + zz) =
          coarsen_view s (i + zz) := by
        intro zz hzz
        unfold coarsen_replaced
        rw [if_pos (by omega)]
      rw [coarsen_is_family_at_congr _ _ i hcongr, coarsen_window_congr _ _ i hcongr]
      exact hi i (by omega) (by omega)
    · rintro ⟨⟨h0, hfam⟩, _⟩
      have hid := (p4est_family_child_ids _ hfam (by simpa using h0) (s.first - i)
        (by omega)).1
      have hrep : coarsen_replaced (coarsen_view s) s.first
          (p4est_quadrant_parent (coarsen_view s s.first)) (i + (s.first - i)) =
          p4est_quadrant_parent (coarsen_view s s.first) := by
        unfold coarsen_replaced
        rw [if_neg (by omega), if_pos (by omega)]
      simp only [hrep] at hid
      omega
  · obtain ⟨hview, hcnt, hf⟩ := hno hgood
    intro i hi1 hi2
    rw [hview]
    by_cases hlt : i < s.first
    · exact hi i hlt (by omega)
    · have hieq : i = s.first := by omega
      rw [hieq]; exact hgood

theorem coarsen_view_count_le (r : Bool) (s : coarsen_state) (h : coarsen_inv r s) :
    coarsen_view_count s ≤ s.incount := by
  obtain ⟨h1, h2, h3, _⟩ := h
  unfold coarsen_view_count; omega

theorem coarsen_tree_no_family (f : List p4est_quadrant → Bool) (fuel : Nat)
    (quadrants : Nat → p4est_quadrant) (n : Nat) (per : Int → Int) (loc : Int)
    (hc : p4est_tree_is_complete quadrants n) (hn : n + 8 < 2 ^ 64) (hfuel : 8 * n ≤ fuel) :
    ∃ s, coarsen_tree true (fun _ c => f c) fuel quadrants n per loc = .ok s ∧
      p4est_tree_is_complete s.quadrants s.elem_count ∧ s.elem_count ≤ n ∧
      ∀ i, i + 7 < s.elem_count →
        ¬ (coarsen_is_family_at s.quadrants i ∧ f (coarsen_window s.quadrants i) = true) := by
  obtain ⟨hinv0, hcnt0, hview0, hf0, hn0⟩ := coarsen_init_inv true quadrants n per loc hc.1 hn
  have hI0 : p4est_tree_is_complete (coarsen_view (coarsen_init quadrants n per loc))
      (coarsen_view_count (coarsen_init quadrants n per loc)) := by
    rw [hcnt0]
    exact p4est_tree_is_complete_congr _ _ _ (fun i _ => (hview0 i).symm) hc
  obtain ⟨s1, hloop, hinv1, ⟨hI1, hJ1⟩, hnc1, hn1⟩ := coarsen_loop_spec true (fun _ c => f c)
    (fun s => p4est_tree_is_complete (coarsen_view s) (coarsen_view_count s) ∧
      ∀ i, i < s.first → i + 7 < coarsen_view_count s →
        ¬ (coarsen_is_family_at (coarsen_view s) i ∧
          f (coarsen_window (coarsen_view s) i) = true))
    (fun s s1 h hi hc hs => ⟨coarsen_step_complete true _ s s1 h hi.1 hc hs,
      coarsen_step_no_family f s s1 h hi.2 hc hs⟩)
    fuel _ hinv0 ⟨hI0, fun i hi => by rw [hf0] at hi; omega⟩ (by rw [hcnt0, hf0]; omega)
  obtain ⟨s3, hfin, hcnt3, hq3, _⟩ := coarsen_finish_spec true fuel s1 hinv1
    (by rw [hn1, hn0]; omega)
  have hle := coarsen_view_count_le true s1 hinv1
  rw [coarsen_continues_iff true s1 hinv1] at hnc1
  refine ⟨s3, ?_, ?_, ?_, ?_⟩
  · simp only [coarsen_tree, hloop]
    exact hfin
  · rw [hcnt3]
    exact p4est_tree_is_complete_congr _ _ _ (fun i hi => (hq3 i hi).symm) hI1
  · rw [hcnt3, ← hn0, ← hn1]; exact hle
  · intro i hi
    rw [hcnt3] at hi
    have hcongr : ∀ zz, zz < 8 → s3.quadrants (i + zz) = coarsen_view s1 (i + zz) :=
      fun zz hzz => hq3 (i + zz) (by omega)
    rw [coarsen_is_family_at_congr _ _ i hcongr, coarsen_window_congr _ _ i hcongr]
    exact hJ1 i (by omega) hi

theorem coarsen_tree_unchanged (r : Bool) (f : List p4est_quadrant → Bool) (fuel : Nat)
    (quadrants : Nat → p4est_quadrant) (n : Nat) (per : Int → Int) (loc : Int)
    (hn0 : 0 < n) (hn : n + 8 < 2 ^ 64) (hfuel : 8 * n ≤ fuel)
    (hno : ∀ i, i + 7 < n →
      ¬ (coarsen_is_family_at quadrants i ∧ f (coarsen_window quadrants i) = true)) :
    ∃ s, coarsen_tree r (fun _ c => f c) fuel quadrants n per loc = .ok s ∧
      s.elem_count = n ∧ ∀ i, i < n → s.quadrants i = quadrants i := by
  obtain ⟨hinv0, hcnt0, hview0, hf0, hin0⟩ := coarsen_init_inv r quadrants n per loc hn0 hn
  obtain ⟨s1, hloop, hinv1, ⟨hI1, hJ1⟩, _, hn1⟩ := coarsen_loop_spec r (fun _ c => f c)
    (fun s => coarsen_view_count s = s.incount ∧ coarsen_view s = quadrants ∧ s.incount = n)
    (fun s s1 h hi hc hs => by
      obtain ⟨s2, heq, _, hinc, _, hno2⟩ := coarsen_step_spec r (fun _ c => f c) s h hc
      rw [hs] at heq
      cases heq
      have hc1 := (coarsen_continues_iff r s h).1 hc
      obtain ⟨hview, hcnt, _⟩ := hno2 (by
        rw [hi.2.1]
        exact hno s.first (by rw [← hi.2.2, ← hi.1]; exact hc1))
      exact ⟨by rw [hcnt, hinc]; exact hi.1, by rw [hview]; exact hi.2.1,
        by rw [hinc]; exact hi.2.2⟩)
    fuel _ hinv0 ⟨by rw [hcnt0, hin0], funext hview0, hin0⟩ (by rw [hcnt0, hf0]; omega)
  obtain ⟨s3, hfin, hcnt3, hq3, _⟩ := coarsen_finish_spec r fuel s1 hinv1
    (by rw [hn1, hin0]; omega)
  refine ⟨s3, ?_, by rw [hcnt3, hI1, hn1, hin0], ?_⟩
  · simp only [coarsen_tree, hloop]
    exact hfin
  · intro i hi
    rw [hq3 i (by rw [hI1, hn1, hin0]; exact hi), hJ1.1]

/-! ### The Morton index -/

theorem morton_interleave_scale (k m : Nat) (a b c : Int) :
    morton_interleave (k + m) (2 ^ k * a) (2 ^ k * b) (2 ^ k * c) =
      8 ^ k * morton_interleave m a b c := by
  induction k with
  | zero => simp
  | succ k ih =>
    have e : k + 1 + m = (k + m) + 1 := by ring
    have h2 : ∀ t : Int, (2 : Int) ^ (k + 1) * t = 2 * (2 ^ k * t) := by
      intro t; rw [pow_succ]; ring
    rw [e, h2 a, h2 b, h2 c]
    simp only [morton_interleave]
    rw [Int.mul_emod_right, Int.mul_emod_right, Int.mul_emod_right,
      Int.mul_ediv_cancel_left _ (by norm_num : (2 : Int) ≠ 0),
      Int.mul_ediv_cancel_left _ (by norm_num : (2 : Int) ≠ 0),
      Int.mul_ediv_cancel_left _ (by norm_num : (2 : Int) ≠ 0), ih, pow_succ]
    ring

theorem morton_interleave_inj (m : Nat) :
    ∀ a b c a1 b1 c1 : Int, 0 ≤ a → a < 2 ^ m → 0 ≤ b → b < 2 ^ m → 0 ≤ c → c < 2 ^ m →
      0 ≤ a1 → a1 < 2 ^ m → 0 ≤ b1 → b1 < 2 ^ m → 0 ≤ c1 → c1 < 2 ^ m →
      morton_interleave m a b c = morton_interleave m a1 b1 c1 →
      a = a1 ∧ b = b1 ∧ c = c1 := by
  induction m with
  | zero =>
    intro a b c a1 b1 c1 ha ha2 hb hb2 hc hc2 ha1 ha12 hb1 hb12 hc1 hc12 _
    simp only [pow_zero] at *
    omega
  | succ m ih =>
    intro a b c a1 b1 c1 ha ha2 hb hb2 hc hc2 ha1 ha12 hb1 hb12 hc1 hc12 heq
    simp only [morton_interleave] at heq
    rw [pow_succ] at ha2 hb2 hc2 ha12 hb12 hc12
    have hrec : morton_interleave m (a / 2) (b / 2) (c / 2) =
        morton_interleave m (a1 / 2) (b1 / 2) (c1 / 2) := by omega
    obtain ⟨e1, e2, e3⟩ := ih (a / 2) (b / 2) (c / 2) (a1 / 2) (b1 / 2) (c1 / 2)
      (by omega) (by omega) (by omega) (by omega) (by omega) (by omega)
      (by omega) (by omega) (by omega) (by omega) (by omega) (by omega) hrec
    omega

theorem p4est_quadrant_valid_scaled (q : p4est_quadrant) (hv : p4est_quadrant_is_valid q) :
    q.level.toNat ≤ 18 ∧ (q.level.toNat : Int) = q.level ∧
    P4EST_QUADRANT_LEN q.level = 2 ^ (19 - q.level.toNat) ∧
    (∀ x : Int, 0 ≤ x → x ≤ P4EST_LAST_OFFSET q.level → x % P4EST_QUADRANT_LEN q.level = 0 →
      x = 2 ^ (19 - q.level.toNat) * (x / P4EST_QUADRANT_LEN q.level) ∧
      0 ≤ x / P4EST_QUADRANT_LEN q.level ∧
      x / P4EST_QUADRANT_LEN q.level < 2 ^ q.level.toNat) := by
  obtain ⟨⟨hl0, hl1⟩, _⟩ := hv
  have hq : (P4EST_QMAXLEVEL : Int) = 18 := by decide
  have hlen : P4EST_QUADRANT_LEN q.level = 2 ^ (19 - q.level.toNat) := rfl
  have hpos := P4EST_QUADRANT_LEN_pos q.level
  have hroot := P4EST_ROOT_LEN_eq q.level hl0 (by
    have hm : (P4EST_MAXLEVEL : Int) = 19 := by decide
    omega)
  refine ⟨by omega, by omega, hlen, ?_⟩
  intro x hx0 hx1 hx2
  unfold P4EST_LAST_OFFSET at hx1
  have e1 : x = P4EST_QUADRANT_LEN q.level * (x / P4EST_QUADRANT_LEN q.level) := by
    have := Int.emod_add_ediv x (P4EST_QUADRANT_LEN q.level)
    omega
  refine ⟨by rw [← hlen]; exact e1, Int.ediv_nonneg hx0 (le_of_lt hpos), ?_⟩
  by_contra hge
  push_neg at hge
  have := mul_le_mul_of_nonneg_left hge (le_of_lt hpos)
  rw [← e1] at this
  nlinarith

theorem p4est_quadrant_morton_eq (q : p4est_quadrant) (hv : p4est_quadrant_is_valid q) :
    p4est_quadrant_morton q = p4est_quadrant_cells q * p4est_quadrant_position q := by
  obtain ⟨hl, _, hlen, hsc⟩ := p4est_quadrant_valid_scaled q hv
  obtain ⟨_, ⟨hx1, hx2⟩, ⟨hy1, hy2⟩, ⟨hz1, hz2⟩, hx3, hy3, hz3⟩ := hv
  obtain ⟨ex, _, _⟩ := hsc q.x hx1 hx2 hx3
  obtain ⟨ey, _, _⟩ := hsc q.y hy1 hy2 hy3
  obtain ⟨ez, _, _⟩ := hsc q.z hz1 hz2 hz3
  unfold p4est_quadrant_morton p4est_quadrant_cells p4est_quadrant_position
  have hm : P4EST_MAXLEVEL = (19 - q.level.toNat) + q.level.toNat := by
    show 19 = _; omega
  have h19 : P4EST_MAXLEVEL - q.level.toNat = 19 - q.level.toNat := rfl
  rw [h19]
  rw [← morton_interleave_scale, ← ex, ← ey, ← ez, ← hm]

theorem p4est_quadrant_position_step (q : p4est_quadrant) (hl : 0 < q.level) :
    p4est_quadrant_position q = p4est_quadrant_child_id q +
      8 * morton_interleave (q.level.toNat - 1) (q.x / P4EST_QUADRANT_LEN q.level / 2)
        (q.y / P4EST_QUADRANT_LEN q.level / 2) (q.z / P4EST_QUADRANT_LEN q.level / 2) := by
  unfold p4est_quadrant_position p4est_quadrant_child_id
  have h : q.level.toNat = (q.level.toNat - 1) + 1 := by omega
  conv_lhs => rw [h]
  simp only [morton_interleave]

theorem p4est_family_of_positions (q : Nat → p4est_quadrant)
    (hv : ∀ j, j < 8 → p4est_quadrant_is_valid (q j)) (hl : 0 < (q 0).level)
    (hlev : ∀ j, j < 8 → (q j).level = (q 0).level)
    (h0 : p4est_quadrant_position (q 0) % 8 = 0)
    (hpos : ∀ j : Nat, j < 8 →
      p4est_quadrant_position (q j) = p4est_quadrant_position (q 0) + j) :
    p4est_quadrant_child_id (q 0) = 0 ∧ p4est_quadrant_is_familypv q := by
  have hstep0 := p4est_quadrant_position_step (q 0) hl
  obtain ⟨hr0, hr7⟩ := p4est_quadrant_child_id_range (q 0)
  have hcid0 : p4est_quadrant_child_id (q 0) = 0 := by omega
  refine ⟨hcid0, ?_⟩
  rw [p4est_quadrant_is_familypv_iff, p4est_quadrant_is_family_iff]
  refine ⟨by omega, ?_⟩
  intro j hj
  have hlj := hlev j hj
  refine ⟨hlj, ?_⟩
  have hstepj := p4est_quadrant_position_step (q j) (by rw [hlj]; exact hl)
  obtain ⟨hjr0, hjr7⟩ := p4est_quadrant_child_id_range (q j)
  have hpj := hpos j hj
  rw [hlj] at hstepj
  have hcidj : p4est_quadrant_child_id (q j) = j := by omega
  have hX : morton_interleave ((q 0).level.toNat - 1)
      ((q j).x / P4EST_QUADRANT_LEN (q 0).level / 2)
      ((q j).y / P4EST_QUADRANT_LEN (q 0).level / 2)
      ((q j).z / P4EST_QUADRANT_LEN (q 0).level / 2) =
      morton_interleave ((q 0).level.toNat - 1)
      ((q 0).x / P4EST_QUADRANT_LEN (q 0).level / 2)
      ((q 0).y / P4EST_QUADRANT_LEN (q 0).level / 2)
      ((q 0).z / P4EST_QUADRANT_LEN (q 0).level / 2) := by omega
  obtain ⟨_, _, _, hsc0⟩ := p4est_quadrant_valid_scaled (q 0) (hv 0 (by omega))
  obtain ⟨_, _, _, hscj⟩ := p4est_quadrant_valid_scaled (q j) (hv j hj)
  rw [hlj] at hscj
  obtain ⟨_, ⟨ax1, ax2⟩, ⟨ay1, ay2⟩, ⟨az1, az2⟩, ax3, ay3, az3⟩ := hv 0 (by omega)
  obtain ⟨_, ⟨bx1, bx2⟩, ⟨by1, by2⟩, ⟨bz1, bz2⟩, bx3, by3, bz3⟩ := hv j hj
  rw [hlj] at bx2 by2 bz2 bx3 by3 bz3
  obtain ⟨eax, hax0, hax1⟩ := hsc0 _ ax1 ax2 ax3
  obtain ⟨eay, hay0, hay1⟩ := hsc0 _ ay1 ay2 ay3
  obtain ⟨eaz, haz0, haz1⟩ := hsc0 _ az1 az2 az3
  obtain ⟨ebx, hbx0, hbx1⟩ := hscj _ bx1 bx2 bx3
  obtain ⟨eby, hby0, hby1⟩ := hscj _ by1 by2 by3
  obtain ⟨ebz, hbz0, hbz1⟩ := hscj _ bz1 bz2 bz3
  have hpow : (2 : Int) ^ (q 0).level.toNat = 2 * 2 ^ ((q 0).level.toNat - 1) := by
    have h : (q 0).level.toNat = ((q 0).level.toNat - 1) + 1 := by omega
    conv_lhs => rw [h]
    rw [pow_succ]; ring
  rw [hpow] at hax1 hay1 haz1 hbx1 hby1 hbz1
  obtain ⟨e1, e2, e3⟩ := morton_interleave_inj ((q 0).level.toNat - 1) _ _ _ _ _ _
    (by omega) (by omega) (by omega) (by omega) (by omega) (by omega)
    (by omega) (by omega) (by omega) (by omega) (by omega) (by omega) hX
  have hlen : P4EST_QUADRANT_LEN (q 0).level = 2 ^ (19 - (q 0).level.toNat) := rfl
  unfold p4est_quadrant_child_id at hcid0 hcidj
  rw [hlj] at hcidj
  have kx : (q j).x / P4EST_QUADRANT_LEN (q 0).level =
      (q 0).x / P4EST_QUADRANT_LEN (q 0).level + ((j % 2 : Nat) : Int) := by omega
  have ky : (q j).y / P4EST_QUADRANT_LEN (q 0).level =
      (q 0).y / P4EST_QUADRANT_LEN (q 0).level + ((j / 2 % 2 : Nat) : Int) := by omega
  have kz : (q j).z / P4EST_QUADRANT_LEN (q 0).level =
      (q 0).z / P4EST_QUADRANT_LEN (q 0).level + ((j / 4 % 2 : Nat) : Int) := by omega
  refine ⟨?_, ?_, ?_⟩
  · rw [ebx, kx, hlen]; nth_rewrite 2 [eax]; rw [hlen]; ring
  · rw [eby, ky, hlen]; nth_rewrite 2 [eay]; rw [hlen]; ring
  · rw [ebz, kz, hlen]; nth_rewrite 2 [eaz]; rw [hlen]; ring

theorem p4est_quadrant_cells_level (q : p4est_quadrant) (L : Nat) (h : q.level = (L : Int)) :
    p4est_quadrant_cells q = 8 ^ (19 - L) := by
  unfold p4est_quadrant_cells
  rw [h, Int.toNat_ofNat]; rfl

theorem p4est_quadrant_coarser_dvd (q : p4est_quadrant) (hv : p4est_quadrant_is_valid q)
    (L : Nat) (hl : q.level ≤ (L : Int)) (hL : L + 1 ≤ 19) :
    ∃ t u : Int, p4est_quadrant_morton q = 8 * 8 ^ (19 - (L + 1)) * t ∧
      p4est_quadrant_cells q = 8 * 8 ^ (19 - (L + 1)) * u := by
  have hm := p4est_quadrant_morton_eq q hv
  obtain ⟨_, hcast, _, _⟩ := p4est_quadrant_valid_scaled q hv
  have hc := p4est_quadrant_cells_level q q.level.toNat hcast.symm
  have he : 19 - q.level.toNat = (19 - (L + 1)) + 1 + (L - q.level.toNat) := by omega
  rw [he, pow_add, pow_succ] at hc
  refine ⟨8 ^ (L - q.level.toNat) * p4est_quadrant_position q, 8 ^ (L - q.level.toNat), ?_, ?_⟩
  · rw [hm, hc]; ring
  · rw [hc]; ring

theorem root_octant_of_level_zero (q : p4est_quadrant) (hv : p4est_quadrant_is_valid q)
    (hl : q.level = 0) : q = root_octant := by
  obtain ⟨_, ⟨hx1, hx2⟩, ⟨hy1, hy2⟩, ⟨hz1, hz2⟩, _⟩ := hv
  rw [hl] at hx2 hy2 hz2
  have h0 : P4EST_LAST_OFFSET 0 = 0 := by decide
  rw [h0] at hx2 hy2 hz2
  cases q
  simp only [root_octant, p4est_quadrant.mk.injEq] at *
  omega

theorem p4est_tree_family_at_finest (v : Nat → p4est_quadrant) (n : Nat)
    (hc : p4est_tree_is_complete v n) (L : Nat) (hL : L + 1 ≤ 18)
    (hall : ∀ j, j < n → (v j).level ≤ ((L + 1 : Nat) : Int)) (i : Nat) (hi : i < n)
    (hil : (v i).level = ((L + 1 : Nat) : Int))
    (hmin : ∀ j, j < i → (v j).level ≠ ((L + 1 : Nat) : Int)) :
    i + 7 < n ∧ coarsen_is_family_at v i := by
  obtain ⟨hn, hval, hstart, hchain, hend⟩ := hc
  have hCpos : (0 : Int) < 8 ^ (19 - (L + 1)) := by positivity
  have hcell : ∀ j, j < n → (v j).level = ((L + 1 : Nat) : Int) →
      p4est_quadrant_cells (v j) = 8 ^ (19 - (L + 1)) ∧
      p4est_quadrant_morton (v j) = 8 ^ (19 - (L + 1)) * p4est_quadrant_position (v j) := by
    intro j hj hlj
    have h1 := p4est_quadrant_cells_level (v j) (L + 1) hlj
    exact ⟨h1, by rw [p4est_quadrant_morton_eq (v j) (hval j hj), h1]⟩
  obtain ⟨hci, hmi⟩ := hcell i hi hil
  have h8 : p4est_quadrant_position (v i) % 8 = 0 := by
    by_cases hi0 : i = 0
    · subst hi0
      rw [hstart] at hmi
      have : p4est_quadrant_position (v 0) = 0 := by
        rcases mul_eq_zero.1 hmi.symm with h | h
        · omega
        · exact h
      omega
    · have hlev : (v (i - 1)).level ≤ (L : Int) := by
        have h1 := hall (i - 1) (by omega)
        have h2 := hmin (i - 1) (by omega)
        push_cast at h1 h2; omega
      obtain ⟨t, u, ht, hu⟩ := p4est_quadrant_coarser_dvd (v (i - 1)) (hval (i - 1) (by omega))
        L hlev (by omega)
      have hch := hchain (i - 1) (by omega)
      rw [show i - 1 + 1 = i by omega, hmi, ht, hu] at hch
      have : p4est_quadrant_position (v i) = 8 * (t + u) := by
        apply mul_left_cancel₀ (ne_of_gt hCpos)
        rw [hch]; ring
      omega
  have h19 : (8 : Int) ^ P4EST_MAXLEVEL = 8 ^ (19 - (L + 1)) * (8 * 8 ^ L) := by
    have e : P4EST_MAXLEVEL = (19 - (L + 1)) + (L + 1) := by show 19 = _; omega
    rw [e, pow_add, pow_succ]; ring
  have hind : ∀ j : Nat, j ≤ 7 → i + j < n ∧ (v (i + j)).level = ((L + 1 : Nat) : Int) ∧
      p4est_quadrant_position (v (i + j)) = p4est_quadrant_position (v i) + j := by
    intro j
    induction j with
    | zero => intro _; exact ⟨hi, hil, by simp⟩
    | succ j ih =>
      intro hj
      obtain ⟨hj1, hj2, hj3⟩ := ih (by omega)
      obtain ⟨hcj, hmj⟩ := hcell (i + j) hj1 hj2
      have hlt : i + j + 1 < n := by
        by_contra hge
        have hlast : n - 1 = i + j := by omega
        rw [hlast, hmj, hcj, hj3, h19] at hend
        have : p4est_quadrant_position (v i) + j + 1 = 8 * 8 ^ L := by
          apply mul_left_cancel₀ (ne_of_gt hCpos)
          rw [← hend]; ring
        generalize (8 : Int) ^ L = K at this
        omega
      have hch := hchain (i + j) (by omega)
      rw [hmj, hcj, hj3] at hch
      have hlevel : (v (i + j + 1)).level = ((L + 1 : Nat) : Int) := by
        by_contra hne
        have hlev : (v (i + j + 1)).level ≤ (L : Int) := by
          have h1 := hall (i + j + 1) hlt
          push_cast at h1 hne; omega
        obtain ⟨t, u, ht, _⟩ := p4est_quadrant_coarser_dvd (v (i + j + 1))
          (hval (i + j + 1) hlt) L hlev (by omega)
        rw [ht] at hch
        have : p4est_quadrant_position (v i) + j + 1 = 8 * t := by
          apply mul_left_cancel₀ (ne_of_gt hCpos)
          linear_combination (-1 : Int) * hch
        omega
      obtain ⟨_, hm1⟩ := hcell (i + j + 1) hlt hlevel
      rw [hm1] at hch
      refine ⟨hlt, hlevel, ?_⟩
      have : p4est_quadrant_position (v (i + j + 1)) =
          p4est_quadrant_position (v i) + j + 1 := by
        apply mul_left_cancel₀ (ne_of_gt hCpos)
        rw [hch]; ring
      rw [show i + (j + 1) = i + j + 1 by ring, this]
      push_cast; ring
  refine ⟨(hind 7 (le_refl _)).1, ?_⟩
  exact p4est_family_of_positions (fun j => v (i + j))
    (fun j hj => hval (i + j) (hind j (by omega)).1)
    (by show 0 < (v i).level; rw [hil]; push_cast; omega)
    (fun j hj => ((hind j (by omega)).2.1).trans hil.symm)
    h8
    (fun j hj => (hind j (by omega)).2.2)

theorem p4est_tree_complete_root (v : Nat → p4est_quadrant) (n : Nat)
    (hc : p4est_tree_is_complete v n)
    (hno : ∀ i, i + 7 < n → ¬ coarsen_is_family_at v i) :
    n = 1 ∧ v 0 = root_octant := by
  have aux : ∀ L : Nat, L ≤ 18 → (∀ j, j < n → (v j).level ≤ (L : Int)) →
      n = 1 ∧ v 0 = root_octant := by
    intro L
    induction L with
    | zero =>
      intro _ hall
      have hlev : ∀ j, j < n → v j = root_octant := by
        intro j hj
        apply root_octant_of_level_zero (v j) (hc.2.1 j hj)
        have h1 := hall j hj
        have h2 := (hc.2.1 j hj).1.1
        push_cast at h1; omega
      refine ⟨?_, hlev 0 hc.1⟩
      by_contra hne
      have hch := hc.2.2.2.1 0 (by have := hc.1; omega)
      rw [hlev 0 hc.1, hlev (0 + 1) (by have := hc.1; omega)] at hch
      have := p4est_quadrant_cells_pos root_octant
      omega
    | succ L ih =>
      intro hL hall
      by_cases hex : ∃ j, j < n ∧ (v j).level = ((L + 1 : Nat) : Int)
      · obtain ⟨hi, hil⟩ := Nat.find_spec hex
        have hmin : ∀ j, j < Nat.find hex → (v j).level ≠ ((L + 1 : Nat) : Int) := by
          intro j hj hlj
          exact Nat.find_min hex hj ⟨by omega, hlj⟩
        obtain ⟨h7, hfam⟩ := p4est_tree_family_at_finest v n hc L hL hall (Nat.find hex)
          hi hil hmin
        exact absurd hfam (hno _ h7)
      · apply ih (by omega)
        intro j hj
        have h1 := hall j hj
        have h2 : (v j).level ≠ ((L + 1 : Nat) : Int) := fun h => hex ⟨j, hj, h⟩
        push_cast at h1 h2 ⊢; omega
  apply aux 18 (le_refl _)
  intro j hj
  have := (hc.2.1 j hj).1.2
  have hq : (P4EST_QMAXLEVEL : Int) = 18 := by decide
  push_cast; omega

theorem p4est_child_coord (x Q Q1 b : Int) (hQ : Q = 2 * Q1) (hpos : 0 < Q1)
    (hx : x % Q = 0) :
    (x + b * Q1) / Q1 = 2 * (x / Q) + b ∧ (x + b * Q1) % Q1 = 0 := by
  have e1 : x = Q * (x / Q) := by
    have := Int.emod_add_ediv x Q
    omega
  have e2 : x + b * Q1 = Q1 * (2 * (x / Q) + b) := by
    nth_rewrite 1 [e1]; rw [hQ]; ring
  rw [e2]
  exact ⟨Int.mul_ediv_cancel_left _ (ne_of_gt hpos), Int.mul_emod_right _ _⟩

theorem p4est_quadrant_child_valid (p : p4est_quadrant) (hv : p4est_quadrant_is_valid p)
    (hl : p.level ≤ 17) (k : Nat) (hk : k < 8) :
    p4est_quadrant_is_valid (p4est_quadrant_child p k) ∧
    (p4est_quadrant_child p k).level = p.level + 1 ∧
    p4est_quadrant_morton (p4est_quadrant_child p k) =
      p4est_quadrant_morton p + k * p4est_quadrant_cells (p4est_quadrant_child p k) := by
  obtain ⟨⟨hl0, hl1⟩, ⟨hx1, hx2⟩, ⟨hy1, hy2⟩, ⟨hz1, hz2⟩, hx3, hy3, hz3⟩ := hv
  have hm : (P4EST_MAXLEVEL : Int) = 19 := by decide
  have hq : (P4EST_QMAXLEVEL : Int) = 18 := by decide
  have hsucc := P4EST_QUADRANT_LEN_succ p.level hl0 (by omega)
  have hpos := P4EST_QUADRANT_LEN_pos (p.level + 1)
  unfold P4EST_LAST_OFFSET at hx2 hy2 hz2
  obtain ⟨cx1, cx2⟩ := p4est_child_coord p.x _ _ ((k : Int) % 2) hsucc hpos hx3
  obtain ⟨cy1, cy2⟩ := p4est_child_coord p.y _ _ ((k : Int) / 2 % 2) hsucc hpos hy3
  obtain ⟨cz1, cz2⟩ := p4est_child_coord p.z _ _ ((k : Int) / 4 % 2) hsucc hpos hz3
  have hbx : (k : Int) % 2 = 0 ∨ (k : Int) % 2 = 1 := by omega
  have hby : (k : Int) / 2 % 2 = 0 ∨ (k : Int) / 2 % 2 = 1 := by omega
  have hbz : (k : Int) / 4 % 2 = 0 ∨ (k : Int) / 4 % 2 = 1 := by omega
  have hval : p4est_quadrant_is_valid (p4est_quadrant_child p k) := by
    unfold p4est_quadrant_is_valid p4est_quadrant_child P4EST_LAST_OFFSET
    simp only
    refine ⟨⟨by omega, by omega⟩, ⟨?_, ?_⟩, ⟨?_, ?_⟩, ⟨?_, ?_⟩, cx2, cy2, cz2⟩
    · rcases hbx with h | h <;> rw [h] <;> omega
    · rcases hbx with h | h <;> rw [h] <;> omega
    · rcases hby with h | h <;> rw [h] <;> omega
    · rcases hby with h | h <;> rw [h] <;> omega
    · rcases hbz with h | h <;> rw [h] <;> omega
    · rcases hbz with h | h <;> rw [h] <;> omega
  refine ⟨hval, rfl, ?_⟩
  have hme := p4est_quadrant_morton_eq _ hval
  have hmp := p4est_quadrant_morton_eq p
    ⟨⟨hl0, hl1⟩, ⟨hx1, hx2⟩, ⟨hy1, hy2⟩, ⟨hz1, hz2⟩, hx3, hy3, hz3⟩
  have hstep := p4est_quadrant_position_step (p4est_quadrant_child p k)
    (by show 0 < p.level + 1; omega)
  have hcid : p4est_quadrant_child_id (p4est_quadrant_child p k) = k := by
    unfold p4est_quadrant_child_id p4est_quadrant_child
    simp only
    rw [cx1, cy1, cz1]; omega
  have hlev : (p.level + 1).toNat - 1 = p.level.toNat := by omega
  have hpp : p4est_quadrant_position (p4est_quadrant_child p k) =
      k + 8 * p4est_quadrant_position p := by
    rw [hstep, hcid]
    unfold p4est_quadrant_position p4est_quadrant_child
    simp only
    rw [cx1, cy1, cz1, hlev]
    have e : ∀ a b : Int, (b = 0 ∨ b = 1) → (2 * a + b) / 2 = a := by
      intro a b hb; omega
    rw [e _ _ hbx, e _ _ hby, e _ _ hbz]
  have hcells : p4est_quadrant_cells p = 8 * p4est_quadrant_cells (p4est_quadrant_child p k) := by
    unfold p4est_quadrant_cells p4est_quadrant_child
    simp only
    have e : P4EST_MAXLEVEL - p.level.toNat = (P4EST_MAXLEVEL - (p.level + 1).toNat) + 1 := by
      have : P4EST_MAXLEVEL = 19 := rfl
      omega
    rw [e, pow_succ]; ring
  rw [hme, hpp, hmp, hcells]; ring

theorem uniform_octant_spec : ∀ L : Nat, L ≤ 18 → ∀ i : Nat, i < 8 ^ L →
    p4est_quadrant_is_valid (uniform_octant L i) ∧
    (uniform_octant L i).level = (L : Int) ∧
    p4est_quadrant_morton (uniform_octant L i) = (i : Int) * 8 ^ (19 - L) := by
  intro L
  induction L with
  | zero =>
    intro _ i hi
    have hi0 : i = 0 := by simpa using hi
    subst hi0
    exact ⟨by decide, rfl, by decide⟩
  | succ L ih =>
    intro hL i hi
    obtain ⟨hv, hl, hm⟩ := ih (by omega) (i / 8) (by rw [pow_succ] at hi; omega)
    obtain ⟨cv, cl, cm⟩ := p4est_quadrant_child_valid (uniform_octant L (i / 8)) hv
      (by rw [hl]; omega) (i % 8) (Nat.mod_lt _ (by norm_num))
    have hlev : (uniform_octant (L + 1) i).level = ((L + 1 : Nat) : Int) := by
      show (p4est_quadrant_child (uniform_octant L (i / 8)) ((i % 8 : Nat) : Int)).level = _
      rw [cl, hl]; push_cast; ring
    refine ⟨cv, hlev, ?_⟩
    have hc := p4est_quadrant_cells_level (uniform_octant (L + 1) i) (L + 1) hlev
    show p4est_quadrant_morton
      (p4est_quadrant_child (uniform_octant L (i / 8)) ((i % 8 : Nat) : Int)) = _
    rw [cm, hm]
    have hc1 : p4est_quadrant_cells
        (p4est_quadrant_child (uniform_octant L (i / 8)) ((i % 8 : Nat) : Int)) =
        8 ^ (19 - (L + 1)) := hc
    rw [hc1]
    have e : 19 - L = (19 - (L + 1)) + 1 := by omega
    rw [e, pow_succ]
    have hdm : (i : Int) = 8 * ((i / 8 : Nat) : Int) + ((i % 8 : Nat) : Int) := by
      have := Nat.div_add_mod i 8
      omega
    rw [hdm]
    ring

theorem uniform_tree_complete (L : Nat) (hL : L ≤ 18) :
    p4est_tree_is_complete (uniform_octant L) (8 ^ L) := by
  have hpos : 0 < 8 ^ L := by positivity
  refine ⟨hpos, fun i hi => (uniform_octant_spec L hL i hi).1, ?_, ?_, ?_⟩
  · rw [(uniform_octant_spec L hL 0 hpos).2.2]; simp
  · intro i hi
    obtain ⟨_, hl, hm⟩ := uniform_octant_spec L hL i (by omega)
    rw [(uniform_octant_spec L hL (i + 1) (by omega)).2.2, hm,
      p4est_quadrant_cells_level _ L hl]
    push_cast; ring
  · obtain ⟨_, hl, hm⟩ := uniform_octant_spec L hL (8 ^ L - 1) (by omega)
    rw [hm, p4est_quadrant_cells_level _ L hl]
    have e : P4EST_MAXLEVEL = L + (19 - L) := by show 19 = _; omega
    have hcast : ((8 ^ L - 1 : Nat) : Int) = 8 ^ L - 1 := by
      rw [Nat.cast_sub (by omega)]; push_cast; ring
    rw [hcast, e, pow_add]
    have e2 : L + (19 - L) - L = 19 - L := by omega
    ring_nf

theorem except_map_ok {ε α β : Type} (x : Except ε α) (g : α → β) (b : β)
    (h : x.map g = .ok b) : ∃ a, x = .ok a ∧ g a = b := by
  cases x with
  | error e => simp [Except.map] at h
  | ok a =>
    simp only [Except.map] at h
    cases h
    exact ⟨a, rfl, rfl⟩

theorem coarsen_family_local (r : Bool) (s s1 : coarsen_state)
    (h : coarsen_family r s = .ok s1) :
    s1.local_num_quadrants = s.local_num_quadrants - 7 := by
  cases r
  · simp only [coarsen_family, coarsen_move, Bool.false_eq_true, ↓reduceIte] at h
    split at h
    · split at h
      · simp only [Except.map] at h
        cases h; rfl
      · simp [Except.map] at h
    · cases h; rfl
  · simp only [coarsen_family, ↓reduceIte] at h
    cases h; rfl

theorem coarsen_advance_local (s s1 : coarsen_state) (h : coarsen_advance s = .ok s1) :
    s1.local_num_quadrants = s.local_num_quadrants := by
  simp only [coarsen_advance, coarsen_move] at h
  split at h
  · split at h
    · split at h
      · simp only [Except.map] at h
        cases h; rfl
      · simp [Except.map] at h
    · simp only [Except.map] at h
      cases h; rfl
  · cases h; rfl

theorem coarsen_step_local (r : Bool) (fn : Nat → List p4est_quadrant → Bool)
    (s s1 : coarsen_state) (h : coarsen_inv r s) (hc : coarsen_continues s)
    (hs : coarsen_step r fn s = .ok s1) :
    s1.local_num_quadrants - coarsen_view_count s1 =
      s.local_num_quadrants - coarsen_view_count s := by
  obtain ⟨s2, heq, _, _, hyes, hno⟩ := coarsen_step_spec r fn s h hc
  rw [hs] at heq
  cases heq
  obtain ⟨cyes, cno⟩ := coarsen_step_cases r fn s h hc
  have hc1 := (coarsen_continues_iff r s h).1 hc
  have htest := coarsen_test_iff r s h
  have hch := coarsen_children_eq r s h
  by_cases hgood : coarsen_is_family_at (coarsen_view s) s.first ∧
      fn s.invoked.length (coarsen_window (coarsen_view s) s.first) = true
  · have hstep := cyes ⟨(htest.2 hgood.1).1, (htest.2 hgood.1).2, by rw [hch]; exact hgood.2⟩
    rw [hs] at hstep
    obtain ⟨s2, hb, hg⟩ := except_map_ok _ _ _ hstep.symm
    have hl := coarsen_family_local r _ s2 hb
    obtain ⟨_, hcnt, _, _⟩ := hyes hgood
    have hl1 : s1.local_num_quadrants = s2.local_num_quadrants := by rw [← hg]
    rw [hcnt, hl1, hl]
    show s.local_num_quadrants - 7 - _ = _
    have : 7 ≤ coarsen_view_count s := by omega
    push_cast [Nat.cast_sub this]; ring
  · obtain ⟨l, hstep⟩ := cno (fun hx => hgood ⟨htest.1 ⟨hx.1, hx.2.1⟩, by rw [← hch]; exact hx.2.2⟩)
    rw [hs] at hstep
    obtain ⟨s2, hb, hg⟩ := except_map_ok _ _ _ hstep.symm
    have hl := coarsen_advance_local _ s2 hb
    obtain ⟨_, hcnt, _⟩ := hno hgood
    have hl1 : s1.local_num_quadrants = s2.local_num_quadrants := by rw [← hg]
    rw [hcnt, hl1, hl]

theorem coarsen_tree_local (r : Bool) (fn : Nat → List p4est_quadrant → Bool) (fuel : Nat)
    (quadrants : Nat → p4est_quadrant) (n : Nat) (per : Int → Int) (loc : Int)
    (hn0 : 0 < n) (hn : n + 8 < 2 ^ 64) (hfuel : 8 * n ≤ fuel) :
    ∃ s, coarsen_tree r fn fuel quadrants n per loc = .ok s ∧
      s.local_num_quadrants - s.elem_count = loc - n := by
  obtain ⟨hinv0, hcnt0, _, hf0, hin0⟩ := coarsen_init_inv r quadrants n per loc hn0 hn
  obtain ⟨s1, hloop, hinv1, hI1, _, hn1⟩ := coarsen_loop_spec r fn
    (fun s => s.local_num_quadrants - coarsen_view_count s = loc - n)
    (fun s s1 h hi hc hs => by
      show s1.local_num_quadrants - (coarsen_view_count s1 : Int) = loc - n
      rw [coarsen_step_local r fn s s1 h hc hs]; exact hi)
    fuel _ hinv0 (by
      show (coarsen_init quadrants n per loc).local_num_quadrants -
        (coarsen_view_count (coarsen_init quadrants n per loc) : Int) = loc - n
      rw [hcnt0]; rfl) (by rw [hcnt0, hf0]; omega)
  obtain ⟨s3, hfin, hcnt3, _, _, _, _, hloc3⟩ := coarsen_finish_spec r fuel s1 hinv1
    (by rw [hn1, hin0]; omega)
  refine ⟨s3, ?_, by rw [hcnt3, hloc3]; exact hI1⟩
  simp only [coarsen_tree, hloop]
  exact hfin

theorem coarsen_tree_root (fuel : Nat) (quadrants : Nat → p4est_quadrant) (n : Nat)
    (per : Int → Int) (loc : Int) (hc : p4est_tree_is_complete quadrants n)
    (hn : n + 8 < 2 ^ 64) (hfuel : 8 * n ≤ fuel) :
    ∃ s, coarsen_tree true (fun _ _ => true) fuel quadrants n per loc = .ok s ∧
      s.elem_count = 1 ∧ s.quadrants 0 = root_octant ∧
      s.local_num_quadrants = loc - n + 1 := by
  obtain ⟨s, hs, hcomp, _, hno⟩ :=
    coarsen_tree_no_family (fun _ => true) fuel quadrants n per loc hc hn hfuel
  obtain ⟨s2, hs2, hloc⟩ :=
    coarsen_tree_local true (fun _ _ => true) fuel quadrants n per loc hc.1 hn hfuel
  rw [hs] at hs2
  cases hs2
  obtain ⟨h1, h0⟩ := p4est_tree_complete_root s.quadrants s.elem_count hcomp
    (fun i hi hfam => hno i hi ⟨hfam, rfl⟩)
  refine ⟨s, hs, h1, h0, ?_⟩
  rw [h1] at hloc
  push_cast at hloc
  omega

theorem uniform_tree_size (L : Nat) (hL : L ≤ 18) : 8 ^ L + 8 < 2 ^ 64 := by
  have h : 8 ^ L ≤ 8 ^ 18 := Nat.pow_le_pow_right (by norm_num) hL
  have h2 : 8 ^ 18 + 8 < 2 ^ 64 := by norm_num
  omega

theorem coarsen_trees_uniform (fuel : Nat) :
    ∀ (Ls : List Nat) (jt : Nat) (loc : Int), (∀ L ∈ Ls, L ≤ 18 ∧ 8 * 8 ^ L ≤ fuel) →
      ∃ ts, coarsen_trees true (fun _ _ _ => true) fuel jt (Ls.map uniform_tree) loc =
          .ok (ts, loc - (Ls.map (fun L => (8 : Int) ^ L - 1)).sum) ∧
        ts.length = Ls.length ∧
        ∀ t ∈ ts, t.elem_count = 1 ∧ t.quadrants 0 = root_octant := by
  intro Ls
  induction Ls with
  | nil =>
    intro jt loc _
    exact ⟨[], by simp [coarsen_trees], rfl, by simp⟩
  | cons L Ls ih =>
    intro jt loc hall
    obtain ⟨hL, hfuel⟩ := hall L (List.mem_cons_self _ _)
    obtain ⟨s, hs, h1, h0, hloc⟩ := coarsen_tree_root fuel (uniform_octant L) (8 ^ L)
      (uniform_tree L).quadrants_per_level loc (uniform_tree_complete L hL)
      (uniform_tree_size L hL) hfuel
    obtain ⟨ts, hts, hlen, hroot⟩ := ih (jt + 1) s.local_num_quadrants
      (fun M hM => hall M (List.mem_cons_of_mem _ hM))
    refine ⟨{ quadrants := s.quadrants, elem_count := s.elem_count
              quadrants_per_level := s.quadrants_per_level
              maxlevel := s.maxlevel } :: ts, ?_, by simp [hlen], ?_⟩
    · have hs1 : coarsen_tree true (fun _ _ => true) fuel (uniform_tree L).quadrants
          (uniform_tree L).elem_count (uniform_tree L).quadrants_per_level loc = .ok s := hs
      simp only [List.map_cons, coarsen_trees, hs1, hts, List.sum_cons]
      rw [hloc]
      push_cast
      congr 2
      ring
    · intro t ht
      rcases List.mem_cons.1 ht with h | h
      · subst h; exact ⟨h1, h0⟩
      · exact hroot t h

theorem uniform_sum_length (Ls : List Nat) :
    (Ls.map (fun L => (8 : Int) ^ L)).sum - (Ls.map (fun L => (8 : Int) ^ L - 1)).sum =
      Ls.length := by
  induction Ls with
  | nil => simp
  | cons L Ls ih =>
    simp only [List.map_cons, List.sum_cons, List.length_cons]
    push_cast
    linarith

theorem morton_interleave_succ_z (m : Nat) (a b c : Int) :
    morton_interleave m a b (c + 1) ≠ morton_interleave m a b c + 1 := by
  cases m with
  | zero => simp [morton_interleave]
  | succ m =>
    simp only [morton_interleave]
    omega

theorem p4est_tree_family_aligned (v : Nat → p4est_quadrant) (n i : Nat)
    (hc : p4est_tree_is_complete v n) (hi : i + 7 < n)
    (hfam : p4est_quadrant_is_familypv (fun zz => v (i + zz))) :
    p4est_quadrant_child_id (v i) = 0 := by
  have hwin := p4est_tree_window_morton v n i hc hi hfam
  have hpat := (p4est_quadrant_is_family_iff _).1 ((p4est_quadrant_is_familypv_iff _).1 hfam)
  obtain ⟨hl0, hall⟩ := hpat
  have hval := hc.2.1
  have hvi := hval i (by omega)
  have hlpos : 0 < (v i).level := by
    have h1 := hvi.1.1
    have h2 : (v i).level ≠ 0 := hl0
    omega
  have hCpos := p4est_quadrant_cells_pos (v i)
  have hQpos := P4EST_QUADRANT_LEN_pos (v i).level
  have hpos : ∀ j : Nat, j < 8 → p4est_quadrant_position (v (i + j)) =
      p4est_quadrant_position (v i) + j := by
    intro j hj
    have hlj : (v (i + j)).level = (v i).level := (hall j hj).1
    have hcj : p4est_quadrant_cells (v (i + j)) = p4est_quadrant_cells (v i) := by
      unfold p4est_quadrant_cells; rw [hlj]
    have h1 := hwin j (by omega)
    rw [p4est_quadrant_morton_eq _ (hval (i + j) (by omega)),
      p4est_quadrant_morton_eq _ hvi, hcj] at h1
    apply mul_left_cancel₀ (ne_of_gt hCpos)
    rw [h1]; ring
  have hs0 := p4est_quadrant_position_step (v i) hlpos
  have key : ∀ j : Nat, j < 8 →
      p4est_quadrant_position (v i) + j =
      ((v i).x / P4EST_QUADRANT_LEN (v i).level + ((j % 2 : Nat) : Int)) % 2 +
      2 * (((v i).y / P4EST_QUADRANT_LEN (v i).level + ((j / 2 % 2 : Nat) : Int)) % 2) +
      4 * (((v i).z / P4EST_QUADRANT_LEN (v i).level + ((j / 4 % 2 : Nat) : Int)) % 2) +
      8 * morton_interleave ((v i).level.toNat - 1)
        (((v i).x / P4EST_QUADRANT_LEN (v i).level + ((j % 2 : Nat) : Int)) / 2)
        (((v i).y / P4EST_QUADRANT_LEN (v i).level + ((j / 2 % 2 : Nat) : Int)) / 2)
        (((v i).z / P4EST_QUADRANT_LEN (v i).level + ((j / 4 % 2 : Nat) : Int)) / 2) := by
    intro j hj
    obtain ⟨hlj, hx, hy, hz⟩ := hall j hj
    have hsj := p4est_quadrant_position_step (v (i + j)) (by
      show 0 < (v (i + j)).level
      rw [show (v (i + j)).level = (v i).level from hlj]; exact hlpos)
    rw [hpos j hj] at hsj
    unfold p4est_quadrant_child_id at hsj
    have hlj1 : (v (i + j)).level = (v i).level := hlj
    have hx1 : (v (i + j)).x = (v i).x + ((j % 2 : Nat) : Int) *
        P4EST_QUADRANT_LEN (v i).level := hx
    have hy1 : (v (i + j)).y = (v i).y + ((j / 2 % 2 : Nat) : Int) *
        P4EST_QUADRANT_LEN (v i).level := hy
    have hz1 : (v (i + j)).z = (v i).z + ((j / 4 % 2 : Nat) : Int) *
        P4EST_QUADRANT_LEN (v i).level := hz
    rw [hlj1, hx1, hy1, hz1, Int.add_mul_ediv_right _ _ (ne_of_gt hQpos),
      Int.add_mul_ediv_right _ _ (ne_of_gt hQpos),
      Int.add_mul_ediv_right _ _ (ne_of_gt hQpos)] at hsj
    exact hsj
  have k1 := key 1 (by omega)
  have k2 := key 2 (by omega)
  have k4 := key 4 (by omega)
  norm_num at k1 k2 k4
  unfold p4est_quadrant_child_id at hs0 ⊢
  by_cases hz : (v i).z / P4EST_QUADRANT_LEN (v i).level % 2 = 1
  · exfalso
    have e : ((v i).z / P4EST_QUADRANT_LEN (v i).level + 1) / 2 =
        (v i).z / P4EST_QUADRANT_LEN (v i).level / 2 + 1 := by omega
    rw [e] at k4
    have := morton_interleave_succ_z ((v i).level.toNat - 1)
      ((v i).x / P4EST_QUADRANT_LEN (v i).level / 2)
      ((v i).y / P4EST_QUADRANT_LEN (v i).level / 2)
      ((v i).z / P4EST_QUADRANT_LEN (v i).level / 2)
    omega
  · omega

/-- Witness of C15: the eight children of the root, swept without recursion
by a `coarsen_fn` that accepts every family. -/
theorem coarsen_tree_sorted_complete_witness :
    p4est_tree_is_sorted (uniform_octant 1) 8 ∧ p4est_tree_is_complete (uniform_octant 1) 8 ∧
    ∃ s, coarsen_tree false (fun _ _ => true) 64 (uniform_octant 1) 8 (fun _ => 0) 8 = .ok s ∧
      p4est_tree_is_sorted s.quadrants s.elem_count ∧
      p4est_tree_is_complete s.quadrants s.elem_count :=
  ⟨by decide, by decide,
   coarsen_tree_sorted_complete false (fun _ _ => true) 64 (uniform_octant 1) 8 (fun _ => 0) 8
     (by decide) (by decide) (by norm_num) (by norm_num)⟩

/-- C14: for every list of levels `L` with `0 <= L <= QMAXLEVEL`, one per
tree, and a loop bound of at least `8 * 8 ^ L`: the recursive sweep with a
`coarsen_fn` that always returns true over the tree that holds the uniform
refinement of the level `L` (`8 ^ L` octants in Morton order) returns and
leaves the array with exactly one octant, the root of the level 0; and
`p4est_coarsen_old` over the forest of these trees returns a forest where
every tree holds the root octant only and the global number of octants is
the number of trees. -/
theorem p4est_coarsen_old_uniform (fuel : Nat) (Ls : List Nat)
    (hLs : ∀ L ∈ Ls, L ≤ P4EST_QMAXLEVEL ∧ 8 * 8 ^ L ≤ fuel) :
    (∀ L ∈ Ls, ∀ (per : Int → Int) (loc : Int),
      ∃ s, coarsen_tree true (fun _ _ => true) fuel (uniform_octant L) (8 ^ L) per loc = .ok s ∧
        s.elem_count = 1 ∧ s.quadrants 0 = root_octant) ∧
    ∃ p, p4est_coarsen_old true (fun _ _ _ => true) fuel
        { trees := Ls.map uniform_tree
          local_num_quadrants := (Ls.map (fun L => (8 : Int) ^ L)).sum
          global_num_quadrants := (Ls.map (fun L => (8 : Int) ^ L)).sum } = .ok p ∧
      p.trees.length = Ls.length ∧
      (∀ t ∈ p.trees, t.elem_count = 1 ∧ t.quadrants 0 = root_octant) ∧
      p.global_num_quadrants = Ls.length := by
  have hq : P4EST_QMAXLEVEL = 18 := rfl
  rw [hq] at hLs
  constructor
  · intro L hL per loc
    obtain ⟨s, hs, h1, h0, _⟩ := coarsen_tree_root fuel (uniform_octant L) (8 ^ L) per loc
      (uniform_tree_complete L (hLs L hL).1) (uniform_tree_size L (hLs L hL).1) (hLs L hL).2
    exact ⟨s, hs, h1, h0⟩
  · obtain ⟨ts, hts, hlen, hroot⟩ := coarsen_trees_uniform fuel Ls 0
      (Ls.map (fun L => (8 : Int) ^ L)).sum hLs
    refine ⟨{ trees := ts
              local_num_quadrants := (Ls.map (fun L => (8 : Int) ^ L)).sum -
                (Ls.map (fun L => (8 : Int) ^ L - 1)).sum
              global_num_quadrants := (Ls.map (fun L => (8 : Int) ^ L)).sum -
                (Ls.map (fun L => (8 : Int) ^ L - 1)).sum }, ?_, hlen, hroot,
      uniform_sum_length Ls⟩
    simp only [p4est_coarsen_old, hts]

/-- Witness of C14: a forest of two trees, refined to the levels 1 and 0. -/
theorem p4est_coarsen_old_uniform_witness :
    (∀ L ∈ [1, 0], L ≤ P4EST_QMAXLEVEL ∧ 8 * 8 ^ L ≤ 64) ∧
    ∃ p, p4est_coarsen_old true (fun _ _ _ => true) 64
        { trees := [1, 0].map uniform_tree
          local_num_quadrants := ([1, 0].map (fun L => (8 : Int) ^ L)).sum
          global_num_quadrants := ([1, 0].map (fun L => (8 : Int) ^ L)).sum } = .ok p ∧
      p.trees.length = [1, 0].length ∧
      (∀ t ∈ p.trees, t.elem_count = 1 ∧ t.quadrants 0 = root_octant) ∧
      p.global_num_quadrants = ([1, 0] : List Nat).length :=
  ⟨by decide, (p4est_coarsen_old_uniform 64 [1, 0] (by decide)).2⟩

/-- C16: for every strictly sorted and complete array of `n` octants (with
`n + 8 < 2 ^ 64`), every `coarsen_fn` that is a function `f` of the eight
children only and a loop bound of at least `8 * n`: the recursive sweep
returns; in the array it leaves no eight consecutive octants pass
`p4est_quadrant_is_familypv` and are accepted by `f`; and the recursive sweep
over that array with the same `coarsen_fn` returns and leaves the number of
octants and every octant of the array as they are. -/
theorem coarsen_tree_idempotent (f : List p4est_quadrant → Bool) (fuel : Nat)
    (quadrants : Nat → p4est_quadrant) (n : Nat) (per : Int → Int) (loc : Int)
    (_hs : p4est_tree_is_sorted quadrants n) (hc : p4est_tree_is_complete quadrants n)
    (hn : n + 8 < 2 ^ 64) (hfuel : 8 * n ≤ fuel) :
    ∃ s1, coarsen_tree true (fun _ c => f c) fuel quadrants n per loc = .ok s1 ∧
      (∀ i, i + 7 < s1.elem_count →
        ¬ (p4est_quadrant_is_familypv (fun zz => s1.quadrants (i + zz)) ∧
          f (coarsen_window s1.quadrants i) = true)) ∧
      ∃ s2, coarsen_tree true (fun _ c => f c) fuel s1.quadrants s1.elem_count
          s1.quadrants_per_level s1.local_num_quadrants = .ok s2 ∧
        s2.elem_count = s1.elem_count ∧
        ∀ i, i < s1.elem_count → s2.quadrants i = s1.quadrants i := by
  obtain ⟨s1, hs1, hcomp, hle, hno⟩ :=
    coarsen_tree_no_family f fuel quadrants n per loc hc hn hfuel
  refine ⟨s1, hs1, ?_, ?_⟩
  · rintro i hi ⟨hfam, hacc⟩
    exact hno i hi ⟨⟨p4est_tree_family_aligned _ _ i hcomp hi hfam, hfam⟩, hacc⟩
  · exact coarsen_tree_unchanged true f fuel s1.quadrants s1.elem_count
      s1.quadrants_per_level s1.local_num_quadrants hcomp.1 (by omega) (by omega) hno

/-- Witness of C16: the eight children of the root and a `coarsen_fn` that
accepts every family. -/
theorem coarsen_tree_idempotent_witness :
    p4est_tree_is_sorted (uniform_octant 1) 8 ∧ p4est_tree_is_complete (uniform_octant 1) 8 ∧
    ∃ s1, coarsen_tree true (fun _ c => (fun _ => true) c) 64 (uniform_octant 1) 8
        (fun _ => 0) 8 = .ok s1 ∧
      (∀ i, i + 7 < s1.elem_count →
        ¬ (p4est_quadrant_is_familypv (fun zz => s1.quadrants (i + zz)) ∧
          (fun _ => true) (coarsen_window s1.quadrants i) = true)) ∧
      ∃ s2, coarsen_tree true (fun _ c => (fun _ => true) c) 64 s1.quadrants s1.elem_count
          s1.quadrants_per_level s1.local_num_quadrants = .ok s2 ∧
        s2.elem_count = s1.elem_count ∧
        ∀ i, i < s1.elem_count → s2.quadrants i = s1.quadrants i :=
  ⟨by decide, by decide,
   coarsen_tree_idempotent (fun _ => true) 64 (uniform_octant 1) 8 (fun _ => 0) 8
     (by decide) (by decide) (by norm_num) (by norm_num)⟩

/-! ### Edges of octants -/

theorem c_bool_cases (p : Prop) [Decidable p] : c_bool p = 0 ∨ c_bool p = 1 := by
  unfold c_bool; split <;> simp

theorem c_bool_eq_one (p : Prop) [Decidable p] : c_bool p = 1 ↔ p := by
  unfold c_bool; split <;> simp [*]

theorem c_bool_eq_zero (p : Prop) [Decidable p] : c_bool p = 0 ↔ ¬ p := by
  unfold c_bool; split <;> simp [*]

theorem c_bool_add_two (p r : Prop) [Decidable p] [Decidable r] :
    c_bool p + c_bool r = 2 ↔ p ∧ r := by
  unfold c_bool
  by_cases hp : p <;> by_cases hr : r <;> simp [hp, hr]

theorem edge_tdiv_tmod (e : Int) (he0 : 0 ≤ e) :
    Int.tdiv e 4 = e / 4 ∧ Int.tmod e 2 = e % 2 ∧ Int.tdiv e 2 = e / 2 ∧
    Int.tmod (e / 2) 2 = e / 2 % 2 :=
  ⟨Int.tdiv_eq_ediv he0 (by norm_num), Int.tmod_eq_emod he0 (by norm_num),
    Int.tdiv_eq_ediv he0 (by norm_num), Int.tmod_eq_emod (by omega) (by norm_num)⟩

theorem touches_edge_incount_eq (q : p4est_quadrant) (e inside : Int) (he0 : 0 ≤ e)
    (he : e < 12) :
    touches_edge_incount q e inside =
      c_bool (p4est_quadrant_coord q (if e / 4 = 0 then 1 else 0) =
        (if e % 2 = 1 then touches_edge_upper q inside else touches_edge_lower q inside)) +
      c_bool (p4est_quadrant_coord q (if e / 4 = 2 then 1 else 2) =
        (if e / 2 % 2 = 1 then touches_edge_upper q inside
         else touches_edge_lower q inside)) := by
  obtain ⟨h1, h2, h3, h4⟩ := edge_tdiv_tmod e he0
  unfold touches_edge_incount
  simp only [h1, h2, h3, h4]
  interval_cases e <;> norm_num [touches_edge_contact, p4est_quadrant_coord]

/-- C23: `p8est_quadrant_touches_edge (q, e, inside)` for an edge `e` in
`[0, 12)`: with `axis = e / 4`, `a = e % 2` and `b = (e / 2) % 2` it returns
true if and only if the perpendicular coordinate of the lower number equals
`upper` if `a` is set and else `lower`, and the perpendicular coordinate of
the higher number equals `upper` if `b` is set and else `lower`; here
`(lower, upper)` is `(0, ROOT_LEN - inside)` at the level `MAXLEVEL`, and at
another level `(-QLEN (level), ROOT_LEN)` if `inside` is 0 and
`(0, LAST_OFFSET (level))` otherwise; an octant of the same level with the
same two perpendicular coordinates gives the same result, whatever its
coordinate along the axis. -/
theorem p8est_quadrant_touches_edge_correct (q : p4est_quadrant) (e inside : Int)
    (he0 : 0 ≤ e) (he : e < 12) :
    (p8est_quadrant_touches_edge q e inside ↔
      p4est_quadrant_coord q (if e / 4 = 0 then 1 else 0) =
        (if e % 2 = 1 then touches_edge_upper q inside else touches_edge_lower q inside) ∧
      p4est_quadrant_coord q (if e / 4 = 2 then 1 else 2) =
        (if e / 2 % 2 = 1 then touches_edge_upper q inside
         else touches_edge_lower q inside)) ∧
    (q.level = P4EST_MAXLEVEL →
      touches_edge_lower q inside = 0 ∧
      touches_edge_upper q inside = P4EST_ROOT_LEN - inside) ∧
    (q.level ≠ P4EST_MAXLEVEL → inside = 0 →
      touches_edge_lower q inside = -P4EST_QUADRANT_LEN q.level ∧
      touches_edge_upper q inside = P4EST_ROOT_LEN) ∧
    (q.level ≠ P4EST_MAXLEVEL → inside ≠ 0 →
      touches_edge_lower q inside = 0 ∧
      touches_edge_upper q inside = P4EST_LAST_OFFSET q.level) ∧
    (∀ q2 : p4est_quadrant, q2.level = q.level →
      p4est_quadrant_coord q2 (if e / 4 = 0 then 1 else 0) =
        p4est_quadrant_coord q (if e / 4 = 0 then 1 else 0) →
      p4est_quadrant_coord q2 (if e / 4 = 2 then 1 else 2) =
        p4est_quadrant_coord q (if e / 4 = 2 then 1 else 2) →
      (p8est_quadrant_touches_edge q2 e inside ↔ p8est_quadrant_touches_edge q e inside)) := by
  have hiff : ∀ q1 : p4est_quadrant, p8est_quadrant_touches_edge q1 e inside ↔
      p4est_quadrant_coord q1 (if e / 4 = 0 then 1 else 0) =
        (if e % 2 = 1 then touches_edge_upper q1 inside else touches_edge_lower q1 inside) ∧
      p4est_quadrant_coord q1 (if e / 4 = 2 then 1 else 2) =
        (if e / 2 % 2 = 1 then touches_edge_upper q1 inside
         else touches_edge_lower q1 inside) := by
    intro q1
    unfold p8est_quadrant_touches_edge
    rw [touches_edge_incount_eq q1 e inside he0 he]
    exact c_bool_add_two _ _
  refine ⟨hiff q, ?_, ?_, ?_, ?_⟩
  · intro hl
    unfold touches_edge_lower touches_edge_upper
    rw [if_pos hl, if_pos hl]
    exact ⟨rfl, rfl⟩
  · intro hl hi
    unfold touches_edge_lower touches_edge_upper c_not
    rw [if_neg hl, if_neg hl, if_pos hi]
    simp
  · intro hl hi
    unfold touches_edge_lower touches_edge_upper c_not
    rw [if_neg hl, if_neg hl, if_neg hi]
    simp
  · intro q2 hl2 h1 h2
    have hlo : touches_edge_lower q2 inside = touches_edge_lower q inside := by
      unfold touches_edge_lower; rw [hl2]
    have hup : touches_edge_upper q2 inside = touches_edge_upper q inside := by
      unfold touches_edge_upper; rw [hl2]
    rw [hiff q2, hiff q, h1, h2, hlo, hup]

/-- Witness of C23: boundary scenario 1 of the spec, the octant at
`(0, -QLEN, -QLEN)` of the level `QMAXLEVEL` touches the edge 0 from the
outside. -/
theorem p8est_quadrant_touches_edge_correct_witness :
    p8est_quadrant_touches_edge
      { x := 0, y := -P4EST_QUADRANT_LEN 18, z := -P4EST_QUADRANT_LEN 18, level := 18 } 0 0 ∧
    ¬ p8est_quadrant_touches_edge
      { x := 0, y := -P4EST_QUADRANT_LEN 18, z := -P4EST_QUADRANT_LEN 18, level := 18 } 1 0 :=
  ⟨((p8est_quadrant_touches_edge_correct
      { x := 0, y := -P4EST_QUADRANT_LEN 18, z := -P4EST_QUADRANT_LEN 18, level := 18 }
      0 0 (by decide) (by decide)).1).2 (by decide),
   fun h => absurd (((p8est_quadrant_touches_edge_correct
      { x := 0, y := -P4EST_QUADRANT_LEN 18, z := -P4EST_QUADRANT_LEN 18, level := 18 }
      1 0 (by decide) (by decide)).1).1 h) (by decide)⟩

theorem p8est_quadrant_touches_edge_iff (q : p4est_quadrant) (e inside : Int)
    (he0 : 0 ≤ e) (he : e < 12) :
    p8est_quadrant_touches_edge q e inside ↔
      p4est_quadrant_coord q (if e / 4 = 0 then 1 else 0) =
        (if e % 2 = 1 then touches_edge_upper q inside else touches_edge_lower q inside) ∧
      p4est_quadrant_coord q (if e / 4 = 2 then 1 else 2) =
        (if e / 2 % 2 = 1 then touches_edge_upper q inside
         else touches_edge_lower q inside) := by
  unfold p8est_quadrant_touches_edge
  rw [touches_edge_incount_eq q e inside he0 he]
  exact c_bool_add_two _ _

theorem c_bool_or (p r : Prop) [Decidable p] [Decidable r] :
    c_bool (c_bool p ≠ 0 ∨ c_bool r ≠ 0) = c_bool (p ∨ r) := by
  unfold c_bool
  by_cases hp : p <;> by_cases hr : r <;> simp [hp, hr]

theorem p4est_extended_coord (c Q R : Int) (hQ : 0 < Q) (h1 : -Q ≤ c) (h2 : c ≤ R)
    (h3 : c % Q = 0) : (c < 0 → c = -Q) ∧ (c ≥ R → c = R) := by
  refine ⟨?_, fun h => by omega⟩
  intro hneg
  obtain ⟨k, hk⟩ := Int.dvd_of_emod_eq_zero h3
  have hk1 : k < 0 := by
    by_contra h
    push_neg at h
    have := mul_nonneg (le_of_lt hQ) h
    omega
  have hk2 : -1 ≤ k := by
    by_contra h
    push_neg at h
    have h2 : k + 2 ≤ 0 := by omega
    have := mul_nonpos_of_nonneg_of_nonpos (le_of_lt hQ) h2
    nlinarith
  have : k = -1 := by omega
  rw [hk, this]; ring

theorem p8est_quadrant_is_outside_edge_extra_eq (q : p4est_quadrant) (e0 : Int) :
    p8est_quadrant_is_outside_edge_extra q (some e0) =
      (if c_bool (q.x < 0 ∨ q.x ≥ P4EST_ROOT_LEN) + c_bool (q.y < 0 ∨ q.y ≥ P4EST_ROOT_LEN) +
          c_bool (q.z < 0 ∨ q.z ≥ P4EST_ROOT_LEN) ≠ 2 then some ((0 : Int), some e0)
      else if c_bool (q.x < 0 ∨ q.x ≥ P4EST_ROOT_LEN) = 0 then
        some (1, some (0 + 2 * c_bool (q.z ≥ P4EST_ROOT_LEN) +
          c_bool (q.y ≥ P4EST_ROOT_LEN)))
      else if c_bool (q.y < 0 ∨ q.y ≥ P4EST_ROOT_LEN) = 0 then
        some (1, some (4 + 2 * c_bool (q.z ≥ P4EST_ROOT_LEN) +
          c_bool (q.x ≥ P4EST_ROOT_LEN)))
      else if c_bool (q.z < 0 ∨ q.z ≥ P4EST_ROOT_LEN) = 0 then
        some (1, some (8 + 2 * c_bool (q.y ≥ P4EST_ROOT_LEN) +
          c_bool (q.x ≥ P4EST_ROOT_LEN)))
      else none) ∧
    p8est_quadrant_is_outside_edge_extra q none =
      (if c_bool (q.x < 0 ∨ q.x ≥ P4EST_ROOT_LEN) + c_bool (q.y < 0 ∨ q.y ≥ P4EST_ROOT_LEN) +
          c_bool (q.z < 0 ∨ q.z ≥ P4EST_ROOT_LEN) ≠ 2 then some ((0 : Int), none)
      else some (1, none)) := by
  unfold p8est_quadrant_is_outside_edge_extra
  simp only [c_bool_or]
  exact ⟨trivial, trivial⟩

theorem p4est_extended_coords (q : p4est_quadrant) (hext : p4est_quadrant_is_extended q)
    (axis : Int) :
    (p4est_quadrant_coord q axis < 0 →
      p4est_quadrant_coord q axis = -P4EST_QUADRANT_LEN q.level) ∧
    (p4est_quadrant_coord q axis ≥ P4EST_ROOT_LEN →
      p4est_quadrant_coord q axis = P4EST_ROOT_LEN) := by
  obtain ⟨_, ⟨hx1, hx2⟩, ⟨hy1, hy2⟩, ⟨hz1, hz2⟩, hx3, hy3, hz3⟩ := hext
  have hQ := P4EST_QUADRANT_LEN_pos q.level
  unfold p4est_quadrant_coord
  split
  · exact p4est_extended_coord _ _ _ hQ hx1 hx2 hx3
  · split
    · exact p4est_extended_coord _ _ _ hQ hy1 hy2 hy3
    · exact p4est_extended_coord _ _ _ hQ hz1 hz2 hz3

theorem touches_edge_outside_bounds (q : p4est_quadrant)
    (hext : p4est_quadrant_is_extended q) :
    q.level ≠ P4EST_MAXLEVEL ∧
    touches_edge_lower q 0 = -P4EST_QUADRANT_LEN q.level ∧
    touches_edge_upper q 0 = P4EST_ROOT_LEN := by
  have hl : q.level ≠ P4EST_MAXLEVEL := by
    have h1 := hext.1.2
    have hq : (P4EST_QMAXLEVEL : Int) = 18 := by decide
    have hm : (P4EST_MAXLEVEL : Int) = 19 := by decide
    omega
  refine ⟨hl, ?_, ?_⟩
  · unfold touches_edge_lower c_not
    rw [if_neg hl]; simp
  · unfold touches_edge_upper c_not
    rw [if_neg hl]; simp

theorem touches_edge_of_outside (q : p4est_quadrant) (hext : p4est_quadrant_is_extended q)
    (ax e : Int) (hax : ax = 0 ∨ ax = 1 ∨ ax = 2)
    (hin : ¬ p4est_coord_is_outside (p4est_quadrant_coord q ax))
    (hlo : p4est_coord_is_outside (p4est_quadrant_coord q (if ax = 0 then 1 else 0)))
    (hhi : p4est_coord_is_outside (p4est_quadrant_coord q (if ax = 2 then 1 else 2)))
    (he : e = 4 * ax +
      2 * c_bool (p4est_quadrant_coord q (if ax = 2 then 1 else 2) ≥ P4EST_ROOT_LEN) +
      c_bool (p4est_quadrant_coord q (if ax = 0 then 1 else 0) ≥ P4EST_ROOT_LEN)) :
    0 ≤ e ∧ e < 12 ∧ p8est_quadrant_touches_edge q e 0 ∧
      p8est_quadrant_touches_edge_asserts q e 0 := by
  obtain ⟨hl, hlower, hupper⟩ := touches_edge_outside_bounds q hext
  have hca := c_bool_cases
    (p4est_quadrant_coord q (if ax = 0 then 1 else 0) ≥ P4EST_ROOT_LEN)
  have hcb := c_bool_cases
    (p4est_quadrant_coord q (if ax = 2 then 1 else 2) ≥ P4EST_ROOT_LEN)
  have ha1 := c_bool_eq_one
    (p4est_quadrant_coord q (if ax = 0 then 1 else 0) ≥ P4EST_ROOT_LEN)
  have hb1 := c_bool_eq_one
    (p4est_quadrant_coord q (if ax = 2 then 1 else 2) ≥ P4EST_ROOT_LEN)
  have ha0 := c_bool_eq_zero
    (p4est_quadrant_coord q (if ax = 0 then 1 else 0) ≥ P4EST_ROOT_LEN)
  have hb0 := c_bool_eq_zero
    (p4est_quadrant_coord q (if ax = 2 then 1 else 2) ≥ P4EST_ROOT_LEN)
  have he0 : 0 ≤ e := by omega
  have he12 : e < 12 := by omega
  have hdiv : e / 4 = ax := by omega
  have hmod : e % 2 = c_bool
      (p4est_quadrant_coord q (if ax = 0 then 1 else 0) ≥ P4EST_ROOT_LEN) := by omega
  have hmod2 : e / 2 % 2 = c_bool
      (p4est_quadrant_coord q (if ax = 2 then 1 else 2) ≥ P4EST_ROOT_LEN) := by omega
  obtain ⟨plo1, plo2⟩ := p4est_extended_coords q hext (if ax = 0 then 1 else 0)
  obtain ⟨phi1, phi2⟩ := p4est_extended_coords q hext (if ax = 2 then 1 else 2)
  unfold p4est_coord_is_outside at hin hlo hhi
  refine ⟨he0, he12, ?_, ⟨he0, he12⟩, ?_, ?_, ?_, ?_⟩
  · rw [p8est_quadrant_touches_edge_iff q e 0 he0 he12, hdiv, hmod, hmod2, hlower, hupper]
    have e0 : ∀ u w : Int, (if (0 : Int) = 1 then u else w) = w := by
      intro u w; norm_num
    have e1 : ∀ u w : Int, (if (1 : Int) = 1 then u else w) = u := by
      intro u w; norm_num
    constructor
    · rcases hca with h | h
      · rw [h, e0]
        exact plo1 (by have := ha0.1 h; omega)
      · rw [h, e1]
        exact plo2 (ha1.1 h)
    · rcases hcb with h | h
      · rw [h, e0]
        exact phi1 (by have := hb0.1 h; omega)
      · rw [h, e1]
        exact phi2 (hb1.1 h)
  · rw [if_neg hl]
    unfold c_not
    simp only [↓reduceIte]
    rw [if_pos (by norm_num)]
    exact hext
  all_goals
    rw [(edge_tdiv_tmod e he0).1, hdiv]
    have hc0 : c_bool (q.level = (P4EST_MAXLEVEL : Int) ∧ c_not 0 ≠ 0) = 0 :=
      (c_bool_eq_zero _).2 (fun h => hl h.1)
    rw [hc0]
    unfold p4est_quadrant_coord at hin
    rcases hax with h | h | h <;> subst h <;> (simp at hin ⊢; try omega)

/-- C21: for every extended octant `q` (its level is at most `QMAXLEVEL`),
`p8est_quadrant_is_outside_edge_extra (q, &edge)` returns 1 if exactly two of
the three coordinates lie outside `[0, ROOT_LEN)`, which is when
`p8est_quadrant_is_outside_edge (q)` holds, and else returns 0 and leaves
`*edge` as it is; with a null pointer it returns the same value; and when it
returns 1 the edge it reports is in `[0, 12)`, `p8est_quadrant_touches_edge
(q, edge, 0)` holds and the assertions in that call hold. -/
theorem p8est_quadrant_is_outside_edge_extra_correct (q : p4est_quadrant) (e0 : Int)
    (hext : p4est_quadrant_is_extended q) :
    ∃ ret edge, p8est_quadrant_is_outside_edge_extra q (some e0) = some (ret, some edge) ∧
      p8est_quadrant_is_outside_edge_extra q none = some (ret, none) ∧
      (ret = 0 ∨ ret = 1) ∧
      (ret ≠ 0 ↔ p4est_quadrant_outside_count q = 2) ∧
      (ret ≠ 0 ↔ p8est_quadrant_is_outside_edge q) ∧
      (ret = 0 → edge = e0) ∧
      (ret ≠ 0 → 0 ≤ edge ∧ edge < 12 ∧ p8est_quadrant_touches_edge q edge 0 ∧
        p8est_quadrant_touches_edge_asserts q edge 0) := by
  obtain ⟨hsome, hnone⟩ := p8est_quadrant_is_outside_edge_extra_eq q e0
  rw [hsome, hnone, p4est_quadrant_outside_count_two]
  have hcx : p4est_quadrant_coord q 0 = q.x := rfl
  have hcy : p4est_quadrant_coord q 1 = q.y := rfl
  have hcz : p4est_quadrant_coord q 2 = q.z := rfl
  have hcount : p4est_quadrant_outside_count q =
      (if q.x < 0 ∨ q.x ≥ P4EST_ROOT_LEN then 1 else 0) +
      (if q.y < 0 ∨ q.y ≥ P4EST_ROOT_LEN then 1 else 0) +
      (if q.z < 0 ∨ q.z ≥ P4EST_ROOT_LEN then 1 else 0) := rfl
  by_cases hx : q.x < 0 ∨ q.x ≥ P4EST_ROOT_LEN <;>
    by_cases hy : q.y < 0 ∨ q.y ≥ P4EST_ROOT_LEN <;>
    by_cases hz : q.z < 0 ∨ q.z ≥ P4EST_ROOT_LEN
  all_goals
    have kx := c_bool_eq_one (q.x < 0 ∨ q.x ≥ P4EST_ROOT_LEN)
    have ky := c_bool_eq_one (q.y < 0 ∨ q.y ≥ P4EST_ROOT_LEN)
    have kz := c_bool_eq_one (q.z < 0 ∨ q.z ≥ P4EST_ROOT_LEN)
    have jx := c_bool_eq_zero (q.x < 0 ∨ q.x ≥ P4EST_ROOT_LEN)
    have jy := c_bool_eq_zero (q.y < 0 ∨ q.y ≥ P4EST_ROOT_LEN)
    have jz := c_bool_eq_zero (q.z < 0 ∨ q.z ≥ P4EST_ROOT_LEN)
    rw [hcount]
  · -- all three outside
    rw [kx.2 hx, ky.2 hy, kz.2 hz, if_pos hx, if_pos hy, if_pos hz]
    exact ⟨0, e0, by norm_num, by norm_num, Or.inl rfl, by norm_num, by norm_num,
      fun _ => rfl, fun h => absurd rfl h⟩
  · -- z inside
    rw [kx.2 hx, ky.2 hy, jz.2 hz, if_pos hx, if_pos hy, if_neg hz]
    obtain ⟨h0, h12, ht, ha⟩ := touches_edge_of_outside q hext 2 _ (by norm_num)
      (by rw [hcz]; exact hz) (by norm_num; rw [hcx]; exact hx)
      (by norm_num; rw [hcy]; exact hy) rfl
    norm_num [hcx, hcy] at h0 h12 ht ha
    exact ⟨1, _, by norm_num, by norm_num, Or.inr rfl, by norm_num, by norm_num,
      fun h => by norm_num at h, fun _ => ⟨h0, h12, ht, ha⟩⟩
  · -- y inside
    rw [kx.2 hx, jy.2 hy, kz.2 hz, if_pos hx, if_neg hy, if_pos hz]
    obtain ⟨h0, h12, ht, ha⟩ := touches_edge_of_outside q hext 1 _ (by norm_num)
      (by rw [hcy]; exact hy) (by norm_num; rw [hcx]; exact hx)
      (by norm_num; rw [hcz]; exact hz) rfl
    norm_num [hcx, hcz] at h0 h12 ht ha
    exact ⟨1, _, by norm_num, by norm_num, Or.inr rfl, by norm_num, by norm_num,
      fun h => by norm_num at h, fun _ => ⟨h0, h12, ht, ha⟩⟩
  · rw [kx.2 hx, jy.2 hy, jz.2 hz, if_pos hx, if_neg hy, if_neg hz]
    exact ⟨0, e0, by norm_num, by norm_num, Or.inl rfl, by norm_num, by norm_num,
      fun _ => rfl, fun h => absurd rfl h⟩
  · -- x inside
    rw [jx.2 hx, ky.2 hy, kz.2 hz, if_neg hx, if_pos hy, if_pos hz]
    obtain ⟨h0, h12, ht, ha⟩ := touches_edge_of_outside q hext 0 _ (by norm_num)
      (by rw [hcx]; exact hx) (by norm_num; rw [hcy]; exact hy)
      (by norm_num; rw [hcz]; exact hz) rfl
    norm_num [hcy, hcz] at h0 h12 ht ha
    exact ⟨1, _, by norm_num, by norm_num, Or.inr rfl, by norm_num, by norm_num,
      fun h => by norm_num at h, fun _ => ⟨h0, h12, ht, ha⟩⟩
  · rw [jx.2 hx, ky.2 hy, jz.2 hz, if_neg hx, if_pos hy, if_neg hz]
    exact ⟨0, e0, by norm_num, by norm_num, Or.inl rfl, by norm_num, by norm_num,
      fun _ => rfl, fun h => absurd rfl h⟩
  · rw [jx.2 hx, jy.2 hy, kz.2 hz, if_neg hx, if_neg hy, if_pos hz]
    exact ⟨0, e0, by norm_num, by norm_num, Or.inl rfl, by norm_num, by norm_num,
      fun _ => rfl, fun h => absurd rfl h⟩
  · rw [jx.2 hx, jy.2 hy, jz.2 hz, if_neg hx, if_neg hy, if_neg hz]
    exact ⟨0, e0, by norm_num, by norm_num, Or.inl rfl, by norm_num, by norm_num,
      fun _ => rfl, fun h => absurd rfl h⟩

/-- Witness of C21: boundary scenario 1 of the spec, the octant at
`(0, -QLEN, -QLEN)` of the level `QMAXLEVEL`; the edge 0 is reported. -/
theorem p8est_quadrant_is_outside_edge_extra_correct_witness :
    p4est_quadrant_is_extended
      { x := 0, y := -P4EST_QUADRANT_LEN 18, z := -P4EST_QUADRANT_LEN 18, level := 18 } ∧
    p8est_quadrant_is_outside_edge_extra
      { x := 0, y := -P4EST_QUADRANT_LEN 18, z := -P4EST_QUADRANT_LEN 18, level := 18 }
      (some 7) = some (1, some 0) ∧
    ∃ ret edge, p8est_quadrant_is_outside_edge_extra
        { x := 0, y := -P4EST_QUADRANT_LEN 18, z := -P4EST_QUADRANT_LEN 18, level := 18 }
        (some 7) = some (ret, some edge) ∧
      p8est_quadrant_is_outside_edge_extra
        { x := 0, y := -P4EST_QUADRANT_LEN 18, z := -P4EST_QUADRANT_LEN 18, level := 18 }
        none = some (ret, none) ∧
      (ret = 0 ∨ ret = 1) ∧
      (ret ≠ 0 ↔ p4est_quadrant_outside_count
        { x := 0, y := -P4EST_QUADRANT_LEN 18, z := -P4EST_QUADRANT_LEN 18, level := 18 } = 2) ∧
      (ret ≠ 0 ↔ p8est_quadrant_is_outside_edge
        { x := 0, y := -P4EST_QUADRANT_LEN 18, z := -P4EST_QUADRANT_LEN 18, level := 18 }) ∧
      (ret = 0 → edge = 7) ∧
      (ret ≠ 0 → 0 ≤ edge ∧ edge < 12 ∧ p8est_quadrant_touches_edge
          { x := 0, y := -P4EST_QUADRANT_LEN 18, z := -P4EST_QUADRANT_LEN 18, level := 18 }
          edge 0 ∧
        p8est_quadrant_touches_edge_asserts
          { x := 0, y := -P4EST_QUADRANT_LEN 18, z := -P4EST_QUADRANT_LEN 18, level := 18 }
          edge 0) :=
  ⟨by decide, by decide,
   p8est_quadrant_is_outside_edge_extra_correct
     { x := 0, y := -P4EST_QUADRANT_LEN 18, z := -P4EST_QUADRANT_LEN 18, level := 18 } 7
     (by decide)⟩

theorem p8est_is_outside_edge_extra_axis (q : p4est_quadrant) (e0 ax : Int)
    (hax : ax = 0 ∨ ax = 1 ∨ ax = 2)
    (hin : ¬ p4est_coord_is_outside (p4est_quadrant_coord q ax))
    (hlo : p4est_coord_is_outside (p4est_quadrant_coord q (if ax = 0 then 1 else 0)))
    (hhi : p4est_coord_is_outside (p4est_quadrant_coord q (if ax = 2 then 1 else 2))) :
    p8est_quadrant_is_outside_edge_extra q (some e0) = some (1, some (4 * ax +
      2 * c_bool (p4est_quadrant_coord q (if ax = 2 then 1 else 2) ≥ P4EST_ROOT_LEN) +
      c_bool (p4est_quadrant_coord q (if ax = 0 then 1 else 0) ≥ P4EST_ROOT_LEN))) := by
  rw [(p8est_quadrant_is_outside_edge_extra_eq q e0).1]
  have kx := c_bool_eq_one (q.x < 0 ∨ q.x ≥ P4EST_ROOT_LEN)
  have ky := c_bool_eq_one (q.y < 0 ∨ q.y ≥ P4EST_ROOT_LEN)
  have kz := c_bool_eq_one (q.z < 0 ∨ q.z ≥ P4EST_ROOT_LEN)
  have jx := c_bool_eq_zero (q.x < 0 ∨ q.x ≥ P4EST_ROOT_LEN)
  have jy := c_bool_eq_zero (q.y < 0 ∨ q.y ≥ P4EST_ROOT_LEN)
  have jz := c_bool_eq_zero (q.z < 0 ∨ q.z ≥ P4EST_ROOT_LEN)
  unfold p4est_coord_is_outside at hin hlo hhi
  rcases hax with h | h | h <;> subst h <;>
    norm_num [p4est_quadrant_coord] at hin hlo hhi ⊢
  · rw [jx.2 (by push_neg; exact hin), ky.2 hlo, kz.2 hhi]
    norm_num
  · rw [kx.2 hlo, jy.2 (by push_neg; exact hin), kz.2 hhi]
    norm_num
  · rw [kx.2 hlo, ky.2 hhi, jz.2 (by push_neg; exact hin)]
    norm_num

theorem p4est_outside_count_two_axes (q : p4est_quadrant) (ax : Int)
    (hax : ax = 0 ∨ ax = 1 ∨ ax = 2)
    (hin : ¬ p4est_coord_is_outside (p4est_quadrant_coord q ax))
    (hc : p4est_quadrant_outside_count q = 2) :
    p4est_coord_is_outside (p4est_quadrant_coord q (if ax = 0 then 1 else 0)) ∧
    p4est_coord_is_outside (p4est_quadrant_coord q (if ax = 2 then 1 else 2)) := by
  unfold p4est_quadrant_outside_count at hc
  rcases hax with h | h | h <;> subst h <;> norm_num [p4est_quadrant_coord] at hin ⊢
  · rw [if_neg hin] at hc
    constructor <;> by_contra hcon
    · rw [if_neg hcon] at hc; split at hc <;> omega
    · rw [if_neg hcon] at hc; split at hc <;> omega
  · rw [if_neg hin] at hc
    constructor <;> by_contra hcon
    · rw [if_neg hcon] at hc; split at hc <;> omega
    · rw [if_neg hcon] at hc; split at hc <;> omega
  · rw [if_neg hin] at hc
    constructor <;> by_contra hcon
    · rw [if_neg hcon] at hc; split at hc <;> omega
    · rw [if_neg hcon] at hc; split at hc <;> omega

theorem p4est_shift_flag (c Q R a : Int) (hQ : 0 < Q) (hc0 : 0 ≤ c) (hc1 : c ≤ R - Q)
    (ha : a = 0 ∨ a = 1) (hout : c + (2 * a - 1) * Q < 0 ∨ c + (2 * a - 1) * Q ≥ R) :
    c_bool (c + (2 * a - 1) * Q ≥ R) = a := by
  rcases ha with h | h <;> subst h
  · rw [c_bool_eq_zero]
    norm_num at hout ⊢
    omega
  · rw [c_bool_eq_one]
    norm_num at hout ⊢
    omega

/-- C22: for every valid octant `q` and every edge `e` in `[0, 12)` such
that `r = edge_neighbor (q, e)` is outside an edge
(`p8est_quadrant_is_outside_edge (r)`), the call
`p8est_quadrant_is_outside_edge_extra (r, &edge)` returns 1 and stores `e` at
`*edge`. -/
theorem p8est_quadrant_edge_neighbor_edge (q r : p4est_quadrant) (e e0 : Int)
    (hv : p4est_quadrant_is_valid q) (he0 : 0 ≤ e) (he : e < 12)
    (hr : p8est_quadrant_edge_neighbor q e = some r)
    (hout : p8est_quadrant_is_outside_edge r) :
    p8est_quadrant_is_outside_edge_extra r (some e0) = some (1, some e) := by
  rw [p8est_quadrant_edge_neighbor_eq q e he0 he] at hr
  obtain ⟨_, ⟨hx1, hx2⟩, ⟨hy1, hy2⟩, ⟨hz1, hz2⟩, _⟩ := hv
  unfold P4EST_LAST_OFFSET at hx2 hy2 hz2
  have hQ := P4EST_QUADRANT_LEN_pos q.level
  have hcount := (p4est_quadrant_outside_count_two r).1 hout
  have ha : e % 2 = 0 ∨ e % 2 = 1 := by omega
  have hb : e / 2 % 2 = 0 ∨ e / 2 % 2 = 1 := by omega
  have hax : e / 4 = 0 ∨ e / 4 = 1 ∨ e / 4 = 2 := by omega
  rcases hax with h | h | h
  · rw [h] at hr
    norm_num at hr
    subst hr
    have hin : ¬ p4est_coord_is_outside (p4est_quadrant_coord
        { x := q.x, y := q.y + (2 * (e % 2) - 1) * P4EST_QUADRANT_LEN q.level,
          z := q.z + (2 * (e / 2 % 2) - 1) * P4EST_QUADRANT_LEN q.level,
          level := q.level } 0) := by
      unfold p4est_coord_is_outside
      norm_num [p4est_quadrant_coord]
      omega
    obtain ⟨hlo, hhi⟩ := p4est_outside_count_two_axes _ 0 (by norm_num) hin hcount
    rw [p8est_is_outside_edge_extra_axis _ e0 0 (by norm_num) hin hlo hhi]
    unfold p4est_coord_is_outside at hlo hhi
    norm_num [p4est_quadrant_coord] at hlo hhi ⊢
    rw [p4est_shift_flag q.y _ _ (e % 2) hQ hy1 hy2 ha hlo,
      p4est_shift_flag q.z _ _ (e / 2 % 2) hQ hz1 hz2 hb hhi]
    omega
  · rw [h] at hr
    norm_num at hr
    subst hr
    have hin : ¬ p4est_coord_is_outside (p4est_quadrant_coord
        { x := q.x + (2 * (e % 2) - 1) * P4EST_QUADRANT_LEN q.level, y := q.y,
          z := q.z + (2 * (e / 2 % 2) - 1) * P4EST_QUADRANT_LEN q.level,
          level := q.level } 1) := by
      unfold p4est_coord_is_outside
      norm_num [p4est_quadrant_coord]
      omega
    obtain ⟨hlo, hhi⟩ := p4est_outside_count_two_axes _ 1 (by norm_num) hin hcount
    rw [p8est_is_outside_edge_extra_axis _ e0 1 (by norm_num) hin hlo hhi]
    unfold p4est_coord_is_outside at hlo hhi
    norm_num [p4est_quadrant_coord] at hlo hhi ⊢
    rw [p4est_shift_flag q.x _ _ (e % 2) hQ hx1 hx2 ha hlo,
      p4est_shift_flag q.z _ _ (e / 2 % 2) hQ hz1 hz2 hb hhi]
    omega
  · rw [h] at hr
    norm_num at hr
    subst hr
    have hin : ¬ p4est_coord_is_outside (p4est_quadrant_coord
        { x := q.x + (2 * (e % 2) - 1) * P4EST_QUADRANT_LEN q.level,
          y := q.y + (2 * (e / 2 % 2) - 1) * P4EST_QUADRANT_LEN q.level, z := q.z,
          level := q.level } 2) := by
      unfold p4est_coord_is_outside
      norm_num [p4est_quadrant_coord]
      omega
    obtain ⟨hlo, hhi⟩ := p4est_outside_count_two_axes _ 2 (by norm_num) hin hcount
    rw [p8est_is_outside_edge_extra_axis _ e0 2 (by norm_num) hin hlo hhi]
    unfold p4est_coord_is_outside at hlo hhi
    norm_num [p4est_quadrant_coord] at hlo hhi ⊢
    rw [p4est_shift_flag q.x _ _ (e % 2) hQ hx1 hx2 ha hlo,
      p4est_shift_flag q.y _ _ (e / 2 % 2) hQ hy1 hy2 hb hhi]
    omega

/-- Witness of C22: the octant of the level 1 at the corner `(0, 0, 0)` of
the root and the three edges 0, 4 and 8 of the root at that corner. -/
theorem p8est_quadrant_edge_neighbor_edge_witness :
    p4est_quadrant_is_valid { x := 0, y := 0, z := 0, level := 1 } ∧
    p8est_quadrant_is_outside_edge_extra
      { x := 0, y := -P4EST_QUADRANT_LEN 1, z := -P4EST_QUADRANT_LEN 1, level := 1 }
      (some 11) = some (1, some 0) ∧
    p8est_quadrant_is_outside_edge_extra
      { x := -P4EST_QUADRANT_LEN 1, y := 0, z := -P4EST_QUADRANT_LEN 1, level := 1 }
      (some 11) = some (1, some 4) ∧
    p8est_quadrant_is_outside_edge_extra
      { x := -P4EST_QUADRANT_LEN 1, y := -P4EST_QUADRANT_LEN 1, z := 0, level := 1 }
      (some 11) = some (1, some 8) :=
  ⟨by decide,
   p8est_quadrant_edge_neighbor_edge { x := 0, y := 0, z := 0, level := 1 } _ 0 11
     (by decide) (by decide) (by decide) (by decide) (by decide),
   p8est_quadrant_edge_neighbor_edge { x := 0, y := 0, z := 0, level := 1 } _ 4 11
     (by decide) (by decide) (by decide) (by decide) (by decide),
   p8est_quadrant_edge_neighbor_edge { x := 0, y := 0, z := 0, level := 1 } _ 8 11
     (by decide) (by decide) (by decide) (by decide) (by decide)⟩

theorem transform_edge_corners (c a b l r : Int) (ha : a = 0 ∨ a = 1) (hb : b = 0 ∨ b = 1)
    (hc : c = a + 2 * b) :
    (if c = 0 then some (l, l) else if c = 1 then some (r, l)
     else if c = 2 then some (l, r) else if c = 3 then some (r, r) else none) =
      some (if a = 1 then r else l, if b = 1 then r else l) := by
  rcases ha with h | h <;> rcases hb with h2 | h2 <;> subst h <;> subst h2 <;> subst hc <;>
    norm_num

theorem transform_edge_my_xyz (q : p4est_quadrant) (ax : Int)
    (hax : ax = 0 ∨ ax = 1 ∨ ax = 2) :
    (if ax = 0 then some q.x else if ax = 1 then some q.y
     else if ax = 2 then some q.z else none) = some (p4est_quadrant_coord q ax) := by
  rcases hax with h | h | h <;> subst h <;> norm_num [p4est_quadrant_coord]

theorem p8est_quadrant_transform_edge_eq (q r0 : p4est_quadrant) (iedge inside : Int)
    (et : p8est_edge_transform_t) (hl : q.level ≠ P4EST_MAXLEVEL)
    (hi : 0 ≤ iedge ∧ iedge < 12) (hn : 0 ≤ et.nedge ∧ et.nedge < 12)
    (hflip : et.nflip = 0 ∨ et.nflip = 1) (h0 : et.naxis0 = et.nedge / 4)
    (h1 : et.naxis1 = if et.nedge / 4 = 0 then 1 else 0)
    (h2 : et.naxis2 = if et.nedge / 4 = 2 then 1 else 2)
    (hc : et.corners = et.nedge % 4) :
    ∃ r, p8est_quadrant_transform_edge q r0 iedge et inside = some r ∧
      r.level = q.level ∧
      p4est_quadrant_coord r (et.nedge / 4) =
        (if et.nflip = 0 then p4est_quadrant_coord q (iedge / 4)
         else P4EST_ROOT_LEN - P4EST_QUADRANT_LEN q.level -
           p4est_quadrant_coord q (iedge / 4)) ∧
      p4est_quadrant_coord r (if et.nedge / 4 = 0 then 1 else 0) =
        (if et.nedge % 2 = 1 then
          (if inside ≠ 0 then P4EST_ROOT_LEN - P4EST_QUADRANT_LEN q.level
           else P4EST_ROOT_LEN)
         else (if inside ≠ 0 then 0 else -P4EST_QUADRANT_LEN q.level)) ∧
      p4est_quadrant_coord r (if et.nedge / 4 = 2 then 1 else 2) =
        (if et.nedge / 2 % 2 = 1 then
          (if inside ≠ 0 then P4EST_ROOT_LEN - P4EST_QUADRANT_LEN q.level
           else P4EST_ROOT_LEN)
         else (if inside ≠ 0 then 0 else -P4EST_QUADRANT_LEN q.level)) := by
  have htd : Int.tdiv iedge 4 = iedge / 4 := Int.tdiv_eq_ediv hi.1 (by norm_num)
  have hiax : iedge / 4 = 0 ∨ iedge / 4 = 1 ∨ iedge / 4 = 2 := by omega
  have hnax : et.nedge / 4 = 0 ∨ et.nedge / 4 = 1 ∨ et.nedge / 4 = 2 := by omega
  have hcor := transform_edge_corners et.corners (et.nedge % 2) (et.nedge / 2 % 2)
    (if inside ≠ 0 then 0 else -P4EST_QUADRANT_LEN q.level)
    (if inside ≠ 0 then P4EST_ROOT_LEN + -P4EST_QUADRANT_LEN q.level else P4EST_ROOT_LEN)
    (by omega) (by omega) (by omega)
  have hflipc : (c_not et.nflip ≠ 0) = (et.nflip = 0) := by
    unfold c_not
    rcases hflip with h | h <;> rw [h] <;> norm_num
  simp only [p8est_quadrant_transform_edge, if_neg hl, htd, transform_edge_my_xyz q _ hiax,
    hcor, hflipc]
  rw [h0, h1, h2]
  rcases hnax with h | h | h <;> rw [h] <;>
    norm_num [target_xyz_store, p4est_quadrant_coord] <;> ring_nf <;> simp

theorem p4est_aligned_last (p Q R m : Int) (hQ : 0 < Q) (hR : R = m * Q)
    (hp : p % Q = 0) (hlt : p < R) : p ≤ R - Q := by
  obtain ⟨k, hk⟩ := Int.dvd_of_emod_eq_zero hp
  have hkm : k < m := by
    by_contra h
    push_neg at h
    have := mul_le_mul_of_nonneg_left h (le_of_lt hQ)
    rw [hk, hR] at hlt
    linarith [mul_comm m Q]
  have hk1 : k + 1 ≤ m := by omega
  have := mul_le_mul_of_nonneg_left hk1 (le_of_lt hQ)
  rw [hk, hR]
  linarith [mul_comm m Q]

theorem p4est_quadrant_of_coords (r : p4est_quadrant) (n4 : Int)
    (hn4 : n4 = 0 ∨ n4 = 1 ∨ n4 = 2) (P : Int → Prop)
    (h0 : P (p4est_quadrant_coord r n4))
    (h1 : P (p4est_quadrant_coord r (if n4 = 0 then 1 else 0)))
    (h2 : P (p4est_quadrant_coord r (if n4 = 2 then 1 else 2))) :
    P r.x ∧ P r.y ∧ P r.z := by
  rcases hn4 with h | h | h <;> subst h <;> norm_num [p4est_quadrant_coord] at h0 h1 h2
  · exact ⟨h0, h1, h2⟩
  · exact ⟨h1, h0, h2⟩
  · exact ⟨h1, h2, h0⟩

theorem p4est_quadrant_ext_coords (a b : p4est_quadrant) (n4 : Int)
    (hn4 : n4 = 0 ∨ n4 = 1 ∨ n4 = 2) (hl : a.level = b.level)
    (h0 : p4est_quadrant_coord a n4 = p4est_quadrant_coord b n4)
    (h1 : p4est_quadrant_coord a (if n4 = 0 then 1 else 0) =
      p4est_quadrant_coord b (if n4 = 0 then 1 else 0))
    (h2 : p4est_quadrant_coord a (if n4 = 2 then 1 else 2) =
      p4est_quadrant_coord b (if n4 = 2 then 1 else 2)) : a = b := by
  cases a; cases b
  rcases hn4 with h | h | h <;> subst h <;> norm_num [p4est_quadrant_coord] at h0 h1 h2 <;>
    simp_all

theorem touches_edge_asserts_parallel (q : p4est_quadrant) (e inside : Int)
    (hl : q.level ≠ P4EST_MAXLEVEL) (ha : p8est_quadrant_touches_edge_asserts q e inside) :
    (0 ≤ e ∧ e < 12) ∧ (0 ≤ q.level ∧ q.level ≤ P4EST_QMAXLEVEL) ∧
    0 ≤ p4est_quadrant_coord q (e / 4) ∧
    p4est_quadrant_coord q (e / 4) ≤ P4EST_ROOT_LEN - P4EST_QUADRANT_LEN q.level ∧
    p4est_quadrant_coord q (e / 4) % P4EST_QUADRANT_LEN q.level = 0 := by
  obtain ⟨he, hkind, hx, hy, hz⟩ := ha
  rw [if_neg hl] at hkind
  have hext : (0 ≤ q.level ∧ q.level ≤ P4EST_QMAXLEVEL) ∧
      q.x % P4EST_QUADRANT_LEN q.level = 0 ∧ q.y % P4EST_QUADRANT_LEN q.level = 0 ∧
      q.z % P4EST_QUADRANT_LEN q.level = 0 := by
    split at hkind
    · exact ⟨hkind.1, hkind.2.2.2.2⟩
    · exact ⟨hkind.1, hkind.2.2.2.2⟩
  obtain ⟨hlev, ax, ay, az⟩ := hext
  have hc0 : c_bool (q.level = (P4EST_MAXLEVEL : Int) ∧ c_not inside ≠ 0) = 0 :=
    (c_bool_eq_zero _).2 (fun h => hl h.1)
  rw [(edge_tdiv_tmod e he.1).1, hc0] at hx hy hz
  have hQ := P4EST_QUADRANT_LEN_pos q.level
  have hroot := P4EST_ROOT_LEN_eq q.level hlev.1 (by
    have hq : (P4EST_QMAXLEVEL : Int) = 18 := by decide
    have hm : (P4EST_MAXLEVEL : Int) = 19 := by decide
    omega)
  have hax : e / 4 = 0 ∨ e / 4 = 1 ∨ e / 4 = 2 := by omega
  refine ⟨he, hlev, ?_⟩
  rcases hax with h | h | h <;> rw [h] <;> norm_num [p4est_quadrant_coord]
  · have hr : 0 ≤ q.x ∧ q.x < P4EST_ROOT_LEN := by omega
    exact ⟨hr.1, p4est_aligned_last _ _ _ _ hQ hroot ax (by omega),
      Int.dvd_of_emod_eq_zero ax⟩
  · have hr : 0 ≤ q.y ∧ q.y < P4EST_ROOT_LEN := by omega
    exact ⟨hr.1, p4est_aligned_last _ _ _ _ hQ hroot ay (by omega),
      Int.dvd_of_emod_eq_zero ay⟩
  · have hr : 0 ≤ q.z ∧ q.z < P4EST_ROOT_LEN := by omega
    exact ⟨hr.1, p4est_aligned_last _ _ _ _ hQ hroot az (by omega),
      Int.dvd_of_emod_eq_zero az⟩

/-- C24: `p8est_quadrant_transform_edge` establishes its asserted
postcondition: for every octant `q` with a level below `MAXLEVEL` that
passes the assertion `p8est_quadrant_touches_edge (q, iedge, !inside)` (the
call returns true and the assertions in it hold) and every edge transform
`et` with `nedge` in `[0, 12)`, `nflip` in `{0, 1}`, `naxis[0] = nedge / 4`,
`naxis[1] < naxis[2]` the two other axes and `corners = nedge % 4`, the
function returns an octant `r` with `r.level = q.level` for which
`p8est_quadrant_touches_edge (r, et.nedge, inside)` returns true and the
assertions in that call hold, the range check of the coordinate along the
edge among them; with `inside` set `r` is a valid octant. -/
theorem p8est_quadrant_transform_edge_correct (q r0 : p4est_quadrant) (iedge inside : Int)
    (et : p8est_edge_transform_t) (hl : q.level < P4EST_MAXLEVEL)
    (_hq : p8est_quadrant_touches_edge q iedge (c_not inside))
    (hqa : p8est_quadrant_touches_edge_asserts q iedge (c_not inside))
    (hn : 0 ≤ et.nedge ∧ et.nedge < 12)
    (hflip : et.nflip = 0 ∨ et.nflip = 1) (h0 : et.naxis0 = et.nedge / 4)
    (h1 : et.naxis1 = if et.nedge / 4 = 0 then 1 else 0)
    (h2 : et.naxis2 = if et.nedge / 4 = 2 then 1 else 2)
    (hc : et.corners = et.nedge % 4) :
    ∃ r, p8est_quadrant_transform_edge q r0 iedge et inside = some r ∧
      r.level = q.level ∧ p8est_quadrant_touches_edge r et.nedge inside ∧
      p8est_quadrant_touches_edge_asserts r et.nedge inside ∧
      (inside ≠ 0 → p4est_quadrant_is_valid r) := by
  have hl1 : q.level ≠ P4EST_MAXLEVEL := by omega
  obtain ⟨hie, hlev, hp0, hp1, hp2⟩ :=
    touches_edge_asserts_parallel q iedge (c_not inside) hl1 hqa
  obtain ⟨r, hr, hrl, hc0, hc1, hc2⟩ :=
    p8est_quadrant_transform_edge_eq q r0 iedge inside et hl1 hie hn hflip h0 h1 h2 hc
  have hQ := P4EST_QUADRANT_LEN_pos q.level
  have hroot := P4EST_ROOT_LEN_eq q.level hlev.1 (by omega)
  have hmodR : P4EST_ROOT_LEN % P4EST_QUADRANT_LEN q.level = 0 := by
    rw [hroot]; exact Int.mul_emod_left _ _
  have hmodsub : ∀ a b : Int, a % P4EST_QUADRANT_LEN q.level = 0 →
      b % P4EST_QUADRANT_LEN q.level = 0 → (a - b) % P4EST_QUADRANT_LEN q.level = 0 :=
    fun a b ha hb => Int.emod_eq_zero_of_dvd
      (dvd_sub (Int.dvd_of_emod_eq_zero ha) (Int.dvd_of_emod_eq_zero hb))
  have hmodQ : P4EST_QUADRANT_LEN q.level % P4EST_QUADRANT_LEN q.level = 0 := Int.emod_self
  have hmod0 : (0 : Int) % P4EST_QUADRANT_LEN q.level = 0 := Int.zero_emod _
  have hmodneg : (-P4EST_QUADRANT_LEN q.level) % P4EST_QUADRANT_LEN q.level = 0 :=
    Int.emod_eq_zero_of_dvd (dvd_neg.2 dvd_rfl)
  have hQR : P4EST_QUADRANT_LEN q.level ≤ P4EST_ROOT_LEN := P4EST_QUADRANT_LEN_le q.level
  have hnax : et.nedge / 4 = 0 ∨ et.nedge / 4 = 1 ∨ et.nedge / 4 = 2 := by omega
  -- the coordinate along the edge
  have hv0 : 0 ≤ p4est_quadrant_coord r (et.nedge / 4) ∧
      p4est_quadrant_coord r (et.nedge / 4) ≤ P4EST_ROOT_LEN - P4EST_QUADRANT_LEN q.level ∧
      p4est_quadrant_coord r (et.nedge / 4) % P4EST_QUADRANT_LEN q.level = 0 := by
    rw [hc0]
    split
    · exact ⟨hp0, hp1, hp2⟩
    · exact ⟨by omega, by omega, hmodsub _ _ (hmodsub _ _ hmodR hmodQ) hp2⟩
  have hlower : touches_edge_lower r inside =
      (if inside ≠ 0 then 0 else -P4EST_QUADRANT_LEN q.level) := by
    unfold touches_edge_lower c_not
    rw [hrl, if_neg hl1]
    by_cases hi : inside = 0 <;> simp [hi]
  have hupper : touches_edge_upper r inside =
      (if inside ≠ 0 then P4EST_ROOT_LEN - P4EST_QUADRANT_LEN q.level
       else P4EST_ROOT_LEN) := by
    unfold touches_edge_upper c_not P4EST_LAST_OFFSET
    rw [hrl, if_neg hl1]
    by_cases hi : inside = 0 <;> simp [hi]
  have htouch : p8est_quadrant_touches_edge r et.nedge inside := by
    rw [p8est_quadrant_touches_edge_iff r et.nedge inside hn.1 hn.2, hc1, hc2, hlower, hupper]
    exact ⟨rfl, rfl⟩
  have hvalid : inside ≠ 0 → p4est_quadrant_is_valid r := by
    intro hi
    rw [if_pos hi, if_pos hi] at hc1 hc2
    obtain ⟨px, py, pz⟩ := p4est_quadrant_of_coords r _ hnax
      (fun c => 0 ≤ c ∧ c ≤ P4EST_ROOT_LEN - P4EST_QUADRANT_LEN q.level ∧
        c % P4EST_QUADRANT_LEN q.level = 0) hv0
      (by rw [hc1]; split
          · exact ⟨by omega, le_refl _, hmodsub _ _ hmodR hmodQ⟩
          · exact ⟨le_refl _, by omega, hmod0⟩)
      (by rw [hc2]; split
          · exact ⟨by omega, le_refl _, hmodsub _ _ hmodR hmodQ⟩
          · exact ⟨le_refl _, by omega, hmod0⟩)
    unfold p4est_quadrant_is_valid P4EST_LAST_OFFSET
    rw [hrl]
    exact ⟨hlev, ⟨px.1, px.2.1⟩, ⟨py.1, py.2.1⟩, ⟨pz.1, pz.2.1⟩, px.2.2, py.2.2, pz.2.2⟩
  have hextended : inside = 0 → p4est_quadrant_is_extended r := by
    intro hi
    have hni : ¬ inside ≠ 0 := by omega
    rw [if_neg hni, if_neg hni] at hc1 hc2
    obtain ⟨px, py, pz⟩ := p4est_quadrant_of_coords r _ hnax
      (fun c => -P4EST_QUADRANT_LEN q.level ≤ c ∧ c ≤ P4EST_ROOT_LEN ∧
        c % P4EST_QUADRANT_LEN q.level = 0)
      ⟨by omega, by omega, hv0.2.2⟩
      (by rw [hc1]; split
          · exact ⟨by omega, le_refl _, hmodR⟩
          · exact ⟨le_refl _, by omega, hmodneg⟩)
      (by rw [hc2]; split
          · exact ⟨by omega, le_refl _, hmodR⟩
          · exact ⟨le_refl _, by omega, hmodneg⟩)
    unfold p4est_quadrant_is_extended
    rw [hrl]
    exact ⟨hlev, ⟨px.1, px.2.1⟩, ⟨py.1, py.2.1⟩, ⟨pz.1, pz.2.1⟩, px.2.2, py.2.2, pz.2.2⟩
  refine ⟨r, hr, hrl, htouch, ⟨hn, ?_, ?_, ?_, ?_⟩, hvalid⟩
  · rw [hrl, if_neg hl1]
    unfold c_not
    by_cases hi : inside = 0
    · rw [if_pos hi, if_pos (by norm_num)]; exact hextended hi
    · rw [if_neg hi, if_neg (by norm_num)]; exact hvalid hi
  all_goals
    rw [(edge_tdiv_tmod et.nedge hn.1).1, hrl]
    have hc00 : c_bool (q.level = (P4EST_MAXLEVEL : Int) ∧ c_not inside ≠ 0) = 0 :=
      (c_bool_eq_zero _).2 (fun h => hl1 h.1)
    rw [hc00]
  · by_cases hk : et.nedge / 4 = 0
    · right
      rw [hk] at hv0
      have : p4est_quadrant_coord r 0 = r.x := rfl
      rw [this] at hv0
      omega
    · left; exact hk
  · by_cases hk : et.nedge / 4 = 1
    · right
      rw [hk] at hv0
      have : p4est_quadrant_coord r 1 = r.y := rfl
      rw [this] at hv0
      omega
    · left; exact hk
  · by_cases hk : et.nedge / 4 = 2
    · right
      rw [hk] at hv0
      have : p4est_quadrant_coord r 2 = r.z := rfl
      rw [this] at hv0
      omega
    · left; exact hk

/-- Witness of C24: the octant of boundary scenario 1, outside the edge 0,
is transformed onto the edge 5 of the neighbour tree, with a flip. -/
theorem p8est_quadrant_transform_edge_correct_witness :
    p8est_quadrant_transform_edge
      { x := 0, y := -P4EST_QUADRANT_LEN 18, z := -P4EST_QUADRANT_LEN 18, level := 18 }
      root_octant 0
      { ntree := 3, nedge := 5, naxis0 := 1, naxis1 := 0, naxis2 := 2, nflip := 1,
        corners := 1 } 1 =
      some { x := P4EST_LAST_OFFSET 18, y := P4EST_LAST_OFFSET 18, z := 0, level := 18 } ∧
    ∃ r, p8est_quadrant_transform_edge
        { x := 0, y := -P4EST_QUADRANT_LEN 18, z := -P4EST_QUADRANT_LEN 18, level := 18 }
        root_octant 0
        { ntree := 3, nedge := 5, naxis0 := 1, naxis1 := 0, naxis2 := 2, nflip := 1,
          corners := 1 } 1 = some r ∧
      r.level = 18 ∧ p8est_quadrant_touches_edge r 5 1 ∧
      p8est_quadrant_touches_edge_asserts r 5 1 ∧
      ((1 : Int) ≠ 0 → p4est_quadrant_is_valid r) :=
  ⟨by decide,
   p8est_quadrant_transform_edge_correct
     { x := 0, y := -P4EST_QUADRANT_LEN 18, z := -P4EST_QUADRANT_LEN 18, level := 18 }
     root_octant 0 1
     { ntree := 3, nedge := 5, naxis0 := 1, naxis1 := 0, naxis2 := 2, nflip := 1,
       corners := 1 }
     (by decide) (by decide) (by decide) (by decide) (by decide) (by decide) (by decide)
     (by decide) (by decide)⟩

/-- C25: the round trip of `p8est_quadrant_transform_edge`: for every octant
`q` with a level below `MAXLEVEL` that touches the edge `e` from the outside
(`p8est_quadrant_touches_edge (q, e, 0)`), every transform `et` to an edge
`et.nedge` (with `naxis[0] = nedge / 4`, `naxis[1] < naxis[2]` the two other
axes, `corners = nedge % 4` and `nflip` in `{0, 1}`) and the transform `et2`
back to the edge `e` with the same `nflip`: the call with `iedge = e`, `et`
and `inside = 1` returns an octant `r`, and the call on `r` with
`iedge = et.nedge`, `et2` and `inside = 0` returns `q`, with its three
coordinates and its level. -/
theorem p8est_quadrant_transform_edge_round_trip (q r0 r1 : p4est_quadrant) (e : Int)
    (et et2 : p8est_edge_transform_t) (hl : q.level < P4EST_MAXLEVEL)
    (he : 0 ≤ e ∧ e < 12) (hq : p8est_quadrant_touches_edge q e 0)
    (hn : 0 ≤ et.nedge ∧ et.nedge < 12)
    (hflip : et.nflip = 0 ∨ et.nflip = 1) (h0 : et.naxis0 = et.nedge / 4)
    (h1 : et.naxis1 = if et.nedge / 4 = 0 then 1 else 0)
    (h2 : et.naxis2 = if et.nedge / 4 = 2 then 1 else 2)
    (hc : et.corners = et.nedge % 4)
    (gn : et2.nedge = e) (gflip : et2.nflip = et.nflip) (g0 : et2.naxis0 = e / 4)
    (g1 : et2.naxis1 = if e / 4 = 0 then 1 else 0)
    (g2 : et2.naxis2 = if e / 4 = 2 then 1 else 2)
    (gc : et2.corners = e % 4) :
    ∃ r, p8est_quadrant_transform_edge q r0 e et 1 = some r ∧
      p8est_quadrant_transform_edge r r1 et.nedge et2 0 = some q := by
  have hl1 : q.level ≠ P4EST_MAXLEVEL := by omega
  obtain ⟨r, hr, hrl, hc0, _, _⟩ :=
    p8est_quadrant_transform_edge_eq q r0 e 1 et hl1 he hn hflip h0 h1 h2 hc
  obtain ⟨q2, hq2, hql, hd0, hd1, hd2⟩ :=
    p8est_quadrant_transform_edge_eq r r1 et.nedge 0 et2 (by rw [hrl]; exact hl1) hn
      (by rw [gn]; exact he) (by rw [gflip]; exact hflip) (by rw [gn]; exact g0)
      (by rw [gn]; exact g1) (by rw [gn]; exact g2) (by rw [gn]; exact gc)
  refine ⟨r, hr, ?_⟩
  rw [hq2]
  congr 1
  rw [gn] at hd0 hd1 hd2
  rw [p8est_quadrant_touches_edge_iff q e 0 he.1 he.2] at hq
  have hlower : touches_edge_lower q 0 = -P4EST_QUADRANT_LEN q.level := by
    unfold touches_edge_lower c_not
    rw [if_neg hl1]; simp
  have hupper : touches_edge_upper q 0 = P4EST_ROOT_LEN := by
    unfold touches_edge_upper c_not
    rw [if_neg hl1]; simp
  rw [hlower, hupper] at hq
  have hax : e / 4 = 0 ∨ e / 4 = 1 ∨ e / 4 = 2 := by omega
  have h00 : ¬ ((0 : Int) ≠ 0) := by norm_num
  rw [if_neg h00, if_neg h00, hrl] at hd1 hd2
  apply p4est_quadrant_ext_coords q2 q (e / 4) hax (by rw [hql, hrl])
  · rw [hd0, gflip, hc0, hrl]
    rcases hflip with h | h <;> rw [h] <;> norm_num
  · rw [hd1, hq.1]
  · rw [hd2, hq.2]

/-- Witness of C25: the octant of boundary scenario 1 goes from the edge 0
to the edge 5 of the neighbour tree and back. -/
theorem p8est_quadrant_transform_edge_round_trip_witness :
    p8est_quadrant_touches_edge
      { x := 0, y := -P4EST_QUADRANT_LEN 18, z := -P4EST_QUADRANT_LEN 18, level := 18 } 0 0 ∧
    ∃ r, p8est_quadrant_transform_edge
        { x := 0, y := -P4EST_QUADRANT_LEN 18, z := -P4EST_QUADRANT_LEN 18, level := 18 }
        root_octant 0
        { ntree := 3, nedge := 5, naxis0 := 1, naxis1 := 0, naxis2 := 2, nflip := 1,
          corners := 1 } 1 = some r ∧
      p8est_quadrant_transform_edge r root_octant 5
        { ntree := 0, nedge := 0, naxis0 := 0, naxis1 := 1, naxis2 := 2, nflip := 1,
          corners := 0 } 0 =
        some { x := 0, y := -P4EST_QUADRANT_LEN 18, z := -P4EST_QUADRANT_LEN 18,
               level := 18 } :=
  ⟨by decide,
   p8est_quadrant_transform_edge_round_trip
     { x := 0, y := -P4EST_QUADRANT_LEN 18, z := -P4EST_QUADRANT_LEN 18, level := 18 }
     root_octant root_octant 0
     { ntree := 3, nedge := 5, naxis0 := 1, naxis1 := 0, naxis2 := 2, nflip := 1,
       corners := 1 }
     { ntree := 0, nedge := 0, naxis0 := 0, naxis1 := 1, naxis2 := 2, nflip := 1,
       corners := 0 }
     (by decide) (by decide) (by decide) (by decide) (by decide) (by decide) (by decide)
     (by decide) (by decide) (by decide) (by decide) (by decide) (by decide) (by decide)
     (by decide)⟩

theorem target_xyz_store_eq (ax : Int) (hax : ax = 0 ∨ ax = 1 ∨ ax = 2)
    (r : p4est_quadrant) (v : Int) :
    target_xyz_store r ax v =
      some { x := if ax = 0 then v else r.x, y := if ax = 1 then v else r.y,
             z := if ax = 2 then v else r.z, level := r.level } := by
  rcases hax with h | h | h <;> subst h <;> norm_num [target_xyz_store]

theorem p8est_quadrant_transform_edge_some (q r0 : p4est_quadrant) (iedge inside : Int)
    (et : p8est_edge_transform_t) (hi : 0 ≤ iedge ∧ iedge < 12)
    (h0 : et.naxis0 = 0 ∨ et.naxis0 = 1 ∨ et.naxis0 = 2)
    (h1 : et.naxis1 = 0 ∨ et.naxis1 = 1 ∨ et.naxis1 = 2)
    (h2 : et.naxis2 = 0 ∨ et.naxis2 = 1 ∨ et.naxis2 = 2)
    (hc : 0 ≤ et.corners ∧ et.corners < 4) :
    ∃ r, p8est_quadrant_transform_edge q r0 iedge et inside = some r := by
  have htd : Int.tdiv iedge 4 = iedge / 4 := Int.tdiv_eq_ediv hi.1 (by norm_num)
  have hiax : iedge / 4 = 0 ∨ iedge / 4 = 1 ∨ iedge / 4 = 2 := by omega
  have hcor : ∀ l r : Int, ∃ v1 v2 : Int,
      (if et.corners = 0 then some (l, l) else if et.corners = 1 then some (r, l)
       else if et.corners = 2 then some (l, r) else if et.corners = 3 then some (r, r)
       else none) = some (v1, v2) := by
    intro l r
    have h : et.corners = 0 ∨ et.corners = 1 ∨ et.corners = 2 ∨ et.corners = 3 := by omega
    rcases h with h | h | h | h <;> rw [h] <;> norm_num
  simp only [p8est_quadrant_transform_edge, htd, transform_edge_my_xyz q _ hiax,
    target_xyz_store_eq et.naxis0 h0]
  obtain ⟨v1, v2, hv⟩ := hcor
    (if q.level = (P4EST_MAXLEVEL : Int) then 0
     else if inside ≠ 0 then 0
       else if q.level = (P4EST_MAXLEVEL : Int) then 0 else -P4EST_QUADRANT_LEN q.level)
    (if q.level = (P4EST_MAXLEVEL : Int) then P4EST_ROOT_LEN
     else if inside ≠ 0 then
       (if q.level = (P4EST_MAXLEVEL : Int) then P4EST_ROOT_LEN
        else P4EST_ROOT_LEN +
          (if q.level = (P4EST_MAXLEVEL : Int) then 0 else -P4EST_QUADRANT_LEN q.level))
     else P4EST_ROOT_LEN)
  rw [hv]
  simp only [target_xyz_store_eq et.naxis1 h1, target_xyz_store_eq et.naxis2 h2]
  exact ⟨_, rfl⟩

theorem edge_neighbor_extra_loop_spec (temp fresh : p4est_quadrant) (iedge : Int)
    (hi : 0 ≤ iedge ∧ iedge < 12) :
    ∀ (ets : List p8est_edge_transform_t) (quads : List p4est_quadrant) (treeids : List Int),
      (∀ et ∈ ets, (et.naxis0 = 0 ∨ et.naxis0 = 1 ∨ et.naxis0 = 2) ∧
        (et.naxis1 = 0 ∨ et.naxis1 = 1 ∨ et.naxis1 = 2) ∧
        (et.naxis2 = 0 ∨ et.naxis2 = 1 ∨ et.naxis2 = 2) ∧
        0 ≤ et.corners ∧ et.corners < 4) →
      ∃ rs, edge_neighbor_extra_loop temp fresh iedge ets quads treeids =
          some (quads ++ rs, treeids ++ ets.map (fun et => et.ntree)) ∧
        List.Forall₂ (fun et r => p8est_quadrant_transform_edge temp fresh iedge et 1 = some r)
          ets rs := by
  intro ets
  induction ets with
  | nil =>
    intro quads treeids _
    exact ⟨[], by simp [edge_neighbor_extra_loop], List.Forall₂.nil⟩
  | cons et ets ih =>
    intro quads treeids hwf
    obtain ⟨w0, w1, w2, wc⟩ := hwf et (List.mem_cons_self _ _)
    obtain ⟨r, hr⟩ := p8est_quadrant_transform_edge_some temp fresh iedge 1 et hi w0 w1 w2 wc
    obtain ⟨rs, hrs, hall⟩ := ih (quads ++ [r]) (treeids ++ [et.ntree])
      (fun et2 h2 => hwf et2 (List.mem_cons_of_mem _ h2))
    refine ⟨r :: rs, ?_, List.Forall₂.cons hr hall⟩
    simp only [edge_neighbor_extra_loop, hr, hrs, List.map_cons, List.append_assoc,
      List.singleton_append]

/-- C26: the output of `p8est_quadrant_edge_neighbor_extra` for a valid
octant `q`, a tree `t` and an edge `e` in `[0, 12)`, with
`p4est_quadrant_face_neighbor`, `p8est_quadrant_face_neighbor_extra`,
`p8est_find_edge_transform` and `p8est_edge_faces` as given functions (the
edge transforms that are found have `iedge` in `[0, 12)`, the entries of
`naxis` in `[0, 3)` and `corners` in `[0, 4)`): the function returns and
`quads` and `treeids` have the same length; if `temp = edge_neighbor (q, e)`
is inside the root the output is the one pair `(t, temp)`; if exactly one
coordinate of `temp` is outside the output is the one pair that
`face_neighbor_extra` returns, or empty when it returns the tree number -1;
if `temp` is outside an edge the output holds one pair for each edge
transform, in order: the octant that `p8est_quadrant_transform_edge` returns
with `inside = 1` and the tree number `et.ntree`. -/
theorem p8est_quadrant_edge_neighbor_extra_correct
    (face_neighbor : p4est_quadrant → Int → p4est_quadrant)
    (face_neighbor_extra : p4est_quadrant → Int → Int → p4est_quadrant → Int × p4est_quadrant)
    (find_edge_transform : Int → Int → Int × List p8est_edge_transform_t)
    (edge_faces : Int → Int → Int) (fresh q : p4est_quadrant) (t e : Int)
    (_hv : p4est_quadrant_is_valid q) (he0 : 0 ≤ e) (he : e < 12)
    (hie : 0 ≤ (find_edge_transform t e).1 ∧ (find_edge_transform t e).1 < 12)
    (hwf : ∀ et ∈ (find_edge_transform t e).2,
      (et.naxis0 = 0 ∨ et.naxis0 = 1 ∨ et.naxis0 = 2) ∧
      (et.naxis1 = 0 ∨ et.naxis1 = 1 ∨ et.naxis1 = 2) ∧
      (et.naxis2 = 0 ∨ et.naxis2 = 1 ∨ et.naxis2 = 2) ∧
      0 ≤ et.corners ∧ et.corners < 4) :
    ∃ temp quads treeids, p8est_quadrant_edge_neighbor q e = some temp ∧
      p8est_quadrant_edge_neighbor_extra face_neighbor face_neighbor_extra
        find_edge_transform edge_faces fresh q t e = some (quads, treeids) ∧
      quads.length = treeids.length ∧
      (p4est_quadrant_is_inside_root temp → quads = [temp] ∧ treeids = [t]) ∧
      (p4est_quadrant_outside_count temp = 1 →
        (p4est_quadrant_is_inside_root (face_neighbor q (edge_faces e 0)) →
          ((face_neighbor_extra (face_neighbor q (edge_faces e 0)) t (edge_faces e 1)
              fresh).1 = -1 → quads = [] ∧ treeids = []) ∧
          ((face_neighbor_extra (face_neighbor q (edge_faces e 0)) t (edge_faces e 1)
              fresh).1 ≠ -1 →
            quads = [(face_neighbor_extra (face_neighbor q (edge_faces e 0)) t
              (edge_faces e 1) fresh).2] ∧
            treeids = [(face_neighbor_extra (face_neighbor q (edge_faces e 0)) t
              (edge_faces e 1) fresh).1])) ∧
        (¬ p4est_quadrant_is_inside_root (face_neighbor q (edge_faces e 0)) →
          ((face_neighbor_extra (face_neighbor q (edge_faces e 1)) t (edge_faces e 0)
              fresh).1 = -1 → quads = [] ∧ treeids = []) ∧
          ((face_neighbor_extra (face_neighbor q (edge_faces e 1)) t (edge_faces e 0)
              fresh).1 ≠ -1 →
            quads = [(face_neighbor_extra (face_neighbor q (edge_faces e 1)) t
              (edge_faces e 0) fresh).2] ∧
            treeids = [(face_neighbor_extra (face_neighbor q (edge_faces e 1)) t
              (edge_faces e 0) fresh).1]))) ∧
      (p8est_quadrant_is_outside_edge temp →
        treeids = (find_edge_transform t e).2.map (fun et => et.ntree) ∧
        List.Forall₂ (fun et r => p8est_quadrant_transform_edge temp fresh
          (find_edge_transform t e).1 et 1 = some r) (find_edge_transform t e).2 quads) := by
  obtain ⟨temp, hnb⟩ : ∃ temp, p8est_quadrant_edge_neighbor q e = some temp :=
    ⟨_, p8est_quadrant_edge_neighbor_eq q e he0 he⟩
  have hzero := p4est_quadrant_outside_count_zero temp
  have htwo := p4est_quadrant_outside_count_two temp
  unfold p8est_quadrant_edge_neighbor_extra
  rw [hnb]
  simp only
  by_cases hin : p4est_quadrant_is_inside_root temp
  · rw [if_pos hin]
    refine ⟨temp, [temp], [t], rfl, rfl, rfl, fun _ => ⟨rfl, rfl⟩, ?_, ?_⟩
    · intro h1; have := hzero.1 hin; omega
    · intro h2; have := hzero.1 hin; have := htwo.1 h2; omega
  · rw [if_neg hin]
    by_cases hedge : p8est_quadrant_is_outside_edge temp
    · rw [if_neg (not_not.2 hedge)]
      obtain ⟨rs, hrs, hall⟩ := edge_neighbor_extra_loop_spec temp fresh
        (find_edge_transform t e).1 hie (find_edge_transform t e).2 [] [] hwf
      rw [hrs]
      refine ⟨temp, rs, _, rfl, rfl, ?_, fun h => absurd h hin, ?_, ?_⟩
      · simp only [List.nil_append, List.length_map]
        exact hall.length_eq.symm
      · intro h1; have := htwo.1 hedge; omega
      · intro _
        exact ⟨by simp, by simpa using hall⟩
    · rw [if_pos hedge]
      by_cases hin1 : p4est_quadrant_is_inside_root (face_neighbor q (edge_faces e 0))
      · rw [if_pos hin1]
        by_cases hres : (face_neighbor_extra (face_neighbor q (edge_faces e 0)) t
            (edge_faces e 1) fresh).1 = -1
        · rw [if_pos hres]
          exact ⟨temp, [], [], rfl, rfl, rfl, fun h => absurd h hin,
            fun _ => ⟨fun _ => ⟨fun _ => ⟨rfl, rfl⟩, fun h => absurd hres h⟩,
              fun h => absurd hin1 h⟩, fun h => absurd h hedge⟩
        · rw [if_neg hres]
          exact ⟨temp, _, _, rfl, rfl, rfl, fun h => absurd h hin,
            fun _ => ⟨fun _ => ⟨fun h => absurd h hres, fun _ => ⟨rfl, rfl⟩⟩,
              fun h => absurd hin1 h⟩, fun h => absurd h hedge⟩
      · rw [if_neg hin1]
        by_cases hres : (face_neighbor_extra (face_neighbor q (edge_faces e 1)) t
            (edge_faces e 0) fresh).1 = -1
        · rw [if_pos hres]
          exact ⟨temp, [], [], rfl, rfl, rfl, fun h => absurd h hin,
            fun _ => ⟨fun h => absurd h hin1,
              fun _ => ⟨fun _ => ⟨rfl, rfl⟩, fun h => absurd hres h⟩⟩,
            fun h => absurd h hedge⟩
        · rw [if_neg hres]
          exact ⟨temp, _, _, rfl, rfl, rfl, fun h => absurd h hin,
            fun _ => ⟨fun h => absurd h hin1,
              fun _ => ⟨fun h => absurd h hres, fun _ => ⟨rfl, rfl⟩⟩⟩,
            fun h => absurd h hedge⟩

/-- Witness of C26: the octant of the level 1 at the corner `(0, 0, 0)` of
the root and the edge 0, with one edge transform to the edge 5 of the tree 3. -/
theorem p8est_quadrant_edge_neighbor_extra_correct_witness :
    p8est_quadrant_edge_neighbor_extra (fun q _ => q) (fun _ _ _ r => (-1, r))
      (fun _ _ => (0, [{ ntree := 3, nedge := 5, naxis0 := 1, naxis1 := 0, naxis2 := 2,
                         nflip := 1, corners := 1 }]))
      (fun _ _ => 0) root_octant { x := 0, y := 0, z := 0, level := 1 } 7 0 =
      some ([{ x := P4EST_LAST_OFFSET 1, y := P4EST_LAST_OFFSET 1, z := 0, level := 1 }], [3]) ∧
    ∃ temp quads treeids,
      p8est_quadrant_edge_neighbor { x := 0, y := 0, z := 0, level := 1 } 0 = some temp ∧
      p8est_quadrant_edge_neighbor_extra (fun q _ => q) (fun _ _ _ r => (-1, r))
        (fun _ _ => (0, [{ ntree := 3, nedge := 5, naxis0 := 1, naxis1 := 0, naxis2 := 2,
                           nflip := 1, corners := 1 }]))
        (fun _ _ => 0) root_octant { x := 0, y := 0, z := 0, level := 1 } 7 0 =
        some (quads, treeids) ∧
      quads.length = treeids.length :=
  ⟨by decide,
   match p8est_quadrant_edge_neighbor_extra_correct (fun q _ => q) (fun _ _ _ r => (-1, r))
      (fun _ _ => (0, [{ ntree := 3, nedge := 5, naxis0 := 1, naxis1 := 0, naxis2 := 2,
                         nflip := 1, corners := 1 }]))
      (fun _ _ => 0) root_octant { x := 0, y := 0, z := 0, level := 1 } 7 0
      (by decide) (by decide) (by decide) (by decide) (by decide) with
   | ⟨temp, quads, treeids, h1, h2, h3, _⟩ => ⟨temp, quads, treeids, h1, h2, h3⟩⟩

theorem coarsen_family_frame (r : Bool) (s s1 : coarsen_state)
    (h : coarsen_family r s = .ok s1) :
    s1.removed = size_t_wrap ((s.removed : Int) + 7) ∧
    s1.quadrants_per_level =
      Function.update
        (Function.update s.quadrants_per_level (coarsen_candidate s 0).level
          (s.quadrants_per_level (coarsen_candidate s 0).level - 8))
        (p4est_quadrant_parent (coarsen_candidate s 0)).level
        (Function.update s.quadrants_per_level (coarsen_candidate s 0).level
          (s.quadrants_per_level (coarsen_candidate s 0).level - 8)
          (p4est_quadrant_parent (coarsen_candidate s 0)).level + 1) ∧
    s1.invoked = s.invoked ∧ s1.incount = s.incount := by
  cases r
  · simp only [coarsen_family, coarsen_move, Bool.false_eq_true, ↓reduceIte] at h
    split at h
    · split at h
      · simp only [Except.map] at h
        cases h; exact ⟨rfl, rfl, rfl, rfl⟩
      · simp [Except.map] at h
    · cases h; exact ⟨rfl, rfl, rfl, rfl⟩
  · simp only [coarsen_family, ↓reduceIte] at h
    cases h; exact ⟨rfl, rfl, rfl, rfl⟩

theorem coarsen_advance_frame (s s1 : coarsen_state) (h : coarsen_advance s = .ok s1) :
    s1.removed = s.removed ∧ s1.quadrants_per_level = s.quadrants_per_level ∧
    s1.invoked = s.invoked ∧ s1.incount = s.incount := by
  simp only [coarsen_advance, coarsen_move] at h
  split at h
  · split at h
    · split at h
      · simp only [Except.map] at h
        cases h; exact ⟨rfl, rfl, rfl, rfl⟩
      · simp [Except.map] at h
    · simp only [Except.map] at h
      cases h; exact ⟨rfl, rfl, rfl, rfl⟩
  · cases h; exact ⟨rfl, rfl, rfl, rfl⟩

theorem coarsen_drain_invoked :
    ∀ (fuel : Nat) (s s2 : coarsen_state), coarsen_drain fuel s = .ok s2 →
      s2.invoked = s.invoked := by
  intro fuel
  induction fuel with
  | zero =>
    intro s s2 h
    unfold coarsen_drain at h
    split at h
    · simp at h
    · cases h; rfl
  | succ n ih =>
    intro s s2 h
    unfold coarsen_drain at h
    by_cases hr : s.rest < s.incount
    · rw [if_pos hr] at h
      simp only [coarsen_move] at h
      by_cases hm : size_t_wrap ((s.first : Int) + 1) < s.elem_count ∧ s.rest < s.elem_count
      · rw [if_pos hm] at h
        simp only at h
        have := ih _ s2 h
        exact this
      · rw [if_neg hm] at h
        simp at h
    · rw [if_neg hr] at h
      cases h; rfl

theorem coarsen_finish_invoked (fuel : Nat) (s s3 : coarsen_state)
    (h : coarsen_finish fuel s = .ok s3) : s3.invoked = s.invoked := by
  simp only [coarsen_finish] at h
  split at h
  · obtain ⟨s4, h4, h5⟩ := except_map_ok _ _ _ h
    obtain ⟨s5, h6, h7⟩ := except_map_ok _ _ _ h4
    have := coarsen_drain_invoked fuel _ s5 h6
    rw [← h5, ← h7]
    exact this
  · simp only [Except.map] at h
    cases h; rfl

theorem coarsen_step_trace (r : Bool) (fn : Nat → List p4est_quadrant → Bool)
    (s : coarsen_state) (h : coarsen_inv r s) (hc : coarsen_continues s) :
    ((coarsen_is_family_at (coarsen_view s) s.first ∧
        fn s.invoked.length (coarsen_children s) = true) →
      coarsen_step r fn s =
        (coarsen_family r { s with invoked := s.invoked ++ [(coarsen_children s, true)] }).map
          (fun s2 => { s2 with before := size_t_wrap ((s2.last : Int) - s2.first + 1) })) ∧
    ((coarsen_is_family_at (coarsen_view s) s.first ∧
        fn s.invoked.length (coarsen_children s) = false) →
      coarsen_step r fn s =
        (coarsen_advance { s with invoked := s.invoked ++ [(coarsen_children s, false)] }).map
          (fun s2 => { s2 with before := size_t_wrap ((s2.last : Int) - s2.first + 1) })) ∧
    (¬ coarsen_is_family_at (coarsen_view s) s.first →
      coarsen_step r fn s =
        (coarsen_advance s).map
          (fun s2 => { s2 with before := size_t_wrap ((s2.last : Int) - s2.first + 1) })) := by
  obtain ⟨b, hb, hiff⟩ := coarsen_gather_spec s
    (fun zz hzz => coarsen_candidate_index_lt r s h hc zz hzz) 8 0 (by omega)
  have hpre : b = true ↔ ∀ zz, zz < s.before →
      (zz : Int) = p4est_quadrant_child_id (coarsen_candidate s zz) := by
    rw [hiff]
    constructor
    · intro hall zz hzz
      exact hall zz (Nat.zero_le _) (by have := h.2.2.2.2.1; omega) hzz
    · intro hall zz _ _ hzz
      exact hall zz hzz
  have htest := coarsen_test_iff r s h
  refine ⟨?_, ?_, ?_⟩
  · rintro ⟨hfam, h3⟩
    obtain ⟨h1, h2⟩ := htest.2 hfam
    have hbt : b = true := hpre.2 h1
    subst hbt
    simp only [coarsen_step, P4EST_CHILDREN, hb, h2, h3, decide_True, Bool.and_self, if_true]
  · rintro ⟨hfam, h3⟩
    obtain ⟨h1, h2⟩ := htest.2 hfam
    have hbt : b = true := hpre.2 h1
    subst hbt
    simp only [coarsen_step, P4EST_CHILDREN, hb, h2, h3, decide_True, Bool.and_self,
      Bool.and_false, if_true, Bool.false_eq_true, if_false]
  · intro hnf
    have hf : (b && decide (p4est_quadrant_is_familypv (coarsen_candidate s))) = false := by
      by_contra hx
      simp only [Bool.not_eq_false, Bool.and_eq_true, decide_eq_true_eq] at hx
      exact hnf (htest.1 ⟨hpre.1 hx.1, hx.2⟩)
    simp only [coarsen_step, P4EST_CHILDREN, hb, hf, Bool.false_and, Bool.false_eq_true,
      if_false]

theorem coarsen_num_quadrants_update (f : Int → Int) (l v : Int) (hl0 : 0 ≤ l)
    (hl1 : l ≤ P4EST_QMAXLEVEL) :
    coarsen_num_quadrants (Function.update f l v) = coarsen_num_quadrants f - f l + v := by
  have key : ∀ n : Nat, ((List.range n).map (fun i : Nat => Function.update f l v (i : Int))).sum
      = ((List.range n).map (fun i : Nat => f (i : Int))).sum +
        (if l < n then v - f l else 0) := by
    intro n
    induction n with
    | zero => simp; omega
    | succ n ih =>
      rw [List.range_succ, List.map_append, List.sum_append, List.map_append, List.sum_append,
        ih]
      simp only [List.map_cons, List.map_nil, List.sum_cons, List.sum_nil, add_zero]
      by_cases h1 : l < n
      · rw [if_pos h1, if_pos (by push_cast; omega),
          Function.update_noteq (by omega : (n : Int) ≠ l)]
        ring
      · by_cases h2 : l = n
        · rw [if_neg h1, if_pos (by push_cast; omega), ← h2, Function.update_same]
          ring
        · rw [if_neg h1, if_neg (by push_cast; omega),
            Function.update_noteq (by omega : (n : Int) ≠ l)]
          ring
  unfold coarsen_num_quadrants
  rw [key, if_pos (by push_cast; omega)]
  ring

theorem coarsen_accepted_append (l : List (List p4est_quadrant × Bool))
    (c : List p4est_quadrant) (b : Bool) :
    coarsen_accepted (l ++ [(c, b)]) = coarsen_accepted l + (if b then 1 else 0) := by
  unfold coarsen_accepted
  cases b <;> simp [List.filter_append]

theorem coarsen_step_books (r : Bool) (fn : Nat → List p4est_quadrant → Bool)
    (s s1 : coarsen_state) (n : Nat) (loc : Int) (h : coarsen_inv r s)
    (hc : coarsen_continues s) (hs : coarsen_step r fn s = .ok s1) (hn : n + 8 < 2 ^ 64)
    (hK : coarsen_books n loc s) : coarsen_books n loc s1 := by
  obtain ⟨s2, heq, _, _, hyes, hno⟩ := coarsen_step_spec r fn s h hc
  rw [hs] at heq
  cases heq
  obtain ⟨tyes, tno1, tno2⟩ := coarsen_step_trace r fn s h hc
  have hc1 := (coarsen_continues_iff r s h).1 hc
  have hch := coarsen_children_eq r s h
  obtain ⟨k1, k2, k3, k4, k5⟩ := hK
  -- the branch that moves the counters leaves the books as they are
  have hadv : ∀ (l : List (List p4est_quadrant × Bool)),
      coarsen_accepted l = coarsen_accepted s.invoked →
      coarsen_step r fn s = (coarsen_advance { s with invoked := l }).map
        (fun s2 => { s2 with before := size_t_wrap ((s2.last : Int) - s2.first + 1) }) →
      coarsen_view s1 = coarsen_view s ∧ coarsen_view_count s1 = coarsen_view_count s →
      coarsen_books n loc s1 := by
    intro l hl hstep hv
    rw [hs] at hstep
    obtain ⟨s2, hb, hg⟩ := except_map_ok _ _ _ hstep.symm
    obtain ⟨f1, f2, f3, _⟩ := coarsen_advance_frame _ s2 hb
    have floc := coarsen_advance_local _ s2 hb
    have e1 : s1.removed = s2.removed := by rw [← hg]
    have e2 : s1.quadrants_per_level = s2.quadrants_per_level := by rw [← hg]
    have e3 : s1.invoked = s2.invoked := by rw [← hg]
    have e4 : s1.local_num_quadrants = s2.local_num_quadrants := by rw [← hg]
    refine ⟨?_, ?_, ?_, ?_, ?_⟩
    · rw [e1, f1, e3, f3]; show s.removed = 7 * coarsen_accepted l; rw [hl]; exact k1
    · rw [hv.2, e1, f1]; exact k2
    · rw [e2, f2, hv.2]; exact k3
    · rw [e4, floc, e1, f1]; exact k4
    · rw [hv.1, hv.2]; exact k5
  by_cases hfam : coarsen_is_family_at (coarsen_view s) s.first
  · by_cases hfn : fn s.invoked.length (coarsen_children s) = true
    · have hstep := tyes ⟨hfam, hfn⟩
      rw [hs] at hstep
      obtain ⟨s2, hb, hg⟩ := except_map_ok _ _ _ hstep.symm
      obtain ⟨f1, f2, f3, _⟩ := coarsen_family_frame r _ s2 hb
      have floc := coarsen_family_local r _ s2 hb
      obtain ⟨hview, hcnt, _, _⟩ := hyes ⟨hfam, by rw [← hch]; exact hfn⟩
      have e1 : s1.removed = s2.removed := by rw [← hg]
      have e2 : s1.quadrants_per_level = s2.quadrants_per_level := by rw [← hg]
      have e3 : s1.invoked = s2.invoked := by rw [← hg]
      have e4 : s1.local_num_quadrants = s2.local_num_quadrants := by rw [← hg]
      have hrem : s2.removed = s.removed + 7 := by
        rw [f1]
        exact size_t_wrap_eq _ _ (by push_cast; ring) (by show s.removed + 7 < _; omega)
      have hcand : coarsen_candidate
          { s with invoked := s.invoked ++ [(coarsen_children s, true)] } 0 =
          coarsen_view s s.first := coarsen_candidate_eq r s h 0 (by omega)
      have hlev := k5 s.first (by omega)
      have hl0 : (coarsen_view s s.first).level ≠ 0 := (p4est_familypv_levels _ hfam.2).1
      have hpl : (p4est_quadrant_parent (coarsen_view s s.first)).level =
          (coarsen_view s s.first).level - 1 := rfl
      refine ⟨?_, ?_, ?_, ?_, ?_⟩
      · rw [e1, hrem, e3, f3]
        show s.removed + 7 = 7 * coarsen_accepted (s.invoked ++ [(coarsen_children s, true)])
        rw [coarsen_accepted_append, k1]
        simp only [if_true]
        ring
      · rw [hcnt, e1, hrem]; omega
      · rw [e2, f2, hcand, hpl,
          coarsen_num_quadrants_update _ _ _ (by omega) (by omega),
          coarsen_num_quadrants_update _ _ _ hlev.1 hlev.2, hcnt,
          show (s.quadrants_per_level :
            Int → Int) = (s.quadrants_per_level) from rfl]
        have : (coarsen_num_quadrants s.quadrants_per_level : Int) = coarsen_view_count s := k3
        show coarsen_num_quadrants s.quadrants_per_level - _ + _ - _ + _ = _
        rw [this]
        have h7 : 7 ≤ coarsen_view_count s := by omega
        push_cast [Nat.cast_sub h7]
        ring
      · rw [e4, floc, e1, hrem]
        show s.local_num_quadrants - 7 = _
        rw [k4]; push_cast; ring
      · intro i hi
        rw [hcnt] at hi
        rw [hview]
        unfold coarsen_replaced
        by_cases h1 : i < s.first
        · rw [if_pos h1]; exact k5 i (by omega)
        · by_cases h2 : i = s.first
          · rw [if_neg h1, if_pos h2, hpl]; omega
          · rw [if_neg h1, if_neg h2]; exact k5 (i + 7) (by omega)
    · have hfn2 : fn s.invoked.length (coarsen_children s) = false := by simpa using hfn
      exact hadv _ (by rw [coarsen_accepted_append]; simp) (tno1 ⟨hfam, hfn2⟩)
        (by
          obtain ⟨a, b, _⟩ := hno (fun hx => hfn (by rw [hch]; exact hx.2))
          exact ⟨a, b⟩)
  · exact hadv s.invoked rfl (tno2 hfam)
      (by
        obtain ⟨a, b, _⟩ := hno (fun hx => hfam hx.1)
        exact ⟨a, b⟩)

theorem coarsen_tree_empty (r : Bool) (fn : Nat → List p4est_quadrant → Bool) (fuel : Nat)
    (quadrants : Nat → p4est_quadrant) (per : Int → Int) (loc : Int) :
    coarsen_tree r fn fuel quadrants 0 per loc =
      .ok { coarsen_init quadrants 0 per loc with maxlevel := coarsen_maxlevel per } := by
  have hnc : ¬ coarsen_continues (coarsen_init quadrants 0 per loc) := by
    intro hx
    have h0 : size_t_wrap (((1 : Nat) : Int) + 8 - 1 - ((1 : Nat) : Int)) < 0 := hx
    omega
  have hloop : coarsen_loop r fn fuel (coarsen_init quadrants 0 per loc) =
      .ok (coarsen_init quadrants 0 per loc) := by
    unfold coarsen_loop
    rw [if_neg hnc]
  have hw0 : ¬ size_t_wrap (((0 : Nat) : Int) + 1) < 1 := by
    rw [size_t_wrap_eq _ 1 (by norm_num) (by norm_num)]
    omega
  have hw : ¬ size_t_wrap (((coarsen_init quadrants 0 per loc).last : Int) + 1) <
      (coarsen_init quadrants 0 per loc).rest := hw0
  simp only [coarsen_tree, hloop, coarsen_finish]
  rw [if_neg hw]
  rfl

theorem coarsen_step_coarsens (r : Bool) (fn : Nat → List p4est_quadrant → Bool)
    (s : coarsen_state) (h : coarsen_inv r s) (hc : coarsen_continues s)
    (hfam : coarsen_is_family_at (coarsen_view s) s.first)
    (hfn : fn s.invoked.length (coarsen_children s) = true) :
    ∃ s1, coarsen_step r fn s = .ok s1 ∧
      s1.invoked = s.invoked ++ [(coarsen_children s, true)] ∧
      s1.quadrants_per_level (coarsen_view s s.first).level =
        s.quadrants_per_level (coarsen_view s s.first).level - 8 ∧
      s1.quadrants_per_level ((coarsen_view s s.first).level - 1) =
        s.quadrants_per_level ((coarsen_view s s.first).level - 1) + 1 ∧
      (∀ k, k ≠ (coarsen_view s s.first).level → k ≠ (coarsen_view s s.first).level - 1 →
        s1.quadrants_per_level k = s.quadrants_per_level k) ∧
      s1.local_num_quadrants = s.local_num_quadrants - 7 ∧
      s1.removed = size_t_wrap ((s.removed : Int) + 7) := by
  obtain ⟨s1, hs, _, _, _, _⟩ := coarsen_step_spec r fn s h hc
  obtain ⟨tyes, _, _⟩ := coarsen_step_trace r fn s h hc
  have hc1 := (coarsen_continues_iff r s h).1 hc
  have hstep := tyes ⟨hfam, hfn⟩
  rw [hs] at hstep
  obtain ⟨s2, hb, hg⟩ := except_map_ok _ _ _ hstep.symm
  obtain ⟨f1, f2, f3, _⟩ := coarsen_family_frame r _ s2 hb
  have floc := coarsen_family_local r _ s2 hb
  have e1 : s1.removed = s2.removed := by rw [← hg]
  have e2 : s1.quadrants_per_level = s2.quadrants_per_level := by rw [← hg]
  have e3 : s1.invoked = s2.invoked := by rw [← hg]
  have e4 : s1.local_num_quadrants = s2.local_num_quadrants := by rw [← hg]
  have hcand : coarsen_candidate
      { s with invoked := s.invoked ++ [(coarsen_children s, true)] } 0 =
      coarsen_view s s.first := coarsen_candidate_eq r s h 0 (by omega)
  have hpl : (p4est_quadrant_parent (coarsen_view s s.first)).level =
      (coarsen_view s s.first).level - 1 := rfl
  rw [hcand, hpl] at f2
  have hne : (coarsen_view s s.first).level - 1 ≠ (coarsen_view s s.first).level := by omega
  refine ⟨s1, hs, ?_, ?_, ?_, ?_, ?_, ?_⟩
  · rw [e3, f3]
  · rw [e2, f2, Function.update_noteq hne.symm, Function.update_same]
  · rw [e2, f2, Function.update_same, Function.update_noteq hne]
  · intro k hk1 hk2
    rw [e2, f2, Function.update_noteq hk2, Function.update_noteq hk1]
  · rw [e4, floc]
  · rw [e1, f1]

/-- C27: for every array of `n` octants with levels from 0 to `P4EST_QMAXLEVEL`
whose `quadrants_per_level` sums to `n` over the levels 0 to `P4EST_QMAXLEVEL`
(with `n + 8 < 2 ^ 64`), both kinds of sweep, every `coarsen_fn` and a loop
bound of at least `8 * n`: the sweep returns; `removed` is 7 times the number
of calls of `coarsen_fn` that returned true; the number of elements of the
array is `incount - removed` and is the sum of `quadrants_per_level` over the
levels 0 to `P4EST_QMAXLEVEL`; `local_num_quadrants` has fallen by `removed`.
And in every state of the loop in which the candidates are a family that
`coarsen_fn` accepts, the round returns, records that call, lowers
`quadrants_per_level` at the level of the children by 8, raises it at the
level of the parent by 1, leaves it at the other levels, lowers
`local_num_quadrants` by 7 and raises `removed` by 7. -/
theorem coarsen_tree_bookkeeping (r : Bool) (fn : Nat → List p4est_quadrant → Bool)
    (fuel : Nat) (quadrants : Nat → p4est_quadrant) (n : Nat) (per : Int → Int) (loc : Int)
    (hlev : ∀ i, i < n →
      0 ≤ (quadrants i).level ∧ (quadrants i).level ≤ P4EST_QMAXLEVEL)
    (hsum : coarsen_num_quadrants per = n) (hn : n + 8 < 2 ^ 64) (hfuel : 8 * n ≤ fuel) :
    (∃ s, coarsen_tree r fn fuel quadrants n per loc = .ok s ∧ s.incount = n ∧
      s.removed = 7 * coarsen_accepted s.invoked ∧
      s.removed ≤ s.incount ∧ s.elem_count = s.incount - s.removed ∧
      coarsen_num_quadrants s.quadrants_per_level = s.elem_count ∧
      s.local_num_quadrants = loc - s.removed) ∧
    ∀ s, coarsen_inv r s → coarsen_continues s →
      coarsen_is_family_at (coarsen_view s) s.first →
      fn s.invoked.length (coarsen_children s) = true →
      ∃ s1, coarsen_step r fn s = .ok s1 ∧
        s1.invoked = s.invoked ++ [(coarsen_children s, true)] ∧
        s1.quadrants_per_level (coarsen_view s s.first).level =
          s.quadrants_per_level (coarsen_view s s.first).level - 8 ∧
        s1.quadrants_per_level ((coarsen_view s s.first).level - 1) =
          s.quadrants_per_level ((coarsen_view s s.first).level - 1) + 1 ∧
        (∀ k, k ≠ (coarsen_view s s.first).level →
          k ≠ (coarsen_view s s.first).level - 1 →
          s1.quadrants_per_level k = s.quadrants_per_level k) ∧
        s1.local_num_quadrants = s.local_num_quadrants - 7 ∧
        s1.removed = size_t_wrap ((s.removed : Int) + 7) := by
  refine ⟨?_, fun s h hc hfam hfn => coarsen_step_coarsens r fn s h hc hfam hfn⟩
  rcases Nat.eq_zero_or_pos n with hn0 | hn0
  · subst hn0
    refine ⟨_, coarsen_tree_empty r fn fuel quadrants per loc, rfl, rfl, le_refl _, rfl, ?_, ?_⟩
    · exact hsum
    · show loc = loc - ((0 : Nat) : Int)
      simp
  · obtain ⟨hinv0, hcnt0, hview0, hf0, hin0⟩ := coarsen_init_inv r quadrants n per loc hn0 hn
    obtain ⟨s1, hloop, hinv1, hI1, _, hn1⟩ := coarsen_loop_spec r fn (coarsen_books n loc)
      (fun s s1 h hi hc hs => coarsen_step_books r fn s s1 n loc h hc hs hn hi)
      fuel _ hinv0
      ⟨rfl, by rw [hcnt0]; rfl, by rw [hcnt0]; exact hsum,
        by show loc = loc - ((0 : Nat) : Int); simp,
        fun i hi => by rw [hview0]; rw [hcnt0] at hi; exact hlev i hi⟩
      (by rw [hcnt0, hf0]; omega)
    obtain ⟨s3, hfin, hcnt3, _, hin3, hrem3, hper3, hloc3⟩ := coarsen_finish_spec r fuel s1 hinv1
      (by rw [hn1, hin0]; omega)
    have hinv3 := coarsen_finish_invoked fuel s1 s3 hfin
    obtain ⟨k1, k2, k3, k4, _⟩ := hI1
    refine ⟨s3, ?_, by rw [hin3, hn1, hin0], ?_, ?_, ?_, ?_, ?_⟩
    · simp only [coarsen_tree, hloop]
      exact hfin
    · rw [hrem3, hinv3]; exact k1
    · rw [hrem3, hin3, hn1, hin0]; omega
    · rw [hcnt3, hrem3, hin3, hn1, hin0]; omega
    · rw [hper3, hcnt3]; exact k3
    · rw [hloc3, hrem3]; exact k4

/-- Witness of C27: the eight children of the root, counted at level 1, and a
`coarsen_fn` that accepts every family. -/
theorem coarsen_tree_bookkeeping_witness :
    (∀ i, i < 8 → 0 ≤ (uniform_octant 1 i).level ∧
      (uniform_octant 1 i).level ≤ P4EST_QMAXLEVEL) ∧
    coarsen_num_quadrants (fun l => if l = 1 then 8 else 0) = (8 : Nat) ∧
    (∃ s, coarsen_tree true (fun _ _ => true) 64 (uniform_octant 1) 8
        (fun l => if l = 1 then 8 else 0) 8 = .ok s ∧ s.incount = 8 ∧
      s.removed = 7 * coarsen_accepted s.invoked ∧
      s.removed ≤ s.incount ∧ s.elem_count = s.incount - s.removed ∧
      coarsen_num_quadrants s.quadrants_per_level = s.elem_count ∧
      s.local_num_quadrants = 8 - s.removed) :=
  ⟨by decide, by decide,
   (coarsen_tree_bookkeeping true (fun _ _ => true) 64 (uniform_octant 1) 8
     (fun l => if l = 1 then 8 else 0) 8 (by decide) (by decide) (by norm_num)
     (by norm_num)).1⟩

/-! ### The reduction `sc_reduce_max` -/

theorem reduce_max_loop_eq (gt : Nat → Nat → Bool) (s : Nat → Nat) :
    ∀ (k i0 : Nat) (r : Nat → Nat) (i : Nat),
      reduce_max_loop gt s k i0 r i =
        if i0 ≤ i ∧ i < i0 + k ∧ gt (s i) (r i) = true then s i else r i := by
  intro k
  induction k with
  | zero =>
    intro i0 r i
    have : ¬ (i0 ≤ i ∧ i < i0 + 0 ∧ gt (s i) (r i) = true) := by omega
    rw [if_neg this]
    rfl
  | succ k ih =>
    intro i0 r i
    show reduce_max_loop gt s k (i0 + 1)
      (if gt (s i0) (r i0) = true then Function.update r i0 (s i0) else r) i = _
    rw [ih]
    by_cases hi : i = i0
    · subst hi
      have h1 : ¬ (i + 1 ≤ i ∧ i < i + 1 + k ∧
          gt (s i) ((if gt (s i) (r i) = true then Function.update r i (s i) else r) i) =
            true) := by omega
      rw [if_neg h1]
      by_cases hg : gt (s i) (r i) = true
      · rw [if_pos hg, Function.update_same, if_pos ⟨le_refl _, by omega, hg⟩]
      · rw [if_neg hg, if_neg (fun hx => hg hx.2.2)]
    · have hr : (if gt (s i0) (r i0) = true then Function.update r i0 (s i0) else r) i = r i := by
        split
        · exact Function.update_noteq hi _ _
        · rfl
      rw [hr]
      by_cases hc : i0 + 1 ≤ i ∧ i < i0 + 1 + k ∧ gt (s i) (r i) = true
      · rw [if_pos hc, if_pos ⟨by omega, by omega, hc.2.2⟩]
      · rw [if_neg hc, if_neg (fun hx => hc ⟨by omega, by omega, hx.2.2⟩)]

theorem reduce_max_loop_twice (gt : Nat → Nat → Bool) (s r : Nat → Nat) (k : Nat) :
    reduce_max_loop gt s k 0 (reduce_max_loop gt s k 0 r) = reduce_max_loop gt s k 0 r := by
  funext i
  rw [reduce_max_loop_eq gt s k 0 (reduce_max_loop gt s k 0 r) i]
  by_cases hc : 0 ≤ i ∧ i < 0 + k ∧ gt (s i) (reduce_max_loop gt s k 0 r i) = true
  · rw [if_pos hc]
    have h3 := hc.2.2
    rw [reduce_max_loop_eq gt s k 0 r i] at h3 ⊢
    by_cases hg : 0 ≤ i ∧ i < 0 + k ∧ gt (s i) (r i) = true
    · rw [if_pos hg]
    · rw [if_neg hg] at h3
      exact absurd ⟨hc.1, hc.2.1, h3⟩ hg
  · rw [if_neg hc]

theorem reduce_max_loop_max (bits : Nat) (signed : Bool) (s r : Nat → Nat) (k i : Nat) :
    (i < k → c_value bits signed (reduce_max_loop (c_gt bits signed) s k 0 r i) =
      max (c_value bits signed (s i)) (c_value bits signed (r i)) ∧
      (reduce_max_loop (c_gt bits signed) s k 0 r i = s i ∨
        reduce_max_loop (c_gt bits signed) s k 0 r i = r i)) ∧
    (k ≤ i → reduce_max_loop (c_gt bits signed) s k 0 r i = r i) := by
  rw [reduce_max_loop_eq]
  constructor
  · intro hi
    by_cases hg : c_gt bits signed (s i) (r i) = true
    · rw [if_pos ⟨Nat.zero_le _, by omega, hg⟩]
      have : c_value bits signed (s i) > c_value bits signed (r i) := by
        unfold c_gt at hg
        exact of_decide_eq_true hg
      exact ⟨(max_eq_left (le_of_lt this)).symm, Or.inl rfl⟩
    · rw [if_neg (fun hx => hg hx.2.2)]
      have : ¬ c_value bits signed (s i) > c_value bits signed (r i) := by
        unfold c_gt at hg
        intro hx
        exact hg (decide_eq_true hx)
      exact ⟨(max_eq_right (not_lt.1 this)).symm, Or.inr rfl⟩
  · intro hi
    rw [if_neg (by omega)]

theorem sc_reduce_max_int (pf : c_platform) (s r : Nat → Nat) (count : Int)
    (ty : MPI_Datatype) (bits : Nat) (signed : Bool)
    (hty : reduce_int_type pf ty = some (bits, signed)) :
    sc_reduce_max pf s r count ty =
      some (s, reduce_max_loop (c_gt bits signed) s count.toNat 0 r) := by
  cases ty <;> simp only [reduce_int_type, Option.some.injEq, Prod.mk.injEq] at hty <;>
    first
    | (obtain ⟨h1, h2⟩ := hty; subst h1; subst h2; rfl)
    | exact absurd hty (by simp)

/-- C28: for every representation of the integer types, each of the nine
integer datatypes (with the integer type `sc_reduce_max` reads the elements
as), every pair of buffers and every count: `sc_reduce_max` returns and leaves
`sendbuf` as it is; for `0 <= i < count` the value of `recvbuf[i]` after the
call is the maximum of the values of `sendbuf[i]` and of `recvbuf[i]` before
it, and its contents are those of one of the two; the elements of `recvbuf`
from `count` on are as before; and a second call with the same `sendbuf`
returns and leaves `recvbuf` as the first call left it. -/
theorem sc_reduce_max_correct (pf : c_platform) (sendbuf recvbuf : Nat → Nat) (count : Int)
    (ty : MPI_Datatype) (bits : Nat) (signed : Bool)
    (hty : reduce_int_type pf ty = some (bits, signed)) :
    ∃ r1, sc_reduce_max pf sendbuf recvbuf count ty = some (sendbuf, r1) ∧
      (∀ i : Nat, (i : Int) < count →
        c_value bits signed (r1 i) =
          max (c_value bits signed (sendbuf i)) (c_value bits signed (recvbuf i)) ∧
        (r1 i = sendbuf i ∨ r1 i = recvbuf i)) ∧
      (∀ i : Nat, count ≤ (i : Int) → r1 i = recvbuf i) ∧
      sc_reduce_max pf sendbuf r1 count ty = some (sendbuf, r1) := by
  refine ⟨_, sc_reduce_max_int pf sendbuf recvbuf count ty bits signed hty, ?_, ?_, ?_⟩
  · intro i hi
    exact (reduce_max_loop_max bits signed sendbuf recvbuf count.toNat i).1 (by omega)
  · intro i hi
    exact (reduce_max_loop_max bits signed sendbuf recvbuf count.toNat i).2 (by omega)
  · rw [sc_reduce_max_int pf sendbuf _ count ty bits signed hty, reduce_max_loop_twice]

/-- Witness of C28: three elements of `MPI_CHAR` on a platform with a signed
`char` of 8 bits; the contents 255 are the value -1. -/
theorem sc_reduce_max_correct_witness :
    reduce_int_type lp64 .MPI_CHAR = some (8, true) ∧
    ∃ r1, sc_reduce_max lp64 (fun i => if i = 0 then 255 else 5) (fun i => i) 3 .MPI_CHAR =
        some ((fun i => if i = 0 then 255 else 5), r1) ∧
      (∀ i : Nat, (i : Int) < 3 →
        c_value 8 true (r1 i) =
          max (c_value 8 true ((fun i => if i = 0 then 255 else 5) i))
            (c_value 8 true ((fun i => i) i)) ∧
        (r1 i = (fun i => if i = 0 then 255 else 5) i ∨ r1 i = (fun i => i) i)) ∧
      (∀ i : Nat, (3 : Int) ≤ (i : Int) → r1 i = (fun i => i) i) ∧
      sc_reduce_max lp64 (fun i => if i = 0 then 255 else 5) r1 3 .MPI_CHAR =
        some ((fun i => if i = 0 then 255 else 5), r1) :=
  ⟨rfl, sc_reduce_max_correct lp64 (fun i => if i = 0 then 255 else 5) (fun i => i) 3
    .MPI_CHAR 8 true rfl⟩

/-- C29: for every representation of the types, every pair of buffers and
every count, zero and negative counts included: `sc_reduce_max` aborts
exactly for the datatypes outside the twelve that it names, and returns, with
`sendbuf` as it was, for each of the twelve. -/
theorem sc_reduce_max_unsupported (pf : c_platform) (sendbuf recvbuf : Nat → Nat)
    (count : Int) (ty : MPI_Datatype) :
    (sc_reduce_max pf sendbuf recvbuf count ty = none ↔ ty ∉ reduce_supported) ∧
    (ty ∈ reduce_supported ↔
      ∃ r1, sc_reduce_max pf sendbuf recvbuf count ty = some (sendbuf, r1)) ∧
    (ty ∉ reduce_supported ↔ ∃ n, ty = .other n) := by
  cases ty <;> simp [sc_reduce_max, reduce_supported]

/-! ### The capacity under `sc3_array_resize` -/

/-- C30 as stated fails: a resizable array with `tighten` set, count 3 and
capacity 4 is resized to `n = 2`, which is not below `ealloc / 2 = 2`; the
halving loop runs while `newalloc / 2 >= new_ecount`, and the call succeeds
with the capacity 2. -/
theorem sc3_array_resize_frame_counterexample :
    sc3_array_is_resizable allocator_granting (int_array 1 1 3 4) ∧
    (2 : Int) ≤ (int_array 1 1 3 4).ealloc ∧
    ¬ ((int_array 1 1 3 4).tighten ≠ 0 ∧ (2 : Int) < (int_array 1 1 3 4).ealloc / 2) ∧
    (sc3_array_resize allocator_granting (int_array 1 1 3 4) 2).1 = none ∧
    (sc3_array_resize allocator_granting (int_array 1 1 3 4) 2).2.ealloc = 2 ∧
    (sc3_array_resize allocator_granting (int_array 1 1 3 4) 2).2.ealloc ≠
      (int_array 1 1 3 4).ealloc := by
  decide

/-- C30, amended: for every resizable array and every `n <= ealloc` such that
it is not the case that `tighten` is set and `n <= ealloc / 2`:
`sc3_array_resize` leaves `ealloc` as it is; for `n` in the range
`0 <= n <= SC3_INT_HPOW` it succeeds and changes `ecount` to `n` and nothing
else, and for the other `n` it returns an error and changes nothing. -/
theorem sc3_array_resize_frame (al : sc3_allocator) (a : sc3_array) (n : Int)
    (hres : sc3_array_is_resizable al a) (hle : n ≤ a.ealloc)
    (hnot : ¬ (a.tighten ≠ 0 ∧ n ≤ a.ealloc / 2)) :
    (sc3_array_resize al a n).2.ealloc = a.ealloc ∧
    ((0 ≤ n ∧ n ≤ SC3_INT_HPOW) →
      sc3_array_resize al a n = (none, { a with ecount := n })) ∧
    (¬ (0 ≤ n ∧ n ≤ SC3_INT_HPOW) → sc3_array_resize al a n = (some .bug, a)) := by
  have hbad : ¬ (0 ≤ n ∧ n ≤ SC3_INT_HPOW) → sc3_array_resize al a n = (some .bug, a) := by
    intro hr
    unfold sc3_array_resize
    rw [if_neg (not_not.2 hres), if_pos hr]
  have hgood : (0 ≤ n ∧ n ≤ SC3_INT_HPOW) →
      sc3_array_resize al a n = (none, { a with ecount := n }) := by
    intro hr
    have hgt : ¬ n > a.ealloc := by omega
    unfold sc3_array_resize
    rw [if_neg (not_not.2 hres), if_neg (not_not.2 hr), if_neg hgt]
    by_cases ht : a.tighten ≠ 0 ∧ n < a.ealloc
    · rw [if_pos ht]
      have hhalf : ¬ n ≤ a.ealloc / 2 := fun hx => hnot ⟨ht.1, hx⟩
      have hn0 : n ≠ 0 := by omega
      have hea : 0 ≤ a.ealloc := by omega
      have htd : Int.tdiv a.ealloc 2 = a.ealloc / 2 := Int.tdiv_eq_ediv hea (by norm_num)
      have hsh : resize_shrink n SC3_INT_BITS a.ealloc = some a.ealloc := by
        show (if Int.tdiv a.ealloc 2 ≥ n then _ else some a.ealloc) = _
        rw [if_neg (by rw [htd]; omega)]
      rw [if_neg hn0, hsh]
      show (if n ≠ 0 ∧ ¬ (a.ealloc > 0) then _ else _) = _
      rw [if_neg (by omega), if_neg (lt_irrefl _)]
    · rw [if_neg ht]
  refine ⟨?_, hgood, hbad⟩
  by_cases hr : 0 ≤ n ∧ n ≤ SC3_INT_HPOW
  · rw [hgood hr]
  · rw [hbad hr]

/-- Witness of C30, amended: an array with `tighten` set and capacity 4 is
resized from 2 to 3 elements and keeps its capacity. -/
theorem sc3_array_resize_frame_witness :
    sc3_array_is_resizable allocator_granting (int_array 1 1 2 4) ∧
    (3 : Int) ≤ (int_array 1 1 2 4).ealloc ∧
    ¬ ((int_array 1 1 2 4).tighten ≠ 0 ∧ (3 : Int) ≤ (int_array 1 1 2 4).ealloc / 2) ∧
    (sc3_array_resize allocator_granting (int_array 1 1 2 4) 3).2.ealloc =
      (int_array 1 1 2 4).ealloc ∧
    sc3_array_resize allocator_granting (int_array 1 1 2 4) 3 =
      (none, { int_array 1 1 2 4 with ecount := 3 }) :=
  ⟨by decide, by decide, by decide,
   (sc3_array_resize_frame allocator_granting (int_array 1 1 2 4) 3 (by decide) (by decide)
     (by decide)).1,
   (sc3_array_resize_frame allocator_granting (int_array 1 1 2 4) 3 (by decide) (by decide)
     (by decide)).2.1 (by decide)⟩

/-! ### The calls of `coarsen_fn` -/

theorem coarsen_window_getD (v : Nat → p4est_quadrant) (f zz : Nat) (hzz : zz < 8) :
    (coarsen_window v f).getD zz root_octant = v (f + zz) := by
  interval_cases zz <;> rfl

theorem coarsen_window_length (v : Nat → p4est_quadrant) (f : Nat) :
    (coarsen_window v f).length = P4EST_CHILDREN := by
  simp [coarsen_window]

theorem p4est_family_children (q : Nat → p4est_quadrant)
    (hf : p4est_quadrant_is_familypv q) (h0 : p4est_quadrant_child_id (q 0) = 0) :
    ∀ i : Nat, i < 8 →
      q i = p4est_quadrant_child (p4est_quadrant_parent (q 0)) (i : Int) := by
  intro i hi
  obtain ⟨hcid, hlev, hpar⟩ := p4est_family_child_ids q hf h0 i hi
  have hdec : ((i : Int)) = (i : Int) % 2 + 2 * ((i : Int) / 2 % 2) + 4 * ((i : Int) / 4 % 2) := by
    omega
  obtain ⟨hx, hy, hz⟩ := p4est_family_member_conv (q 0) (q i) ((i : Int) % 2)
    ((i : Int) / 2 % 2) ((i : Int) / 4 % 2) (by omega) (by omega) (by omega) h0 hlev
    (by rw [hcid]; exact hdec) hpar
  have hparent : p4est_quadrant_parent (q 0) =
      { x := (q 0).x, y := (q 0).y, z := (q 0).z, level := (q 0).level - 1 } := by
    have hb := p4est_quadrant_child_id_zero (q 0) h0
    unfold p4est_quadrant_parent
    rw [hb.1, hb.2.1, hb.2.2]
    simp
  rw [hparent]
  unfold p4est_quadrant_child
  have hl1 : (q 0).level - 1 + 1 = (q 0).level := by ring
  simp only [hl1]
  cases hq : q i with
  | mk x y z level =>
    rw [hq] at hx hy hz hlev
    simp only at hx hy hz hlev
    rw [hx, hy, hz, hlev]

theorem coarsen_invocation_window (v : Nat → p4est_quadrant) (f : Nat)
    (h : coarsen_is_family_at v f) : coarsen_invocation_family (coarsen_window v f) := by
  have hfun : (fun zz => (coarsen_window v f).getD zz root_octant) 0 = v (f + 0) :=
    coarsen_window_getD v f 0 (by norm_num)
  have hfam : p4est_quadrant_is_familypv
      (fun zz => (coarsen_window v f).getD zz root_octant) := by
    have h2 := h.2
    unfold p4est_quadrant_is_familypv at h2 ⊢
    simp only [coarsen_window_getD v f _ (show 0 < 8 by norm_num),
      coarsen_window_getD v f _ (show 1 < 8 by norm_num),
      coarsen_window_getD v f _ (show 2 < 8 by norm_num),
      coarsen_window_getD v f _ (show 3 < 8 by norm_num),
      coarsen_window_getD v f _ (show 4 < 8 by norm_num),
      coarsen_window_getD v f _ (show 5 < 8 by norm_num),
      coarsen_window_getD v f _ (show 6 < 8 by norm_num),
      coarsen_window_getD v f _ (show 7 < 8 by norm_num)]
    exact h2
  have h0 : p4est_quadrant_child_id ((coarsen_window v f).getD 0 root_octant) = 0 := by
    rw [coarsen_window_getD v f 0 (by norm_num)]
    exact h.1
  refine ⟨coarsen_window_length v f, hfam, h0, ?_⟩
  intro zz hzz
  exact p4est_family_children _ hfam h0 zz hzz

theorem coarsen_step_invoked (r : Bool) (fn : Nat → List p4est_quadrant → Bool)
    (s s1 : coarsen_state) (h : coarsen_inv r s) (hc : coarsen_continues s)
    (hs : coarsen_step r fn s = .ok s1) :
    (coarsen_is_family_at (coarsen_view s) s.first →
      s1.invoked = s.invoked ++
        [(coarsen_children s, fn s.invoked.length (coarsen_children s))]) ∧
    (¬ coarsen_is_family_at (coarsen_view s) s.first → s1.invoked = s.invoked) := by
  obtain ⟨tyes, tno1, tno2⟩ := coarsen_step_trace r fn s h hc
  constructor
  · intro hfam
    by_cases hfn : fn s.invoked.length (coarsen_children s) = true
    · have hstep := tyes ⟨hfam, hfn⟩
      rw [hs] at hstep
      obtain ⟨s2, hb, hg⟩ := except_map_ok _ _ _ hstep.symm
      obtain ⟨_, _, f3, _⟩ := coarsen_family_frame r _ s2 hb
      rw [← hg, hfn]
      exact f3
    · have hfn2 : fn s.invoked.length (coarsen_children s) = false := by simpa using hfn
      have hstep := tno1 ⟨hfam, hfn2⟩
      rw [hs] at hstep
      obtain ⟨s2, hb, hg⟩ := except_map_ok _ _ _ hstep.symm
      obtain ⟨_, _, f3, _⟩ := coarsen_advance_frame _ s2 hb
      rw [← hg, hfn2]
      exact f3
  · intro hnf
    have hstep := tno2 hnf
    rw [hs] at hstep
    obtain ⟨s2, hb, hg⟩ := except_map_ok _ _ _ hstep.symm
    obtain ⟨_, _, f3, _⟩ := coarsen_advance_frame _ s2 hb
    rw [← hg]
    exact f3

theorem coarsen_family_slot (r : Bool) (s s1 : coarsen_state)
    (h : coarsen_family r s = .ok s1) (hidx : coarsen_candidate_index s 0 = s.first)
    (hf : s.first + 1 < 2 ^ 64) :
    s1.quadrants s.first = p4est_quadrant_parent (coarsen_candidate s 0) := by
  have hw : size_t_wrap ((s.first : Int) + 1) = s.first + 1 :=
    size_t_wrap_eq _ _ (by push_cast; ring) hf
  cases r
  · simp only [coarsen_family, coarsen_move, Bool.false_eq_true, ↓reduceIte, hidx, hw] at h
    split at h
    · split at h
      · simp only [Except.map] at h
        cases h
        show Function.update (Function.update s.quadrants s.first _) (s.first + 1) _ s.first = _
        rw [Function.update_noteq (by omega), Function.update_same]
      · simp [Except.map] at h
    · cases h
      show Function.update s.quadrants s.first _ s.first = _
      rw [Function.update_same]
  · simp only [coarsen_family, ↓reduceIte, hidx] at h
    cases h
    show Function.update s.quadrants s.first _ s.first = _
    rw [Function.update_same]

theorem coarsen_reached_inv (r : Bool) (fn : Nat → List p4est_quadrant → Bool)
    (s0 s : coarsen_state) (h0 : coarsen_inv r s0) (h : coarsen_reached r fn s0 s) :
    coarsen_inv r s ∧ s.incount = s0.incount := by
  induction h with
  | start => exact ⟨h0, rfl⟩
  | round s s1 _ hc hs ih =>
    obtain ⟨s2, heq, hinv, hn, _, _⟩ := coarsen_step_spec r fn s ih.1 hc
    rw [hs] at heq
    cases heq
    exact ⟨hinv, by rw [hn, ih.2]⟩

theorem coarsen_reached_empty (r : Bool) (fn : Nat → List p4est_quadrant → Bool)
    (quadrants : Nat → p4est_quadrant) (per : Int → Int) (loc : Int) (s : coarsen_state)
    (h : coarsen_reached r fn (coarsen_init quadrants 0 per loc) s) :
    ¬ coarsen_continues s := by
  induction h with
  | start =>
    intro hx
    have h0 : size_t_wrap (((1 : Nat) : Int) + 8 - 1 - ((1 : Nat) : Int)) < 0 := hx
    omega
  | round s s1 _ hc _ ih => exact absurd hc ih

/-- C31: for every array of `n` octants (with `n + 8 < 2 ^ 64`), both kinds
of sweep, every `coarsen_fn` and a loop bound of at least `8 * n`: the sweep
returns, and the eight candidates of every call of `coarsen_fn` in it pass
`p4est_quadrant_is_familypv`, the first of them has the child index 0, and
they are the eight children of the parent of the first in the order of the
child index. And in every round of the loop either `coarsen_fn` is not called,
or it is called once with such candidates, and when it accepts them the first
candidate is at the index `first` and the round leaves the parent of the first
candidate there. -/
theorem coarsen_fn_families (r : Bool) (fn : Nat → List p4est_quadrant → Bool)
    (fuel : Nat) (quadrants : Nat → p4est_quadrant) (n : Nat) (per : Int → Int) (loc : Int)
    (hn : n + 8 < 2 ^ 64) (hfuel : 8 * n ≤ fuel) :
    (∃ s, coarsen_tree r fn fuel quadrants n per loc = .ok s ∧
      ∀ cb, cb ∈ s.invoked → coarsen_invocation_family cb.1) ∧
    ∀ s, coarsen_reached r fn (coarsen_init quadrants n per loc) s → coarsen_continues s →
      ∃ s1, coarsen_step r fn s = .ok s1 ∧
        (s1.invoked = s.invoked ∨
          (s1.invoked = s.invoked ++
              [(coarsen_children s, fn s.invoked.length (coarsen_children s))] ∧
            coarsen_invocation_family (coarsen_children s) ∧
            (fn s.invoked.length (coarsen_children s) = true →
              coarsen_candidate_index s 0 = s.first ∧
              s1.quadrants s.first = p4est_quadrant_parent (coarsen_candidate s 0)))) := by
  have hround : ∀ s, coarsen_inv r s → coarsen_continues s →
      ∃ s1, coarsen_step r fn s = .ok s1 ∧
        (s1.invoked = s.invoked ∨
          (s1.invoked = s.invoked ++
              [(coarsen_children s, fn s.invoked.length (coarsen_children s))] ∧
            coarsen_invocation_family (coarsen_children s) ∧
            (fn s.invoked.length (coarsen_children s) = true →
              coarsen_candidate_index s 0 = s.first ∧
              s1.quadrants s.first = p4est_quadrant_parent (coarsen_candidate s 0)))) := by
    intro s h hc
    obtain ⟨s1, hs, _, _, _, _⟩ := coarsen_step_spec r fn s h hc
    obtain ⟨iyes, ino⟩ := coarsen_step_invoked r fn s s1 h hc hs
    refine ⟨s1, hs, ?_⟩
    by_cases hfam : coarsen_is_family_at (coarsen_view s) s.first
    · refine Or.inr ⟨iyes hfam, ?_, ?_⟩
      · rw [coarsen_children_eq r s h]
        exact coarsen_invocation_window _ _ hfam
      · intro hfn
        have hb : 0 < s.before := by have := h.2.2.2.1; omega
        have hidx : coarsen_candidate_index s 0 = s.first := by
          rw [coarsen_candidate_index_eq r s h 0 (by norm_num), if_pos hb]
          rfl
        refine ⟨hidx, ?_⟩
        obtain ⟨tyes, _, _⟩ := coarsen_step_trace r fn s h hc
        have hstep := tyes ⟨hfam, hfn⟩
        rw [hs] at hstep
        obtain ⟨s2, hb2, hg⟩ := except_map_ok _ _ _ hstep.symm
        have hslot := coarsen_family_slot r
          { s with invoked := s.invoked ++ [(coarsen_children s, true)] } s2 hb2 hidx
          (by
            show s.first + 1 < 2 ^ 64
            have h1 := h.1
            have h2 := h.2.1
            have h3 := h.2.2.1
            have h7 := h.2.2.2.2.2.2.1
            omega)
        rw [← hg]
        exact hslot
    · exact Or.inl (ino hfam)
  rcases Nat.eq_zero_or_pos n with hn0 | hn0
  · subst hn0
    refine ⟨⟨_, coarsen_tree_empty r fn fuel quadrants per loc, ?_⟩, ?_⟩
    · intro cb hcb
      exact absurd hcb (List.not_mem_nil cb)
    · intro s hs hc
      exact absurd hc (coarsen_reached_empty r fn quadrants per loc s hs)
  · obtain ⟨hinv0, hcnt0, _, hf0, hin0⟩ := coarsen_init_inv r quadrants n per loc hn0 hn
    refine ⟨?_, fun s hs hc =>
      hround s (coarsen_reached_inv r fn _ s hinv0 hs).1 hc⟩
    obtain ⟨s1, hloop, hinv1, hI1, _, hn1⟩ := coarsen_loop_spec r fn
      (fun s => ∀ cb, cb ∈ s.invoked → coarsen_invocation_family cb.1)
      (fun s s1 h hi hc hs => by
        show ∀ cb, cb ∈ s1.invoked → coarsen_invocation_family cb.1
        obtain ⟨s2, hs2, hor⟩ := hround s h hc
        rw [hs] at hs2
        cases hs2
        intro cb hcb
        rcases hor with heq | ⟨heq, hfam, _⟩
        · rw [heq] at hcb
          exact hi cb hcb
        · rw [heq, List.mem_append, List.mem_singleton] at hcb
          rcases hcb with hcb | hcb
          · exact hi cb hcb
          · rw [hcb]
            exact hfam)
      fuel _ hinv0
      (fun cb hcb => absurd hcb (List.not_mem_nil cb))
      (by rw [hcnt0, hf0]; omega)
    obtain ⟨s3, hfin, _, _, _, _, _, _⟩ := coarsen_finish_spec r fuel s1 hinv1
      (by rw [hn1, hin0]; omega)
    have hinv3 := coarsen_finish_invoked fuel s1 s3 hfin
    refine ⟨s3, ?_, ?_⟩
    · simp only [coarsen_tree, hloop]
      exact hfin
    · rw [hinv3]
      exact hI1

/-- Witness of C31: the recursive sweep over the eight children of the root
with a `coarsen_fn` that accepts every family. -/
theorem coarsen_fn_families_witness :
    ∃ s, coarsen_tree true (fun _ _ => true) 64 (uniform_octant 1) 8 (fun _ => 0) 8 = .ok s ∧
      ∀ cb, cb ∈ s.invoked → coarsen_invocation_family cb.1 :=
  (coarsen_fn_families true (fun _ _ => true) 64 (uniform_octant 1) 8 (fun _ => 0) 8
    (by norm_num) (by norm_num)).1

/-! ### The invariant of the loop of the sweep -/

/-- C32 as stated fails for an empty array: the loop is left at once, in the
state of the start, with `rest = 1` and `incount = 0`. -/
theorem coarsen_loop_invariant_counterexample :
    ¬ coarsen_continues (coarsen_init (fun _ => root_octant) 0 (fun _ => 0) 0) ∧
    coarsen_loop true (fun _ _ => true) 0 (coarsen_init (fun _ => root_octant) 0 (fun _ => 0) 0) =
      .ok (coarsen_init (fun _ => root_octant) 0 (fun _ => 0) 0) ∧
    coarsen_reached true (fun _ _ => true) (coarsen_init (fun _ => root_octant) 0 (fun _ => 0) 0)
      (coarsen_init (fun _ => root_octant) 0 (fun _ => 0) 0) ∧
    ¬ ((coarsen_init (fun _ => root_octant) 0 (fun _ => 0) 0).rest ≤
      (coarsen_init (fun _ => root_octant) 0 (fun _ => 0) 0).incount) :=
  ⟨by decide, by unfold coarsen_loop; rw [if_neg (by decide)], coarsen_reached.start,
    by decide⟩

/-- C32, amended: for every array of `n >= 1` octants (with `n + 8 < 2 ^ 64`),
both kinds of sweep, every `coarsen_fn` and a loop bound of at least `8 * n`:
in every state at the head of the loop, `first <= last < rest <= incount`,
`before = last - first + 1`, `1 <= before <= 8`, the expression
`rest + 8 - 1 - before` is in the range of `size_t`, and in the sweep that is
not recursive `first = last` and `before = 1`; when the condition of the loop
holds, the indices of the eight candidates are below `incount` and the round
returns, so no index in it is out of range. And the loop returns, in a state at
the head of the loop in which its condition fails; from there the rest of the
sweep, with the drain, returns as well. -/
theorem coarsen_loop_invariant (r : Bool) (fn : Nat → List p4est_quadrant → Bool)
    (fuel : Nat) (quadrants : Nat → p4est_quadrant) (n : Nat) (per : Int → Int) (loc : Int)
    (hn0 : 0 < n) (hn : n + 8 < 2 ^ 64) (hfuel : 8 * n ≤ fuel) :
    (∀ s, coarsen_reached r fn (coarsen_init quadrants n per loc) s →
      s.incount = n ∧ s.elem_count = n ∧
      s.first ≤ s.last ∧ s.last < s.rest ∧ s.rest ≤ s.incount ∧
      s.before = s.last - s.first + 1 ∧ 1 ≤ s.before ∧ s.before ≤ P4EST_CHILDREN ∧
      (0 ≤ (s.rest : Int) + 8 - 1 - s.before ∧ (s.rest : Int) + 8 - 1 - s.before < 2 ^ 64) ∧
      (r = false → s.first = s.last ∧ s.before = 1) ∧
      (coarsen_continues s →
        (∀ zz, zz < P4EST_CHILDREN → coarsen_candidate_index s zz < s.incount) ∧
        ∃ s1, coarsen_step r fn s = .ok s1)) ∧
    ∃ s1, coarsen_loop r fn fuel (coarsen_init quadrants n per loc) = .ok s1 ∧
      coarsen_reached r fn (coarsen_init quadrants n per loc) s1 ∧
      ¬ coarsen_continues s1 ∧
      ∃ s3, coarsen_finish fuel s1 = .ok s3 ∧
        coarsen_tree r fn fuel quadrants n per loc = .ok s3 := by
  obtain ⟨hinv0, hcnt0, _, hf0, hin0⟩ := coarsen_init_inv r quadrants n per loc hn0 hn
  constructor
  · intro s hs
    obtain ⟨hinv, hinc⟩ := coarsen_reached_inv r fn _ s hinv0 hs
    rw [hin0] at hinc
    obtain ⟨h1, h2, h3, h4, h5, h6, h7, h8⟩ := hinv
    refine ⟨hinc, by rw [h6, hinc], h1, h2, h3, h4, by omega, h5, ⟨by omega, by omega⟩, ?_, ?_⟩
    · intro hr
      have := h8 hr
      exact ⟨this, by omega⟩
    · intro hc
      have hinv : coarsen_inv r s := ⟨h1, h2, h3, h4, h5, h6, h7, h8⟩
      refine ⟨fun zz hzz => ?_, ?_⟩
      · have := coarsen_candidate_index_lt r s hinv hc zz hzz
        rw [h6] at this
        exact this
      · obtain ⟨s1, hs1, _⟩ := coarsen_step_spec r fn s hinv hc
        exact ⟨s1, hs1⟩
  · obtain ⟨s1, hloop, hinv1, hI1, hnc, hn1⟩ := coarsen_loop_spec r fn
      (coarsen_reached r fn (coarsen_init quadrants n per loc))
      (fun s s1 _ hi hc hs => coarsen_reached.round s s1 hi hc hs)
      fuel _ hinv0 coarsen_reached.start (by rw [hcnt0, hf0]; omega)
    obtain ⟨s3, hfin, _⟩ := coarsen_finish_spec r fuel s1 hinv1 (by rw [hn1, hin0]; omega)
    refine ⟨s1, hloop, hI1, hnc, s3, hfin, ?_⟩
    simp only [coarsen_tree, hloop]
    exact hfin

/-- Witness of C32, amended: the sweep that is not recursive over the eight
children of the root. -/
theorem coarsen_loop_invariant_witness :
    ∃ s1, coarsen_loop false (fun _ _ => true) 64
        (coarsen_init (uniform_octant 1) 8 (fun _ => 0) 8) = .ok s1 ∧
      coarsen_reached false (fun _ _ => true) (coarsen_init (uniform_octant 1) 8 (fun _ => 0) 8)
        s1 ∧
      ¬ coarsen_continues s1 ∧
      ∃ s3, coarsen_finish 64 s1 = .ok s3 ∧
        coarsen_tree false (fun _ _ => true) 64 (uniform_octant 1) 8 (fun _ => 0) 8 = .ok s3 :=
  (coarsen_loop_invariant false (fun _ _ => true) 64 (uniform_octant 1) 8 (fun _ => 0) 8
    (by norm_num) (by norm_num) (by norm_num)).2

/-! ### Capacity and count with `tighten` -/

theorem is_least_pow2_ge_self {x : Int} (h : SC3_ISPOWOF2 x) : is_least_pow2_ge x x := by
  obtain ⟨k, _, rfl⟩ := h
  refine ⟨k, rfl, le_refl _, ?_⟩
  intro i hi
  by_contra hc
  have hlt : i < k := by omega
  have : (2 : Int) ^ i < 2 ^ k := pow_lt_pow_right₀ (by norm_num) hlt
  omega

theorem sc3_array_resize_tracks (al : sc3_allocator) (a : sc3_array) (n : Int)
    (ht : a.tighten ≠ 0) (hok : (sc3_array_resize al a n).1 = none) :
    (sc3_array_resize al a n).2.ecount = n ∧
    sc3_array_capacity_tracks (sc3_array_resize al a n).2 := by
  obtain ⟨hres, h0, _, _, _, _, _, _, _, hc, hcap, _⟩ := sc3_array_resize_ok al a n hok
  have hset := (sc3_array_is_setup_iff al a).mp hres.1
  obtain ⟨_, _, _, hea, _, _, hpow, _⟩ := hset
  refine ⟨hc, ?_⟩
  unfold sc3_array_capacity_tracks
  rw [hc]
  rcases hcap with ⟨hor, hl, _⟩ | ⟨_, _, hn, he⟩ | ⟨hor, hle, he, _⟩
  · refine ⟨fun hn => ?_, fun _ => hl⟩
    rcases hor with h | h
    · omega
    · exact absurd hn h.2.2
  · exact ⟨fun _ => he, fun h => absurd hn h⟩
  · rcases hor with h | h
    · exact absurd h ht
    · rw [he]
      refine ⟨fun hn => by omega, fun hn => ?_⟩
      rcases hpow with hz | hp
      · omega
      · rw [h]
        exact is_least_pow2_ge_self hp

/-- C33: for every array with `tighten` set: after a successful
`sc3_array_resize (n)` the count is `n`, and after a successful resize, a
successful `sc3_array_push_count` of `n > 0` elements, a successful
`sc3_array_push` and a successful `sc3_array_pop` the capacity is 0 when the
new count is 0 and otherwise the smallest power of two that is at least the
new count (a call succeeds on a resizable array only, whose capacity is 0 or a
power of two). -/
theorem sc3_array_tighten_tracks (al : sc3_allocator) (a : sc3_array) (ht : a.tighten ≠ 0) :
    (∀ n, (sc3_array_resize al a n).1 = none →
      sc3_array_is_resizable al a ∧ (a.ealloc = 0 ∨ SC3_ISPOWOF2 a.ealloc) ∧
      (sc3_array_resize al a n).2.ecount = n ∧
      sc3_array_capacity_tracks (sc3_array_resize al a n).2) ∧
    (∀ n ptr, 0 < n → (sc3_array_push_count al a n ptr).1 = none →
      sc3_array_capacity_tracks (sc3_array_push_count al a n ptr).2.1) ∧
    (∀ ptr, (sc3_array_push al a ptr).1 = none →
      (sc3_array_push al a ptr).2.1.ecount = a.ecount + 1 ∧
      sc3_array_capacity_tracks (sc3_array_push al a ptr).2.1) ∧
    ((sc3_array_pop al a).1 = none →
      (sc3_array_pop al a).2.ecount = a.ecount - 1 ∧
      sc3_array_capacity_tracks (sc3_array_pop al a).2) := by
  have hpc : ∀ n ptr, 0 < n → (sc3_array_push_count al a n ptr).1 = none →
      (sc3_array_push_count al a n ptr).2.1.ecount = int_wrap (a.ecount + n) ∧
      sc3_array_capacity_tracks (sc3_array_push_count al a n ptr).2.1 := by
    intro n ptr hn hok
    obtain ⟨_, _, _, hor⟩ := sc3_array_push_count_ok al a n ptr hok
    rcases hor with ⟨h0, _⟩ | ⟨_, hr, heq⟩
    · omega
    · rw [heq]
      exact sc3_array_resize_tracks al a _ ht hr
  refine ⟨?_, fun n ptr hn hok => (hpc n ptr hn hok).2, ?_, ?_⟩
  · intro n hok
    obtain ⟨hres, _⟩ := sc3_array_resize_ok al a n hok
    have hset := (sc3_array_is_setup_iff al a).mp hres.1
    exact ⟨hres, hset.2.2.2.2.2.2.1, sc3_array_resize_tracks al a n ht hok⟩
  · intro ptr hok
    obtain ⟨h1, h2⟩ := hpc 1 ptr (by norm_num) hok
    refine ⟨?_, h2⟩
    obtain ⟨hres, _, _, _⟩ := sc3_array_push_count_ok al a 1 ptr hok
    have hset := (sc3_array_is_setup_iff al a).mp hres.1
    obtain ⟨_, _, hec, hea, _, _, hpow, hle⟩ := hset
    have hb : a.ealloc ≤ 2 ^ 30 := by
      rcases hpow with hz | hp
      · rw [hz]; norm_num
      · exact (SC3_ISPOWOF2_bounds hp).2
    show (sc3_array_push_count al a 1 ptr).2.1.ecount = a.ecount + 1
    rw [h1]
    norm_num at hb
    exact int_wrap_of_range _ (by norm_num; omega) (by norm_num; omega)
  · intro hok
    obtain ⟨_, _, heq⟩ := sc3_array_pop_ok al a hok
    rw [heq] at hok ⊢
    exact sc3_array_resize_tracks al a _ ht hok

/-- Witness of C33: a push onto a freshly set-up array with `tighten`, which
has the capacity 8 and the count 0, succeeds and lowers the capacity to 1. -/
theorem sc3_array_tighten_tracks_witness :
    fresh_tighten_array.tighten ≠ 0 ∧
    fresh_tighten_array.ealloc = 8 ∧ fresh_tighten_array.ecount = 0 ∧
    (sc3_array_push allocator_granting fresh_tighten_array (some 0)).1 = none ∧
    (sc3_array_push allocator_granting fresh_tighten_array (some 0)).2.1.ecount = 1 ∧
    (sc3_array_push allocator_granting fresh_tighten_array (some 0)).2.1.ealloc = 1 ∧
    sc3_array_capacity_tracks
      (sc3_array_push allocator_granting fresh_tighten_array (some 0)).2.1 :=
  ⟨by decide, by decide, by decide, by decide, by decide, by decide,
   ((sc3_array_tighten_tracks allocator_granting fresh_tighten_array (by decide)).2.2.1
     (some 0) (by decide)).2⟩

/-! ### The array that was not made resizable -/

theorem sc3_array_setting_run_resizable (al : sc3_allocator) (a : sc3_array)
    (c : sc3_array_setting) (hc : ∀ i, c = .resizable i → i = 0) (hr : a.resizable = 0) :
    (sc3_array_setting_run al a c).2.resizable = 0 := by
  cases c with
  | elem_size esize =>
    simp only [sc3_array_setting_run, sc3_array_set_elem_size]
    split <;> exact hr
  | elem_count ecount =>
    simp only [sc3_array_setting_run, sc3_array_set_elem_count]
    split
    · exact hr
    · split <;> exact hr
  | elem_alloc ealloc =>
    simp only [sc3_array_setting_run, sc3_array_set_elem_alloc]
    split
    · exact hr
    · split <;> exact hr
  | initzero initzero =>
    simp only [sc3_array_setting_run, sc3_array_set_initzero]
    split <;> exact hr
  | resizable i =>
    have hi : i = 0 := hc i rfl
    simp only [sc3_array_setting_run, sc3_array_set_resizable]
    split
    · exact hr
    · exact hi
  | tighten tighten =>
    simp only [sc3_array_setting_run, sc3_array_set_tighten]
    split <;> exact hr

theorem sc3_array_settings_run_resizable (al : sc3_allocator) :
    ∀ (cs : List sc3_array_setting) (a a1 : sc3_array),
      (∀ i, sc3_array_setting.resizable i ∈ cs → i = 0) → a.resizable = 0 →
      sc3_array_settings_run al cs a = some a1 → a1.resizable = 0 := by
  intro cs
  induction cs with
  | nil =>
    intro a a1 _ hr h
    simp only [sc3_array_settings_run, Option.some.injEq] at h
    rw [← h]
    exact hr
  | cons c cs ih =>
    intro a a1 hc hr h
    have h1 := sc3_array_setting_run_resizable al a c
      (fun i hi => hc i (by rw [hi]; exact List.mem_cons_self _ _)) hr
    simp only [sc3_array_settings_run] at h
    split at h
    · rename_i a2 heq
      rw [heq] at h1
      exact ih a2 a1 (fun i hi => hc i (List.mem_cons_of_mem _ hi)) h1 h
    · cases h

theorem sc3_array_rejects_of_not_resizable (al : sc3_allocator) (a : sc3_array)
    (hr : ¬ sc3_array_is_resizable al a) (n : Int) (ptr : Option Nat) :
    sc3_array_resize al a n = (some .bug, a) ∧
    sc3_array_push_count al a n ptr = (some .bug, a, ptr) ∧
    sc3_array_push al a ptr = (some .bug, a, ptr) ∧
    sc3_array_pop al a = (some .bug, a) := by
  refine ⟨?_, ?_, ?_, ?_⟩
  · unfold sc3_array_resize
    rw [if_pos hr]
  · unfold sc3_array_push_count
    rw [if_pos hr]
  · unfold sc3_array_push sc3_array_push_count
    rw [if_pos hr]
  · unfold sc3_array_pop
    rw [if_pos hr]

/-- C34: for every allocator and every sequence of successful configuring
calls on the array of `sc3_array_new` in which `sc3_array_set_resizable` is
called, if at all, with 0 only, followed by a successful `sc3_array_setup`: the
array is set up and `sc3_array_is_resizable` is false, so
`sc3_array_resize`, `sc3_array_push_count`, `sc3_array_push` and
`sc3_array_pop` return an error for every argument and leave the array as it
is, while `sc3_array_ref` succeeds and adds one reference. -/
theorem sc3_array_default_unresizable (al : sc3_allocator) (cs : List sc3_array_setting)
    (a1 : sc3_array) (hcs : ∀ i, sc3_array_setting.resizable i ∈ cs → i = 0)
    (hrun : sc3_array_settings_run al cs sc3_array_new_value = some a1)
    (hsetup : (sc3_array_setup al a1).1 = none) :
    sc3_array_new_value.initzero = 0 ∧ sc3_array_new_value.resizable = 0 ∧
    sc3_array_new_value.tighten = 0 ∧
    sc3_array_is_setup al (sc3_array_setup al a1).2 ∧
    ¬ sc3_array_is_resizable al (sc3_array_setup al a1).2 ∧
    (∀ n ptr,
      sc3_array_resize al (sc3_array_setup al a1).2 n = (some .bug, (sc3_array_setup al a1).2) ∧
      sc3_array_push_count al (sc3_array_setup al a1).2 n ptr =
        (some .bug, (sc3_array_setup al a1).2, ptr) ∧
      sc3_array_push al (sc3_array_setup al a1).2 ptr =
        (some .bug, (sc3_array_setup al a1).2, ptr) ∧
      sc3_array_pop al (sc3_array_setup al a1).2 = (some .bug, (sc3_array_setup al a1).2)) ∧
    sc3_array_ref al (sc3_array_setup al a1).2 =
      (none, { (sc3_array_setup al a1).2 with
        rc := { rc := (sc3_array_setup al a1).2.rc.rc + 1 } }) := by
  have hr1 : a1.resizable = 0 :=
    sc3_array_settings_run_resizable al cs sc3_array_new_value a1 hcs rfl hrun
  obtain ⟨_, hset, _, _, hres, _⟩ := sc3_array_setup_ok al a1 hsetup
  have hr2 : (sc3_array_setup al a1).2.resizable = 0 := by rw [hres]; exact hr1
  have hnr : ¬ sc3_array_is_resizable al (sc3_array_setup al a1).2 := fun hx => hx.2 hr2
  refine ⟨rfl, rfl, rfl, hset, hnr,
    fun n ptr => sc3_array_rejects_of_not_resizable al _ hnr n ptr, ?_⟩
  have hun : sc3_array_is_unresizable al (sc3_array_setup al a1).2 := ⟨hset, hr2⟩
  have hrc : sc3_refcount_is_valid (sc3_array_setup al a1).2.rc := hset.1.1
  unfold sc3_array_ref
  rw [if_neg (not_not.2 hun)]
  unfold sc3_refcount_ref
  rw [if_neg (not_not.2 hrc)]

/-- Witness of C34: the array of `sc3_array_new` with the element size 4, set
up with an allocator that grants every request. -/
theorem sc3_array_default_unresizable_witness :
    sc3_array_settings_run allocator_granting [.elem_size 4] sc3_array_new_value =
      some (sc3_array_set_elem_size allocator_granting sc3_array_new_value 4).2 ∧
    ¬ sc3_array_is_resizable allocator_granting
      (sc3_array_setup allocator_granting
        (sc3_array_set_elem_size allocator_granting sc3_array_new_value 4).2).2 ∧
    (sc3_array_push allocator_granting
      (sc3_array_setup allocator_granting
        (sc3_array_set_elem_size allocator_granting sc3_array_new_value 4).2).2 (some 0)).1 =
      some .bug :=
  ⟨by decide,
   (sc3_array_default_unresizable allocator_granting [.elem_size 4]
     (sc3_array_set_elem_size allocator_granting sc3_array_new_value 4).2
     (fun i hi => by simp at hi) (by decide) (by decide)).2.2.2.2.1,
   by decide⟩

/-! ### The split without the order of the types -/

theorem split_probe_ord (al : sc3_allocator) (offsets : sc3_array) (T : Int)
    (type_fn : Int → Option Int) (ty : Int → Int) (N : Int)
    (hset : sc3_array_is_setup al offsets) (hcnt : offsets.ecount = T + 1)
    (hty : ∀ j, 0 ≤ j → j < N → type_fn j = some (ty j) ∧ ty j < T)
    (low high step : Int) (cells : Int → Int)
    (hinv : split_ord N T low high step cells) (hlt : low < high) :
    0 ≤ low + Int.tdiv (high - low) 2 ∧ low + Int.tdiv (high - low) 2 < N ∧
    ∃ low1 high1 cells1,
      split_probe al offsets T type_fn low high step cells = (none, low1, high1, cells1) ∧
      split_ord N T low1 high1 step cells1 ∧ high1 - low1 < high - low := by
  obtain ⟨hs1, hsT, hl0, _, hhN, hhc, hc0, hcT, hbelow, habove, hmono⟩ := hinv
  have htd : Int.tdiv (high - low) 2 = (high - low) / 2 :=
    Int.tdiv_eq_ediv (by omega) (by norm_num)
  have hg0 : low ≤ low + (high - low) / 2 := by omega
  have hg1 : low + (high - low) / 2 < high := by omega
  rw [htd]
  refine ⟨by omega, by omega, ?_⟩
  generalize hgd : low + (high - low) / 2 = g at hg0 hg1
  obtain ⟨hfn, htT⟩ := hty g (by omega) (by omega)
  have key : split_probe al offsets T type_fn low high step cells =
      if ty g < step then (none, g + 1, high, cells)
      else
        match split_store_range al offsets g step (ty g) cells with
        | (some e, cells1) => (some e, low, high, cells1)
        | (none, cells1) => (none, low, g, cells1) := by
    simp only [split_probe, htd, hgd, hfn, htT, not_true_eq_false, if_false]
    try rfl
  rw [key]
  by_cases hts : ty g < step
  · rw [if_pos hts]
    refine ⟨g + 1, high, cells, rfl,
      ⟨hs1, hsT, by omega, by omega, hhN, hhc, hc0, hcT, ?_, ?_, hmono⟩, by omega⟩
    · intro i hi0 hi1
      have := hbelow i hi0 hi1
      omega
    · intro i hi0 hi1
      have := hmono step i (by omega) hi0 hi1
      omega
  · rw [if_neg hts]
    obtain ⟨cells1, he, hc⟩ := split_store_range_spec al offsets g step (ty g) cells hset
      (by omega) (by rw [hcnt]; omega) (by omega)
    rw [he]
    refine ⟨low, g, cells1, rfl, ⟨hs1, hsT, hl0, hg0, by omega, ?_, ?_, ?_, ?_, ?_, ?_⟩,
      by omega⟩
    · rw [hc step, if_pos ⟨le_refl _, by omega⟩]
    · rw [hc 0, if_neg (by omega)]
      exact hc0
    · rw [hc T, if_neg (by omega)]
      exact hcT
    · intro i hi0 hi1
      rw [hc i, if_neg (by omega)]
      exact hbelow i hi0 hi1
    · intro i hi0 hi1
      rw [hc i]
      by_cases hit : step ≤ i ∧ i ≤ ty g
      · rw [if_pos hit]
        exact hg0
      · rw [if_neg hit]
        exact habove i hi0 hi1
    · intro i j hi0 hij hjT
      rw [hc i, hc j]
      by_cases hi : step ≤ i ∧ i ≤ ty g
      · rw [if_pos hi]
        by_cases hj : step ≤ j ∧ j ≤ ty g
        · rw [if_pos hj]
        · rw [if_neg hj]
          have := hmono step j (by omega) (by omega) hjT
          omega
      · rw [if_neg hi]
        by_cases hj : step ≤ j ∧ j ≤ ty g
        · rw [if_pos hj]
          have := hbelow i hi0 (by omega)
          omega
        · rw [if_neg hj]
          exact hmono i j hi0 hij hjT

theorem split_advance_ord (al : sc3_allocator) (offsets : sc3_array) (T N : Int)
    (hset : sc3_array_is_setup al offsets) (hcnt : offsets.ecount = T + 1)
    (low : Int) (cells : Int → Int) :
    ∀ (k : Nat) (high step : Int), split_ord N T low high step cells →
      (split_advance al offsets T cells low k high step = .finished ∧
        cells 0 = 0 ∧ cells T = N ∧ ∀ i j, 0 ≤ i → i ≤ j → j ≤ T → cells i ≤ cells j) ∨
      (∃ high2 step2, split_advance al offsets T cells low k high step = .again high2 step2 ∧
        split_ord N T low high2 step2 cells ∧ low < high2 ∧
        split_measure N T low high2 step2 ≤ split_measure N T low high step) ∨
      (split_advance al offsets T cells low k high step = .fail .unfinished ∧
        (k : Int) < T - step) := by
  intro k
  induction k with
  | zero =>
    intro high step hinv
    obtain ⟨hs1, hsT, hl0, hlh, hhN, hhc, hc0, hcT, hbelow, habove, hmono⟩ := hinv
    by_cases heq : low = high
    · right; right
      refine ⟨by simp only [split_advance, heq, if_true], ?_⟩
      push_cast
      omega
    · right; left
      exact ⟨high, step, by simp only [split_advance, heq, if_false],
        ⟨hs1, hsT, hl0, hlh, hhN, hhc, hc0, hcT, hbelow, habove, hmono⟩, by omega, le_refl _⟩
  | succ k ih =>
    intro high step hinv
    obtain ⟨hs1, hsT, hl0, hlh, hhN, hhc, hc0, hcT, hbelow, habove, hmono⟩ := hinv
    by_cases heq : low = high
    · have hidx := sc3_array_index_ok al offsets (step + 1) 0 hset (by omega)
        (by rw [hcnt]; omega)
      by_cases hT : step + 1 = T
      · left
        exact ⟨by simp only [split_advance, heq, if_true, hidx]; rw [if_pos hT],
          hc0, hcT, hmono⟩
      · have hup := habove (step + 1) (by omega) (by omega)
        have hle : cells (step + 1) ≤ N := by
          have := hmono (step + 1) T (by omega) (by omega) (le_refl _)
          omega
        have hinv2 : split_ord N T low (cells (step + 1)) (step + 1) cells := by
          refine ⟨by omega, by omega, hl0, hup, hle, rfl, hc0, hcT, ?_, ?_, hmono⟩
          · intro i hi0 hi1
            by_cases h1 : i < step
            · exact hbelow i hi0 h1
            · have h2 : i = step := by omega
              rw [h2, ← hhc, heq]
          · intro i hi0 hi1
            exact habove i (by omega) hi1
        have hm : split_measure N T low (cells (step + 1)) (step + 1)
            ≤ split_measure N T low high step := by
          unfold split_measure
          nlinarith
        rcases ih (cells (step + 1)) (step + 1) hinv2 with
          ⟨he, hpost⟩ | ⟨h2, s2, he, hi2, hl2, hm2⟩ | ⟨he, hk⟩
        · left
          refine ⟨?_, hpost⟩
          simp only [split_advance, heq, if_true, hidx]
          rw [if_neg hT, ← heq]; exact he
        · right; left
          refine ⟨h2, s2, ?_, hi2, hl2, le_trans hm2 hm⟩
          simp only [split_advance, heq, if_true, hidx]
          rw [if_neg hT, ← heq]; exact he
        · right; right
          refine ⟨?_, by push_cast; omega⟩
          simp only [split_advance, heq, if_true, hidx]
          rw [if_neg hT, ← heq]; exact he
    · right; left
      exact ⟨high, step, by simp only [split_advance, heq, if_false],
        ⟨hs1, hsT, hl0, hlh, hhN, hhc, hc0, hcT, hbelow, habove, hmono⟩, by omega, le_refl _⟩

theorem split_loop_ord (al : sc3_allocator) (offsets : sc3_array) (T : Int)
    (type_fn : Int → Option Int) (ty : Int → Int) (N : Int)
    (hset : sc3_array_is_setup al offsets) (hcnt : offsets.ecount = T + 1) (hN : 0 ≤ N)
    (hty : ∀ j, 0 ≤ j → j < N → type_fn j = some (ty j) ∧ ty j < T) :
    ∀ (fuel : Nat) (low high step : Int) (cells : Int → Int),
      split_ord N T low high step cells → low < high →
      split_measure N T low high step < fuel →
      ∃ cells2, split_loop al offsets T type_fn fuel low high step cells = (none, cells2) ∧
        cells2 0 = 0 ∧ cells2 T = N ∧
        ∀ i j, 0 ≤ i → i ≤ j → j ≤ T → cells2 i ≤ cells2 j := by
  intro fuel
  induction fuel with
  | zero =>
    intro low high step cells hinv hlt hm
    obtain ⟨_, hsT, _⟩ := hinv
    unfold split_measure at hm
    push_cast at hm
    nlinarith
  | succ fuel ih =>
    intro low high step cells hinv hlt hm
    have hsT : step < T := hinv.2.1
    obtain ⟨_, _, low1, high1, cells1, hp, hinv1, hd⟩ :=
      split_probe_ord al offsets T type_fn ty N hset hcnt hty low high step cells hinv hlt
    have hlh1 : low1 ≤ high1 := hinv1.2.2.2.1
    have hm1 : split_measure N T low1 high1 step < fuel := by
      unfold split_measure at hm ⊢
      push_cast at hm
      omega
    have hk : T - step ≤ fuel := by
      unfold split_measure at hm1
      nlinarith
    simp only [split_loop, hp]
    rcases split_advance_ord al offsets T N hset hcnt low1 cells1 fuel high1 step hinv1 with
      ⟨he, hpost⟩ | ⟨high2, step2, he, hinv2, hlt2, hm2⟩ | ⟨_, hk2⟩
    · rw [he]
      exact ⟨cells1, rfl, hpost⟩
    · rw [he]
      exact ih low1 high2 step2 cells1 hinv2 hlt2 (lt_of_le_of_lt hm2 hm1)
    · omega

theorem split_reached_ord (al : sc3_allocator) (offsets : sc3_array) (T : Int)
    (type_fn : Int → Option Int) (ty : Int → Int) (N : Int) (cells0 : Int → Int)
    (hset : sc3_array_is_setup al offsets) (hcnt : offsets.ecount = T + 1)
    (hty : ∀ j, 0 ≤ j → j < N → type_fn j = some (ty j) ∧ ty j < T)
    (h0 : split_ord N T 0 N 1 cells0) (hN0 : 0 < N)
    (low high step : Int) (cells : Int → Int)
    (h : split_reached al offsets T type_fn N cells0 low high step cells) :
    split_ord N T low high step cells ∧ low < high := by
  induction h with
  | start => exact ⟨h0, hN0⟩
  | round low high step cells low1 high1 cells1 k high2 step2 _ hp ha ih =>
    obtain ⟨_, _, l1, g1, c1, hp1, hinv1, _⟩ :=
      split_probe_ord al offsets T type_fn ty N hset hcnt hty low high step cells ih.1 ih.2
    rw [hp] at hp1
    simp only [Prod.mk.injEq, true_and] at hp1
    obtain ⟨e1, e2, e3⟩ := hp1
    subst e1; subst e2; subst e3
    rcases split_advance_ord al offsets T N hset hcnt low1 cells1 k high1 step hinv1 with
      ⟨he, _⟩ | ⟨h2, s2, he, hi2, hl2, _⟩ | ⟨he, _⟩
    · rw [ha] at he; cases he
    · rw [ha] at he
      simp only [split_next.again.injEq] at he
      obtain ⟨e1, e2⟩ := he
      subst e1; subst e2
      exact ⟨hi2, hl2⟩
    · rw [ha] at he; cases he

/-- C35: for a set-up array `a` of `N` elements, `T >= 0` types with
`T + 1 <= SC3_INT_HPOW`, a `type_fn` that returns a type below `T` at every
index in `[0, N)` (sorted or not, and whatever it does at other indices), a
resizable array `offsets` of `int`-sized elements with a buffer, an allocator
that grants the reallocation and a loop bound of at least `(N + 1) * T`:
`sc3_array_split` returns without an error, so the loops end, no call of
`type_fn` is outside `[0, N)` and no index on `offsets` is above `T`;
`offsets` has `T + 1` elements, which do not decrease, with `offsets[0] = 0`
and, when `T >= 1`, `offsets[T] = N`. And when the loop is entered, at the head
of each of its rounds `1 <= step < T` and `0 <= low < high <= N`, the index
`guess` is in `[0, N)`, and the probe returns with `0 <= low <= high <= N`. -/
theorem sc3_array_split_bounds (ala alo : sc3_allocator) (a offsets : sc3_array) (T : Int)
    (type_fn : Int → Option Int) (ty : Int → Int) (cells : Int → Int) (fuel : Nat)
    (ha : sc3_array_is_setup ala a)
    (ho : sc3_array_is_resizable alo offsets) (hes : offsets.esize = sizeof_int)
    (hmem : offsets.mem ≠ 0) (hal : ∀ p s, ∃ q, alo.realloc p s = some q ∧ q ≠ 0)
    (hT0 : 0 ≤ T) (hT2 : T + 1 ≤ SC3_INT_HPOW)
    (hty : ∀ j, 0 ≤ j → j < a.ecount → type_fn j = some (ty j) ∧ ty j < T)
    (hfuel : (a.ecount + 1) * T ≤ fuel) :
    (sc3_array_split ala alo a offsets T type_fn cells fuel).1 = none ∧
    (sc3_array_split ala alo a offsets T type_fn cells fuel).2.1.ecount = T + 1 ∧
    (∀ i j, 0 ≤ i → i ≤ j → j ≤ T →
      (sc3_array_split ala alo a offsets T type_fn cells fuel).2.2 i ≤
        (sc3_array_split ala alo a offsets T type_fn cells fuel).2.2 j) ∧
    (sc3_array_split ala alo a offsets T type_fn cells fuel).2.2 0 = 0 ∧
    (1 ≤ T → (sc3_array_split ala alo a offsets T type_fn cells fuel).2.2 T = a.ecount) ∧
    (¬ (a.ecount = 0 ∨ T ≤ 1) → ∀ low high step c,
      split_reached alo (sc3_array_split ala alo a offsets T type_fn cells fuel).2.1 T type_fn
        a.ecount
        (split_store_range alo (sc3_array_split ala alo a offsets T type_fn cells fuel).2.1
          a.ecount 1 T (Function.update cells 0 0)).2 low high step c →
      1 ≤ step ∧ step < T ∧ 0 ≤ low ∧ low < high ∧ high ≤ a.ecount ∧
      0 ≤ low + Int.tdiv (high - low) 2 ∧ low + Int.tdiv (high - low) 2 < a.ecount ∧
      ∃ low1 high1 c1,
        split_probe alo (sc3_array_split ala alo a offsets T type_fn cells fuel).2.1 T type_fn
          low high step c = (none, low1, high1, c1) ∧
        0 ≤ low1 ∧ low1 ≤ high1 ∧ high1 ≤ a.ecount) := by
  obtain ⟨_, _, hN, _, _, _, _, _⟩ := (sc3_array_is_setup_iff ala a).mp ha
  have h30 : T + 1 ≤ 2 ^ 30 := by rw [← SC3_INT_HPOW_eq]; exact hT2
  have hw : int_wrap (T + 1) = T + 1 := int_wrap_of_range _ (by omega) (by omega)
  have h1 : sc3_array_get_elem_size alo offsets = (none, offsets.esize) := by
    simp only [sc3_array_get_elem_size, ho.1, not_true_eq_false, if_false]
  have hok : (sc3_array_resize alo offsets (T + 1)).1 = none :=
    sc3_array_resize_succeeds alo offsets _ ho (by omega) hT2
      (Or.inr (fun p s => by obtain ⟨q, hq, _⟩ := hal p s; rw [hq]; rfl))
  have hm : (sc3_array_resize alo offsets (T + 1)).2.mem ≠ 0 :=
    sc3_array_resize_mem alo offsets _ hok hmem (fun p s q hq => by
      obtain ⟨q2, hq2, hne⟩ := hal p s
      rw [hq2] at hq
      cases hq
      exact hne)
  have hset := sc3_array_resize_setup alo offsets _ hok hm
  have hcnt : (sc3_array_resize alo offsets (T + 1)).2.ecount = T + 1 :=
    (sc3_array_resize_ok alo offsets _ hok).2.2.2.2.2.2.2.2.2.1
  rcases hr : sc3_array_resize alo offsets (T + 1) with ⟨e, offsets1⟩
  rw [hr] at hok hset hcnt
  simp only at hok hset hcnt
  subst hok
  have h3 : sc3_array_get_elem_count ala a = (none, a.ecount) := by
    simp only [sc3_array_get_elem_count, ha, not_true_eq_false, if_false]
  have h4 := sc3_array_index_ok alo offsets1 0 0 hset (le_refl _) (by omega)
  obtain ⟨cells1, h5, hc1⟩ := split_store_range_spec alo offsets1 a.ecount 1 T
    (Function.update cells 0 0) hset (by omega) (by omega) (by omega)
  have hc0 : cells1 0 = 0 := by
    rw [hc1 0, if_neg (by omega), Function.update_same]
  have hci : ∀ i, 1 ≤ i → i ≤ T → cells1 i = a.ecount := by
    intro i hi0 hi1
    rw [hc1 i, if_pos ⟨hi0, hi1⟩]
  have hmono1 : ∀ i j, 0 ≤ i → i ≤ j → j ≤ T → cells1 i ≤ cells1 j := by
    intro i j hi0 hij hjT
    by_cases hi : i = 0
    · rw [hi, hc0]
      by_cases hj : j = 0
      · rw [hj, hc0]
      · rw [hci j (by omega) hjT]
        exact hN
    · rw [hci i (by omega) (by omega), hci j (by omega) hjT]
  by_cases hc : a.ecount = 0 ∨ T ≤ 1
  · have hres : sc3_array_split ala alo a offsets T type_fn cells fuel =
        (none, offsets1, cells1) := by
      simp only [sc3_array_split, h1, hes, hw, hr, h3, h4, h5, hc, not_true_eq_false,
        if_false, if_true]
    rw [hres]
    exact ⟨rfl, hcnt, hmono1, hc0, fun h1T => hci T h1T (le_refl _), fun hx => absurd hc hx⟩
  · have hN1 : 0 < a.ecount := by
      by_contra h
      exact hc (Or.inl (by omega))
    have hT3 : 1 < T := by
      by_contra h
      exact hc (Or.inr (by omega))
    have hinv : split_ord a.ecount T 0 a.ecount 1 cells1 := by
      refine ⟨le_refl _, hT3, le_refl _, hN, le_refl _, (hci 1 (le_refl _) (by omega)).symm,
        hc0, hci T (by omega) (le_refl _), ?_, ?_, hmono1⟩
      · intro i hi0 hi1
        have : i = 0 := by omega
        rw [this, hc0]
      · intro i hi0 hi1
        rw [hci i hi0 hi1]
        exact hN
    have hmeas : split_measure a.ecount T 0 a.ecount 1 < fuel := by
      unfold split_measure
      nlinarith
    obtain ⟨cells2, he, h20, h2T, h2m⟩ := split_loop_ord alo offsets1 T type_fn ty a.ecount
      hset hcnt hN hty fuel 0 a.ecount 1 cells1 hinv hN1 hmeas
    have hres : sc3_array_split ala alo a offsets T type_fn cells fuel =
        (none, offsets1, cells2) := by
      simp only [sc3_array_split, h1, hes, hw, hr, h3, h4, h5, hc, not_true_eq_false,
        if_false, he]
    rw [hres]
    refine ⟨rfl, hcnt, h2m, h20, fun _ => h2T, fun _ => ?_⟩
    intro low high step c hreach
    simp only [h5] at hreach
    obtain ⟨hord, hlt⟩ := split_reached_ord alo offsets1 T type_fn ty a.ecount cells1
      hset hcnt hty hinv hN1 low high step c hreach
    obtain ⟨hg0, hg1, low1, high1, c1, hp, hord1, _⟩ :=
      split_probe_ord alo offsets1 T type_fn ty a.ecount hset hcnt hty low high step c hord hlt
    exact ⟨hord.1, hord.2.1, hord.2.2.1, hlt, hord.2.2.2.2.1, hg0, hg1, low1, high1, c1, hp,
      hord1.2.2.1, hord1.2.2.2.1, hord1.2.2.2.2.1⟩

/-- Witness of C35: nine elements with the types `[2,1,0,2,1,0,2,1,0]`, which
are not sorted, and `T = 3`. -/
theorem sc3_array_split_bounds_witness :
    (sc3_array_split allocator_granting allocator_granting (int_array 0 0 9 16)
      (int_array 1 0 0 1) 3 (fun j => some ((2 + 2 * j) % 3)) (fun _ => 0) 40).1 = none ∧
    (sc3_array_split allocator_granting allocator_granting (int_array 0 0 9 16)
      (int_array 1 0 0 1) 3 (fun j => some ((2 + 2 * j) % 3)) (fun _ => 0) 40).2.2 0 = 0 ∧
    (sc3_array_split allocator_granting allocator_granting (int_array 0 0 9 16)
      (int_array 1 0 0 1) 3 (fun j => some ((2 + 2 * j) % 3)) (fun _ => 0) 40).2.2 3 = 9 :=
  match sc3_array_split_bounds allocator_granting allocator_granting (int_array 0 0 9 16)
      (int_array 1 0 0 1) 3 (fun j => some ((2 + 2 * j) % 3)) (fun j => (2 + 2 * j) % 3)
      (fun _ => 0) 40 (by decide) (by decide) (by decide) (by decide)
      (fun _ _ => ⟨8192, rfl, by decide⟩) (by decide) (by decide)
      (fun j _ _ => ⟨rfl, by show (2 + 2 * j) % 3 < 3; omega⟩) (by decide) with
  | ⟨h1, _, _, h4, h5, _⟩ => ⟨h1, h4, h5 (by decide)⟩

/-! ### `p8est_quadrant_shift_edge` -/

theorem shift_edge_switch_eq (e cid : Int) (he0 : 0 ≤ e) (he : e < 12) :
    ∃ sid, shift_edge_switch e cid =
        some (sid, shift_edge_step e 0, shift_edge_step e 1, shift_edge_step e 2) ∧
      sid % 2 = (if shift_edge_step e 0 = 0 then cid % 2 else (shift_edge_step e 0 + 1) / 2) ∧
      sid / 2 % 2 =
        (if shift_edge_step e 1 = 0 then cid / 2 % 2 else (shift_edge_step e 1 + 1) / 2) ∧
      sid / 4 % 2 =
        (if shift_edge_step e 2 = 0 then cid / 4 % 2 else (shift_edge_step e 2 + 1) / 2) := by
  interval_cases e <;>
    simp only [shift_edge_switch, shift_edge_step] <;>
    norm_num [Int.tdiv] <;>
    omega

theorem shift_edge_step_cases (e axis : Int) :
    shift_edge_step e axis = 0 ∨ shift_edge_step e axis = -1 ∨ shift_edge_step e axis = 1 := by
  unfold shift_edge_step
  split
  · exact Or.inl rfl
  · split <;> omega

theorem shift_axis_digits (s c th lo hi : Int) :
    (if s ≠ 0 then (if c ≤ 0 then lo else 0) + (if c ≥ th then hi else 0) else 0) =
      (if s ≠ 0 ∧ c ≤ 0 then 1 else 0) * lo + (if s ≠ 0 ∧ c ≥ th then 1 else 0) * hi := by
  by_cases h0 : s ≠ 0 <;> by_cases h1 : c ≤ 0 <;> by_cases h2 : c ≥ th <;> simp [h0, h1, h2]

theorem shift_edge_contact_eq (e : Int) (he0 : 0 ≤ e) (he : e < 12) :
    shift_edge_contact e =
      (if shift_edge_step e 0 = -1 then 1 else 0) * 1 +
        (if shift_edge_step e 0 = 1 then 1 else 0) * 2 +
      ((if shift_edge_step e 1 = -1 then 1 else 0) * 4 +
        (if shift_edge_step e 1 = 1 then 1 else 0) * 8) +
      ((if shift_edge_step e 2 = -1 then 1 else 0) * 16 +
        (if shift_edge_step e 2 = 1 then 1 else 0) * 32) := by
  interval_cases e <;> decide

theorem shift_edge_break_iff (e : Int) (he0 : 0 ≤ e) (he : e < 12) (r : p4est_quadrant)
    (th : Int) :
    shift_edge_outface r (shift_edge_step e 0) (shift_edge_step e 1) (shift_edge_step e 2) th =
        shift_edge_contact e ↔
      shift_axis_ok (shift_edge_step e 0) r.x th ∧ shift_axis_ok (shift_edge_step e 1) r.y th ∧
        shift_axis_ok (shift_edge_step e 2) r.z th := by
  rw [shift_edge_contact_eq e he0 he]
  unfold shift_edge_outface shift_axis_ok
  rw [shift_axis_digits, shift_axis_digits, shift_axis_digits]
  have hs0 := shift_edge_step_cases e 0
  have hs1 := shift_edge_step_cases e 1
  have hs2 := shift_edge_step_cases e 2
  generalize shift_edge_step e 0 = s0 at *
  generalize shift_edge_step e 1 = s1 at *
  generalize shift_edge_step e 2 = s2 at *
  have key : ∀ (p0 p1 p2 p3 p4 p5 w0 w1 w2 w3 w4 w5 : Prop)
      [Decidable p0] [Decidable p1] [Decidable p2] [Decidable p3] [Decidable p4] [Decidable p5]
      [Decidable w0] [Decidable w1] [Decidable w2] [Decidable w3] [Decidable w4] [Decidable w5],
      ((if p0 then (1 : Int) else 0) * 1 + (if p1 then 1 else 0) * 2 +
        ((if p2 then 1 else 0) * 4 + (if p3 then 1 else 0) * 8) +
        ((if p4 then 1 else 0) * 16 + (if p5 then 1 else 0) * 32) =
       (if w0 then (1 : Int) else 0) * 1 + (if w1 then 1 else 0) * 2 +
        ((if w2 then 1 else 0) * 4 + (if w3 then 1 else 0) * 8) +
        ((if w4 then 1 else 0) * 16 + (if w5 then 1 else 0) * 32)) ↔
      ((p0 ↔ w0) ∧ (p1 ↔ w1)) ∧ ((p2 ↔ w2) ∧ (p3 ↔ w3)) ∧ ((p4 ↔ w4) ∧ (p5 ↔ w5)) := by
    intro p0 p1 p2 p3 p4 p5 w0 w1 w2 w3 w4 w5 _ _ _ _ _ _ _ _ _ _ _ _
    have e1 : ∀ (p : Prop) [Decidable p], 0 ≤ (if p then (1 : Int) else 0) ∧
        (if p then (1 : Int) else 0) ≤ 1 := fun p _ => by by_cases h : p <;> simp [h]
    have e2 : ∀ (p w : Prop) [Decidable p] [Decidable w],
        ((if p then (1 : Int) else 0) = (if w then (1 : Int) else 0)) ↔ (p ↔ w) :=
      fun p w _ _ => by by_cases h : p <;> by_cases h2 : w <;> simp [h, h2]
    rw [← e2 p0 w0, ← e2 p1 w1, ← e2 p2 w2, ← e2 p3 w3, ← e2 p4 w4, ← e2 p5 w5]
    have a0 := e1 p0; have a1 := e1 p1; have a2 := e1 p2
    have a3 := e1 p3; have a4 := e1 p4; have a5 := e1 p5
    have b0 := e1 w0; have b1 := e1 w1; have b2 := e1 w2
    have b3 := e1 w3; have b4 := e1 w4; have b5 := e1 w5
    generalize (if p0 then (1 : Int) else 0) = x0 at *
    generalize (if p1 then (1 : Int) else 0) = x1 at *
    generalize (if p2 then (1 : Int) else 0) = x2 at *
    generalize (if p3 then (1 : Int) else 0) = x3 at *
    generalize (if p4 then (1 : Int) else 0) = x4 at *
    generalize (if p5 then (1 : Int) else 0) = x5 at *
    generalize (if w0 then (1 : Int) else 0) = y0 at *
    generalize (if w1 then (1 : Int) else 0) = y1 at *
    generalize (if w2 then (1 : Int) else 0) = y2 at *
    generalize (if w3 then (1 : Int) else 0) = y3 at *
    generalize (if w4 then (1 : Int) else 0) = y4 at *
    generalize (if w5 then (1 : Int) else 0) = y5 at *
    omega
  rw [key]
  have ax : ∀ s c : Int, (s = 0 ∨ s = -1 ∨ s = 1) →
      ((((s ≠ 0 ∧ c ≤ 0) ↔ s = -1) ∧ ((s ≠ 0 ∧ c ≥ th) ↔ s = 1)) ↔
        (s = 0 ∨ s = -1 ∧ c ≤ 0 ∧ ¬ c ≥ th ∨ s = 1 ∧ ¬ c ≤ 0 ∧ c ≥ th)) := by
    intro s c hs
    rcases hs with h | h | h <;> subst h <;> simp
  rw [ax s0 r.x hs0, ax s1 r.y hs1, ax s2 r.z hs2]

theorem shift_axis_sibling_eq (s k : Int) (n : Nat) :
    shift_axis_sibling s (k * 2 ^ (P4EST_MAXLEVEL - n)) n =
      (k - k % 2 + (if s = 0 then k % 2 else (s + 1) / 2)) * 2 ^ (P4EST_MAXLEVEL - n) := by
  have hQ : (2 : Int) ^ (P4EST_MAXLEVEL - n) ≠ 0 := by positivity
  unfold shift_axis_sibling
  rw [Int.mul_ediv_cancel k hQ]
  ring

theorem shift_axis_parent (s c : Int) (n : Nat) (hn : n + 1 ≤ P4EST_MAXLEVEL)
    (hs : s = 0 ∨ s = -1 ∨ s = 1) (hinv : shift_axis_inv s c (n + 1)) :
    shift_axis_inv s
      (c - c / 2 ^ (P4EST_MAXLEVEL - (n + 1)) % 2 * 2 ^ (P4EST_MAXLEVEL - (n + 1)) +
        s * 2 ^ (P4EST_MAXLEVEL - n)) n := by
  obtain ⟨k, hc, hk0, hk1, h0, hm, hp⟩ := hinv
  have hQ : (2 : Int) ^ (P4EST_MAXLEVEL - (n + 1)) ≠ 0 := by positivity
  have h2 : (2 : Int) ^ (P4EST_MAXLEVEL - n) = 2 * 2 ^ (P4EST_MAXLEVEL - (n + 1)) := by
    rw [show P4EST_MAXLEVEL - n = (P4EST_MAXLEVEL - (n + 1)) + 1 by omega, pow_succ]
    ring
  have hM : (2 : Int) ^ (n + 1) = 2 * 2 ^ n := by rw [pow_succ]; ring
  have hdm := Int.emod_add_ediv k 2
  refine ⟨k / 2 + s, ?_, ?_, ?_, ?_, ?_, ?_⟩
  · rw [hc, Int.mul_ediv_cancel k hQ, h2]
    linear_combination (-(2 : Int) ^ (P4EST_MAXLEVEL - (n + 1))) * hdm
  · omega
  · rw [hM] at hk1
    omega
  · intro hs0
    have := h0 hs0
    rw [hM] at this
    omega
  · intro hs1
    have := hm hs1
    rw [hM] at this
    omega
  · intro hs1
    have := hp hs1
    omega

theorem shift_axis_break_one (s c : Int) (hs : s = 0 ∨ s = -1 ∨ s = 1)
    (hinv : shift_axis_inv s c 1) :
    shift_axis_ok s (shift_axis_sibling s c 1) (2 ^ (P4EST_MAXLEVEL - 1)) := by
  obtain ⟨k, hc, hk0, hk1, h0, hm, hp⟩ := hinv
  have hQ : (0 : Int) < 2 ^ (P4EST_MAXLEVEL - 1) := by positivity
  rw [hc, shift_axis_sibling_eq]
  unfold shift_axis_ok
  rcases hs with h | h | h
  · exact Or.inl h
  · right; left
    have hk := hm h
    subst h
    have hle : k - k % 2 + (if (-1 : Int) = 0 then k % 2 else (-1 + 1) / 2) ≤ 0 := by
      norm_num at hk ⊢
      omega
    have := mul_nonpos_of_nonpos_of_nonneg hle (le_of_lt hQ)
    exact ⟨rfl, this, by omega⟩
  · right; right
    have hk := hp h
    subst h
    have hge : 1 ≤ k - k % 2 + (if (1 : Int) = 0 then k % 2 else (1 + 1) / 2) := by
      norm_num
      omega
    have := mul_le_mul_of_nonneg_right hge (le_of_lt hQ)
    rw [one_mul] at this
    exact ⟨rfl, by omega, this⟩

theorem shift_axis_end_of_ok (s c th : Int) (n : Nat) (hn : n ≤ P4EST_MAXLEVEL)
    (hs : s = 0 ∨ s = -1 ∨ s = 1) (hinv : shift_axis_inv s c n)
    (hth : th = (2 ^ n - 1) * 2 ^ (P4EST_MAXLEVEL - n))
    (hok : shift_axis_ok s (shift_axis_sibling s c n) th) :
    shift_axis_end s (shift_edge_clamp s (shift_axis_sibling s c n) th) th n := by
  obtain ⟨k, hc, hk0, hk1, h0, hm, hp⟩ := hinv
  have hQ : (0 : Int) < 2 ^ (P4EST_MAXLEVEL - n) := by positivity
  have hM : (1 : Int) ≤ 2 ^ n := one_le_pow₀ (by norm_num)
  have hroot : P4EST_ROOT_LEN = 2 ^ n * 2 ^ (P4EST_MAXLEVEL - n) := by
    unfold P4EST_ROOT_LEN
    rw [← pow_add]
    congr 1
    omega
  have hth0 : 0 ≤ th := by
    rw [hth]
    exact mul_nonneg (by omega) (le_of_lt hQ)
  have hthm : th % 2 ^ (P4EST_MAXLEVEL - n) = 0 := by
    rw [hth]
    exact Int.mul_emod_left _ _
  have hthr : th < P4EST_ROOT_LEN := by
    rw [hth, hroot]
    nlinarith
  rw [hc, shift_axis_sibling_eq] at hok ⊢
  unfold shift_edge_clamp shift_axis_end
  rcases hs with h | h | h
  · have hk := h0 h
    subst h
    simp only [ne_eq, not_true_eq_false, if_false, if_true]
    have e1 : k - k % 2 + k % 2 = k := by ring
    rw [e1]
    refine ⟨Int.mul_emod_left _ _, mul_nonneg hk.1 (le_of_lt hQ), ?_,
      fun hx => absurd hx (by norm_num), fun hx => absurd hx (by norm_num)⟩
    rw [hth]
    exact mul_le_mul_of_nonneg_right (by omega) (le_of_lt hQ)
  · subst h
    rcases hok with hx | ⟨_, hle, _⟩ | ⟨hx, _⟩
    · exact absurd hx (by norm_num)
    · have hne : (-1 : Int) ≠ 0 := by norm_num
      rw [if_pos hne]
      generalize (k - k % 2 + (if (-1 : Int) = 0 then k % 2 else (-1 + 1) / 2)) *
        2 ^ (P4EST_MAXLEVEL - n) = rc at hle ⊢
      have hc1 : (if rc < 0 then 0 else rc) = 0 := by
        split
        · rfl
        · omega
      rw [hc1, if_neg (by omega)]
      exact ⟨rfl, le_refl _, hth0, fun _ => rfl, fun hx => absurd hx (by norm_num)⟩
    · exact absurd hx (by norm_num)
  · subst h
    rcases hok with hx | ⟨hx, _⟩ | ⟨_, hpos, hge⟩
    · exact absurd hx (by norm_num)
    · exact absurd hx (by norm_num)
    · have hne : (1 : Int) ≠ 0 := by norm_num
      rw [if_pos hne]
      have hmul : ∃ m : Int, (k - k % 2 + (if (1 : Int) = 0 then k % 2 else (1 + 1) / 2)) *
          2 ^ (P4EST_MAXLEVEL - n) = m * 2 ^ (P4EST_MAXLEVEL - n) := ⟨_, rfl⟩
      obtain ⟨m, hm2⟩ := hmul
      rw [hm2] at hpos hge ⊢
      have hc1 : (if m * 2 ^ (P4EST_MAXLEVEL - n) < 0 then 0
          else m * 2 ^ (P4EST_MAXLEVEL - n)) = m * 2 ^ (P4EST_MAXLEVEL - n) := by
        rw [if_neg (by omega)]
      rw [hc1]
      by_cases hr : m * 2 ^ (P4EST_MAXLEVEL - n) ≥ P4EST_ROOT_LEN
      · rw [if_pos hr]
        exact ⟨hthm, hth0, le_refl _, fun hx => absurd hx (by norm_num), fun _ => rfl⟩
      · rw [if_neg hr]
        have h1 : 2 ^ n - 1 ≤ m := by
          rw [hth] at hge
          exact le_of_mul_le_mul_right hge hQ
        have h2 : m < 2 ^ n := by
          rw [hroot] at hr
          push_neg at hr
          exact lt_of_mul_lt_mul_right hr (le_of_lt hQ)
        have h3 : m = 2 ^ n - 1 := by omega
        rw [h3, ← hth]
        exact ⟨hthm, hth0, le_refl _, fun hx => absurd hx (by norm_num), fun _ => rfl⟩

theorem P4EST_QUADRANT_LEN_nat (n : Nat) :
    P4EST_QUADRANT_LEN (n : Int) = 2 ^ (P4EST_MAXLEVEL - n) := by
  unfold P4EST_QUADRANT_LEN
  rw [Int.toNat_natCast]

theorem P4EST_QUADRANT_LEN_pred (n : Nat) :
    P4EST_QUADRANT_LEN ((n : Int) - 1) = 2 ^ (P4EST_MAXLEVEL - (n - 1)) := by
  unfold P4EST_QUADRANT_LEN
  congr 2
  omega

theorem P4EST_LAST_OFFSET_nat (n : Nat) (hn : n ≤ P4EST_MAXLEVEL) :
    P4EST_LAST_OFFSET (n : Int) = (2 ^ n - 1) * 2 ^ (P4EST_MAXLEVEL - n) := by
  unfold P4EST_LAST_OFFSET
  rw [P4EST_QUADRANT_LEN_nat]
  have hroot : P4EST_ROOT_LEN = 2 ^ n * 2 ^ (P4EST_MAXLEVEL - n) := by
    unfold P4EST_ROOT_LEN
    rw [← pow_add]
    congr 1
    omega
  rw [hroot]
  ring

theorem shift_edge_loop_succ (e : Int) (he0 : 0 ≤ e) (he : e < 12) (quad : p4est_quadrant)
    (n : Nat) (hlev : quad.level = (n : Int)) (fuel : Nat) :
    shift_edge_loop e (fuel + 1) quad =
      if shift_edge_outface
          { x := shift_axis_sibling (shift_edge_step e 0) quad.x n,
            y := shift_axis_sibling (shift_edge_step e 1) quad.y n,
            z := shift_axis_sibling (shift_edge_step e 2) quad.z n, level := (n : Int) }
          (shift_edge_step e 0) (shift_edge_step e 1) (shift_edge_step e 2)
          (P4EST_LAST_OFFSET (n : Int)) = shift_edge_contact e then
        .ok ({ x := shift_axis_sibling (shift_edge_step e 0) quad.x n,
               y := shift_axis_sibling (shift_edge_step e 1) quad.y n,
               z := shift_axis_sibling (shift_edge_step e 2) quad.z n, level := (n : Int) },
          shift_edge_step e 0, shift_edge_step e 1, shift_edge_step e 2,
          P4EST_LAST_OFFSET (n : Int))
      else
        shift_edge_loop e fuel
          { x := quad.x - quad.x / 2 ^ (P4EST_MAXLEVEL - n) % 2 * 2 ^ (P4EST_MAXLEVEL - n) +
              shift_edge_step e 0 * 2 ^ (P4EST_MAXLEVEL - (n - 1)),
            y := quad.y - quad.y / 2 ^ (P4EST_MAXLEVEL - n) % 2 * 2 ^ (P4EST_MAXLEVEL - n) +
              shift_edge_step e 1 * 2 ^ (P4EST_MAXLEVEL - (n - 1)),
            z := quad.z - quad.z / 2 ^ (P4EST_MAXLEVEL - n) % 2 * 2 ^ (P4EST_MAXLEVEL - n) +
              shift_edge_step e 2 * 2 ^ (P4EST_MAXLEVEL - (n - 1)),
            level := (n : Int) - 1 } := by
  obtain ⟨sid, hsw, hb0, hb1, hb2⟩ := shift_edge_switch_eq e (p4est_quadrant_child_id quad) he0 he
  have hQ : P4EST_QUADRANT_LEN quad.level = 2 ^ (P4EST_MAXLEVEL - n) := by
    rw [hlev]; exact P4EST_QUADRANT_LEN_nat n
  have hc0 : p4est_quadrant_child_id quad % 2 = quad.x / 2 ^ (P4EST_MAXLEVEL - n) % 2 := by
    unfold p4est_quadrant_child_id
    rw [hQ]
    omega
  have hc1 : p4est_quadrant_child_id quad / 2 % 2 = quad.y / 2 ^ (P4EST_MAXLEVEL - n) % 2 := by
    unfold p4est_quadrant_child_id
    rw [hQ]
    omega
  have hc2 : p4est_quadrant_child_id quad / 4 % 2 = quad.z / 2 ^ (P4EST_MAXLEVEL - n) % 2 := by
    unfold p4est_quadrant_child_id
    rw [hQ]
    omega
  have hsib : p4est_quadrant_sibling quad sid =
      { x := shift_axis_sibling (shift_edge_step e 0) quad.x n,
        y := shift_axis_sibling (shift_edge_step e 1) quad.y n,
        z := shift_axis_sibling (shift_edge_step e 2) quad.z n, level := (n : Int) } := by
    unfold p4est_quadrant_sibling shift_axis_sibling
    rw [hQ, hb0, hb1, hb2, hc0, hc1, hc2, hlev]
  have hpar : p4est_quadrant_parent quad =
      { x := quad.x - quad.x / 2 ^ (P4EST_MAXLEVEL - n) % 2 * 2 ^ (P4EST_MAXLEVEL - n),
        y := quad.y - quad.y / 2 ^ (P4EST_MAXLEVEL - n) % 2 * 2 ^ (P4EST_MAXLEVEL - n),
        z := quad.z - quad.z / 2 ^ (P4EST_MAXLEVEL - n) % 2 * 2 ^ (P4EST_MAXLEVEL - n),
        level := (n : Int) - 1 } := by
    unfold p4est_quadrant_parent
    rw [hQ, hlev]
  simp only [shift_edge_loop, hsw, hsib, hpar, hlev, P4EST_QUADRANT_LEN_pred]

theorem shift_edge_loop_spec (e : Int) (he0 : 0 ≤ e) (he : e < 12) :
    ∀ (n : Nat) (quad : p4est_quadrant), quad.level = (n : Int) → 1 ≤ n →
      n ≤ P4EST_MAXLEVEL →
      shift_axis_inv (shift_edge_step e 0) quad.x n →
      shift_axis_inv (shift_edge_step e 1) quad.y n →
      shift_axis_inv (shift_edge_step e 2) quad.z n →
      ∃ (r : p4est_quadrant) (th : Int) (m : Nat),
        (∀ fuel, n ≤ fuel → shift_edge_loop e fuel quad =
          .ok (r, shift_edge_step e 0, shift_edge_step e 1, shift_edge_step e 2, th)) ∧
        r.level = (m : Int) ∧ 1 ≤ m ∧ m ≤ n ∧ th = P4EST_LAST_OFFSET (m : Int) ∧
        shift_axis_end (shift_edge_step e 0) (shift_edge_clamp (shift_edge_step e 0) r.x th) th m ∧
        shift_axis_end (shift_edge_step e 1) (shift_edge_clamp (shift_edge_step e 1) r.y th) th m ∧
        shift_axis_end (shift_edge_step e 2) (shift_edge_clamp (shift_edge_step e 2) r.z th) th m := by
  have hs0 := shift_edge_step_cases e 0
  have hs1 := shift_edge_step_cases e 1
  have hs2 := shift_edge_step_cases e 2
  intro n
  induction n with
  | zero =>
    intro quad _ h1
    omega
  | succ n ih =>
    intro quad hlev _ hmax hx hy hz
    have hth := P4EST_LAST_OFFSET_nat (n + 1) hmax
    by_cases hbr : shift_edge_outface
        { x := shift_axis_sibling (shift_edge_step e 0) quad.x (n + 1),
          y := shift_axis_sibling (shift_edge_step e 1) quad.y (n + 1),
          z := shift_axis_sibling (shift_edge_step e 2) quad.z (n + 1),
          level := ((n + 1 : Nat) : Int) }
        (shift_edge_step e 0) (shift_edge_step e 1) (shift_edge_step e 2)
        (P4EST_LAST_OFFSET ((n + 1 : Nat) : Int)) = shift_edge_contact e
    · obtain ⟨ox, oy, oz⟩ := (shift_edge_break_iff e he0 he _ _).1 hbr
      refine ⟨{ x := shift_axis_sibling (shift_edge_step e 0) quad.x (n + 1),
                y := shift_axis_sibling (shift_edge_step e 1) quad.y (n + 1),
                z := shift_axis_sibling (shift_edge_step e 2) quad.z (n + 1),
                level := ((n + 1 : Nat) : Int) },
        P4EST_LAST_OFFSET ((n + 1 : Nat) : Int), n + 1, ?_, rfl, by omega, le_refl _, rfl,
        ?_, ?_, ?_⟩
      · intro fuel hf
        obtain ⟨f, rfl⟩ : ∃ f, fuel = f + 1 := ⟨fuel - 1, by omega⟩
        rw [shift_edge_loop_succ e he0 he quad (n + 1) hlev f, if_pos hbr]
      · exact shift_axis_end_of_ok _ _ _ _ hmax hs0 hx hth ox
      · exact shift_axis_end_of_ok _ _ _ _ hmax hs1 hy hth oy
      · exact shift_axis_end_of_ok _ _ _ _ hmax hs2 hz hth oz
    · have hn1 : 1 ≤ n := by
        by_contra hcon
        have hn0 : n = 0 := by omega
        subst hn0
        apply hbr
        apply (shift_edge_break_iff e he0 he _ _).2
        have hth1 : P4EST_LAST_OFFSET (((0 + 1 : Nat)) : Int) = 2 ^ (P4EST_MAXLEVEL - 1) := by
          rw [hth]
          norm_num
        rw [hth1]
        exact ⟨shift_axis_break_one _ _ hs0 hx, shift_axis_break_one _ _ hs1 hy,
          shift_axis_break_one _ _ hs2 hz⟩
      obtain ⟨r, th, m, hloop, hl, hm1, hmn, hthm, ex, ey, ez⟩ := ih
        { x := quad.x - quad.x / 2 ^ (P4EST_MAXLEVEL - (n + 1)) % 2 *
              2 ^ (P4EST_MAXLEVEL - (n + 1)) +
            shift_edge_step e 0 * 2 ^ (P4EST_MAXLEVEL - n),
          y := quad.y - quad.y / 2 ^ (P4EST_MAXLEVEL - (n + 1)) % 2 *
              2 ^ (P4EST_MAXLEVEL - (n + 1)) +
            shift_edge_step e 1 * 2 ^ (P4EST_MAXLEVEL - n),
          z := quad.z - quad.z / 2 ^ (P4EST_MAXLEVEL - (n + 1)) % 2 *
              2 ^ (P4EST_MAXLEVEL - (n + 1)) +
            shift_edge_step e 2 * 2 ^ (P4EST_MAXLEVEL - n),
          level := (n : Int) } rfl hn1 (by omega)
        (shift_axis_parent _ _ n hmax hs0 hx) (shift_axis_parent _ _ n hmax hs1 hy)
        (shift_axis_parent _ _ n hmax hs2 hz)
      refine ⟨r, th, m, ?_, hl, hm1, by omega, hthm, ex, ey, ez⟩
      intro fuel hf
      obtain ⟨f, rfl⟩ : ∃ f, fuel = f + 1 := ⟨fuel - 1, by omega⟩
      rw [shift_edge_loop_succ e he0 he quad (n + 1) hlev f, if_neg hbr]
      have hcast : (((n + 1 : Nat) : Int) - 1) = (n : Int) := by push_cast; ring
      have hsub : n + 1 - 1 = n := by omega
      rw [hcast, hsub]
      exact hloop f (by omega)

theorem shift_axis_of_valid (c : Int) (n : Nat) (hn : n ≤ P4EST_MAXLEVEL) (h0 : 0 ≤ c)
    (h1 : c ≤ P4EST_LAST_OFFSET (n : Int)) (hal : c % P4EST_QUADRANT_LEN (n : Int) = 0) :
    ∃ k : Int, c = k * 2 ^ (P4EST_MAXLEVEL - n) ∧ 0 ≤ k ∧ k ≤ 2 ^ n - 1 := by
  have hQ : (0 : Int) < 2 ^ (P4EST_MAXLEVEL - n) := by positivity
  rw [P4EST_QUADRANT_LEN_nat] at hal
  rw [P4EST_LAST_OFFSET_nat n hn] at h1
  obtain ⟨k, hk⟩ := Int.dvd_of_emod_eq_zero hal
  refine ⟨k, by rw [hk]; ring, ?_, ?_⟩
  · by_contra hneg
    push_neg at hneg
    have := mul_neg_of_pos_of_neg hQ hneg
    omega
  · rw [hk, mul_comm] at h1
    exact le_of_mul_le_mul_right h1 hQ

theorem shift_axis_inv_of_valid (s c : Int) (n : Nat) (hn : n ≤ P4EST_MAXLEVEL) (h0 : 0 ≤ c)
    (h1 : c ≤ P4EST_LAST_OFFSET (n : Int)) (hal : c % P4EST_QUADRANT_LEN (n : Int) = 0) :
    shift_axis_inv s c n := by
  obtain ⟨k, hk, hk0, hk1⟩ := shift_axis_of_valid c n hn h0 h1 hal
  exact ⟨k, hk, by omega, by omega, fun _ => ⟨hk0, by omega⟩, fun _ => by omega, fun _ => hk0⟩

theorem shift_axis_touch (s c : Int) (n : Nat) (hn1 : 1 ≤ n) (hn : n ≤ P4EST_MAXLEVEL)
    (hs : s = 0 ∨ s = -1 ∨ s = 1) (h0 : 0 ≤ c)
    (h1 : c ≤ P4EST_LAST_OFFSET (n : Int)) (hal : c % P4EST_QUADRANT_LEN (n : Int) = 0)
    (hlo : s = -1 → c = 0) (hup : s = 1 → c = P4EST_LAST_OFFSET (n : Int)) :
    shift_axis_sibling s c n = c ∧ shift_axis_ok s c (P4EST_LAST_OFFSET (n : Int)) ∧
    shift_edge_clamp s c (P4EST_LAST_OFFSET (n : Int)) = c := by
  obtain ⟨k, hk, hk0, hk1⟩ := shift_axis_of_valid c n hn h0 h1 hal
  have hQ : (0 : Int) < 2 ^ (P4EST_MAXLEVEL - n) := by positivity
  have hth := P4EST_LAST_OFFSET_nat n hn
  have hM : (2 : Int) ^ n = 2 * 2 ^ (n - 1) := by
    rw [show n = (n - 1) + 1 by omega, pow_succ]
    simp
    ring
  have hM1 : (1 : Int) ≤ 2 ^ (n - 1) := one_le_pow₀ (by norm_num)
  have hthpos : 0 < P4EST_LAST_OFFSET (n : Int) := by
    rw [hth]
    exact mul_pos (by omega) hQ
  have hthr : P4EST_LAST_OFFSET (n : Int) < P4EST_ROOT_LEN := by
    unfold P4EST_LAST_OFFSET
    have := P4EST_QUADRANT_LEN_pos (n : Int)
    omega
  unfold shift_axis_ok shift_edge_clamp
  rcases hs with h | h | h
  · subst h
    refine ⟨?_, Or.inl rfl, by simp⟩
    rw [hk, shift_axis_sibling_eq]
    simp
  · have hc := hlo h
    subst h
    have hk00 : k = 0 := by
      rw [hc] at hk
      rcases mul_eq_zero.1 hk.symm with h | h
      · exact h
      · omega
    refine ⟨?_, Or.inr (Or.inl ⟨rfl, by omega, by omega⟩), ?_⟩
    · rw [hk, shift_axis_sibling_eq, hk00]
      norm_num
    · rw [hc]
      have hr : ¬ (0 : Int) ≥ P4EST_ROOT_LEN := by omega
      simp [hr]
  · have hc := hup h
    subst h
    have hkk : k = 2 ^ n - 1 := by
      rw [hc, hth] at hk
      exact (mul_right_cancel₀ (ne_of_gt hQ) hk).symm
    refine ⟨?_, Or.inr (Or.inr ⟨rfl, by omega, by omega⟩), ?_⟩
    · rw [hk, shift_axis_sibling_eq]
      congr 1
      have hmod : k % 2 = 1 := by omega
      rw [hmod]
      norm_num
    · have hr : ¬ c ≥ P4EST_ROOT_LEN := by omega
      have hn0 : ¬ c < 0 := by omega
      simp [hr, hn0]

theorem shift_edge_touches (e : Int) (he0 : 0 ≤ e) (he : e < 12) (r : p4est_quadrant)
    (lo up : Int) :
    (p4est_quadrant_coord r (if e / 4 = 0 then 1 else 0) = (if e % 2 = 1 then up else lo) ∧
      p4est_quadrant_coord r (if e / 4 = 2 then 1 else 2) =
        (if e / 2 % 2 = 1 then up else lo)) ↔
    ((shift_edge_step e 0 = -1 → r.x = lo) ∧ (shift_edge_step e 0 = 1 → r.x = up)) ∧
    ((shift_edge_step e 1 = -1 → r.y = lo) ∧ (shift_edge_step e 1 = 1 → r.y = up)) ∧
    ((shift_edge_step e 2 = -1 → r.z = lo) ∧ (shift_edge_step e 2 = 1 → r.z = up)) := by
  interval_cases e <;> norm_num [shift_edge_step, p4est_quadrant_coord, Int.tdiv]

/-- C36: for every valid octant `q` with `1 <= level` (and so
`level <= QMAXLEVEL`), every edge `e` in `[0, 12)` and every loop bound of at
least `q.level`, with `child_id`, `sibling` and `parent` as the bit operations
of the spec: `p8est_quadrant_shift_edge` returns, with the same result for the
bound `q.level` itself, so its loop is left after at most `q.level` rounds; the
result `r` is a valid octant with `1 <= r.level <= q.level`;
`p8est_quadrant_touches_edge (r, e, 1)` returns true and the assertions in it
hold; and if `p8est_quadrant_touches_edge (q, e, 1)` returns true then
`r = q`. -/
theorem p8est_quadrant_shift_edge_correct (q : p4est_quadrant) (e : Int) (fuel : Nat)
    (hv : p4est_quadrant_is_valid q) (hl : 1 ≤ q.level) (he0 : 0 ≤ e) (he : e < 12)
    (hfuel : q.level.toNat ≤ fuel) :
    ∃ r, p8est_quadrant_shift_edge q e fuel = .ok r ∧
      p8est_quadrant_shift_edge q e q.level.toNat = .ok r ∧
      p4est_quadrant_is_valid r ∧ 1 ≤ r.level ∧ r.level ≤ q.level ∧
      p8est_quadrant_touches_edge r e 1 ∧ p8est_quadrant_touches_edge_asserts r e 1 ∧
      (p8est_quadrant_touches_edge q e 1 → r = q) := by
  obtain ⟨n, hn⟩ : ∃ n : Nat, q.level = (n : Int) :=
    ⟨q.level.toNat, (Int.toNat_of_nonneg (by omega)).symm⟩
  obtain ⟨⟨_, hl18⟩, ⟨hx0, hx1⟩, ⟨hy0, hy1⟩, ⟨hz0, hz1⟩, ax, ay, az⟩ := hv
  rw [hn] at hl hl18 hx1 hy1 hz1 ax ay az hfuel ⊢
  rw [Int.toNat_natCast] at hfuel ⊢
  have hq18 : (P4EST_QMAXLEVEL : Int) = 18 := by decide
  have hm19 : P4EST_MAXLEVEL = 19 := rfl
  have hn1 : 1 ≤ n := by omega
  have hn18 : n ≤ 18 := by omega
  have hnm : n ≤ P4EST_MAXLEVEL := by omega
  have hs0 := shift_edge_step_cases e 0
  have hs1 := shift_edge_step_cases e 1
  have hs2 := shift_edge_step_cases e 2
  obtain ⟨r0, th, m, hloop, hrl, hm1, hmn, hth, ex, ey, ez⟩ :=
    shift_edge_loop_spec e he0 he n q hn hn1 hnm
      (shift_axis_inv_of_valid _ _ n hnm hx0 hx1 ax)
      (shift_axis_inv_of_valid _ _ n hnm hy0 hy1 ay)
      (shift_axis_inv_of_valid _ _ n hnm hz0 hz1 az)
  have hres : ∀ f, n ≤ f → p8est_quadrant_shift_edge q e f =
      .ok { x := shift_edge_clamp (shift_edge_step e 0) r0.x th,
            y := shift_edge_clamp (shift_edge_step e 1) r0.y th,
            z := shift_edge_clamp (shift_edge_step e 2) r0.z th, level := r0.level } := by
    intro f hf
    unfold p8est_quadrant_shift_edge
    rw [hloop f hf]
  obtain ⟨rr, hrx, hry, hrz, hrlev, hrun⟩ : ∃ rr : p4est_quadrant,
      rr.x = shift_edge_clamp (shift_edge_step e 0) r0.x th ∧
      rr.y = shift_edge_clamp (shift_edge_step e 1) r0.y th ∧
      rr.z = shift_edge_clamp (shift_edge_step e 2) r0.z th ∧ rr.level = (m : Int) ∧
      ∀ f, n ≤ f → p8est_quadrant_shift_edge q e f = .ok rr :=
    ⟨{ x := shift_edge_clamp (shift_edge_step e 0) r0.x th,
       y := shift_edge_clamp (shift_edge_step e 1) r0.y th,
       z := shift_edge_clamp (shift_edge_step e 2) r0.z th, level := r0.level },
      rfl, rfl, rfl, hrl, hres⟩
  rw [← hrx] at ex
  rw [← hry] at ey
  rw [← hrz] at ez
  have hQm : P4EST_QUADRANT_LEN (m : Int) = 2 ^ (P4EST_MAXLEVEL - m) := P4EST_QUADRANT_LEN_nat m
  have hvalid : p4est_quadrant_is_valid rr := by
    obtain ⟨x1, x2, x3, _⟩ := ex
    obtain ⟨y1, y2, y3, _⟩ := ey
    obtain ⟨z1, z2, z3, _⟩ := ez
    unfold p4est_quadrant_is_valid
    rw [hrlev, hQm, ← hth]
    exact ⟨⟨by omega, by omega⟩, ⟨x2, x3⟩, ⟨y2, y3⟩, ⟨z2, z3⟩, x1, y1, z1⟩
  have hlev : rr.level ≠ (P4EST_MAXLEVEL : Int) := by rw [hrlev, hm19]; omega
  have hcn : c_not 1 = 0 := by decide
  have hnn : ¬ c_not 1 ≠ 0 := by rw [hcn]; simp
  have hlow : ∀ r : p4est_quadrant, r.level ≠ (P4EST_MAXLEVEL : Int) →
      touches_edge_lower r 1 = 0 := by
    intro r hr
    unfold touches_edge_lower
    rw [if_neg hr, if_neg hnn]
  have hupp : ∀ r : p4est_quadrant, r.level ≠ (P4EST_MAXLEVEL : Int) →
      touches_edge_upper r 1 = P4EST_LAST_OFFSET r.level := by
    intro r hr
    unfold touches_edge_upper
    rw [if_neg hr, if_neg hnn]
  refine ⟨rr, hrun fuel hfuel, hrun n (le_refl _), hvalid, by rw [hrlev]; omega,
    by rw [hrlev]; omega, ?_, ?_, ?_⟩
  · rw [p8est_quadrant_touches_edge_iff _ e 1 he0 he, hlow _ hlev, hupp _ hlev,
      shift_edge_touches e he0 he, hrlev, ← hth]
    exact ⟨⟨ex.2.2.2.1, ex.2.2.2.2⟩, ⟨ey.2.2.2.1, ey.2.2.2.2⟩, ⟨ez.2.2.2.1, ez.2.2.2.2⟩⟩
  · have hc0 : c_bool (rr.level = (P4EST_MAXLEVEL : Int) ∧ c_not 1 ≠ 0) = 0 :=
      (c_bool_eq_zero _).2 (fun h => hlev h.1)
    have hv2 := hvalid
    obtain ⟨_, ⟨vx0, vx1⟩, ⟨vy0, vy1⟩, ⟨vz0, vz1⟩, _⟩ := hv2
    have hlt : P4EST_LAST_OFFSET rr.level < P4EST_ROOT_LEN := by
      unfold P4EST_LAST_OFFSET
      have := P4EST_QUADRANT_LEN_pos rr.level
      omega
    unfold p8est_quadrant_touches_edge_asserts
    rw [if_neg hlev, if_neg hnn, hc0]
    exact ⟨⟨he0, he⟩, hvalid, Or.inr ⟨vx0, by omega⟩, Or.inr ⟨vy0, by omega⟩,
      Or.inr ⟨vz0, by omega⟩⟩
  · intro htq
    have hql : q.level ≠ (P4EST_MAXLEVEL : Int) := by rw [hn, hm19]; omega
    rw [p8est_quadrant_touches_edge_iff _ e 1 he0 he, hlow _ hql, hupp _ hql,
      shift_edge_touches e he0 he, hn] at htq
    obtain ⟨⟨tx0, tx1⟩, ⟨ty0, ty1⟩, ⟨tz0, tz1⟩⟩ := htq
    obtain ⟨sx, okx, cx⟩ := shift_axis_touch _ q.x n hn1 hnm hs0 hx0 hx1 ax tx0 tx1
    obtain ⟨sy, oky, cy⟩ := shift_axis_touch _ q.y n hn1 hnm hs1 hy0 hy1 ay ty0 ty1
    obtain ⟨sz, okz, cz⟩ := shift_axis_touch _ q.z n hn1 hnm hs2 hz0 hz1 az tz0 tz1
    obtain ⟨f, hf⟩ : ∃ f, n = f + 1 := ⟨n - 1, by omega⟩
    have hstep := shift_edge_loop_succ e he0 he q n hn f
    rw [sx, sy, sz] at hstep
    rw [if_pos ((shift_edge_break_iff e he0 he
      { x := q.x, y := q.y, z := q.z, level := (n : Int) } _).2 ⟨okx, oky, okz⟩)] at hstep
    have h2 := hloop n (le_refl _)
    rw [hf] at h2
    rw [h2] at hstep
    simp only [Except.ok.injEq, Prod.mk.injEq, true_and] at hstep
    obtain ⟨e1, e2⟩ := hstep
    have hmeq : (m : Int) = (n : Int) := by rw [← hrl, e1]
    rw [e1, e2] at hrx hry hrz
    simp only at hrx hry hrz
    rw [cx] at hrx
    rw [cy] at hry
    rw [cz] at hrz
    cases q
    cases rr
    simp only at hn hrx hry hrz hrlev
    rw [hrx, hry, hrz, hrlev, hn, hmeq]

/-- Witness of C36: the octant of level 3 at `(0, 0, 3 * QLEN(3))` and the
edge 0: the loop is left in its second round, and the result is the octant of
level 2 at the origin. -/
theorem p8est_quadrant_shift_edge_correct_witness :
    p4est_quadrant_is_valid { x := 0, y := 0, z := 196608, level := 3 } ∧
    p8est_quadrant_shift_edge { x := 0, y := 0, z := 196608, level := 3 } 0 3 =
      .ok { x := 0, y := 0, z := 0, level := 2 } ∧
    ∃ r, p8est_quadrant_shift_edge { x := 0, y := 0, z := 196608, level := 3 } 0 3 = .ok r ∧
      p8est_quadrant_shift_edge { x := 0, y := 0, z := 196608, level := 3 } 0
        (3 : Int).toNat = .ok r ∧
      p4est_quadrant_is_valid r ∧ 1 ≤ r.level ∧ r.level ≤ 3 ∧
      p8est_quadrant_touches_edge r 0 1 ∧ p8est_quadrant_touches_edge_asserts r 0 1 ∧
      (p8est_quadrant_touches_edge { x := 0, y := 0, z := 196608, level := 3 } 0 1 →
        r = { x := 0, y := 0, z := 196608, level := 3 }) :=
  ⟨by decide, by rfl,
   p8est_quadrant_shift_edge_correct { x := 0, y := 0, z := 196608, level := 3 } 0 3
     (by decide) (by decide) (by decide) (by decide) (by decide)⟩
